import Mathlib

/-!
# yajson: a shallow embedding of `yajson.h`

The C++ header `src/yajson/yajson.h` is embedded function by function.

* `std::string` is a list of bytes (`List Byte`), `text[i]` is `charAt text i`
  (the terminating `'\0'` is what `operator[]` returns at `i = size()`).
* `std::vector<Value>` is `List Value`; `std::map<std::string, Value>` is the
  list of its members in iteration order, that is ascending by key.
* a C++ exception is the `Except.error` branch of the result, tagged with the
  exception class that is thrown.
* member functions that mutate their receiver return the new receiver.
* loops are recursions over an explicit bound that is never smaller than the
  number of iterations the loop can take.
* a `size_t` index is a natural number and memory is not bounded; a container has
  fewer than `2^31` elements, the range in which `static_cast<int>` of an index
  below its size and the `int` that `count()` returns are exact.
* the `int` product `indent * indentLevel` of the formatter is taken in the integers,
  which is the C++ product while it stays below `2^31`; from there on the C++ product
  overflows. The theorems in which the depth varies carry that bound. Started at depth 0
  the product passes `2^31` only below a container whose line prefix has `2^31` or
  more spaces.
* a call whose behaviour is undefined in C++ (`std::vector::erase` on a reversed range)
  has no result to embed; the theorems on `erase` keep to ranges with `start <= end`.
-/

namespace Yajson

/-! ## Bytes, strings and exceptions -/

/-- One `char` of a `std::string`, as the unsigned value of its byte. -/
abbrev Byte := Fin 256

/-- A `std::string`. -/
abbrev Str := List Byte

/-- The exception classes the header throws or lets escape. -/
inductive Err where
  | invalid_argument
  | domain_error
  | out_of_range
  | length_error
  | fuel
deriving DecidableEq, Repr

/-- Value of `text[i]` for `i <= text.size()`: the byte at `i`, or `'\0'` at the end. -/
def charAt (text : Str) (i : Nat) : Byte := text.getD i 0

/-- Value of `text.substr(pos, n)` for `pos <= text.size()`. -/
def substr (text : Str) (pos n : Nat) : Str := (text.drop pos).take n

/-- Order of `std::string::operator<`: lexicographic on the unsigned bytes, a proper
prefix before the longer string. -/
def strLess : Str → Str → Bool
  | [], [] => false
  | [], _ :: _ => true
  | _ :: _, [] => false
  | a :: as, b :: bs =>
    if a.val < b.val then true
    else if b.val < a.val then false
    else strLess as bs

/-! ## Doubles -/

/-- An IEEE 754 binary64 value by its three fields: sign bit, biased exponent and
fraction. -/
structure Double where
  sign : Bool
  expo : Fin 2048
  frac : Fin 4503599627370496
deriving DecidableEq, Repr

/-- Not-a-number: all exponent bits set, fraction not zero. -/
def Double.isNaN (d : Double) : Bool := d.expo.val = 2047 && d.frac.val ≠ 0

/-- Infinity: all exponent bits set, fraction zero. -/
def Double.isInf (d : Double) : Bool := d.expo.val = 2047 && d.frac.val = 0

/-- Magnitude of a finite double counted in units of `2^-1074`, the spacing of the
subnormal numbers: every finite double is a whole number of them. -/
def Double.units (d : Double) : Nat :=
  if d.expo.val = 0 then d.frac.val
  else (4503599627370496 + d.frac.val) * 2 ^ (d.expo.val - 1)

/-- Signed infinity. -/
def Double.infinity (neg : Bool) : Double := ⟨neg, 2047, 0⟩

/-- The quiet NaN an invalid operation returns. -/
def Double.nan : Double := ⟨false, 2047, 2251799813685248⟩

/-- Loop of `log2Floor`. -/
def log2Loop : Nat → Nat → Nat
  | 0, _ => 0
  | fuel + 1, n => if n < 2 then 0 else log2Loop fuel (n / 2) + 1

/-- Position of the highest set bit of `n`. -/
def log2Floor (n : Nat) : Nat := log2Loop n n

/-- The double of magnitude `u` units, for `u` a magnitude some double has; infinity
from `2^1024` on. -/
def Double.ofUnits (neg : Bool) (u : Nat) : Double :=
  if u < 4503599627370496 then ⟨neg, 0, ⟨u % 4503599627370496, Nat.mod_lt _ (by decide)⟩⟩
  else
    let l := log2Floor u
    if l - 51 ≥ 2047 then Double.infinity neg
    else ⟨neg, ⟨(l - 51) % 2048, Nat.mod_lt _ (by decide)⟩,
          ⟨(u / 2 ^ (l - 52)) % 4503599627370496, Nat.mod_lt _ (by decide)⟩⟩

/-- The integer nearest to `n / d`, ties to the even one. -/
def roundHalfEven (n d : Nat) : Nat :=
  let q := n / d
  let r := n % d
  if 2 * r < d then q else if d < 2 * r then q + 1 else if q % 2 = 0 then q else q + 1

/-- Round to nearest, ties to even: the double nearest to `num / den` units. Below
`2^53` units doubles are one unit apart, above they are `2^(l-52)` units apart. -/
def Double.round (neg : Bool) (num den : Nat) : Double :=
  let u0 := num / den
  if u0 < 9007199254740992 then Double.ofUnits neg (roundHalfEven num den)
  else
    let s := log2Floor u0 - 52
    Double.ofUnits neg (roundHalfEven num (den * 2 ^ s) * 2 ^ s)

/-- Signed magnitude in units of a double that is not NaN; an infinity lies beyond every
finite double. -/
def Double.key (d : Double) : Int :=
  let m : Int := if d.isInf then 2 ^ 2098 else d.units
  if d.sign then -m else m

/-- `a < b` on doubles. -/
def Double.lt (a b : Double) : Bool := !a.isNaN && !b.isNaN && decide (a.key < b.key)

/-- `std::abs(double)`. -/
def Double.abs (a : Double) : Double := { a with sign := false }

/-- `a - b` on doubles. -/
def Double.sub (a b : Double) : Double :=
  if a.isNaN || b.isNaN then Double.nan
  else if a.isInf then (if b.isInf && a.sign == b.sign then Double.nan else a)
  else if b.isInf then Double.infinity (!b.sign)
  else
    let k := a.key - b.key
    if k = 0 then ⟨a.sign && !b.sign, 0, 0⟩
    else Double.round (decide (k < 0)) k.natAbs 1

/-- `a * b` on doubles. -/
def Double.mul (a b : Double) : Double :=
  if a.isNaN || b.isNaN then Double.nan
  else if a.isInf || b.isInf then
    (if (!a.isInf && a.units = 0) || (!b.isInf && b.units = 0) then Double.nan
     else Double.infinity (a.sign != b.sign))
  else Double.round (a.sign != b.sign) (a.units * b.units) (2 ^ 1074)

/-- `std::max(a, b)`: `(a < b) ? b : a`. -/
def Double.max (a b : Double) : Double := if a.lt b then b else a

/-- `std::numeric_limits<double>::epsilon()`, that is `2^-52`. -/
def Double.epsilon : Double := ⟨false, 971, 0⟩

/-- The double a decimal literal `digits * 10^e10` denotes. -/
def Double.ofDecimal (neg : Bool) (digits : Nat) (e10 : Int) : Double :=
  if e10 ≥ 0 then Double.round neg (digits * 10 ^ e10.toNat * 2 ^ 1074) 1
  else Double.round neg (digits * 2 ^ 1074) (10 ^ (-e10).toNat)

/-- A double that is neither a NaN nor an infinity. -/
def Double.isFinite (d : Double) : Bool := !d.isNaN && !d.isInf

/-- The number of millionths that `std::to_string` writes for a finite double: its value
times `10^6`, rounded to the nearest integer, ties to even. -/
def Double.millionths (d : Double) : Nat := roundHalfEven (d.units * 1000000) (2 ^ 1074)

/-- The double that the text `std::to_string` writes for a finite double denotes: the
double nearest to its millionths, with its sign. -/
def Double.reparsed (d : Double) : Double := Double.ofDecimal d.sign d.millionths (-6)

/-! ## The value model -/

/-- Kinds of `enum Value::Type`. -/
inductive ValueType where
  | Object | Array | Integer | Boolean | Real | String | Null
deriving DecidableEq, Repr

/-- A `Value`: `Null` is the empty `_instance`, every other constructor is one subclass
of `Instance` with its `_value` member. -/
inductive Value where
  | Null
  | Boolean (value : Bool)
  | Integer (value : Int)
  | Real (value : Double)
  | String (value : Str)
  | Array (value : List Value)
  | Object (value : List (Str × Value))

/-- Members of a `std::map<std::string, Value>` in iteration order. -/
abbrev Members := List (Str × Value)

instance : Inhabited Value := ⟨Value.Null⟩

mutual
/-- Equality of two values is decidable: they are the same constructor with the same
payload. -/
def Value.decEq : (a b : Value) → Decidable (a = b)
  | .Null, .Null => isTrue rfl
  | .Boolean x, .Boolean y =>
    if h : x = y then isTrue (by rw [h]) else isFalse (fun e => h (Value.Boolean.inj e))
  | .Integer x, .Integer y =>
    if h : x = y then isTrue (by rw [h]) else isFalse (fun e => h (Value.Integer.inj e))
  | .Real x, .Real y =>
    if h : x = y then isTrue (by rw [h]) else isFalse (fun e => h (Value.Real.inj e))
  | .String x, .String y =>
    if h : x = y then isTrue (by rw [h]) else isFalse (fun e => h (Value.String.inj e))
  | .Array xs, .Array ys =>
    match decEqValues xs ys with
    | isTrue h => isTrue (by rw [h])
    | isFalse h => isFalse (fun e => h (Value.Array.inj e))
  | .Object xs, .Object ys =>
    match decEqMembers xs ys with
    | isTrue h => isTrue (by rw [h])
    | isFalse h => isFalse (fun e => h (Value.Object.inj e))
  | .Null, .Boolean _ => isFalse (fun e => Value.noConfusion e)
  | .Null, .Integer _ => isFalse (fun e => Value.noConfusion e)
  | .Null, .Real _ => isFalse (fun e => Value.noConfusion e)
  | .Null, .String _ => isFalse (fun e => Value.noConfusion e)
  | .Null, .Array _ => isFalse (fun e => Value.noConfusion e)
  | .Null, .Object _ => isFalse (fun e => Value.noConfusion e)
  | .Boolean _, .Null => isFalse (fun e => Value.noConfusion e)
  | .Boolean _, .Integer _ => isFalse (fun e => Value.noConfusion e)
  | .Boolean _, .Real _ => isFalse (fun e => Value.noConfusion e)
  | .Boolean _, .String _ => isFalse (fun e => Value.noConfusion e)
  | .Boolean _, .Array _ => isFalse (fun e => Value.noConfusion e)
  | .Boolean _, .Object _ => isFalse (fun e => Value.noConfusion e)
  | .Integer _, .Null => isFalse (fun e => Value.noConfusion e)
  | .Integer _, .Boolean _ => isFalse (fun e => Value.noConfusion e)
  | .Integer _, .Real _ => isFalse (fun e => Value.noConfusion e)
  | .Integer _, .String _ => isFalse (fun e => Value.noConfusion e)
  | .Integer _, .Array _ => isFalse (fun e => Value.noConfusion e)
  | .Integer _, .Object _ => isFalse (fun e => Value.noConfusion e)
  | .Real _, .Null => isFalse (fun e => Value.noConfusion e)
  | .Real _, .Boolean _ => isFalse (fun e => Value.noConfusion e)
  | .Real _, .Integer _ => isFalse (fun e => Value.noConfusion e)
  | .Real _, .String _ => isFalse (fun e => Value.noConfusion e)
  | .Real _, .Array _ => isFalse (fun e => Value.noConfusion e)
  | .Real _, .Object _ => isFalse (fun e => Value.noConfusion e)
  | .String _, .Null => isFalse (fun e => Value.noConfusion e)
  | .String _, .Boolean _ => isFalse (fun e => Value.noConfusion e)
  | .String _, .Integer _ => isFalse (fun e => Value.noConfusion e)
  | .String _, .Real _ => isFalse (fun e => Value.noConfusion e)
  | .String _, .Array _ => isFalse (fun e => Value.noConfusion e)
  | .String _, .Object _ => isFalse (fun e => Value.noConfusion e)
  | .Array _, .Null => isFalse (fun e => Value.noConfusion e)
  | .Array _, .Boolean _ => isFalse (fun e => Value.noConfusion e)
  | .Array _, .Integer _ => isFalse (fun e => Value.noConfusion e)
  | .Array _, .Real _ => isFalse (fun e => Value.noConfusion e)
  | .Array _, .String _ => isFalse (fun e => Value.noConfusion e)
  | .Array _, .Object _ => isFalse (fun e => Value.noConfusion e)
  | .Object _, .Null => isFalse (fun e => Value.noConfusion e)
  | .Object _, .Boolean _ => isFalse (fun e => Value.noConfusion e)
  | .Object _, .Integer _ => isFalse (fun e => Value.noConfusion e)
  | .Object _, .Real _ => isFalse (fun e => Value.noConfusion e)
  | .Object _, .String _ => isFalse (fun e => Value.noConfusion e)
  | .Object _, .Array _ => isFalse (fun e => Value.noConfusion e)
/-- Equality of two lists of values is decidable. -/
def decEqValues : (a b : List Value) → Decidable (a = b)
  | [], [] => isTrue rfl
  | x :: xs, y :: ys =>
    match Value.decEq x y, decEqValues xs ys with
    | isTrue h1, isTrue h2 => isTrue (by rw [h1, h2])
    | isFalse h1, _ => isFalse (fun e => h1 (List.cons.inj e).1)
    | _, isFalse h2 => isFalse (fun e => h2 (List.cons.inj e).2)
  | [], _ :: _ => isFalse (fun e => List.noConfusion e)
  | _ :: _, [] => isFalse (fun e => List.noConfusion e)
/-- Equality of two lists of members is decidable. -/
def decEqMembers : (a b : List (Str × Value)) → Decidable (a = b)
  | [], [] => isTrue rfl
  | (k1, x) :: xs, (k2, y) :: ys =>
    if hk : k1 = k2 then
      match Value.decEq x y, decEqMembers xs ys with
      | isTrue h1, isTrue h2 => isTrue (by rw [hk, h1, h2])
      | isFalse h1, _ => isFalse (fun e => h1 (Prod.mk.inj (List.cons.inj e).1).2)
      | _, isFalse h2 => isFalse (fun e => h2 (List.cons.inj e).2)
    else isFalse (fun e => hk (Prod.mk.inj (List.cons.inj e).1).1)
  | [], _ :: _ => isFalse (fun e => List.noConfusion e)
  | _ :: _, [] => isFalse (fun e => List.noConfusion e)
end

instance : DecidableEq Value := Value.decEq

/-- Equality of two results is decidable. -/
def Except.decEq {ε α : Type} [DecidableEq ε] [DecidableEq α] :
    (a b : Except ε α) → Decidable (a = b)
  | .ok x, .ok y => if h : x = y then isTrue (by rw [h]) else isFalse (fun e => h (Except.ok.inj e))
  | .error x, .error y =>
    if h : x = y then isTrue (by rw [h]) else isFalse (fun e => h (Except.error.inj e))
  | .ok _, .error _ => isFalse (fun e => Except.noConfusion e)
  | .error _, .ok _ => isFalse (fun e => Except.noConfusion e)

instance {ε α : Type} [DecidableEq ε] [DecidableEq α] : DecidableEq (Except ε α) :=
  Except.decEq


/-- `Value::null()`. -/
def Value.null : Value := Value.Null

/-- `Value::array()`. -/
def Value.array : Value := Value.Array []

/-- `Value::object()`. -/
def Value.object : Value := Value.Object []

/-- `Value::isNull`. -/
def Value.isNull : Value → Bool
  | .Null => true
  | _ => false

/-- `Value::getType`, with each subclass's `getType` inlined. -/
def Value.getType : Value → ValueType
  | .Null => .Null
  | .Boolean _ => .Boolean
  | .Integer _ => .Integer
  | .Real _ => .Real
  | .String _ => .String
  | .Array _ => .Array
  | .Object _ => .Object

/-- `Value::is`. -/
def Value.is (v : Value) (valueType : ValueType) : Bool := v.getType = valueType

/-- The double `0.0`. -/
def Double.zero : Double := ⟨false, 0, 0⟩

/-- `Value::boolean`: `Boolean::boolean` returns the payload, `Instance::boolean` throws. -/
def Value.boolean : Value → Except Err Bool
  | .Null => .ok false
  | .Boolean b => .ok b
  | _ => .error .domain_error

/-- `Value::integer`. -/
def Value.integer : Value → Except Err Int
  | .Null => .ok 0
  | .Integer i => .ok i
  | _ => .error .domain_error

/-- `Value::real`. -/
def Value.real : Value → Except Err Double
  | .Null => .ok Double.zero
  | .Real r => .ok r
  | _ => .error .domain_error

/-- `Value::string`. -/
def Value.string : Value → Except Err Str
  | .Null => .ok []
  | .String s => .ok s
  | _ => .error .domain_error

/-! ## `std::map` and `std::vector` operations used by `Object` and `Array` -/

/-- `std::map::find(key) != end()` together with the mapped value. -/
def mapFind (key : Str) : Members → Option Value
  | [] => none
  | (k, v) :: rest =>
    if strLess k key then mapFind key rest
    else if strLess key k then none
    else some v

/-- `_value[key] = value` on a `std::map`: overwrite the member with that key or insert
a new member at its place in key order. -/
def mapAssign (key : Str) (value : Value) : Members → Members
  | [] => [(key, value)]
  | (k, v) :: rest =>
    if strLess k key then (k, v) :: mapAssign key value rest
    else if strLess key k then (key, value) :: (k, v) :: rest
    else (k, value) :: rest

/-- `_value[key]` on a `std::map`: the map after the access (a missing key is inserted
with a default-constructed, that is Null, value) and the value the reference denotes. -/
def mapIndex (key : Str) : Members → Members × Value
  | [] => ([(key, Value.Null)], Value.Null)
  | (k, v) :: rest =>
    if strLess k key then
      let r := mapIndex key rest
      ((k, v) :: r.1, r.2)
    else if strLess key k then ((key, Value.Null) :: (k, v) :: rest, Value.Null)
    else ((k, v) :: rest, v)

/-- `std::map::erase(key)`. -/
def mapErase (key : Str) : Members → Members
  | [] => []
  | (k, v) :: rest =>
    if strLess k key then (k, v) :: mapErase key rest
    else if strLess key k then (k, v) :: rest
    else rest

/-- `Object::has`. -/
def Object_has (m : Members) (key : Str) : Bool := (mapFind key m).isSome

/-- `Object::get(const std::string&)`: `return _value[key]`. -/
def Object_get (m : Members) (key : Str) : Members × Value := mapIndex key m

/-- `Object::set`, that is `_value[key] = value`, for an argument that is a Value of its
own: what `value` refers to is the same before and after `_value[key]` has entered the
key. `Object_set_ref` is the call with any reference. -/
def Object_set (m : Members) (key : Str) (value : Value) : Members := mapAssign key value m

/-- `Object::set(key, value)` with `value` a reference that may reach the receiver. The
body is `_value[key] = value`: `_value[key]` enters a missing key into the map with a Null
value, and only then `Value::operator=` reads what `value` refers to and stores a copy.
`value` is given as a reader: what the reference denotes for each state of the map of the
receiver. A reference to a Value apart from the receiver is a constant reader, and the
call is then `Object_set`. -/
def Object_set_ref (m : Members) (key : Str) (value : Members → Value) : Members :=
  let entered := (mapIndex key m).1
  mapAssign key (value entered) entered

/-- `Object::keys`. -/
def Object_keys (m : Members) : List Str := m.map Prod.fst

/-- `Object::count`. -/
def Object_count (m : Members) : Nat := m.length

/-- `Object::erase(const std::string&)`. -/
def Object_erase (m : Members) (key : Str) : Members := mapErase key m

/-- The loop `while (index >= _value.size()) _value.push_back(Value())` of `Array::get`;
`n` bounds the iterations. -/
def Array_get_loop (index : Nat) : Nat → List Value → List Value
  | 0, xs => xs
  | n + 1, xs =>
    if index ≥ xs.length then Array_get_loop index n (xs ++ [Value.Null]) else xs

/-- `Array::get(size_t)`: extend with Nulls up to `index`, then `_value[index]`. -/
def Array_get (xs : List Value) (index : Nat) : List Value × Value :=
  let ys := Array_get_loop index (index + 1 - xs.length) xs
  (ys, ys.getD index Value.Null)

/-- `Array::count`. -/
def Array_count (xs : List Value) : Nat := xs.length

/-- `Array::append`. -/
def Array_append (xs : List Value) (value : Value) : List Value := xs ++ [value]

/-- `Array::insert`: before `end()` for `before >= size`, else before
`begin() + static_cast<int>(before)`, the element at index `before`. -/
def Array_insert (xs : List Value) (value : Value) (before : Nat) : List Value :=
  let arraySize := xs.length
  if before ≥ arraySize then xs ++ [value]
  else xs.take before ++ value :: xs.drop before

/-- `Array::erase(size_t, size_t)` for `start >= size` or `start <= end`. The iterator
range is `[start, end)` and `std::vector::erase` is defined only when it is not reversed;
with `end < start < size` the C++ call has undefined behaviour and no result, the array
this function gives there stands for nothing in the code, and the theorems on `erase`
keep to the other ranges. -/
def Array_erase (xs : List Value) (start stop : Nat) : List Value :=
  let arraySize := xs.length
  if start ≥ arraySize then xs
  else
    let stopIdx := if stop ≥ arraySize then arraySize else stop
    if stopIdx < start then xs
    else xs.take start ++ xs.drop stopIdx

/-! ## `Value` accessors that reach into the instance -/

/-- `Value::count`. -/
def Value.count : Value → Except Err Nat
  | .Null => .ok 0
  | .Array xs => .ok (Array_count xs)
  | .Object m => .ok (Object_count m)
  | _ => .error .domain_error

/-- `Value::keys`. -/
def Value.keys : Value → Except Err (List Str)
  | .Null => .ok []
  | .Object m => .ok (Object_keys m)
  | _ => .error .domain_error

/-- `Value::has`. -/
def Value.has (v : Value) (key : Str) : Except Err Bool :=
  match v with
  | .Null => .ok false
  | .Object m => .ok (Object_has m key)
  | _ => .error .domain_error

/-- `Value& Value::get(const std::string&)`: the receiver after the call and the value
the returned reference denotes. -/
def Value.get_key (v : Value) (key : Str) : Except Err (Value × Value) :=
  match v with
  | .Null => .error .domain_error
  | .Object m => let r := Object_get m key; .ok (.Object r.1, r.2)
  | _ => .error .domain_error

/-- `const Value& Value::get(const std::string&) const`: the body is the one of the
mutable overload, `_instance->get(key)` reaches the same non-const `Instance::get`
through the `unique_ptr`. -/
def Value.get_key_const (v : Value) (key : Str) : Except Err (Value × Value) :=
  match v with
  | .Null => .error .domain_error
  | .Object m => let r := Object_get m key; .ok (.Object r.1, r.2)
  | _ => .error .domain_error

/-- `Value& Value::get(size_t)`. -/
def Value.get_index (v : Value) (index : Nat) : Except Err (Value × Value) :=
  match v with
  | .Null => .error .domain_error
  | .Array xs => let r := Array_get xs index; .ok (.Array r.1, r.2)
  | _ => .error .domain_error

/-- `const Value& Value::get(size_t) const`: same body as the mutable overload. -/
def Value.get_index_const (v : Value) (index : Nat) : Except Err (Value × Value) :=
  match v with
  | .Null => .error .domain_error
  | .Array xs => let r := Array_get xs index; .ok (.Array r.1, r.2)
  | _ => .error .domain_error

/-- `Value::set` for an argument that is a Value of its own (see `Object_set`). -/
def Value.set (v : Value) (key : Str) (value : Value) : Except Err Value :=
  match v with
  | .Null => .error .domain_error
  | .Object m => .ok (.Object (Object_set m key value))
  | _ => .error .domain_error

/-- `Value::set(key, value)` with `value` a reference that may reach the receiver, given
as what it denotes for each state of the receiver. -/
def Value.set_ref (v : Value) (key : Str) (value : Value → Value) : Except Err Value :=
  match v with
  | .Null => .error .domain_error
  | .Object m => .ok (.Object (Object_set_ref m key (fun entered => value (.Object entered))))
  | _ => .error .domain_error

/-- `Value::append`. -/
def Value.append (v : Value) (value : Value) : Except Err Value :=
  match v with
  | .Null => .error .domain_error
  | .Array xs => .ok (.Array (Array_append xs value))
  | _ => .error .domain_error

/-- `Value::insert`. -/
def Value.insert (v : Value) (value : Value) (before : Nat) : Except Err Value :=
  match v with
  | .Null => .error .domain_error
  | .Array xs => .ok (.Array (Array_insert xs value before))
  | _ => .error .domain_error

/-- `Value::erase(size_t, size_t)`. -/
def Value.erase_range (v : Value) (start stop : Nat) : Except Err Value :=
  match v with
  | .Null => .error .domain_error
  | .Array xs => .ok (.Array (Array_erase xs start stop))
  | _ => .error .domain_error

/-- `Value::erase(const std::string&)`. -/
def Value.erase_key (v : Value) (key : Str) : Except Err Value :=
  match v with
  | .Null => .error .domain_error
  | .Object m => .ok (.Object (Object_erase m key))
  | _ => .error .domain_error

/-- `Value::clear`: nothing on Null, `Array::clear` and `Object::clear` empty the
container, `Instance::clear` throws for the other kinds. -/
def Value.clear : Value → Except Err Value
  | .Null => .ok .Null
  | .Array _ => .ok (.Array [])
  | .Object _ => .ok (.Object [])
  | _ => .error .domain_error

/-- `std::numeric_limits<size_t>::max()` with a 64-bit `size_t`: the default `end` of
`Value::erase(size_t start, size_t end)`. -/
def SIZE_MAX : Nat := 18446744073709551615

/-- `Value::erase(start)`: `end` takes its default. -/
def Value.erase_from (v : Value) (start : Nat) : Except Err Value :=
  v.erase_range start SIZE_MAX

/-- `Value& Value::operator[](const std::string&)`: `return get(key)`. -/
def Value.subscript_key (v : Value) (key : Str) : Except Err (Value × Value) :=
  v.get_key key

/-- `const Value& Value::operator[](const std::string&) const`: `return get(key)`. -/
def Value.subscript_key_const (v : Value) (key : Str) : Except Err (Value × Value) :=
  v.get_key_const key

/-- `Value& Value::operator[](size_t)`: `return get(index)`. -/
def Value.subscript_index (v : Value) (index : Nat) : Except Err (Value × Value) :=
  v.get_index index

/-- `const Value& Value::operator[](size_t) const`: `return get(index)`. -/
def Value.subscript_index_const (v : Value) (index : Nat) : Except Err (Value × Value) :=
  v.get_index_const index

/-- `Value::operator=(const Value&)`: the receiver becomes a deep copy of `other`, or
Null when `other` is Null. The old receiver plays no part. -/
def Value.assign (_receiver other : Value) : Value := other

/-- `Value::operator=(int64_t)`: the receiver becomes an Integer. -/
def Value.assign_int64 (_receiver : Value) (value : Int) : Value := .Integer value

/-- The `int64_t` with the bits of `i`: addition and subtraction of two `int64_t` are
taken in two's complement. -/
def wrapInt64 (i : Int) : Int :=
  (i + 9223372036854775808) % 18446744073709551616 - 9223372036854775808

/-- `Value::operator+=(int64_t)`: `return *this = integer() + value`. -/
def Value.add_assign (v : Value) (value : Int) : Except Err Value := do
  let i ← v.integer
  pure (v.assign_int64 (wrapInt64 (i + value)))

/-- `Value::operator-=(int64_t)`: `return *this = integer() - value`. -/
def Value.sub_assign (v : Value) (value : Int) : Except Err Value := do
  let i ← v.integer
  pure (v.assign_int64 (wrapInt64 (i - value)))

/-- The receiver after a call of a member that writes to it: the new receiver when the
call returned, the receiver as it was when the call threw. Each `throw` these members
reach (the Null check of `Value`, the default of `Instance`, a getter that `operator+=`
evaluates first) comes before the first write. -/
def Value.after (v : Value) (result : Except Err Value) : Value :=
  match result with
  | .ok v' => v'
  | .error _ => v

/-- The receiver after a call of `get` or `operator[]`. -/
def Value.afterGet (v : Value) (result : Except Err (Value × Value)) : Value :=
  match result with
  | .ok r => r.1
  | .error _ => v

/-! ## Equality -/

/-- `Real::equals` after the type check: `std::abs(a - b) < epsilon * highest`. -/
def Real_equals (a b : Double) : Bool :=
  let epsilon := Double.epsilon
  let highest := Double.max a.abs b.abs
  (a.sub b).abs.lt (epsilon.mul highest)

mutual
/-- `Value::operator==`. -/
def Value.eq (a b : Value) : Bool :=
  if a.isNull && b.isNull then true
  else if a.isNull != b.isNull then false
  else Instance_equals a b && Instance_equals b a
termination_by (sizeOf a + sizeOf b, 1)
decreasing_by
  all_goals first
    | (apply Prod.Lex.right; omega)
    | (apply Prod.Lex.right'; omega; omega)
/-- `equals` of the instance of `a` applied to the instance of `b`: each subclass first
asks `Instance::equals` for equal types, then compares the `_value` members. -/
def Instance_equals (a b : Value) : Bool :=
  match a, b with
  | .Boolean x, .Boolean y => x == y
  | .Integer x, .Integer y => x == y
  | .Real x, .Real y => Real_equals x y
  | .String x, .String y => x == y
  | .Array xs, .Array ys => vector_equals xs ys
  | .Object xs, .Object ys => map_equals xs ys
  | _, _ => false
termination_by (sizeOf a + sizeOf b, 0)
decreasing_by
  all_goals simp_wf
  all_goals (apply Prod.Lex.left; omega)
/-- `operator==` of `std::vector<Value>`: same size and equal elements. -/
def vector_equals (xs ys : List Value) : Bool :=
  match xs, ys with
  | [], [] => true
  | x :: xs, y :: ys => Value.eq x y && vector_equals xs ys
  | _, _ => false
termination_by (sizeOf xs + sizeOf ys, 0)
decreasing_by
  all_goals simp_wf
  all_goals (apply Prod.Lex.left; omega)
/-- `operator==` of `std::map<std::string, Value>`: same size and equal pairs in
iteration order. -/
def map_equals (xs ys : Members) : Bool :=
  match xs, ys with
  | [], [] => true
  | (k1, x) :: xs, (k2, y) :: ys => k1 == k2 && Value.eq x y && map_equals xs ys
  | _, _ => false
termination_by (sizeOf xs + sizeOf ys, 0)
decreasing_by
  all_goals simp_wf
  all_goals (apply Prod.Lex.left; omega)
end

/-- `Value::operator!=`. -/
def Value.ne (a b : Value) : Bool := !(Value.eq a b)

/-! ## Number to text -/

/-- The character of a decimal or lowercase hexadecimal digit. -/
def digitChar (d : Nat) : Byte :=
  if d < 10 then Fin.ofNat (48 + d) else Fin.ofNat (87 + d)

/-- Digits of `n` in base `base`, most significant first, in front of `acc`. -/
def digitsLoop (base : Nat) : Nat → Nat → Str → Str
  | 0, _, acc => acc
  | fuel + 1, n, acc =>
    if n < base then digitChar n :: acc
    else digitsLoop base fuel (n / base) (digitChar (n % base) :: acc)

/-- Decimal text of a natural number. -/
def natToString (n : Nat) : Str := digitsLoop 10 (n + 1) n []

/-- `std::to_string(int64_t)`. -/
def int_to_string (i : Int) : Str :=
  if i < 0 then 45 :: natToString i.natAbs else natToString i.natAbs

/-- Output of `stream << std::setfill('0') << std::setw(4) << std::hex << codepoint`. -/
def hex_setw4 (codepoint : Nat) : Str :=
  let digits := digitsLoop 16 (codepoint + 1) codepoint []
  List.replicate (4 - digits.length) 48 ++ digits

/-- `std::to_string(double)`, the `%f` conversion: six digits after the point, the exact
value rounded to nearest with ties to even. -/
def double_to_string (d : Double) : Str :=
  let sign : Str := if d.sign then [45] else []
  if d.isNaN then sign ++ [110, 97, 110]
  else if d.isInf then sign ++ [105, 110, 102]
  else
    let scaled := roundHalfEven (d.units * 1000000) (2 ^ 1074)
    let fraction := natToString (scaled % 1000000)
    sign ++ natToString (scaled / 1000000) ++ [46]
      ++ List.replicate (6 - fraction.length) 48 ++ fraction

/-! ## The codepoint codec -/

/-- `YaJsonAssert(expression)`: throws `std::invalid_argument` when it fails. -/
def YaJsonAssert (expression : Bool) : Except Err Unit :=
  if expression then .ok () else .error .invalid_argument

/-- `String::_codepoint`: the codepoint at `offset` and the offset after it. -/
def String_codepoint (text : Str) (offset : Nat) : Except Err (Nat × Nat) :=
  let byte := fun (i : Nat) => (charAt text i).val
  let oneByte := decide (offset < text.length) && (0x80 &&& byte offset) = 0
  let twoBytes := decide (offset + 1 < text.length) && (0xE0 &&& byte offset) = 0xC0
  let threeBytes := decide (offset + 2 < text.length) && (0xF0 &&& byte offset) = 0xE0
  let fourBytes := decide (offset + 3 < text.length) && (0xF8 &&& byte offset) = 0xF0
  if oneByte then do
    let offset := offset + 1
    let codepoint := byte (offset - 1) &&& 0xFF
    YaJsonAssert (codepoint ≤ 0x7F)
    pure (codepoint, offset)
  else if twoBytes then do
    YaJsonAssert (offset + 2 ≤ text.length)
    let offset := offset + 2
    let codepoint := ((byte (offset - 2) &&& 0x1F) <<< 6) ||| (byte (offset - 1) &&& 0x3F)
    YaJsonAssert ((byte (offset - 1) &&& 0xC0) = 0x80)
    YaJsonAssert (codepoint > 0x7F && codepoint ≤ 0x7FF)
    pure (codepoint, offset)
  else if threeBytes then do
    YaJsonAssert (offset + 3 ≤ text.length)
    let offset := offset + 3
    let codepoint := ((byte (offset - 3) &&& 0x0F) <<< 12)
      ||| ((byte (offset - 2) &&& 0x3F) <<< 6)
      ||| (byte (offset - 1) &&& 0x3F)
    YaJsonAssert ((byte (offset - 1) &&& 0xC0) = 0x80)
    YaJsonAssert ((byte (offset - 2) &&& 0xC0) = 0x80)
    YaJsonAssert (codepoint > 0x7FF && codepoint ≤ 0xFFFF)
    pure (codepoint, offset)
  else if fourBytes then do
    YaJsonAssert (offset + 4 ≤ text.length)
    let offset := offset + 4
    let codepoint := ((byte (offset - 4) &&& 0x07) <<< 18)
      ||| ((byte (offset - 3) &&& 0x3F) <<< 12)
      ||| ((byte (offset - 2) &&& 0x3F) <<< 6)
      ||| (byte (offset - 1) &&& 0x3F)
    YaJsonAssert ((byte (offset - 1) &&& 0xC0) = 0x80)
    YaJsonAssert ((byte (offset - 2) &&& 0xC0) = 0x80)
    YaJsonAssert ((byte (offset - 3) &&& 0xC0) = 0x80)
    YaJsonAssert (codepoint > 0xFFFF && codepoint ≤ 0x10FFFF)
    pure (codepoint, offset)
  else .error .invalid_argument

/-- The conversion `static_cast<char>(n)`. -/
def toChar (n : Nat) : Byte := Fin.ofNat n

/-- `String::_utf8`. -/
def String_utf8 (codepoint : Nat) : Except Err Str :=
  if codepoint ≤ 0x7F then .ok [toChar codepoint]
  else if codepoint ≤ 0x7FF then
    .ok [toChar ((6 <<< 5) ||| (codepoint >>> 6)),
         toChar ((2 <<< 6) ||| (codepoint &&& 0x3F))]
  else if codepoint ≤ 0xFFFF then
    .ok [toChar ((14 <<< 4) ||| (codepoint >>> 12)),
         toChar ((2 <<< 6) ||| ((codepoint >>> 6) &&& 0x3F)),
         toChar ((2 <<< 6) ||| (codepoint &&& 0x3F))]
  else if codepoint ≤ 0x10FFFF then
    .ok [toChar ((30 <<< 3) ||| (codepoint >>> 18)),
         toChar ((2 <<< 6) ||| ((codepoint >>> 12) &&& 0x3F)),
         toChar ((2 <<< 6) ||| ((codepoint >>> 6) &&& 0x3F)),
         toChar ((2 <<< 6) ||| (codepoint &&& 0x3F))]
  else .error .invalid_argument

/-! ## The formatter -/

/-- `String::_formatCodepoint`: the buffer after the codepoint at `i` is appended, and
the new value of `i`. -/
def String_formatCodepoint (value : Str) (buffer : Str) (i : Nat) : Except Err (Str × Nat) := do
  let (codepoint, offset) ← String_codepoint value i
  if offset - i = 1 then
    pure (buffer ++ [charAt value i], offset - 1)
  else
    let ecma6 := decide (codepoint > 0xFFFF)
    if ecma6 then
      pure (buffer ++ substr value i (offset - i), offset - 1)
    else
      pure (buffer ++ [92, 117] ++ hex_setw4 codepoint, offset - 1)

/-- The `for` loop of `String::format`; `fuel` bounds the iterations. -/
def String_format_loop (value : Str) : Nat → Nat → Str → Except Err Str
  | 0, i, buffer => if i < value.length then .error .fuel else .ok buffer
  | fuel + 1, i, buffer =>
    if i < value.length then
      let c := charAt value i
      if c = 92 then String_format_loop value fuel (i + 1) (buffer ++ [92, 92])
      else if c = 34 then String_format_loop value fuel (i + 1) (buffer ++ [92, 34])
      else if c = 47 then String_format_loop value fuel (i + 1) (buffer ++ [92, 47])
      else if c = 9 then String_format_loop value fuel (i + 1) (buffer ++ [92, 116])
      else if c = 13 then String_format_loop value fuel (i + 1) (buffer ++ [92, 114])
      else if c = 10 then String_format_loop value fuel (i + 1) (buffer ++ [92, 110])
      else if c = 8 then String_format_loop value fuel (i + 1) (buffer ++ [92, 98])
      else if c = 12 then String_format_loop value fuel (i + 1) (buffer ++ [92, 102])
      else
        match String_formatCodepoint value buffer i with
        | .error e => .error e
        | .ok (buffer, i) => String_format_loop value fuel (i + 1) buffer
    else .ok buffer

/-- `String::format`. -/
def String_format (value : Str) : Except Err Str := do
  let buffer ← String_format_loop value value.length 0 [34]
  pure (buffer ++ [34])

/-- The two `assign(count, ' ')` calls of `Array::format` and `Object::format`:
`linePrefix` and `lastLinePrefix`. With `indent >= 0` the counts are
`static_cast<size_t>(indent * indentLevel)` and that plus `indent`; a negative product
converts to a count above `max_size()` and `assign` throws `std::length_error`. The
product is taken in the integers: it is the `int` product of the code for
`indent * indentLevel < 2^31`, and beyond that bound, where the `int` product overflows,
this function does not describe the code. -/
def indentStrings (indent indentLevel : Int) : Except Err (Str × Str) :=
  if indent ≥ 0 then
    if indent * indentLevel < 0 then .error .length_error
    else
      let lastIndents := (indent * indentLevel).toNat
      let indents := lastIndents + indent.toNat
      .ok (List.replicate indents 32, List.replicate lastIndents 32)
  else .ok ([], [])

mutual
/-- `Value::format(buffer, indent, indentLevel)`, the returned text being the buffer. -/
def Value.format (v : Value) (indent indentLevel : Int) : Except Err Str :=
  match v with
  | .Null => .ok [110, 117, 108, 108]
  | .Boolean b => .ok (if b then [116, 114, 117, 101] else [102, 97, 108, 115, 101])
  | .Integer i => .ok (int_to_string i)
  | .Real r => .ok (double_to_string r)
  | .String s => String_format s
  | .Array xs =>
    let lineSuffix : Str := if indent ≥ 0 then [10] else []
    match indentStrings indent indentLevel with
    | .error e => .error e
    | .ok (linePfx, lastLinePfx) =>
      match Array_format_loop xs indent indentLevel linePfx lineSuffix with
      | .error e => .error e
      | .ok body => .ok ([91] ++ lineSuffix ++ body ++ lastLinePfx ++ [93])
  | .Object m =>
    let lineSuffix : Str := if indent ≥ 0 then [10] else []
    match indentStrings indent indentLevel with
    | .error e => .error e
    | .ok (linePfx, lastLinePfx) =>
      match Object_format_loop m indent indentLevel linePfx lineSuffix with
      | .error e => .error e
      | .ok body => .ok ([123] ++ lineSuffix ++ body ++ lastLinePfx ++ [125])
/-- The `for` loop of `Array::format`: what it appends to the buffer for the elements
from the current one on. -/
def Array_format_loop (xs : List Value) (indent indentLevel : Int) (linePfx lineSuffix : Str) :
    Except Err Str :=
  match xs with
  | [] => .ok []
  | x :: rest =>
    match x.format indent (indentLevel + 1) with
    | .error e => .error e
    | .ok value =>
      let suffix : Str := if rest.isEmpty then [] else [44]
      match Array_format_loop rest indent indentLevel linePfx lineSuffix with
      | .error e => .error e
      | .ok more => .ok (linePfx ++ value ++ suffix ++ lineSuffix ++ more)
/-- The `for` loop of `Object::format`. -/
def Object_format_loop (m : Members) (indent indentLevel : Int) (linePfx lineSuffix : Str) :
    Except Err Str :=
  match m with
  | [] => .ok []
  | (key, x) :: rest =>
    match String_format key with
    | .error e => .error e
    | .ok keyStr =>
      match x.format indent (indentLevel + 1) with
      | .error e => .error e
      | .ok value =>
        let comma : Str := if rest.isEmpty then [] else [44]
        match Object_format_loop rest indent indentLevel linePfx lineSuffix with
        | .error e => .error e
        | .ok more => .ok (linePfx ++ keyStr ++ [58] ++ value ++ comma ++ lineSuffix ++ more)
end

mutual
/-- The largest `indentLevel` with which `format`, called on the value at level `d`,
reaches an Array or an Object: these are the levels at which `indent * indentLevel` is
computed. It is 0 for a value that holds no container. -/
def Value.deepestLevel (d : Nat) : Value → Nat
  | .Array xs => max d (deepestLevelList (d + 1) xs)
  | .Object m => max d (deepestLevelMembers (d + 1) m)
  | _ => 0
/-- The largest level of a container in the elements of an Array formatted at level
`d`. -/
def deepestLevelList (d : Nat) : List Value → Nat
  | [] => 0
  | x :: rest => max (x.deepestLevel d) (deepestLevelList d rest)
/-- The largest level of a container in the members of an Object formatted at level
`d`. -/
def deepestLevelMembers (d : Nat) : Members → Nat
  | [] => 0
  | (_, x) :: rest => max (x.deepestLevel d) (deepestLevelMembers d rest)
end

/-! ## Text to number: `std::stoll`, `std::stol`, `std::stod` -/

/-- `::isspace` in the C locale: space and `\t \n \v \f \r`. -/
def isspace (c : Byte) : Bool := c.val = 32 || (9 ≤ c.val && c.val ≤ 13)

/-- Value of a digit character in a base up to 16, if it is one. -/
def digitValue (base : Nat) (c : Byte) : Option Nat :=
  let v := c.val
  let d :=
    if 48 ≤ v && v ≤ 57 then some (v - 48)
    else if 97 ≤ v && v ≤ 102 then some (v - 87)
    else if 65 ≤ v && v ≤ 70 then some (v - 55)
    else none
  match d with
  | some n => if n < base then some n else none
  | none => none

/-- The longest run of digits at the front of `s`: its value after `acc`, and its
length after `count`. -/
def takeDigits (base : Nat) : Str → Nat → Nat → Nat × Nat
  | [], acc, count => (acc, count)
  | c :: rest, acc, count =>
    match digitValue base c with
    | some d => takeDigits base rest (acc * base + d) (count + 1)
    | none => (acc, count)

/-- Number of leading `isspace` characters. -/
def countSpaces : Str → Nat
  | [] => 0
  | c :: rest => if isspace c then countSpaces rest + 1 else 0

/-- An optional sign at the front of `s`: whether it is `-`, and its length. -/
def takeSign (s : Str) : Bool × Nat :=
  match s with
  | c :: _ => if c = 45 then (true, 1) else if c = 43 then (false, 1) else (false, 0)
  | [] => (false, 0)

/-- `std::stoll(str, &pos)` in base 10, `strtoll` underneath: white space, an optional
sign, decimal digits. No digit throws `std::invalid_argument`, a value outside
`long long` throws `std::out_of_range`. Returns the value and `pos`. -/
def stoll (str : Str) : Except Err (Int × Nat) :=
  let ws := countSpaces str
  let (neg, sl) := takeSign (str.drop ws)
  let (n, count) := takeDigits 10 (str.drop (ws + sl)) 0 0
  if count = 0 then .error .invalid_argument
  else
    let value : Int := if neg then -(n : Int) else n
    if value < -9223372036854775808 || value > 9223372036854775807 then .error .out_of_range
    else .ok (value, ws + sl + count)

/-- `std::stol(str, &pos, 16)`, `strtol` underneath with a 64-bit `long`: white space, an
optional sign, an optional `0x` or `0X` that a hexadecimal digit follows, hexadecimal
digits. -/
def stol16 (str : Str) : Except Err (Int × Nat) :=
  let ws := countSpaces str
  let (neg, sl) := takeSign (str.drop ws)
  let body := str.drop (ws + sl)
  let px : Nat :=
    match body with
    | z :: x :: h :: _ =>
      if z = 48 && (x = 120 || x = 88) && (digitValue 16 h).isSome then 2 else 0
    | _ => 0
  let (n, count) := takeDigits 16 (body.drop px) 0 0
  if count = 0 then .error .invalid_argument
  else
    let value : Int := if neg then -(n : Int) else n
    if value < -9223372036854775808 || value > 9223372036854775807 then .error .out_of_range
    else .ok (value, ws + sl + px + count)

/-- Whether `strtod` reports `ERANGE` for an underflow on the literal `digits * 10^e10`
that it converts to `d`, as glibc does: the value, rounded to 53 bits, is below the
smallest normal double `2^-1022`, and `d` is not the value itself. In units of `2^-1074`
the value is `num / den` and the first condition is `num / den < 2^52 - 1/4`. -/
def stodUnderflow (digits : Nat) (e10 : Int) (d : Double) : Bool :=
  let num := if e10 ≥ 0 then digits * 10 ^ e10.toNat * 2 ^ 1074 else digits * 2 ^ 1074
  let den := if e10 ≥ 0 then 1 else 10 ^ (-e10).toNat
  decide (4 * num < 18014398509481983 * den) && decide (d.units * den ≠ num)

/-- `std::stod(str, &pos)` on a decimal floating literal, `strtod` underneath: white
space, an optional sign, digits with an optional point (at least one digit), then an
optional exponent (`e` or `E`, an optional sign, at least one digit). The result is the
nearest double; `std::stod` throws `std::out_of_range` when `strtod` sets `ERANGE`, on an
overflow to infinity and on an underflow (`stodUnderflow`), and `std::invalid_argument`
when there is no digit. `Value::_parseNumber` passes only spans over the characters
`+-0123456789.eE`, so the hexadecimal, infinity and NaN forms of `strtod` cannot occur
and are left out. -/
def stod (str : Str) : Except Err (Double × Nat) :=
  let ws := countSpaces str
  let (neg, sl) := takeSign (str.drop ws)
  let body := str.drop (ws + sl)
  let (ip, ic) := takeDigits 10 body 0 0
  let afterInt := body.drop ic
  let (mant, fc, pointLen) : Nat × Nat × Nat :=
    match afterInt with
    | c :: rest =>
      if c = 46 then
        let (m, k) := takeDigits 10 rest ip 0
        if ic + k = 0 then (ip, 0, 0) else (m, k, 1)
      else (ip, 0, 0)
    | [] => (ip, 0, 0)
  if ic + fc = 0 then .error .invalid_argument
  else
    let afterMant := body.drop (ic + pointLen + fc)
    let (e10, elen) : Int × Nat :=
      match afterMant with
      | c :: rest =>
        if c = 101 || c = 69 then
          let (eneg, esl) := takeSign rest
          let (ev, ec) := takeDigits 10 (rest.drop esl) 0 0
          if ec = 0 then (0, 0) else ((if eneg then -(ev : Int) else ev), 1 + esl + ec)
        else (0, 0)
      | [] => (0, 0)
    let d := Double.ofDecimal neg mant (e10 - fc)
    if d.isInf then .error .out_of_range
    else if stodUnderflow mant (e10 - fc) d then .error .out_of_range
    else .ok (d, ws + sl + ic + pointLen + fc + elen)

/-! ## The parser -/

/-- The loop of `Value::skipWhitespace`; `fuel` bounds the iterations. -/
def skipWhitespace_loop (text : Str) : Nat → Nat → Nat
  | 0, offset => offset
  | fuel + 1, offset =>
    if offset < text.length && isspace (charAt text offset) then
      skipWhitespace_loop text fuel (offset + 1)
    else offset

/-- `Value::skipWhitespace`. -/
def Value.skipWhitespace (text : Str) (offset : Nat) : Nat :=
  skipWhitespace_loop text (text.length - offset) offset

/-- `Value::_parseWord`: the offset after the word. -/
def Value_parseWord (text word : Str) (offset : Nat) : Except Err Nat :=
  let actual := substr text offset word.length
  if actual ≠ word then .error .invalid_argument
  else .ok (offset + word.length)

/-- Membership in `integerChars`, the string `-+0123456789`. -/
def isIntegerChar (c : Byte) : Bool :=
  c.val = 45 || c.val = 43 || (48 ≤ c.val && c.val ≤ 57)

/-- Membership in `realChars`, the string `Ee.`. -/
def isRealChar (c : Byte) : Bool := c.val = 69 || c.val = 101 || c.val = 46

/-- The scanning loop of `Value::_parseNumber`: the offset after the span and
`hasRealChar`. -/
def parseNumber_loop (text : Str) : Nat → Nat → Bool → Nat × Bool
  | 0, offset, hasRealChar => (offset, hasRealChar)
  | fuel + 1, offset, hasRealChar =>
    if offset < text.length
        && (isIntegerChar (charAt text offset) || isRealChar (charAt text offset)) then
      parseNumber_loop text fuel (offset + 1) (hasRealChar || isRealChar (charAt text offset))
    else (offset, hasRealChar)

/-- `Value::_parseNumber`: the value and the offset after it. An exception of `std::stod`
or `std::stoll` is caught and `std::invalid_argument` thrown in its place. -/
def Value_parseNumber (text : Str) (offset : Nat) : Except Err (Value × Nat) := do
  let start := offset
  let (offset, hasRealChar) := parseNumber_loop text (text.length - offset) offset false
  YaJsonAssert (start < offset)
  if hasRealChar then
    match stod (substr text start (offset - start)) with
    | .error _ => .error .invalid_argument
    | .ok (d, after) =>
      YaJsonAssert (after = offset - start)
      pure (Value.Real d, offset)
  else
    match stoll (substr text start (offset - start)) with
    | .error _ => .error .invalid_argument
    | .ok (converted, after) =>
      YaJsonAssert (after = offset - start)
      pure (Value.Integer converted, offset)

/-- `text.find('}', pos)`: the index of the first `}` at or after `pos`, `none` for
`npos`. -/
def findCloseBrace (text : Str) (pos : Nat) : Option Nat :=
  match (text.drop pos).indexOf? (125 : Byte) with
  | some k => some (pos + k)
  | none => none

/-- `String::_parseEscapedUnicode`, entered with `offset` at the `u`: the new offset and
the new result. -/
def String_parseEscapedUnicode (text : Str) (offset : Nat) (result : Str) :
    Except Err (Nat × Str) := do
  if charAt text (offset + 1) = 123 then
    match findCloseBrace text (offset + 2) with
    | none => .error .invalid_argument
    | some stop =>
      let size := stop - offset - 2
      YaJsonAssert (offset + 2 ≠ stop)
      let (value, count) ← stol16 (substr text (offset + 2) size)
      YaJsonAssert (count = size)
      let offset := offset + (1 + size + 1)
      let bytes ← String_utf8 (value % 18446744073709551616).toNat
      pure (offset, result ++ bytes)
  else
    let (value, count) ← stol16 (substr text (offset + 1) 4)
    YaJsonAssert (count = 4)
    let offset := offset + 4
    let bytes ← String_utf8 (value % 18446744073709551616).toNat
    pure (offset, result ++ bytes)

/-- `String::_parseEscaped`, entered with `offset` at the backslash. -/
def String_parseEscaped (text : Str) (offset : Nat) (result : Str) :
    Except Err (Nat × Str) := do
  let offset := offset + 1
  let c := charAt text offset
  if c = 47 then pure (offset + 1, result ++ [47])
  else if c = 34 then pure (offset + 1, result ++ [34])
  else if c = 92 then pure (offset + 1, result ++ [92])
  else if c = 98 then pure (offset + 1, result ++ [8])
  else if c = 102 then pure (offset + 1, result ++ [12])
  else if c = 114 then pure (offset + 1, result ++ [13])
  else if c = 110 then pure (offset + 1, result ++ [10])
  else if c = 116 then pure (offset + 1, result ++ [9])
  else if c = 117 then do
    let (offset, result) ← String_parseEscapedUnicode text offset result
    pure (offset + 1, result)
  else .error .invalid_argument

/-- The `switch` in the loop of `String::parse`: the new offset and the new result. -/
def String_parse_switch (text : Str) (offset : Nat) (result : Str) : Except Err (Nat × Str) :=
  let c := charAt text offset
  if c = 92 then String_parseEscaped text offset result
  else if c = 34 then .ok (offset, result)
  else .ok (offset + 1, result ++ [c])

/-- The `do ... while` loop of `String::parse`; `fuel` bounds the iterations. -/
def String_parse_loop (text : Str) : Nat → Nat → Str → Except Err (Nat × Str)
  | 0, _, _ => .error .fuel
  | fuel + 1, offset, result =>
    if offset < text.length then
      match String_parse_switch text offset result with
      | .error e => .error e
      | .ok (offset, result) =>
        if offset < text.length then
          if charAt text offset ≠ 34 then String_parse_loop text fuel offset result
          else .ok (offset, result)
        else .error .invalid_argument
    else .error .invalid_argument

/-- `String::parse`, entered with `offset` at the opening quote: the string and the
offset after the closing quote. -/
def String_parse (text : Str) (offset : Nat) : Except Err (Str × Nat) := do
  let offset := offset + 1
  let (offset, result) ← String_parse_loop text (text.length + 1) offset []
  YaJsonAssert (offset < text.length)
  YaJsonAssert (charAt text offset = 34)
  pure (result, offset + 1)

/-- The `while` loop of `Array::parse` over a parser `parse` for the elements: the
elements appended to `result` and the offset the loop ends at. -/
def Array_parse_loop (parse : Str → Nat → Except Err (Value × Nat)) (text : Str) :
    Nat → Nat → List Value → Except Err (List Value × Nat)
  | 0, _, _ => .error .fuel
  | fuel + 1, offset, result =>
    if offset < text.length && charAt text offset ≠ 93 then
      let offset := Value.skipWhitespace text offset
      if charAt text offset = 93 then .ok (result, offset)
      else
        match parse text offset with
        | .error e => .error e
        | .ok (value, offset) =>
          let result := Array_append result value
          let offset := Value.skipWhitespace text offset
          if charAt text offset = 44 || charAt text offset = 93 then
            let offset :=
              if charAt text offset = 44 then Value.skipWhitespace text (offset + 1) else offset
            Array_parse_loop parse text fuel offset result
          else .error .invalid_argument
    else .ok (result, offset)

/-- `Array::parse`, entered with `offset` at the `[`. -/
def Array_parse (parse : Str → Nat → Except Err (Value × Nat)) (text : Str) (offset : Nat) :
    Except Err (List Value × Nat) := do
  let offset := offset + 1
  let (result, offset) ← Array_parse_loop parse text (text.length + 1) offset []
  let offset := offset + 1
  YaJsonAssert (offset ≤ text.length)
  pure (result, offset)

/-- The `while` loop of `Object::parse`. -/
def Object_parse_loop (parse : Str → Nat → Except Err (Value × Nat)) (text : Str) :
    Nat → Nat → Members → Except Err (Members × Nat)
  | 0, _, _ => .error .fuel
  | fuel + 1, offset, result =>
    if offset < text.length && charAt text offset ≠ 125 then
      let offset := Value.skipWhitespace text offset
      if offset < text.length then
        if charAt text offset = 125 then .ok (result, offset)
        else if charAt text offset = 34 then
          match String_parse text offset with
          | .error e => .error e
          | .ok (key, offset) =>
            let offset := Value.skipWhitespace text offset
            if offset < text.length then
              if charAt text offset = 58 then
                let offset := offset + 1
                match parse text offset with
                | .error e => .error e
                | .ok (value, offset) =>
                  let result := Object_set result key value
                  let offset := Value.skipWhitespace text offset
                  if charAt text offset = 44 || charAt text offset = 125 then
                    let offset :=
                      if charAt text offset = 44 then Value.skipWhitespace text (offset + 1)
                      else offset
                    Object_parse_loop parse text fuel offset result
                  else .error .invalid_argument
              else .error .invalid_argument
            else .error .invalid_argument
        else .error .invalid_argument
      else .error .invalid_argument
    else .ok (result, offset)

/-- `Object::parse`, entered with `offset` at the `{`. -/
def Object_parse (parse : Str → Nat → Except Err (Value × Nat)) (text : Str) (offset : Nat) :
    Except Err (Members × Nat) := do
  let offset := offset + 1
  let (result, offset) ← Object_parse_loop parse text (text.length + 1) offset []
  let offset := offset + 1
  YaJsonAssert (offset ≤ text.length)
  pure (result, offset)

/-- `Value::parse(jsonText, position)` with a position: the value and the position
written back. The first argument bounds the depth of the recursion through
`Array::parse` and `Object::parse`. -/
def Value.parse_depth : Nat → Str → Nat → Except Err (Value × Nat)
  | 0, _, _ => .error .fuel
  | depth + 1, jsonText, position =>
    let offset := Value.skipWhitespace jsonText position
    if offset < jsonText.length then
      let c := charAt jsonText offset
      if c = 123 then
        match Object_parse (Value.parse_depth depth) jsonText offset with
        | .error e => .error e
        | .ok (m, offset) => .ok (Value.Object m, offset)
      else if c = 91 then
        match Array_parse (Value.parse_depth depth) jsonText offset with
        | .error e => .error e
        | .ok (xs, offset) => .ok (Value.Array xs, offset)
      else if c = 34 then
        match String_parse jsonText offset with
        | .error e => .error e
        | .ok (s, offset) => .ok (Value.String s, offset)
      else if c = 116 then
        match Value_parseWord jsonText [116, 114, 117, 101] offset with
        | .error e => .error e
        | .ok offset => .ok (Value.Boolean true, offset)
      else if c = 102 then
        match Value_parseWord jsonText [102, 97, 108, 115, 101] offset with
        | .error e => .error e
        | .ok offset => .ok (Value.Boolean false, offset)
      else if c = 110 then
        match Value_parseWord jsonText [110, 117, 108, 108] offset with
        | .error e => .error e
        | .ok offset => .ok (Value.Null, offset)
      else Value_parseNumber jsonText offset
    else .error .invalid_argument

/-- `Value::parse(jsonText, &position)`. Every level of nesting consumes an opening
bracket, so the depth never exceeds the length of the text. -/
def Value.parse_at (jsonText : Str) (position : Nat) : Except Err (Value × Nat) :=
  Value.parse_depth (jsonText.length + 1) jsonText position

/-- `Value::parse(jsonText)`. -/
def Value.parse (jsonText : Str) : Except Err Value :=
  match Value.parse_at jsonText 0 with
  | .error e => .error e
  | .ok (value, _) => .ok value

/-! ## Predicates on values -/

/-- The double `1.0`. -/
def Double.one : Double := ⟨false, 1023, 0⟩

/-- Keys of a `std::map` in iteration order are strictly ascending. -/
def KeysAscending (m : Members) : Prop :=
  m.Pairwise (fun p q => strLess p.1 q.1 = true)

instance (m : Members) : Decidable (KeysAscending m) := by
  unfold KeysAscending
  infer_instance

mutual
/-- The check `p` holds at a value and at every value nested in it. -/
def Value.allNodes (p : Value → Bool) : Value → Bool
  | .Array xs => p (.Array xs) && allNodesList p xs
  | .Object m => p (.Object m) && allNodesMembers p m
  | v => p v
/-- `Value.allNodes` on the elements of an Array. -/
def allNodesList (p : Value → Bool) : List Value → Bool
  | [] => true
  | x :: rest => x.allNodes p && allNodesList p rest
/-- `Value.allNodes` on the values of the members of an Object. -/
def allNodesMembers (p : Value → Bool) : Members → Bool
  | [] => true
  | (_, x) :: rest => x.allNodes p && allNodesMembers p rest
end

/-- What the C++ types guarantee of one node: an Integer payload is an `int64_t`, the
keys of an Object are in the strictly ascending order of the `std::map`. -/
def nodeWellFormed : Value → Bool
  | .Integer i => decide (-9223372036854775808 ≤ i ∧ i ≤ 9223372036854775807)
  | .Object m => decide (KeysAscending m)
  | _ => true

/-- A value as the C++ types can hold it: `nodeWellFormed` at every node. -/
def Value.WellFormed (v : Value) : Prop := v.allNodes nodeWellFormed = true

instance (v : Value) : Decidable v.WellFormed := by
  unfold Value.WellFormed
  infer_instance

/-- The value contains no Real. -/
def Value.NoReal (v : Value) : Prop :=
  v.allNodes (fun n => decide (n.getType ≠ ValueType.Real)) = true

instance (v : Value) : Decidable v.NoReal := by
  unfold Value.NoReal
  infer_instance

/-- A continuation byte `10xxxxxx`. -/
def isContinuation (b : Byte) : Bool := 0x80 ≤ b.val && b.val ≤ 0xBF

/-- Length of the well-formed UTF-8 byte sequence (RFC 3629, table 3-7 of the Unicode
standard) at the front of `s`: one to four bytes in shortest encoding, no codepoint above
`0x10FFFF`, no surrogate; `0` when `s` does not start with one. -/
def utf8SeqLength (s : Str) : Nat :=
  match s with
  | [] => 0
  | b0 :: rest =>
    if b0.val ≤ 0x7F then 1
    else if 0xC2 ≤ b0.val ∧ b0.val ≤ 0xDF then
      match rest with
      | b1 :: _ => if isContinuation b1 then 2 else 0
      | _ => 0
    else if 0xE0 ≤ b0.val ∧ b0.val ≤ 0xEF then
      match rest with
      | b1 :: b2 :: _ =>
        if isContinuation b1 && isContinuation b2
            && (b0.val ≠ 0xE0 || 0xA0 ≤ b1.val) && (b0.val ≠ 0xED || b1.val ≤ 0x9F) then 3
        else 0
      | _ => 0
    else if 0xF0 ≤ b0.val ∧ b0.val ≤ 0xF4 then
      match rest with
      | b1 :: b2 :: b3 :: _ =>
        if isContinuation b1 && isContinuation b2 && isContinuation b3
            && (b0.val ≠ 0xF0 || 0x90 ≤ b1.val) && (b0.val ≠ 0xF4 || b1.val ≤ 0x8F) then 4
        else 0
      | _ => 0
    else 0

/-- The bytes are a run of well-formed UTF-8 sequences; `fuel` bounds their number. -/
def validUtf8Loop : Nat → Str → Bool
  | 0, s => s.isEmpty
  | fuel + 1, s =>
    if s.isEmpty then true
    else utf8SeqLength s ≠ 0 && validUtf8Loop fuel (s.drop (utf8SeqLength s))

/-- Valid UTF-8: the string is a run of well-formed UTF-8 byte sequences. -/
def validUtf8 (s : Str) : Bool := validUtf8Loop s.length s

/-- The String payload of a node, and the keys of an Object node, are valid UTF-8. -/
def nodeValidUtf8 : Value → Bool
  | .String s => validUtf8 s
  | .Object m => m.all (fun p => validUtf8 p.1)
  | _ => true

/-- Every String payload and every Object key of the value is valid UTF-8. -/
def Value.ValidUtf8 (v : Value) : Prop := v.allNodes nodeValidUtf8 = true

instance (v : Value) : Decidable v.ValidUtf8 := by
  unfold Value.ValidUtf8
  infer_instance

/-- A node that is not a Real, or a Real that is finite. -/
def nodeRealFinite : Value → Bool
  | .Real r => r.isFinite
  | _ => true

/-- The value holds no infinite Real and no NaN. -/
def Value.RealsFinite (v : Value) : Prop := v.allNodes nodeRealFinite = true

instance (v : Value) : Decidable v.RealsFinite := by
  unfold Value.RealsFinite
  infer_instance

/-- A node that is not a Real, or a finite Real that its six-decimal text denotes
exactly. -/
def nodeRealExact : Value → Bool
  | .Real r => r.isFinite && decide (r.reparsed = r)
  | _ => true

/-- Every Real of the value is finite and is the double its six-decimal text denotes. -/
def Value.RealsExact (v : Value) : Prop := v.allNodes nodeRealExact = true

instance (v : Value) : Decidable v.RealsExact := by
  unfold Value.RealsExact
  infer_instance

/-- A node that is not a Real, or a finite Real that the double read from its
six-decimal text is equal to under `Real::equals`. -/
def nodeRealReproduced : Value → Bool
  | .Real r => r.isFinite && Real_equals r.reparsed r
  | _ => true

/-- Every Real of the value is finite and is reproduced by its six-decimal text: the
double that `std::stod` reads from `std::to_string` of the Real is `==` to the Real. -/
def Value.RealsReproduced (v : Value) : Prop := v.allNodes nodeRealReproduced = true

instance (v : Value) : Decidable v.RealsReproduced := by
  unfold Value.RealsReproduced
  infer_instance

mutual
/-- The value with every Real replaced by the double its six-decimal text denotes: what
parsing the formatted value gives. -/
def Value.reparsed : Value → Value
  | .Null => .Null
  | .Boolean b => .Boolean b
  | .Integer i => .Integer i
  | .Real r => .Real r.reparsed
  | .String s => .String s
  | .Array xs => .Array (reparsedList xs)
  | .Object m => .Object (reparsedMembers m)
/-- The elements of an Array, each one as `Value.reparsed` gives it. -/
def reparsedList : List Value → List Value
  | [] => []
  | x :: rest => x.reparsed :: reparsedList rest
/-- The members of an Object, each value as `Value.reparsed` gives it. -/
def reparsedMembers : Members → Members
  | [] => []
  | (key, x) :: rest => (key, x.reparsed) :: reparsedMembers rest
end

/-! ## Notions used to state the round trip -/

/-- A digit string `ds` of value `n` in base `base`, as `takeDigits` reads it. -/
def ReadsAs (base : Nat) (ds : Str) (n : Nat) : Prop :=
  ∀ (a k : Nat) (rest : Str),
    takeDigits base (ds ++ rest) a k = takeDigits base rest (a * base ^ ds.length + n) (k + ds.length)

/-- The text after a number does not go on with a character of a number. -/
def NumTerminated (rest : Str) : Prop :=
  ∀ c t, rest = c :: t → isIntegerChar c = false ∧ isRealChar c = false

/-- The loop of `String::parse` reads the text `enc` up to a closing quote as the
string `s`. -/
def ParsesTo (enc s : Str) : Prop :=
  ∀ (text : Str) (offset : Nat) (result rest : Str) (fuel : Nat),
    text.drop offset = enc ++ 34 :: rest → enc.length < fuel →
    String_parse_loop text fuel offset result = .ok (offset + enc.length, result ++ s)

/-- The two-character escapes of `String::format`: the character after the backslash
and the byte the escape stands for. -/
def IsEscape (e b : Byte) : Prop :=
  (e = 92 ∧ b = 92) ∨ (e = 34 ∧ b = 34) ∨ (e = 47 ∧ b = 47) ∨ (e = 116 ∧ b = 9) ∨
  (e = 114 ∧ b = 13) ∨ (e = 110 ∧ b = 10) ∨ (e = 98 ∧ b = 8) ∨ (e = 102 ∧ b = 12)

/-- The first character of a formatted value: what `Value::parse` dispatches on. It is
never white space, a comma or a closing bracket. -/
def ValueStart (c : Byte) : Prop :=
  c = 123 ∨ c = 91 ∨ c = 34 ∨ c = 116 ∨ c = 102 ∨ c = 110 ∨ isIntegerChar c = true

/-- A character that can follow a value in a formatted text: white space, a comma or a
closing bracket. -/
def Sep (c : Byte) : Prop := isspace c = true ∨ c = 93 ∨ c = 125 ∨ c = 44

/-- What the induction gives for one value: with `parse` as the parser, the text that
`format` wrote for `x` at the given indent and depth parses back to `x`. -/
def ParsesBack (parse : Str → Nat → Except Err (Value × Nat)) (text : Str) (bound : Nat)
    (indent indentLevel : Int) (x : Value) : Prop :=
  ∀ (out : Str) (offset : Nat) (rest : Str),
    x.format indent indentLevel = .ok out → text.drop offset = out ++ rest →
    NumTerminated rest → text.length - offset < bound →
    parse text offset = .ok (x, offset + out.length)

/-! ## Notions of the specification used to state what the parser accepts -/

/-- The value of a string of decimal digits after `acc`, as the specification reads it:
defined when every character is one of `0` to `9`. -/
def specDecimal : Str → Nat → Option Nat
  | [], acc => some acc
  | c :: rest, acc =>
    if 48 ≤ c.val ∧ c.val ≤ 57 then specDecimal rest (acc * 10 + (c.val - 48)) else none

/-- The integer literal of the specification: an optional single sign followed by one or
more decimal digits, with the integer it denotes. -/
def specIntegerLiteral (span : Str) : Option Int :=
  match span with
  | [] => none
  | c :: rest =>
    if c = 45 then
      if rest.isEmpty then none else (specDecimal rest 0).map (fun n => -(n : Int))
    else if c = 43 then
      if rest.isEmpty then none else (specDecimal rest 0).map (fun n => (n : Int))
    else (specDecimal (c :: rest) 0).map (fun n => (n : Int))

/-- The value of a string of hexadecimal digits after `acc`, as the specification reads
it: defined when every character is one of `0` to `9`, `a` to `f` or `A` to `F`. -/
def specHexValue : Str → Nat → Option Nat
  | [], acc => some acc
  | c :: rest, acc =>
    if 48 ≤ c.val ∧ c.val ≤ 57 then specHexValue rest (acc * 16 + (c.val - 48))
    else if 97 ≤ c.val ∧ c.val ≤ 102 then specHexValue rest (acc * 16 + (c.val - 87))
    else if 65 ≤ c.val ∧ c.val ≤ 70 then specHexValue rest (acc * 16 + (c.val - 55))
    else none

/-- The UTF-8 byte sequence at the front of `s` as the specification has it: a one to
four byte form in shortest encoding of a codepoint up to `0x10FFFF`. The result is the
codepoint and the number of bytes, `none` when `s` does not start with such a form. -/
def specDecode (s : Str) : Option (Nat × Nat) :=
  match s with
  | [] => none
  | c :: rest =>
    if c.val ≤ 0x7F then some (c.val, 1)
    else if 0xC2 ≤ c.val ∧ c.val ≤ 0xDF then
      match rest with
      | b1 :: _ =>
        if isContinuation b1 then some ((c.val - 0xC0) * 64 + (b1.val - 0x80), 2) else none
      | _ => none
    else if 0xE0 ≤ c.val ∧ c.val ≤ 0xEF then
      match rest with
      | b1 :: b2 :: _ =>
        if isContinuation b1 && isContinuation b2 && (c.val ≠ 0xE0 || 0xA0 ≤ b1.val) then
          some ((c.val - 0xE0) * 4096 + (b1.val - 0x80) * 64 + (b2.val - 0x80), 3)
        else none
      | _ => none
    else if 0xF0 ≤ c.val ∧ c.val ≤ 0xF4 then
      match rest with
      | b1 :: b2 :: b3 :: _ =>
        if isContinuation b1 && isContinuation b2 && isContinuation b3
            && (c.val ≠ 0xF0 || 0x90 ≤ b1.val) && (c.val ≠ 0xF4 || b1.val ≤ 0x8F) then
          some ((c.val - 0xF0) * 262144 + (b1.val - 0x80) * 4096 + (b2.val - 0x80) * 64
            + (b3.val - 0x80), 4)
        else none
      | _ => none
    else none

/-- The text the specification gives for one codepoint of a String payload, `raw` being
the bytes of the codepoint in the payload: the two-character escape of the eight escaped
characters, the byte itself below `0x80`, `\u` and four lowercase hexadecimal digits up
to `0xFFFF`, the raw bytes above. -/
def specFormatCodepoint (cp : Nat) (raw : Str) : Str :=
  if cp = 92 then [92, 92]
  else if cp = 34 then [92, 34]
  else if cp = 47 then [92, 47]
  else if cp = 9 then [92, 116]
  else if cp = 13 then [92, 114]
  else if cp = 10 then [92, 110]
  else if cp = 8 then [92, 98]
  else if cp = 12 then [92, 102]
  else if cp < 0x80 then raw
  else if cp ≤ 0xFFFF then
    [92, 117, digitChar (cp / 4096), digitChar (cp / 256 % 16), digitChar (cp / 16 % 16),
      digitChar (cp % 16)]
  else raw

/-- The text the specification gives for a String payload between the quotes: the texts
of its codepoints in order; `none` when the payload is not a run of UTF-8 forms. `fuel`
bounds the number of codepoints. -/
def specFormatBody : Nat → Str → Option Str
  | 0, s => if s.isEmpty then some [] else none
  | fuel + 1, s =>
    if s.isEmpty then some []
    else
      match specDecode s with
      | none => none
      | some (cp, n) =>
        match specFormatBody fuel (s.drop n) with
        | none => none
        | some more => some (specFormatCodepoint cp (s.take n) ++ more)

/-- The bytes are a run of UTF-8 forms; `fuel` bounds their number. -/
def utf8FormsLoop : Nat → Str → Bool
  | 0, s => s.isEmpty
  | fuel + 1, s =>
    if s.isEmpty then true
    else
      match specDecode s with
      | none => false
      | some (_, n) => utf8FormsLoop fuel (s.drop n)

/-- The bytes are a run of one to four byte UTF-8 forms in shortest encoding of
codepoints up to `0x10FFFF`. -/
def utf8Forms (s : Str) : Bool := utf8FormsLoop s.length s

/-- The String payload of a node, and the keys of an Object node, are runs of UTF-8
forms. -/
def nodeUtf8Forms : Value → Bool
  | .String s => utf8Forms s
  | .Object m => m.all (fun p => utf8Forms p.1)
  | _ => true

/-- Every String payload and every Object key of the value is a run of UTF-8 forms. -/
def Value.Utf8Forms (v : Value) : Prop := v.allNodes nodeUtf8Forms = true

instance (v : Value) : Decidable v.Utf8Forms := by
  unfold Value.Utf8Forms
  infer_instance

/-- The keys of the members are runs of UTF-8 forms and so are the strings and keys of
their values. -/
def MembersForms (m : Members) : Prop :=
  ∀ q ∈ m, utf8Forms q.1 = true ∧ q.2.Utf8Forms

/-- The value of the last member with the key `key` among the members `ps`, taken in the
order of the text. -/
def lastOccurrence (key : Str) : Members → Option Value
  | [] => none
  | (k, v) :: rest =>
    match lastOccurrence key rest with
    | some w => some w
    | none => if k = key then some v else none

/-- A finite double of magnitude above `2^-1023`, that is of more than `2^51` units. -/
def Double.aboveTiny (d : Double) : Bool :=
  !d.isNaN && !d.isInf && decide (2251799813685248 < d.units)

/-- A Real node is finite and of magnitude above `2^-1023`. -/
def nodeRealAboveTiny : Value → Bool
  | .Real r => r.aboveTiny
  | _ => true

/-- Every Real of the value is finite and of magnitude above `2^-1023`. -/
def Value.RealsAboveTiny (v : Value) : Prop := v.allNodes nodeRealAboveTiny = true

instance (v : Value) : Decidable v.RealsAboveTiny := by
  unfold Value.RealsAboveTiny
  infer_instance

/-- White space from position `p` up to position `q` of the text. -/
def WhiteSpan (text : Str) (p q : Nat) : Prop :=
  p ≤ q ∧ q ≤ text.length ∧ ∀ c ∈ substr text p (q - p), isspace c = true

instance (text : Str) (p q : Nat) : Decidable (WhiteSpan text p q) := by
  unfold WhiteSpan
  infer_instance

/-- One member of an object text, read by the JSON grammar from position `p`: white
space, a string literal that `String::parse` reads as `key`, white space, a colon, a value
text that `Value::parse`, entered after the colon, reads as `value`, and white space up to
position `stop`, which is inside the text. -/
def MemberAt (text : Str) (p : Nat) (key : Str) (value : Value) (stop : Nat) : Prop :=
  ∃ p1 p2 p3 p4 : Nat,
    WhiteSpan text p p1 ∧ p1 < text.length ∧ charAt text p1 = 34 ∧
    String_parse text p1 = .ok (key, p2) ∧
    WhiteSpan text p2 p3 ∧ p3 < text.length ∧ charAt text p3 = 58 ∧
    Value.parse_at text (p3 + 1) = .ok (value, p4) ∧
    WhiteSpan text p4 stop ∧ stop < text.length

/-- The members of an object text in the order of the text, read by the JSON grammar from
position `p`, which is after the opening brace or after a comma: one member and the
closing brace, or one member, a comma and the members after it. The last position is the
one after the closing brace. -/
inductive MembersText (text : Str) : Nat → Members → Nat → Prop
  | last (p stop : Nat) (key : Str) (value : Value) :
      MemberAt text p key value stop → charAt text stop = 125 →
      MembersText text p [(key, value)] (stop + 1)
  | more (p stop q : Nat) (key : Str) (value : Value) (rest : Members) :
      MemberAt text p key value stop → charAt text stop = 44 →
      MembersText text (stop + 1) rest q →
      MembersText text p ((key, value) :: rest) q

/-- An object text at position `p` with its members in the order of the text: an opening
brace, then white space and the closing brace, or the members and the closing brace. The
last position is the one after the closing brace. -/
inductive ObjectText (text : Str) : Nat → Members → Nat → Prop
  | empty (p stop : Nat) :
      p < text.length → charAt text p = 123 → WhiteSpan text (p + 1) stop →
      stop < text.length → charAt text stop = 125 → ObjectText text p [] (stop + 1)
  | members (p q : Nat) (ps : Members) :
      p < text.length → charAt text p = 123 → MembersText text (p + 1) ps q →
      ObjectText text p ps q

/-! ## Reference renderings of the specification -/

/-- The texts `outs` joined by `,`. -/
def specJoin : List Str → Str
  | [] => []
  | [o] => o
  | o :: rest => o ++ [44] ++ specJoin rest

mutual
/-- The compact rendering of the specification: `null`, `true` or `false`, the decimal
text of an Integer, `[` the renderings of the elements joined by `,` `]`, `{` the members
as key `:` value in the order of the map joined by `,` `}`. A Real and a String are
rendered as `Real::format` and `String::format` do. -/
def specCompact : Value → Except Err Str
  | .Null => .ok [110, 117, 108, 108]
  | .Boolean b => .ok (if b then [116, 114, 117, 101] else [102, 97, 108, 115, 101])
  | .Integer i => .ok (int_to_string i)
  | .Real r => .ok (double_to_string r)
  | .String s => String_format s
  | .Array xs =>
    match specCompactList xs with
    | .error e => .error e
    | .ok outs => .ok ([91] ++ specJoin outs ++ [93])
  | .Object m =>
    match specCompactMembers m with
    | .error e => .error e
    | .ok outs => .ok ([123] ++ specJoin outs ++ [125])
/-- The compact renderings of the elements of an Array. -/
def specCompactList : List Value → Except Err (List Str)
  | [] => .ok []
  | x :: rest =>
    match specCompact x with
    | .error e => .error e
    | .ok o =>
      match specCompactList rest with
      | .error e => .error e
      | .ok os => .ok (o :: os)
/-- The compact renderings of the members of an Object, each the formatted key, `:` and
the rendering of the value. -/
def specCompactMembers : Members → Except Err (List Str)
  | [] => .ok []
  | (key, x) :: rest =>
    match String_format key with
    | .error e => .error e
    | .ok keyStr =>
      match specCompact x with
      | .error e => .error e
      | .ok o =>
        match specCompactMembers rest with
        | .error e => .error e
        | .ok os => .ok ((keyStr ++ [58] ++ o) :: os)
end

/-- The lines of a pretty-printed container: each text of `outs` after `pfx`, followed by
`,` unless it is the last, and a newline. -/
def specLines (pfx : Str) : List Str → Str
  | [] => []
  | [o] => pfx ++ o ++ [10]
  | o :: rest => pfx ++ o ++ [44, 10] ++ specLines pfx rest

mutual
/-- The pretty rendering of the specification with indent `n` at depth `d`: a scalar as
in compact mode; a container as the opening bracket and a newline, its elements or
`key:value` members rendered at depth `d + 1`, each on a line of its own after
`n * (d + 1)` spaces, then `n * d` spaces and the closing bracket. -/
def specPretty (n d : Nat) : Value → Except Err Str
  | .Null => .ok [110, 117, 108, 108]
  | .Boolean b => .ok (if b then [116, 114, 117, 101] else [102, 97, 108, 115, 101])
  | .Integer i => .ok (int_to_string i)
  | .Real r => .ok (double_to_string r)
  | .String s => String_format s
  | .Array xs =>
    match specPrettyList n d xs with
    | .error e => .error e
    | .ok outs =>
      .ok ([91, 10] ++ specLines (List.replicate (n * (d + 1)) 32) outs
        ++ List.replicate (n * d) 32 ++ [93])
  | .Object m =>
    match specPrettyMembers n d m with
    | .error e => .error e
    | .ok outs =>
      .ok ([123, 10] ++ specLines (List.replicate (n * (d + 1)) 32) outs
        ++ List.replicate (n * d) 32 ++ [125])
/-- The pretty renderings at depth `d + 1` of the elements of an Array at depth `d`. -/
def specPrettyList (n d : Nat) : List Value → Except Err (List Str)
  | [] => .ok []
  | x :: rest =>
    match specPretty n (d + 1) x with
    | .error e => .error e
    | .ok o =>
      match specPrettyList n d rest with
      | .error e => .error e
      | .ok os => .ok (o :: os)
/-- The pretty renderings at depth `d + 1` of the members of an Object at depth `d`. -/
def specPrettyMembers (n d : Nat) : Members → Except Err (List Str)
  | [] => .ok []
  | (key, x) :: rest =>
    match String_format key with
    | .error e => .error e
    | .ok keyStr =>
      match specPretty n (d + 1) x with
      | .error e => .error e
      | .ok o =>
        match specPrettyMembers n d rest with
        | .error e => .error e
        | .ok os => .ok ((keyStr ++ [58] ++ o) :: os)
end

/-- The double nearest to `0.0000001`, as the literal `1e-7` denotes it. -/
def Double.oneE7 : Double := Double.ofDecimal false 1 (-7)

/-- The double nearest to `3.14159265`. -/
def Double.pi9 : Double := Double.ofDecimal false 314159265 (-8)

/-- The double nearest to `3.14159264`. -/
def Double.pi9below : Double := Double.ofDecimal false 314159264 (-8)

/-- A document like the one `testCreate` builds, with its Reals 2.7, 0.675 and 3.14:
`{"array":[7,2.7,null],"object":{"real":0.675,"true":true},"real":3.14,"string":"test string"}`. -/
def createdValue : Value :=
  .Object [([97, 114, 114, 97, 121],
      .Array [.Integer 7, .Real ⟨false, 1024, 1576259869579674⟩, .Null]),
    ([111, 98, 106, 101, 99, 116],
      .Object [([114, 101, 97, 108], .Real ⟨false, 1022, 1576259869579674⟩),
        ([116, 114, 117, 101], .Boolean true)]),
    ([114, 101, 97, 108], .Real ⟨false, 1024, 2567051787601183⟩),
    ([115, 116, 114, 105, 110, 103],
      .String [116, 101, 115, 116, 32, 115, 116, 114, 105, 110, 103])]

/-- An Array of the Reals 2.0, 3.14, 1e-7, 0.0, -0.0, 1e23 and `2^33 + 2^-19`, the double
after `2^33`. -/
def realsValue : Value :=
  .Array [.Real ⟨false, 1024, 0⟩, .Real ⟨false, 1024, 2567051787601183⟩,
    .Real ⟨false, 999, 3052186745220936⟩, .Real ⟨false, 0, 0⟩, .Real ⟨true, 0, 0⟩,
    .Real ⟨false, 1099, 1456864850168566⟩, .Real ⟨false, 1056, 1⟩]

/-- A sample document: `{"k":[1,"é/☠😍",null,true,{}],"n":-7}`. -/
def sampleValue : Value :=
  .Object [([107], .Array [.Integer 1,
      .String [0xC3, 0xA9, 0x2F, 0xE2, 0x98, 0xA0, 0xF0, 0x9F, 0x98, 0x8D],
      .Null, .Boolean true, .Object []]),
    ([110], .Integer (-7))]


/-! # Theorems -/

/-! ## Order of keys -/

theorem strLess_irrefl (a : Str) : strLess a a = false := by
  induction a with
  | nil => rfl
  | cons x xs ih => simp [strLess, ih]

theorem strLess_asymm : ∀ (a b : Str), strLess a b = true → strLess b a = false
  | [], [], h => by simp [strLess] at h
  | [], _ :: _, _ => by simp [strLess]
  | _ :: _, [], h => by simp [strLess] at h
  | x :: xs, y :: ys, h => by
    simp only [strLess] at h ⊢
    by_cases h1 : x.val < y.val
    · have h2 : ¬ y.val < x.val := by omega
      simp [h2, h1]
    · by_cases h2 : y.val < x.val
      · simp [h1, h2] at h
      · simp only [h1, h2, if_false] at h ⊢
        exact strLess_asymm xs ys h

theorem strLess_trans : ∀ (a b c : Str), strLess a b = true → strLess b c = true →
    strLess a c = true
  | [], _, [], _, h2 => by cases ‹Str› <;> simp [strLess] at h2
  | [], _, _ :: _, _, _ => by simp [strLess]
  | _ :: _, [], _, h1, _ => by simp [strLess] at h1
  | _ :: _, _ :: _, [], _, h2 => by simp [strLess] at h2
  | x :: xs, y :: ys, z :: zs, h1, h2 => by
    simp only [strLess] at h1 h2 ⊢
    by_cases hxy : x.val < y.val
    · by_cases hyz : y.val < z.val
      · have : x.val < z.val := by omega
        simp [this]
      · by_cases hzy : z.val < y.val
        · simp [hyz, hzy] at h2
        · have : x.val < z.val := by omega
          simp [this]
    · by_cases hyx : y.val < x.val
      · simp [hxy, hyx] at h1
      · simp only [hxy, hyx, if_false] at h1
        by_cases hyz : y.val < z.val
        · have : x.val < z.val := by omega
          simp [this]
        · by_cases hzy : z.val < y.val
          · simp [hyz, hzy] at h2
          · simp only [hyz, hzy, if_false] at h2
            have e1 : ¬ x.val < z.val := by omega
            have e2 : ¬ z.val < x.val := by omega
            simp only [e1, e2, if_false]
            exact strLess_trans xs ys zs h1 h2

theorem strLess_total : ∀ (a b : Str), strLess a b = false → strLess b a = false → a = b
  | [], [], _, _ => rfl
  | [], _ :: _, h, _ => by simp [strLess] at h
  | _ :: _, [], _, h => by simp [strLess] at h
  | x :: xs, y :: ys, h1, h2 => by
    simp only [strLess] at h1 h2
    by_cases hxy : x.val < y.val
    · simp [hxy] at h1
    · by_cases hyx : y.val < x.val
      · simp [hyx] at h2
      · simp only [hxy, hyx, if_false] at h1 h2
        have hv : x = y := Fin.ext (by omega)
        rw [hv, strLess_total xs ys h1 h2]


theorem strLess_cases (a b : Str) :
    (strLess a b = true ∧ strLess b a = false) ∨ a = b ∨
    (strLess b a = true ∧ strLess a b = false) := by
  by_cases h1 : strLess a b = true
  · exact Or.inl ⟨h1, strLess_asymm _ _ h1⟩
  · by_cases h2 : strLess b a = true
    · exact Or.inr (Or.inr ⟨h2, strLess_asymm _ _ h2⟩)
    · exact Or.inr (Or.inl (strLess_total a b (by simpa using h1) (by simpa using h2)))

theorem mapAssign_comm (k1 k2 : Str) (v1 v2 : Value) (hk : k1 ≠ k2) (m : Members) :
    mapAssign k2 v2 (mapAssign k1 v1 m) = mapAssign k1 v1 (mapAssign k2 v2 m) := by
  induction m with
  | nil =>
    rcases strLess_cases k1 k2 with ⟨h1, h2⟩ | h | ⟨h1, h2⟩
    · simp [mapAssign, h1, h2]
    · exact absurd h hk
    · simp [mapAssign, h1, h2]
  | cons p rest ih =>
    obtain ⟨k, x⟩ := p
    have t1 := strLess_trans k k1 k2
    have t2 := strLess_trans k k2 k1
    have t3 := strLess_trans k1 k k2
    have t4 := strLess_trans k2 k k1
    have t5 := strLess_trans k1 k2 k
    have t6 := strLess_trans k2 k1 k
    rcases strLess_cases k k1 with ⟨a1, a2⟩ | a | ⟨a1, a2⟩ <;>
    rcases strLess_cases k k2 with ⟨b1, b2⟩ | b | ⟨b1, b2⟩ <;>
    rcases strLess_cases k1 k2 with ⟨c1, c2⟩ | c | ⟨c1, c2⟩ <;>
    first
      | exact absurd c hk
      | (subst a; subst b; exact absurd rfl hk)
      | (subst a; simp_all [mapAssign, strLess_irrefl])
      | (subst b; simp_all [mapAssign, strLess_irrefl])
      | (simp_all [mapAssign, strLess_irrefl])


/-! ## Lookups in a map -/

theorem mapIndex_of_find_some (key : Str) (m : Members) (v : Value)
    (h : mapFind key m = some v) : mapIndex key m = (m, v) := by
  induction m with
  | nil => simp [mapFind] at h
  | cons p rest ih =>
    obtain ⟨k, x⟩ := p
    simp only [mapFind] at h
    simp only [mapIndex]
    by_cases h1 : strLess k key = true
    · simp only [h1, if_true] at h ⊢
      rw [ih h]
    · by_cases h2 : strLess key k = true
      · simp [h1, h2] at h
      · simp only [h1, h2, if_false] at h ⊢
        cases h
        rfl

theorem mapIndex_snd_of_find_none (key : Str) (m : Members)
    (h : mapFind key m = none) : (mapIndex key m).2 = Value.Null := by
  induction m with
  | nil => rfl
  | cons p rest ih =>
    obtain ⟨k, x⟩ := p
    simp only [mapFind] at h
    simp only [mapIndex]
    by_cases h1 : strLess k key = true
    · simp only [h1, if_true] at h ⊢
      exact ih h
    · by_cases h2 : strLess key k = true
      · simp [h1, h2]
      · simp [h1, h2] at h

theorem mapIndex_length_of_find_none (key : Str) (m : Members)
    (h : mapFind key m = none) : (mapIndex key m).1.length = m.length + 1 := by
  induction m with
  | nil => rfl
  | cons p rest ih =>
    obtain ⟨k, x⟩ := p
    simp only [mapFind] at h
    simp only [mapIndex]
    by_cases h1 : strLess k key = true
    · simp only [h1, if_true] at h ⊢
      simp [ih h]
    · by_cases h2 : strLess key k = true
      · simp [h1, h2]
      · simp [h1, h2] at h

theorem mapFind_mapIndex_self (key : Str) (m : Members)
    (h : mapFind key m = none) : mapFind key (mapIndex key m).1 = some Value.Null := by
  induction m with
  | nil => simp [mapIndex, mapFind, strLess_irrefl]
  | cons p rest ih =>
    obtain ⟨k, x⟩ := p
    simp only [mapFind] at h
    simp only [mapIndex]
    by_cases h1 : strLess k key = true
    · simp only [h1, if_true] at h ⊢
      simp only [mapFind, h1, if_true]
      exact ih h
    · by_cases h2 : strLess key k = true
      · simp [h1, h2, mapFind, strLess_irrefl]
      · simp [h1, h2] at h

theorem mapFind_mapIndex_other (key k' : Str) (hk : k' ≠ key) (m : Members) :
    mapFind k' (mapIndex key m).1 = mapFind k' m := by
  induction m with
  | nil =>
    simp only [mapIndex, mapFind]
    by_cases h1 : strLess key k' = true
    · simp [h1]
    · by_cases h2 : strLess k' key = true
      · simp [h1, h2]
      · exact absurd (strLess_total k' key (by simpa using h2) (by simpa using h1)) hk
  | cons p rest ih =>
    obtain ⟨k, x⟩ := p
    simp only [mapIndex]
    by_cases h1 : strLess k key = true
    · simp only [h1, if_true, mapFind, ih]
    · by_cases h2 : strLess key k = true
      · simp only [h1, h2, if_true, if_false]
        by_cases h3 : strLess key k' = true
        · simp only [mapFind, h3, if_true]
        · by_cases h4 : strLess k' key = true
          · have h5 : strLess k' k = true := strLess_trans _ _ _ h4 h2
            have h6 : strLess k k' = false := strLess_asymm _ _ h5
            simp [mapFind, h3, h4, h5, h6]
          · exact absurd (strLess_total k' key (by simpa using h4) (by simpa using h3)) hk
      · simp [h1, h2]

/-! ## The loop of `Array::get` -/

theorem Array_get_loop_eq (index : Nat) : ∀ (n : Nat) (xs : List Value),
    n = index + 1 - xs.length →
    Array_get_loop index n xs = xs ++ List.replicate n Value.Null
  | 0, xs, _ => by simp [Array_get_loop]
  | n + 1, xs, h => by
    have h1 : index ≥ xs.length := by omega
    simp only [Array_get_loop, h1, if_true]
    rw [Array_get_loop_eq index n (xs ++ [Value.Null]) (by simp; omega)]
    simp [List.replicate_succ]

theorem Array_get_fst (xs : List Value) (index : Nat) :
    (Array_get xs index).1 = xs ++ List.replicate (index + 1 - xs.length) Value.Null := by
  simp only [Array_get]
  exact Array_get_loop_eq index _ xs rfl

/-- C9. The mutable `get(key)` of an Object: a present key gives the stored value and
leaves the Object as it is; an absent key is inserted bound to Null, after which
`has(key)` holds, `count()` is one more, the returned value is Null and the lookup
of every other key is unchanged. -/
theorem get_key_default_insert (m : Members) (key : Str) :
    (∀ v, mapFind key m = some v →
      (Value.Object m).has key = .ok true ∧
      Value.get_key (.Object m) key = .ok (.Object m, v)) ∧
    (mapFind key m = none →
      (Value.Object m).has key = .ok false ∧
      ∃ m', Value.get_key (.Object m) key = .ok (.Object m', .Null) ∧
        (Value.Object m').has key = .ok true ∧
        (Value.Object m).count = .ok m.length ∧
        (Value.Object m').count = .ok (m.length + 1) ∧
        ∀ k', k' ≠ key → mapFind k' m' = mapFind k' m) := by
  refine ⟨fun v h => ⟨?_, ?_⟩, fun h => ⟨?_, (mapIndex key m).1, ?_, ?_, rfl, ?_, ?_⟩⟩
  · simp [Value.has, Object_has, h]
  · simp [Value.get_key, Object_get, mapIndex_of_find_some key m v h]
  · simp [Value.has, Object_has, h]
  · simp only [Value.get_key, Object_get]
    rw [mapIndex_snd_of_find_none key m h]
  · simp [Value.has, Object_has, mapFind_mapIndex_self key m h]
  · simp [Value.count, Object_count, mapIndex_length_of_find_none key m h]
  · intro k' hk
    exact mapFind_mapIndex_other key k' hk m

/-- C10. The mutable `get(index)` of an Array of length `n`: the length becomes
`max n (index + 1)`, the first `n` elements are unchanged, the elements added at the
positions `n..index` are Null, and the returned element is the one at `index`; on the
empty Array `get(4)` leaves five Nulls. -/
theorem get_index_auto_extend (xs : List Value) (index : Nat) :
    (∃ ys r, Value.get_index (.Array xs) index = .ok (.Array ys, r) ∧
      ys.length = max xs.length (index + 1) ∧
      ys.take xs.length = xs ∧
      (∀ j, xs.length ≤ j → j ≤ index → ys[j]? = some Value.Null) ∧
      ys[index]? = some r) ∧
    Value.get_index (.Array []) 4 =
      .ok (.Array [.Null, .Null, .Null, .Null, .Null], .Null) := by
  refine ⟨⟨(Array_get xs index).1, (Array_get xs index).2, rfl, ?_, ?_, ?_, ?_⟩, rfl⟩
  · rw [Array_get_fst]
    simp only [List.length_append, List.length_replicate]
    omega
  · rw [Array_get_fst]
    simp
  · intro j h1 h2
    rw [Array_get_fst, List.getElem?_append_right h1]
    rw [List.getElem?_replicate]
    simp
    omega
  · have hlen : index < (Array_get xs index).1.length := by
      rw [Array_get_fst]
      simp only [List.length_append, List.length_replicate]
      omega
    show (Array_get xs index).1[index]? = some ((Array_get xs index).1.getD index Value.Null)
    rw [List.getD_eq_getElem?_getD, List.getElem?_eq_getElem hlen]
    rfl


/-- C7. The typed getters are kind-checked: on a Value of the matching kind each of
`boolean()`, `integer()`, `real()`, `string()` returns the stored payload; on Null it
returns `false`, `0`, `0.0`, the empty string; on every other kind (an Integer for
`real()`, a Real for `integer()`, an Array or an Object for all four) it fails with the
wrong-type `domain_error`. -/
theorem getters_kind_checked :
    (∀ b, (Value.Boolean b).boolean = .ok b) ∧
    (∀ i, (Value.Integer i).integer = .ok i) ∧
    (∀ r, (Value.Real r).real = .ok r) ∧
    (∀ s, (Value.String s).string = .ok s) ∧
    (Value.Null.boolean = .ok false ∧ Value.Null.integer = .ok 0 ∧
      Value.Null.real = .ok Double.zero ∧ Value.Null.string = .ok []) ∧
    (∀ v : Value, v.getType ≠ .Null →
      (v.getType ≠ .Boolean → v.boolean = .error .domain_error) ∧
      (v.getType ≠ .Integer → v.integer = .error .domain_error) ∧
      (v.getType ≠ .Real → v.real = .error .domain_error) ∧
      (v.getType ≠ .String → v.string = .error .domain_error)) ∧
    (∀ i, (Value.Integer i).real = .error .domain_error) ∧
    (∀ r, (Value.Real r).integer = .error .domain_error) ∧
    (∀ xs, (Value.Array xs).boolean = .error .domain_error ∧
      (Value.Array xs).integer = .error .domain_error ∧
      (Value.Array xs).real = .error .domain_error ∧
      (Value.Array xs).string = .error .domain_error) ∧
    (∀ m, (Value.Object m).boolean = .error .domain_error ∧
      (Value.Object m).integer = .error .domain_error ∧
      (Value.Object m).real = .error .domain_error ∧
      (Value.Object m).string = .error .domain_error) := by
  refine ⟨fun _ => rfl, fun _ => rfl, fun _ => rfl, fun _ => rfl, ⟨rfl, rfl, rfl, rfl⟩, ?_,
    fun _ => rfl, fun _ => rfl, fun _ => ⟨rfl, rfl, rfl, rfl⟩, fun _ => ⟨rfl, rfl, rfl, rfl⟩⟩
  intro v hn
  cases v <;> simp [Value.getType] at hn ⊢ <;>
    simp [Value.boolean, Value.integer, Value.real, Value.string]

/-- C8, as the code has it. The read-only `get(key)` on an Object that lacks the key and
the read-only `get(index)` on an Array with `index >= count()` do not fail: there is
no key-not-found or index-out-of-range error, the call returns a Null value. -/
theorem get_const_missing_returns_null :
    (∀ (m : Members) (key : Str), (Value.Object m).has key = .ok false →
      ∃ o, Value.get_key_const (.Object m) key = .ok (o, .Null)) ∧
    (∀ (xs : List Value) (index : Nat), index ≥ xs.length →
      ∃ a, Value.get_index_const (.Array xs) index = .ok (a, .Null)) := by
  constructor
  · intro m key h
    have hf : mapFind key m = none := by
      simpa [Value.has, Object_has] using h
    refine ⟨.Object (mapIndex key m).1, ?_⟩
    simp only [Value.get_key_const, Object_get]
    rw [mapIndex_snd_of_find_none key m hf]
  · intro xs index h
    refine ⟨.Array (Array_get xs index).1, ?_⟩
    have h2 : (Array_get xs index).2 = Value.Null := by
      show (Array_get xs index).1.getD index Value.Null = Value.Null
      rw [Array_get_fst, List.getD_eq_getElem?_getD, List.getElem?_append_right h,
        List.getElem?_replicate]
      split <;> rfl
    simp only [Value.get_index_const]
    rw [h2]

/-- C8 fails as stated. On the empty Object the read-only `get("k")` succeeds and the
Object then has the key `k`; on the empty Array the read-only `get(0)` succeeds and the
Array then has one element. -/
theorem get_const_creates_entries :
    Value.get_key_const Value.object [107] = .ok (.Object [([107], .Null)], .Null) ∧
    (Value.Object [([107], .Null)]).has [107] = .ok true ∧
    Value.get_index_const Value.array 0 = .ok (.Array [.Null], .Null) ∧
    (Value.Array [.Null]).count = .ok 1 := by
  exact ⟨rfl, rfl, rfl, rfl⟩


theorem mapFind_none_of_lt_all (k : Str) (m : Members)
    (h : ∀ p ∈ m, strLess k p.1 = true) : mapFind k m = none := by
  cases m with
  | nil => rfl
  | cons p rest =>
    obtain ⟨k', x⟩ := p
    have h1 : strLess k k' = true := h (k', x) (List.mem_cons_self _ _)
    have h2 : strLess k' k = false := strLess_asymm _ _ h1
    simp [mapFind, h1, h2]

theorem mapFind_head (k : Str) (x : Value) (rest : Members) :
    mapFind k ((k, x) :: rest) = some x := by
  simp [mapFind, strLess_irrefl]

theorem members_ext : ∀ (m1 m2 : Members), KeysAscending m1 → KeysAscending m2 →
    (∀ k, mapFind k m1 = mapFind k m2) → m1 = m2
  | [], [], _, _, _ => rfl
  | [], (k2, x2) :: r2, _, _, h => by
    have := h k2
    rw [mapFind_head] at this
    simp [mapFind] at this
  | (k1, x1) :: r1, [], _, _, h => by
    have := h k1
    rw [mapFind_head] at this
    simp [mapFind] at this
  | (k1, x1) :: r1, (k2, x2) :: r2, s1, s2, h => by
    have s1' := List.pairwise_cons.mp s1
    have s2' := List.pairwise_cons.mp s2
    rcases strLess_cases k1 k2 with ⟨a1, a2⟩ | a | ⟨a1, a2⟩
    · have := h k1
      rw [mapFind_head] at this
      simp [mapFind, a1, a2] at this
    · subst a
      have hx := h k1
      rw [mapFind_head, mapFind_head] at hx
      cases hx
      have htail : ∀ k, mapFind k r1 = mapFind k r2 := by
        intro k
        by_cases hk : strLess k1 k = true
        · have := h k
          simpa [mapFind, hk] using this
        · have hlt : ∀ (r : Members), (∀ p ∈ r, strLess k1 p.1 = true) →
              ∀ p ∈ r, strLess k p.1 = true := by
            intro r hr p hp
            rcases strLess_cases k k1 with ⟨b1, _⟩ | b | ⟨b1, _⟩
            · exact strLess_trans _ _ _ b1 (hr p hp)
            · subst b; exact hr p hp
            · exact absurd b1 hk
          rw [mapFind_none_of_lt_all k r1 (hlt r1 s1'.1),
            mapFind_none_of_lt_all k r2 (hlt r2 s2'.1)]
      rw [members_ext r1 r2 s1'.2 s2'.2 htail]
    · have := h k2
      rw [mapFind_head] at this
      simp [mapFind, a1, a2] at this

/-- C4. Key-order determinism: for distinct keys, `set(k1, v1)` then `set(k2, v2)` on an
Object gives the same Object as `set(k2, v2)` then `set(k1, v1)`, so the two format
to the same text for every indent and depth; and two Objects with the same key-to-value
mapping format to the same text whatever the order their keys were set in. -/
theorem set_order_independent (m : Members) (k1 k2 : Str) (v1 v2 : Value) (hk : k1 ≠ k2) :
    (∃ o1 o2 o12 o21,
      (Value.Object m).set k1 v1 = .ok o1 ∧ o1.set k2 v2 = .ok o12 ∧
      (Value.Object m).set k2 v2 = .ok o2 ∧ o2.set k1 v1 = .ok o21 ∧
      o12 = o21 ∧
      ∀ indent indentLevel : Int, o12.format indent indentLevel = o21.format indent indentLevel) ∧
    (∀ m1 m2 : Members, KeysAscending m1 → KeysAscending m2 →
      (∀ k, mapFind k m1 = mapFind k m2) →
      ∀ indent indentLevel : Int,
        (Value.Object m1).format indent indentLevel =
          (Value.Object m2).format indent indentLevel) := by
  constructor
  · refine ⟨_, _, _, _, rfl, rfl, rfl, rfl, ?_, ?_⟩
    · simp only [Object_set]
      rw [mapAssign_comm k1 k2 v1 v2 hk m]
    · intro indent indentLevel
      simp only [Object_set]
      rw [mapAssign_comm k1 k2 v1 v2 hk m]
  · intro m1 m2 s1 s2 h indent indentLevel
    rw [members_ext m1 m2 s1 s2 h]

/-- C4 at an Object holding `"b"`, with the keys `"a"` and `"c"` set in either order. -/
theorem set_order_independent_witness :
    ([97] : Str) ≠ [99] ∧
    (Value.Object [([98], .Null)]).set [97] (.Integer 1) =
      .ok (.Object [([97], .Integer 1), ([98], .Null)]) ∧
    ∃ o1 o2 o12 o21,
      (Value.Object [([98], .Null)]).set [97] (.Integer 1) = .ok o1 ∧
      o1.set [99] (.Boolean true) = .ok o12 ∧
      (Value.Object [([98], .Null)]).set [99] (.Boolean true) = .ok o2 ∧
      o2.set [97] (.Integer 1) = .ok o21 ∧
      o12 = o21 ∧
      ∀ indent indentLevel : Int, o12.format indent indentLevel = o21.format indent indentLevel :=
  ⟨by decide, rfl,
    (set_order_independent [([98], .Null)] [97] [99] (.Integer 1) (.Boolean true) (by decide)).1⟩


theorem Value_eq_comm (a b : Value) : Value.eq a b = Value.eq b a := by
  rw [Value.eq, Value.eq]
  cases a <;> cases b <;> simp [Value.isNull, Bool.and_comm]

theorem vector_equals_iff : ∀ (xs ys : List Value),
    vector_equals xs ys = true ↔ List.Forall₂ (fun x y => Value.eq x y = true) xs ys
  | [], [] => by simp [vector_equals]
  | [], _ :: _ => by simp [vector_equals]
  | _ :: _, [] => by simp [vector_equals]
  | x :: xs, y :: ys => by
    rw [vector_equals]
    simp [vector_equals_iff xs ys]

theorem map_equals_iff : ∀ (xs ys : Members),
    map_equals xs ys = true ↔
      List.Forall₂ (fun p q => p.1 = q.1 ∧ Value.eq p.2 q.2 = true) xs ys
  | [], [] => by simp [map_equals]
  | [], _ :: _ => by simp [map_equals]
  | _ :: _, [] => by simp [map_equals]
  | (k1, x) :: xs, (k2, y) :: ys => by
    rw [map_equals]
    simp [map_equals_iff xs ys, and_assoc]

theorem Value_eq_array (xs ys : List Value) :
    Value.eq (.Array xs) (.Array ys) = true ↔
      List.Forall₂ (fun x y => Value.eq x y = true) xs ys := by
  rw [Value.eq]
  simp only [Value.isNull, Instance_equals]
  simp only [Bool.false_and, Bool.false_eq_true, if_false, bne_self_eq_false, Bool.and_eq_true,
    vector_equals_iff]
  constructor
  · exact fun h => h.1
  · intro h
    refine ⟨h, ?_⟩
    have := h.flip
    exact this.imp (fun {a b} hab => by rw [Value_eq_comm]; exact hab)

theorem Value_eq_object (xs ys : Members) :
    Value.eq (.Object xs) (.Object ys) = true ↔
      List.Forall₂ (fun p q => p.1 = q.1 ∧ Value.eq p.2 q.2 = true) xs ys := by
  rw [Value.eq]
  simp only [Value.isNull, Instance_equals]
  simp only [Bool.false_and, Bool.false_eq_true, if_false, bne_self_eq_false, Bool.and_eq_true,
    map_equals_iff]
  constructor
  · exact fun h => h.1
  · intro h
    refine ⟨h, ?_⟩
    have := h.flip
    exact this.imp (fun {a b} hab => ⟨hab.1.symm, by rw [Value_eq_comm]; exact hab.2⟩)

theorem Value_eq_of_type_ne (a b : Value) (h : a.getType ≠ b.getType) :
    Value.eq a b = false := by
  rw [Value.eq]
  cases a <;> cases b <;> simp [Value.getType] at h <;>
    simp [Value.isNull, Instance_equals]

/-- C5. Structural equality is deep and kind-sensitive. `a == b` holds for two Nulls;
it never holds for values of different kinds (Integer 1 and Real 1.0, Null and the
empty Array, the empty Array and the empty Object); on two Booleans, Integers or
Strings it holds iff the payloads are equal; on two Arrays iff they have the same
length and `==` elements at every index; on two Objects iff they have the same keys
and `==` values at every position (two Reals are compared by `Real::equals`, the
subject of C6); and `a != b` is the negation of `a == b`. -/
theorem eq_deep_kind_sensitive :
    Value.eq .Null .Null = true ∧
    (∀ a b : Value, a.getType ≠ b.getType → Value.eq a b = false) ∧
    (∀ x y : Bool, Value.eq (.Boolean x) (.Boolean y) = true ↔ x = y) ∧
    (∀ x y : Int, Value.eq (.Integer x) (.Integer y) = true ↔ x = y) ∧
    (∀ x y : Str, Value.eq (.String x) (.String y) = true ↔ x = y) ∧
    (∀ xs ys : List Value, Value.eq (.Array xs) (.Array ys) = true ↔
      (xs.length = ys.length ∧
        ∀ (i : Nat) (h1 : i < xs.length) (h2 : i < ys.length),
          Value.eq (xs.get ⟨i, h1⟩) (ys.get ⟨i, h2⟩) = true)) ∧
    (∀ m1 m2 : Members, Value.eq (.Object m1) (.Object m2) = true ↔
      (Object_keys m1 = Object_keys m2 ∧ m1.length = m2.length ∧
        ∀ (i : Nat) (h1 : i < m1.length) (h2 : i < m2.length),
          Value.eq (m1.get ⟨i, h1⟩).2 (m2.get ⟨i, h2⟩).2 = true)) ∧
    (∀ x y : Double, Value.eq (.Real x) (.Real y) = (Real_equals x y && Real_equals y x)) ∧
    (∀ a b : Value, Value.ne a b = !(Value.eq a b)) ∧
    Value.eq (.Integer 1) (.Real Double.one) = false ∧
    Value.eq .Null (.Array []) = false ∧
    Value.eq (.Array []) (.Object []) = false := by
  refine ⟨?_, Value_eq_of_type_ne, ?_, ?_, ?_, ?_, ?_, ?_, fun _ _ => rfl, ?_, ?_, ?_⟩
  · rw [Value.eq]; rfl
  · intro x y
    rw [Value.eq]
    simp only [Value.isNull, Instance_equals, Bool.false_and, Bool.false_eq_true, if_false,
      bne_self_eq_false, Bool.and_eq_true, beq_iff_eq]
    exact ⟨fun h => h.1, fun h => ⟨h, h.symm⟩⟩
  · intro x y
    rw [Value.eq]
    simp only [Value.isNull, Instance_equals, Bool.false_and, Bool.false_eq_true, if_false,
      bne_self_eq_false, Bool.and_eq_true, beq_iff_eq]
    exact ⟨fun h => h.1, fun h => ⟨h, h.symm⟩⟩
  · intro x y
    rw [Value.eq]
    simp only [Value.isNull, Instance_equals, Bool.false_and, Bool.false_eq_true, if_false,
      bne_self_eq_false, Bool.and_eq_true, beq_iff_eq]
    exact ⟨fun h => h.1, fun h => ⟨h, h.symm⟩⟩
  · intro xs ys
    rw [Value_eq_array, List.forall₂_iff_get]
  · intro m1 m2
    rw [Value_eq_object, List.forall₂_iff_get]
    constructor
    · rintro ⟨hl, h⟩
      refine ⟨?_, hl, fun i h1 h2 => (h i h1 h2).2⟩
      apply List.ext_get
      · simp [Object_keys, hl]
      · intro n h1 h2
        simp only [Object_keys, List.get_eq_getElem, List.getElem_map]
        simp only [Object_keys, List.length_map] at h1 h2
        exact (h n h1 h2).1
    · rintro ⟨hk, hl, h⟩
      refine ⟨hl, fun i h1 h2 => ⟨?_, h i h1 h2⟩⟩
      have := congrArg (fun l => l[i]?) hk
      simp only [Object_keys, List.getElem?_map] at this
      rw [List.getElem?_eq_getElem h1, List.getElem?_eq_getElem h2] at this
      simpa using this
  · intro x y
    rw [Value.eq]
    simp [Value.isNull, Instance_equals]
  · exact Value_eq_of_type_ne _ _ (by decide)
  · exact Value_eq_of_type_ne _ _ (by decide)
  · exact Value_eq_of_type_ne _ _ (by decide)


/-! ## Reading a text at an offset -/

theorem charAt_of_drop {text : Str} {i : Nat} {c : Byte} {t : Str}
    (h : text.drop i = c :: t) : charAt text i = c := by
  have hlt : i < text.length := by
    by_contra hn
    rw [List.drop_eq_nil_of_le (by omega)] at h
    cases h
  have := List.drop_eq_getElem_cons hlt
  rw [this] at h
  simp only [charAt, List.getD_eq_getElem?_getD, List.getElem?_eq_getElem hlt]
  exact (List.cons.inj h).1

theorem lt_length_of_drop {text : Str} {i : Nat} {c : Byte} {t : Str}
    (h : text.drop i = c :: t) : i < text.length := by
  by_contra hn
  rw [List.drop_eq_nil_of_le (by omega)] at h
  cases h

theorem drop_add_of_drop {text : Str} {i : Nat} {a b : Str}
    (h : text.drop i = a ++ b) : text.drop (i + a.length) = b := by
  rw [← List.drop_drop, h, List.drop_left]

theorem drop_succ_of_drop {text : Str} {i : Nat} {c : Byte} {t : Str}
    (h : text.drop i = c :: t) : text.drop (i + 1) = t :=
  drop_add_of_drop (a := [c]) h

theorem substr_of_drop {text : Str} {i : Nat} {a b : Str}
    (h : text.drop i = a ++ b) : substr text i a.length = a := by
  simp [substr, h]

theorem length_of_drop {text : Str} {i : Nat} {a : Str}
    (h : text.drop i = a) : a.length = text.length - i := by
  rw [← h, List.length_drop]

theorem charAt_end (text : Str) : charAt text text.length = 0 := by
  simp [charAt, List.getD_eq_getElem?_getD]

theorem charAt_of_drop_nil {text : Str} {i : Nat} (hi : i ≤ text.length)
    (h : text.drop i = []) : charAt text i = 0 := by
  have := length_of_drop h
  have : i = text.length := by simp at this; omega
  rw [this]
  exact charAt_end text

/-! ## Skipping white space -/

theorem skipWhitespace_loop_eq (text : Str) : ∀ (ws : Str) (fuel offset : Nat) (rest : Str),
    text.drop offset = ws ++ rest → (∀ c ∈ ws, isspace c = true) →
    (∀ c t, rest = c :: t → isspace c = false) → ws.length ≤ fuel →
    skipWhitespace_loop text fuel offset = offset + ws.length
  | [], fuel, offset, rest, h, _, hr, _ => by
    cases fuel with
    | zero => rfl
    | succ f =>
      simp only [skipWhitespace_loop]
      cases rest with
      | nil =>
        have hl := length_of_drop h
        simp only [List.append_nil, List.length_nil] at hl
        have : ¬ offset < text.length := by omega
        simp [this]
      | cons c t =>
        simp only [List.nil_append] at h
        simp [charAt_of_drop h, hr c t rfl]
  | w :: ws, fuel, offset, rest, h, hw, hr, hf => by
    cases fuel with
    | zero => simp at hf
    | succ f =>
      have h' : text.drop offset = w :: (ws ++ rest) := h
      simp only [skipWhitespace_loop, lt_length_of_drop h', charAt_of_drop h',
        hw w (List.mem_cons_self _ _), decide_True, Bool.and_self, if_true]
      rw [skipWhitespace_loop_eq text ws f (offset + 1) rest (drop_succ_of_drop h')
        (fun c hc => hw c (List.mem_cons_of_mem _ hc)) hr (by simpa using hf)]
      simp only [List.length_cons]
      omega

theorem skipWhitespace_eq {text : Str} {offset : Nat} (ws rest : Str)
    (h : text.drop offset = ws ++ rest) (hw : ∀ c ∈ ws, isspace c = true)
    (hr : ∀ c t, rest = c :: t → isspace c = false) :
    Value.skipWhitespace text offset = offset + ws.length := by
  unfold Value.skipWhitespace
  apply skipWhitespace_loop_eq text ws _ offset rest h hw hr
  have := length_of_drop h
  simp only [List.length_append] at this
  omega

theorem skipWhitespace_none {text : Str} {offset : Nat} {c : Byte} {t : Str}
    (h : text.drop offset = c :: t) (hc : isspace c = false) :
    Value.skipWhitespace text offset = offset := by
  have := @skipWhitespace_eq text offset [] (c :: t) h (by simp)
    (by intro c' t' e; cases e; exact hc)
  simpa using this


/-! ## Decimal and hexadecimal digits -/

theorem digitValue_digitChar_dec : ∀ d, d < 10 → digitValue 10 (digitChar d) = some d := by
  decide

theorem digitValue_digitChar_hex : ∀ d, d < 16 → digitValue 16 (digitChar d) = some d := by
  decide

theorem digitChar_dec_val : ∀ d, d < 10 → (digitChar d).val = 48 + d := by
  decide

theorem takeDigits_nil (base a k : Nat) : takeDigits base [] a k = (a, k) := rfl

theorem takeDigits_digit (base : Nat) (c : Byte) (d : Nat) (rest : Str) (a k : Nat)
    (h : digitValue base c = some d) :
    takeDigits base (c :: rest) a k = takeDigits base rest (a * base + d) (k + 1) := by
  simp [takeDigits, h]

theorem digitsLoop_reads (base : Nat) (hb : 2 ≤ base)
    (hd : ∀ d, d < base → digitValue base (digitChar d) = some d) :
    ∀ (fuel n : Nat) (acc : Str), n < fuel →
      ∃ ds, digitsLoop base fuel n acc = ds ++ acc ∧ ReadsAs base ds n ∧ ds ≠ [] ∧
        (∀ c ∈ ds, ∃ d, d < base ∧ c = digitChar d) ∧
        (ds.length = 1 ∨ base ^ (ds.length - 1) ≤ n)
  | 0, n, acc, h => by omega
  | fuel + 1, n, acc, h => by
    simp only [digitsLoop]
    by_cases hn : n < base
    · simp only [hn, if_true]
      refine ⟨[digitChar n], rfl, ?_, by simp, ?_, Or.inl rfl⟩
      · intro a k rest
        simp only [List.singleton_append, List.length_singleton, pow_one]
        exact takeDigits_digit base _ n rest a k (hd n hn)
      · intro c hc
        simp only [List.mem_singleton] at hc
        exact ⟨n, hn, hc⟩
    · simp only [hn, if_false]
      have hlt : n / base < fuel := by
        have : n / base < n := Nat.div_lt_self (by omega) (by omega)
        omega
      obtain ⟨ds, h1, h2, h3, h4, h5⟩ :=
        digitsLoop_reads base hb hd fuel (n / base) (digitChar (n % base) :: acc) hlt
      refine ⟨ds ++ [digitChar (n % base)], by simp [h1], ?_, by simp, ?_, ?_⟩
      · intro a k rest
        have hmod : n % base < base := Nat.mod_lt _ (by omega)
        rw [List.append_assoc, h2 a k, List.singleton_append,
          takeDigits_digit base _ (n % base) rest _ _ (hd _ hmod)]
        have e : (a * base ^ ds.length + n / base) * base + n % base
            = a * base ^ (ds ++ [digitChar (n % base)]).length + n := by
          have := Nat.div_add_mod n base
          simp only [List.length_append, List.length_singleton, pow_succ]
          nlinarith [Nat.div_add_mod n base]
        rw [e]
        simp [Nat.add_assoc]
      · intro c hc
        simp only [List.mem_append, List.mem_singleton] at hc
        rcases hc with hc | hc
        · exact h4 c hc
        · exact ⟨n % base, Nat.mod_lt _ (by omega), hc⟩
      · right
        simp only [List.length_append, List.length_singleton, Nat.add_sub_cancel]
        have hmul : n / base * base ≤ n := Nat.div_mul_le_self n base
        rcases h5 with h5 | h5
        · rw [h5, pow_one]
          omega
        · have hpos : 0 < ds.length := List.length_pos.mpr h3
          have e : base ^ ds.length = base ^ (ds.length - 1) * base := by
            rw [← pow_succ]
            congr 1
            omega
          rw [e]
          exact Nat.le_trans (Nat.mul_le_mul_right base h5) hmul

theorem natToString_reads (n : Nat) :
    ReadsAs 10 (natToString n) n ∧ natToString n ≠ [] ∧
      (∀ c ∈ natToString n, ∃ d, d < 10 ∧ c = digitChar d) := by
  obtain ⟨ds, h1, h2, h3, h4, _⟩ :=
    digitsLoop_reads 10 (by omega) digitValue_digitChar_dec (n + 1) n [] (by omega)
  simp only [List.append_nil] at h1
  unfold natToString
  rw [h1]
  exact ⟨h2, h3, h4⟩

theorem readsAs_zero_cons (base : Nat) (hz : digitValue base 48 = some 0) (ds : Str) (n : Nat)
    (h : ReadsAs base ds n) : ReadsAs base (48 :: ds) n := by
  intro a k rest
  rw [List.cons_append, takeDigits_digit base 48 0 _ a k hz, h]
  simp only [List.length_cons, pow_succ]
  congr 1
  · ring
  · omega

theorem readsAs_zero_replicate (base : Nat) (hz : digitValue base 48 = some 0) (ds : Str)
    (n : Nat) (h : ReadsAs base ds n) : ∀ k, ReadsAs base (List.replicate k 48 ++ ds) n
  | 0 => by simpa using h
  | k + 1 => by
    rw [List.replicate_succ, List.cons_append]
    exact readsAs_zero_cons base hz _ n (readsAs_zero_replicate base hz ds n h k)

theorem hex_setw4_reads (cp : Nat) (h : cp < 65536) :
    (hex_setw4 cp).length = 4 ∧ ReadsAs 16 (hex_setw4 cp) cp ∧
      (∀ c ∈ hex_setw4 cp, ∃ d, d < 16 ∧ c = digitChar d) := by
  obtain ⟨ds, h1, h2, h3, h4, h5⟩ :=
    digitsLoop_reads 16 (by omega) digitValue_digitChar_hex (cp + 1) cp [] (by omega)
  simp only [List.append_nil] at h1
  have hlen : ds.length ≤ 4 := by
    rcases h5 with h5 | h5
    · omega
    · by_contra hc
      have : 16 ^ 4 ≤ 16 ^ (ds.length - 1) := Nat.pow_le_pow_right (by omega) (by omega)
      have : (16 : Nat) ^ 4 = 65536 := by norm_num
      omega
  unfold hex_setw4
  simp only [h1]
  refine ⟨?_, readsAs_zero_replicate 16 (by decide) ds cp h2 _, ?_⟩
  · simp only [List.length_append, List.length_replicate]
    omega
  · intro c hc
    rcases List.mem_append.mp hc with hc | hc
    · rw [List.eq_of_mem_replicate hc]
      exact ⟨0, by omega, by decide⟩
    · exact h4 c hc

theorem digitChar_hex_facts : ∀ d, d < 16 →
    isspace (digitChar d) = false ∧ digitChar d ≠ 45 ∧ digitChar d ≠ 43 ∧
    digitChar d ≠ 120 ∧ digitChar d ≠ 88 ∧ digitChar d ≠ 123 := by
  decide

theorem stol16_hex4 (s : Str) (n : Nat) (hlen : s.length = 4) (hread : ReadsAs 16 s n)
    (hdig : ∀ c ∈ s, ∃ d, d < 16 ∧ c = digitChar d) (hn : n < 65536) :
    stol16 s = .ok ((n : Int), 4) := by
  match s, hlen with
  | [c0, c1, c2, c3], _ =>
    obtain ⟨d0, hd0, e0⟩ := hdig c0 (by simp)
    obtain ⟨d1, hd1, e1⟩ := hdig c1 (by simp)
    obtain ⟨f1, f2, f3, _, _, _⟩ := digitChar_hex_facts d0 hd0
    obtain ⟨_, _, _, g4, g5, _⟩ := digitChar_hex_facts d1 hd1
    have hr0 := hread 0 0 []
    simp only [List.append_nil, Nat.zero_mul, Nat.zero_add, takeDigits_nil] at hr0
    rw [← e0] at f1 f2 f3
    rw [← e1] at g4 g5
    unfold stol16
    have hs : countSpaces [c0, c1, c2, c3] = 0 := by simp [countSpaces, f1]
    have hsign : takeSign [c0, c1, c2, c3] = (false, 0) := by simp [takeSign, f2, f3]
    simp only [hs, List.drop_zero, hsign, Nat.zero_add, g4, g5, decide_False, Bool.or_self,
      Bool.and_false, Bool.false_and, Bool.false_eq_true, if_false, hr0, List.length_cons,
      List.length_nil]
    simp only [List.length_cons, List.length_nil] at hr0
    simp
    omega


theorem digitChar_dec_facts : ∀ d, d < 10 →
    isspace (digitChar d) = false ∧ isIntegerChar (digitChar d) = true ∧
    isRealChar (digitChar d) = false ∧ digitChar d ≠ 45 ∧ digitChar d ≠ 43 := by
  decide

theorem stoll_int_to_string (i : Int)
    (hr : -9223372036854775808 ≤ i ∧ i ≤ 9223372036854775807) :
    stoll (int_to_string i) = .ok (i, (int_to_string i).length) := by
  obtain ⟨hread, hne, hdig⟩ := natToString_reads i.natAbs
  obtain ⟨c, t, hct⟩ := List.exists_cons_of_ne_nil hne
  obtain ⟨d, hd, hcd⟩ := hdig c (by rw [hct]; exact List.mem_cons_self _ _)
  obtain ⟨f1, _, _, f4, f5⟩ := digitChar_dec_facts d hd
  have hr0 := hread 0 0 []
  simp only [List.append_nil, Nat.zero_mul, Nat.zero_add, takeDigits_nil] at hr0
  have hlen : (natToString i.natAbs).length ≠ 0 := by
    rw [hct]; simp
  unfold stoll int_to_string
  by_cases hneg : i < 0
  · simp only [hneg, if_true]
    have hsp : isspace (45 : Byte) = false := by decide
    have hs : countSpaces ((45 : Byte) :: natToString i.natAbs) = 0 := by
      simp [countSpaces, hsp]
    simp only [hs, List.drop_zero, takeSign, if_true, Nat.zero_add, List.drop_succ_cons, hr0]
    simp only [hlen, if_false]
    have hv : (-(i.natAbs : Int)) = i := by omega
    simp only [hv]
    have : ¬ (i < -9223372036854775808 ∨ i > 9223372036854775807) := by omega
    simp [this]
    omega
  · simp only [hneg, if_false]
    have hs : countSpaces (natToString i.natAbs) = 0 := by
      rw [hct, hcd]
      simp [countSpaces, f1]
    have hsign : takeSign (natToString i.natAbs) = (false, 0) := by
      rw [hct, hcd]
      simp [takeSign, f4, f5]
    simp only [hs, List.drop_zero, hsign, Nat.zero_add, hr0]
    simp only [hlen, if_false]
    have hv : ((i.natAbs : Nat) : Int) = i := by omega
    simp only [Bool.false_eq_true, if_false, hv]
    have : ¬ (i < -9223372036854775808 ∨ i > 9223372036854775807) := by omega
    simp [this]

theorem int_to_string_chars (i : Int) :
    int_to_string i ≠ [] ∧ (∀ c ∈ int_to_string i, isIntegerChar c = true) := by
  obtain ⟨_, hne, hdig⟩ := natToString_reads i.natAbs
  have hall : ∀ c ∈ natToString i.natAbs, isIntegerChar c = true := by
    intro c hc
    obtain ⟨d, hd, hcd⟩ := hdig c hc
    rw [hcd]
    exact (digitChar_dec_facts d hd).2.1
  unfold int_to_string
  split
  · refine ⟨by simp, ?_⟩
    intro c hc
    rcases List.mem_cons.mp hc with h | h
    · rw [h]; decide
    · exact hall c h
  · exact ⟨hne, hall⟩

theorem isRealChar_of_isIntegerChar (c : Byte) (h : isIntegerChar c = true) :
    isRealChar c = false := by
  simp only [isIntegerChar, isRealChar, Bool.or_eq_true, Bool.and_eq_true, decide_eq_true_eq,
    Bool.or_eq_false_iff, decide_eq_false_iff_not] at h ⊢
  omega

theorem parseNumber_loop_eq (text : Str) : ∀ (s : Str) (fuel offset : Nat) (rest : Str) (b : Bool),
    text.drop offset = s ++ rest → (∀ c ∈ s, isIntegerChar c = true) →
    NumTerminated rest → s.length ≤ fuel →
    parseNumber_loop text fuel offset b = (offset + s.length, b)
  | [], fuel, offset, rest, b, h, _, hr, _ => by
    cases fuel with
    | zero => rfl
    | succ f =>
      simp only [parseNumber_loop]
      cases rest with
      | nil =>
        have hl := length_of_drop h
        simp only [List.append_nil, List.length_nil] at hl
        have : ¬ offset < text.length := by omega
        simp [this]
      | cons c t =>
        simp only [List.nil_append] at h
        simp [charAt_of_drop h, (hr c t rfl).1, (hr c t rfl).2]
  | w :: ws, fuel, offset, rest, b, h, hw, hr, hf => by
    cases fuel with
    | zero => simp at hf
    | succ f =>
      have h' : text.drop offset = w :: (ws ++ rest) := h
      have hi := hw w (List.mem_cons_self _ _)
      simp only [parseNumber_loop, lt_length_of_drop h', charAt_of_drop h', hi,
        isRealChar_of_isIntegerChar w hi, decide_True, Bool.true_or, Bool.and_self, if_true,
        Bool.or_false]
      rw [parseNumber_loop_eq text ws f (offset + 1) rest b (drop_succ_of_drop h')
        (fun c hc => hw c (List.mem_cons_of_mem _ hc)) hr (by simpa using hf)]
      simp only [List.length_cons]
      congr 1
      omega

theorem Value_parseNumber_integer {text : Str} {offset : Nat} {rest : Str} (i : Int)
    (hr : -9223372036854775808 ≤ i ∧ i ≤ 9223372036854775807)
    (h : text.drop offset = int_to_string i ++ rest) (ht : NumTerminated rest) :
    Value_parseNumber text offset =
      .ok (Value.Integer i, offset + (int_to_string i).length) := by
  obtain ⟨hne, hall⟩ := int_to_string_chars i
  have hl := length_of_drop h
  simp only [List.length_append] at hl
  have hloop := parseNumber_loop_eq text (int_to_string i) (text.length - offset) offset rest
    false h hall ht (by omega)
  have hpos : 0 < (int_to_string i).length := List.length_pos.mpr hne
  unfold Value_parseNumber
  simp only [hloop, bind, Except.bind, YaJsonAssert]
  have h1 : offset < offset + (int_to_string i).length := by omega
  simp only [h1, decide_True, if_true, Bool.false_eq_true, if_false]
  have h2 : offset + (int_to_string i).length - offset = (int_to_string i).length := by omega
  rw [h2, substr_of_drop h, stoll_int_to_string i hr]
  simp [pure, Except.pure]


/-! ## Bit patterns of UTF-8 -/

theorem or_shift2 (x y : Nat) (hy : y < 64) : (x <<< 6) ||| y = x * 64 + y := by
  have := Nat.mul_add_lt_is_or (i := 6) (b := y) (by simpa using hy) x
  rw [Nat.shiftLeft_eq]
  simp only [Nat.reducePow] at this ⊢
  rw [Nat.mul_comm x 64, ← this]

theorem or_shift3 (x y z : Nat) (hy : y < 64) (hz : z < 64) :
    ((x <<< 12) ||| (y <<< 6)) ||| z = x * 4096 + y * 64 + z := by
  have h1 : (x <<< 12) ||| (y <<< 6) = (x * 64 + y) <<< 6 := by
    have := Nat.mul_add_lt_is_or (i := 12) (b := y * 64) (by simp; omega) x
    rw [Nat.shiftLeft_eq, Nat.shiftLeft_eq, Nat.shiftLeft_eq]
    simp only [Nat.reducePow] at this ⊢
    rw [Nat.mul_comm x 4096, ← this]
    omega
  rw [h1, or_shift2 _ _ hz]
  omega

theorem or_shift4 (w x y z : Nat) (hx : x < 64) (hy : y < 64) (hz : z < 64) :
    (((w <<< 18) ||| (x <<< 12)) ||| (y <<< 6)) ||| z
      = w * 262144 + x * 4096 + y * 64 + z := by
  have h1 : (w <<< 18) ||| (x <<< 12) = (w * 64 + x) <<< 12 := by
    have := Nat.mul_add_lt_is_or (i := 18) (b := x * 4096) (by simp; omega) w
    rw [Nat.shiftLeft_eq, Nat.shiftLeft_eq, Nat.shiftLeft_eq]
    simp only [Nat.reducePow] at this ⊢
    rw [Nat.mul_comm w 262144, ← this]
    omega
  rw [h1, or_shift3 _ _ _ hy hz]
  omega

theorem or_lead2 : ∀ q, q < 32 → (6 <<< 5) ||| q = 192 + q := by decide
theorem or_lead3 : ∀ q, q < 16 → (14 <<< 4) ||| q = 224 + q := by decide
theorem or_lead4 : ∀ q, q < 8 → (30 <<< 3) ||| q = 240 + q := by decide
theorem or_cont : ∀ r, r < 64 → (2 <<< 6) ||| r = 128 + r := by decide

theorem and_mod64 (x : Nat) : x &&& 0x3F = x % 64 := Nat.and_pow_two_sub_one_eq_mod x 6
theorem and_mod32 (x : Nat) : x &&& 0x1F = x % 32 := Nat.and_pow_two_sub_one_eq_mod x 5
theorem and_mod16 (x : Nat) : x &&& 0x0F = x % 16 := Nat.and_pow_two_sub_one_eq_mod x 4
theorem and_mod8 (x : Nat) : x &&& 0x07 = x % 8 := Nat.and_pow_two_sub_one_eq_mod x 3
theorem and_mod256 (x : Nat) : x &&& 0xFF = x % 256 := Nat.and_pow_two_sub_one_eq_mod x 8

set_option maxRecDepth 100000 in
theorem byte_masks : ∀ b : Byte,
    ((0x80 &&& b.val = 0) ↔ b.val < 128) ∧
    ((0xE0 &&& b.val = 0xC0) ↔ (192 ≤ b.val ∧ b.val < 224)) ∧
    ((0xF0 &&& b.val = 0xE0) ↔ (224 ≤ b.val ∧ b.val < 240)) ∧
    ((0xF8 &&& b.val = 0xF0) ↔ (240 ≤ b.val ∧ b.val < 248)) ∧
    ((b.val &&& 0xC0 = 0x80) ↔ (128 ≤ b.val ∧ b.val < 192)) := by
  decide

theorem toChar_val (b : Byte) (n : Nat) (h : n = b.val) : toChar n = b := by
  apply Fin.ext
  subst h
  simp [toChar, Fin.ofNat]


theorem assert_bind {α : Type} (b : Bool) (k : Unit → Except Err α) :
    (YaJsonAssert b >>= k) = if b = true then k () else .error .invalid_argument := by
  cases b <;> rfl

theorem drop_eq_cons_of_lt {text : Str} {i : Nat} (h : i < text.length) :
    text.drop i = charAt text i :: text.drop (i + 1) := by
  rw [List.drop_eq_getElem_cons h]
  simp [charAt, List.getD_eq_getElem?_getD, List.getElem?_eq_getElem h]

theorem utf8_two (c b1 : Byte) (hc : 192 ≤ c.val ∧ c.val < 224)
    (hb : 128 ≤ b1.val ∧ b1.val < 192)
    (hcp : 127 < ((c.val &&& 31) <<< 6) ||| (b1.val &&& 63)) :
    String_utf8 (((c.val &&& 31) <<< 6) ||| (b1.val &&& 63)) = .ok [c, b1] := by
  have e : ((c.val &&& 31) <<< 6) ||| (b1.val &&& 63) = (c.val % 32) * 64 + b1.val % 64 := by
    rw [and_mod64, and_mod32, or_shift2 _ _ (Nat.mod_lt _ (by omega))]
  rw [e] at hcp ⊢
  generalize hn : c.val % 32 * 64 + b1.val % 64 = n at hcp
  have g1 : ¬ n ≤ 0x7F := by omega
  have g2 : n ≤ 0x7FF := by omega
  unfold String_utf8
  simp only [g1, g2, if_true, if_false]
  rw [Nat.shiftRight_eq_div_pow, and_mod64, or_lead2 _ (by omega), or_cont _ (Nat.mod_lt _ (by omega)),
    toChar_val c _ (by omega), toChar_val b1 _ (by omega)]

theorem utf8_three (c b1 b2 : Byte) (hc : 224 ≤ c.val ∧ c.val < 240)
    (hb1 : 128 ≤ b1.val ∧ b1.val < 192) (hb2 : 128 ≤ b2.val ∧ b2.val < 192)
    (hcp : 2047 < (((c.val &&& 15) <<< 12) ||| ((b1.val &&& 63) <<< 6)) ||| (b2.val &&& 63)) :
    String_utf8 ((((c.val &&& 15) <<< 12) ||| ((b1.val &&& 63) <<< 6)) ||| (b2.val &&& 63))
      = .ok [c, b1, b2] := by
  have e : (((c.val &&& 15) <<< 12) ||| ((b1.val &&& 63) <<< 6)) ||| (b2.val &&& 63)
      = (c.val % 16) * 4096 + (b1.val % 64) * 64 + b2.val % 64 := by
    rw [and_mod64, and_mod64, and_mod16,
      or_shift3 _ _ _ (Nat.mod_lt _ (by omega)) (Nat.mod_lt _ (by omega))]
  rw [e] at hcp ⊢
  generalize hn : c.val % 16 * 4096 + b1.val % 64 * 64 + b2.val % 64 = n at hcp
  have g1 : ¬ n ≤ 0x7F := by omega
  have g2 : ¬ n ≤ 0x7FF := by omega
  have g3 : n ≤ 0xFFFF := by omega
  unfold String_utf8
  simp only [g1, g2, g3, if_true, if_false]
  rw [Nat.shiftRight_eq_div_pow, Nat.shiftRight_eq_div_pow, and_mod64, and_mod64,
    or_lead3 _ (by omega), or_cont _ (Nat.mod_lt _ (by omega)),
    or_cont _ (Nat.mod_lt _ (by omega)),
    toChar_val c _ (by omega), toChar_val b1 _ (by omega), toChar_val b2 _ (by omega)]

theorem String_codepoint_cases (value : Str) (i cp off : Nat)
    (h : String_codepoint value i = .ok (cp, off)) :
    (∃ c t, value.drop i = c :: t ∧ c.val < 128 ∧ off = i + 1 ∧ cp = c.val) ∨
    (∃ c b1 t, value.drop i = c :: b1 :: t ∧ off = i + 2 ∧ 0x7F < cp ∧ cp ≤ 0x7FF ∧
      128 ≤ c.val ∧ String_utf8 cp = .ok [c, b1]) ∨
    (∃ c b1 b2 t, value.drop i = c :: b1 :: b2 :: t ∧ off = i + 3 ∧ 0x7FF < cp ∧
      cp ≤ 0xFFFF ∧ 128 ≤ c.val ∧ String_utf8 cp = .ok [c, b1, b2]) ∨
    (∃ c b1 b2 b3 t, value.drop i = c :: b1 :: b2 :: b3 :: t ∧ off = i + 4 ∧
      0xFFFF < cp ∧ 128 ≤ c.val ∧ 128 ≤ b1.val ∧ 128 ≤ b2.val ∧ 128 ≤ b3.val) := by
  unfold String_codepoint at h
  simp only [assert_bind, pure, Except.pure] at h
  have e21 : i + 2 - 1 = i + 1 := rfl
  have e31 : i + 3 - 1 = i + 2 := rfl
  have e32 : i + 3 - 2 = i + 1 := rfl
  have e41 : i + 4 - 1 = i + 3 := rfl
  have e42 : i + 4 - 2 = i + 2 := rfl
  have e43 : i + 4 - 3 = i + 1 := rfl
  simp only [Nat.add_sub_cancel, e21, e31, e32, e41, e42, e43] at h
  by_cases h1 : (decide (i < value.length) && decide (0x80 &&& (charAt value i).val = 0)) = true
  · simp only [h1, if_true] at h
    simp only [Bool.and_eq_true, decide_eq_true_eq] at h1
    left
    refine ⟨charAt value i, value.drop (i + 1), drop_eq_cons_of_lt h1.1, ?_, ?_, ?_⟩
    · exact (byte_masks _).1.mp h1.2
    · split at h
      · cases h; rfl
      · cases h
    · split at h
      · cases h
        simp only [and_mod256]
        omega
      · cases h
  · simp only [h1, if_false, Bool.false_eq_true] at h
    by_cases h2 : (decide (i + 1 < value.length)
        && decide (0xE0 &&& (charAt value i).val = 0xC0)) = true
    · simp only [h2, if_true] at h
      simp only [Bool.and_eq_true, decide_eq_true_eq] at h2
      right; left
      split at h
      swap
      · cases h
      split at h
      swap
      · cases h
      split at h
      swap
      · cases h
      rename_i a1 a2 a3
      simp only [decide_eq_true_eq, Bool.and_eq_true] at a1 a2 a3
      cases h
      have hc := (byte_masks (charAt value i)).2.1.mp h2.2
      have hb := (byte_masks (charAt value (i + 1))).2.2.2.2.mp a2
      refine ⟨charAt value i, charAt value (i + 1), value.drop (i + 2), ?_, rfl, a3.1, a3.2,
        by omega, utf8_two _ _ hc hb a3.1⟩
      rw [drop_eq_cons_of_lt (by omega : i < value.length), drop_eq_cons_of_lt h2.1]
    · simp only [h2, if_false, Bool.false_eq_true] at h
      by_cases h3 : (decide (i + 2 < value.length)
          && decide (0xF0 &&& (charAt value i).val = 0xE0)) = true
      · simp only [h3, if_true] at h
        simp only [Bool.and_eq_true, decide_eq_true_eq] at h3
        right; right; left
        split at h
        swap
        · cases h
        split at h
        swap
        · cases h
        split at h
        swap
        · cases h
        split at h
        swap
        · cases h
        rename_i a1 a2 a3 a4
        simp only [decide_eq_true_eq, Bool.and_eq_true] at a1 a2 a3 a4
        cases h
        have hc := (byte_masks (charAt value i)).2.2.1.mp h3.2
        have hb1 := (byte_masks (charAt value (i + 1))).2.2.2.2.mp a3
        have hb2 := (byte_masks (charAt value (i + 2))).2.2.2.2.mp a2
        refine ⟨charAt value i, charAt value (i + 1), charAt value (i + 2), value.drop (i + 3),
          ?_, rfl, a4.1, a4.2, by omega, utf8_three _ _ _ hc hb1 hb2 a4.1⟩
        rw [drop_eq_cons_of_lt (by omega : i < value.length),
          drop_eq_cons_of_lt (by omega : i + 1 < value.length), drop_eq_cons_of_lt h3.1]
      · simp only [h3, if_false, Bool.false_eq_true] at h
        by_cases h4 : (decide (i + 3 < value.length)
            && decide (0xF8 &&& (charAt value i).val = 0xF0)) = true
        · simp only [h4, if_true] at h
          simp only [Bool.and_eq_true, decide_eq_true_eq] at h4
          right; right; right
          split at h
          swap
          · cases h
          split at h
          swap
          · cases h
          split at h
          swap
          · cases h
          split at h
          swap
          · cases h
          split at h
          swap
          · cases h
          rename_i a1 a2 a3 a4 a5
          simp only [decide_eq_true_eq, Bool.and_eq_true] at a1 a2 a3 a4 a5
          cases h
          have hc := (byte_masks (charAt value i)).2.2.2.1.mp h4.2
          have hb1 := (byte_masks (charAt value (i + 1))).2.2.2.2.mp a4
          have hb2 := (byte_masks (charAt value (i + 2))).2.2.2.2.mp a3
          have hb3 := (byte_masks (charAt value (i + 3))).2.2.2.2.mp a2
          refine ⟨charAt value i, charAt value (i + 1), charAt value (i + 2),
            charAt value (i + 3), value.drop (i + 4), ?_, rfl, a5.1, by omega, by omega,
            by omega, by omega⟩
          rw [drop_eq_cons_of_lt (by omega : i < value.length),
            drop_eq_cons_of_lt (by omega : i + 1 < value.length),
            drop_eq_cons_of_lt (by omega : i + 2 < value.length), drop_eq_cons_of_lt h4.1]
        · simp only [h4, if_false, Bool.false_eq_true] at h
          cases h


/-! ## Parsing back what `String::format` wrote -/

theorem String_parse_switch_quote {text : Str} {offset : Nat} {rest : Str} (result : Str)
    (h : text.drop offset = 34 :: rest) :
    String_parse_switch text offset result = .ok (offset, result) := by
  simp [String_parse_switch, charAt_of_drop h]

theorem String_parse_loop_at_quote {text : Str} {offset : Nat} {rest : Str} (result : Str)
    (fuel : Nat) (h : text.drop offset = 34 :: rest) :
    String_parse_loop text (fuel + 1) offset result = .ok (offset, result) := by
  simp [String_parse_loop, lt_length_of_drop h, String_parse_switch_quote result h,
    charAt_of_drop h]

theorem String_parse_loop_step {text : Str} {offset o' : Nat} {result r' : Str} (fuel : Nat)
    (hlt : offset < text.length)
    (hs : String_parse_switch text offset result = .ok (o', r'))
    (hlt' : o' < text.length) :
    String_parse_loop text (fuel + 2) offset result = String_parse_loop text (fuel + 1) o' r' := by
  rw [String_parse_loop]
  simp only [hlt, if_true, hs, hlt']
  by_cases hq : charAt text o' = 34
  · simp only [hq, ne_eq, not_true_eq_false, if_false]
    have hd := drop_eq_cons_of_lt hlt'
    rw [hq] at hd
    rw [String_parse_loop_at_quote r' fuel hd]
  · simp [hq]

theorem ParsesTo_nil : ParsesTo [] [] := by
  intro text offset result rest fuel h hf
  cases fuel with
  | zero => omega
  | succ f =>
    simp only [List.nil_append] at h
    rw [String_parse_loop_at_quote result f h]
    simp

theorem ParsesTo_step (chunk bytes enc s : Str) (hchunk : chunk ≠ [])
    (hstep : ∀ (text : Str) (offset : Nat) (result tail : Str),
      text.drop offset = chunk ++ tail → tail ≠ [] →
      String_parse_switch text offset result = .ok (offset + chunk.length, result ++ bytes))
    (h : ParsesTo enc s) : ParsesTo (chunk ++ enc) (bytes ++ s) := by
  intro text offset result rest fuel hd hf
  have hpos : 0 < chunk.length := List.length_pos.mpr hchunk
  simp only [List.length_append] at hf
  obtain ⟨f, rfl⟩ : ∃ f, fuel = f + 2 := ⟨fuel - 2, by omega⟩
  have hd' : text.drop offset = chunk ++ (enc ++ 34 :: rest) := by
    rw [hd, List.append_assoc]
  have hd2 : text.drop (offset + chunk.length) = enc ++ 34 :: rest := drop_add_of_drop hd'
  have hlt : offset < text.length := by
    obtain ⟨c, t, hct⟩ := List.exists_cons_of_ne_nil hchunk
    rw [hct] at hd'
    exact lt_length_of_drop hd'
  have hlt' : offset + chunk.length < text.length := by
    have := length_of_drop hd2
    simp only [List.length_append, List.length_cons] at this
    omega
  rw [String_parse_loop_step f hlt (hstep text offset result _ hd' (by simp)) hlt',
    h text _ _ rest (f + 1) hd2 (by omega)]
  simp [Nat.add_assoc]

theorem ParsesTo_raw (c : Byte) (enc s : Str) (h1 : c ≠ 92) (h2 : c ≠ 34)
    (h : ParsesTo enc s) : ParsesTo (c :: enc) (c :: s) := by
  apply ParsesTo_step [c] [c] enc s (by simp) _ h
  intro text offset result tail hd _
  simp [String_parse_switch, charAt_of_drop hd, h1, h2]

theorem ParsesTo_escape (e b : Byte) (enc s : Str) (he : IsEscape e b)
    (h : ParsesTo enc s) : ParsesTo (92 :: e :: enc) (b :: s) := by
  apply ParsesTo_step [92, e] [b] enc s (by simp) _ h
  intro text offset result tail hd _
  have hd1 : text.drop offset = 92 :: (e :: tail) := hd
  have hd2 : text.drop (offset + 1) = e :: tail := drop_succ_of_drop hd1
  simp only [String_parse_switch, charAt_of_drop hd1, if_true, String_parseEscaped,
    charAt_of_drop hd2, List.length_cons, List.length_nil]
  rcases he with h | h | h | h | h | h | h | h <;>
    (obtain ⟨he1, he2⟩ := h; subst he1; subst he2; simp [pure, Except.pure, Nat.add_assoc])

theorem ParsesTo_unicode (cp : Nat) (bytes enc s : Str) (hcp : cp < 65536)
    (hu : String_utf8 cp = .ok bytes)
    (h : ParsesTo enc s) : ParsesTo ([92, 117] ++ hex_setw4 cp ++ enc) (bytes ++ s) := by
  obtain ⟨hlen, hread, hdig⟩ := hex_setw4_reads cp hcp
  apply ParsesTo_step ([92, 117] ++ hex_setw4 cp) bytes enc s (by simp) _ h
  intro text offset result tail hd _
  have hd1 : text.drop offset = 92 :: (117 :: (hex_setw4 cp ++ tail)) := by
    rw [hd]; simp
  have hd2 : text.drop (offset + 1) = 117 :: (hex_setw4 cp ++ tail) := drop_succ_of_drop hd1
  have hd3 : text.drop (offset + 1 + 1) = hex_setw4 cp ++ tail := drop_succ_of_drop hd2
  obtain ⟨c0, t0, hc0⟩ : ∃ c0 t0, hex_setw4 cp = c0 :: t0 := by
    cases hh : hex_setw4 cp with
    | nil => rw [hh] at hlen; simp at hlen
    | cons c0 t0 => exact ⟨c0, t0, rfl⟩
  obtain ⟨d0, hd0, e0⟩ := hdig c0 (by rw [hc0]; exact List.mem_cons_self _ _)
  have hnb : c0 ≠ 123 := by
    rw [e0]; exact (digitChar_hex_facts d0 hd0).2.2.2.2.2
  have hd3' : text.drop (offset + 1 + 1) = c0 :: (t0 ++ tail) := by
    rw [hd3, hc0]; rfl
  have hsub : substr text (offset + 1 + 1) 4 = hex_setw4 cp := by
    have := substr_of_drop hd3
    rwa [hlen] at this
  have hst := stol16_hex4 (hex_setw4 cp) cp hlen hread hdig hcp
  have hmod : ((cp : Int) % 18446744073709551616).toNat = cp := by omega
  simp only [String_parse_switch, charAt_of_drop hd1, if_true, String_parseEscaped,
    charAt_of_drop hd2]
  simp only [String_parseEscapedUnicode, charAt_of_drop hd3', hnb, if_false, hsub, hst,
    bind, Except.bind, YaJsonAssert, hmod, hu, pure, Except.pure]
  simp [hlen, Nat.add_assoc]


theorem String_format_loop_parses (value : Str) : ∀ (fuel i : Nat) (buffer out : Str),
    String_format_loop value fuel i buffer = .ok out →
    ∃ enc, out = buffer ++ enc ∧ ParsesTo enc (value.drop i)
  | 0, i, buffer, out, h => by
    simp only [String_format_loop] at h
    split at h
    · cases h
    · cases h
      refine ⟨[], by simp, ?_⟩
      rw [List.drop_eq_nil_of_le (by omega)]
      exact ParsesTo_nil
  | fuel + 1, i, buffer, out, h => by
    rw [String_format_loop] at h
    by_cases hi : i < value.length
    swap
    · simp only [hi, if_false] at h
      cases h
      refine ⟨[], by simp, ?_⟩
      rw [List.drop_eq_nil_of_le (by omega)]
      exact ParsesTo_nil
    simp only [hi, if_true] at h
    have hd := drop_eq_cons_of_lt hi
    rw [hd]
    have esc : ∀ (e : Byte), IsEscape e (charAt value i) →
        String_format_loop value fuel (i + 1) (buffer ++ [92, e]) = .ok out →
        ∃ enc, out = buffer ++ enc ∧ ParsesTo enc (charAt value i :: value.drop (i + 1)) := by
      intro e he h'
      obtain ⟨enc, h1, h2⟩ := String_format_loop_parses value fuel (i + 1) _ out h'
      exact ⟨92 :: e :: enc, by simp [h1], ParsesTo_escape e _ enc _ he h2⟩
    by_cases c1 : charAt value i = 92
    · simp only [c1, if_true] at h
      rw [c1]; rw [c1] at esc
      exact esc 92 (by simp [IsEscape]) h
    simp only [c1, if_false] at h
    by_cases c2 : charAt value i = 34
    · simp only [c2, if_true] at h
      rw [c2]; rw [c2] at esc
      exact esc 34 (by simp [IsEscape]) h
    simp only [c2, if_false] at h
    by_cases c3 : charAt value i = 47
    · simp only [c3, if_true] at h
      rw [c3]; rw [c3] at esc
      exact esc 47 (by simp [IsEscape]) h
    simp only [c3, if_false] at h
    by_cases c4 : charAt value i = 9
    · simp only [c4, if_true] at h
      rw [c4]; rw [c4] at esc
      exact esc 116 (by simp [IsEscape]) h
    simp only [c4, if_false] at h
    by_cases c5 : charAt value i = 13
    · simp only [c5, if_true] at h
      rw [c5]; rw [c5] at esc
      exact esc 114 (by simp [IsEscape]) h
    simp only [c5, if_false] at h
    by_cases c6 : charAt value i = 10
    · simp only [c6, if_true] at h
      rw [c6]; rw [c6] at esc
      exact esc 110 (by simp [IsEscape]) h
    simp only [c6, if_false] at h
    by_cases c7 : charAt value i = 8
    · simp only [c7, if_true] at h
      rw [c7]; rw [c7] at esc
      exact esc 98 (by simp [IsEscape]) h
    simp only [c7, if_false] at h
    by_cases c8 : charAt value i = 12
    · simp only [c8, if_true] at h
      rw [c8]; rw [c8] at esc
      exact esc 102 (by simp [IsEscape]) h
    simp only [c8, if_false] at h
    clear esc
    unfold String_formatCodepoint at h
    cases hcp : String_codepoint value i with
    | error e =>
      simp only [hcp, bind, Except.bind] at h
      cases h
    | ok r =>
      obtain ⟨cp, off⟩ := r
      simp only [hcp, bind, Except.bind, pure, Except.pure] at h
      rcases String_codepoint_cases value i cp off hcp with
        ⟨c, t, hdc, hc, hoff, _⟩ | ⟨c, b1, t, hdc, hoff, hlo, hhi, hc, hu⟩ |
        ⟨c, b1, b2, t, hdc, hoff, hlo, hhi, hc, hu⟩ |
        ⟨c, b1, b2, b3, t, hdc, hoff, hlo, hc, hb1, hb2, hb3⟩
      · -- one byte
        subst hoff
        simp only [Nat.add_sub_cancel_left, if_true, Nat.add_sub_cancel] at h
        obtain ⟨enc, h1, h2⟩ := String_format_loop_parses value fuel (i + 1) _ out h
        exact ⟨charAt value i :: enc, by simp [h1], ParsesTo_raw _ enc _ c1 c2 h2⟩
      · -- two bytes
        subst hoff
        have e1 : i + 2 - i = 2 := by omega
        have e2 : i + 2 - 1 + 1 = i + 2 := by omega
        have e3 : ¬ cp > 65535 := by omega
        simp only [e1, e2, e3, OfNat.ofNat_ne_one, if_false, decide_False,
          Bool.false_eq_true] at h
        obtain ⟨enc, h1, h2⟩ := String_format_loop_parses value fuel (i + 2) _ out h
        have ht : value.drop (i + 2) = t := drop_add_of_drop (a := [c, b1]) hdc
        rw [ht] at h2
        rw [← hd, hdc]
        exact ⟨[92, 117] ++ hex_setw4 cp ++ enc, by simp [h1],
          ParsesTo_unicode cp [c, b1] enc t (by omega) hu h2⟩
      · -- three bytes
        subst hoff
        have e1 : i + 3 - i = 3 := by omega
        have e2 : i + 3 - 1 + 1 = i + 3 := by omega
        have e3 : ¬ cp > 65535 := by omega
        simp only [e1, e2, e3, OfNat.ofNat_ne_one, if_false, decide_False,
          Bool.false_eq_true] at h
        obtain ⟨enc, h1, h2⟩ := String_format_loop_parses value fuel (i + 3) _ out h
        have ht : value.drop (i + 3) = t := drop_add_of_drop (a := [c, b1, b2]) hdc
        rw [ht] at h2
        rw [← hd, hdc]
        exact ⟨[92, 117] ++ hex_setw4 cp ++ enc, by simp [h1],
          ParsesTo_unicode cp [c, b1, b2] enc t (by omega) hu h2⟩
      · -- four bytes
        subst hoff
        have e1 : i + 4 - i = 4 := by omega
        have e2 : i + 4 - 1 + 1 = i + 4 := by omega
        have e3 : cp > 65535 := by omega
        have hsub : substr value i 4 = [c, b1, b2, b3] :=
          substr_of_drop (a := [c, b1, b2, b3]) hdc
        simp only [e1, e2, e3, OfNat.ofNat_ne_one, if_false, decide_True, if_true, hsub] at h
        obtain ⟨enc, h1, h2⟩ := String_format_loop_parses value fuel (i + 4) _ out h
        have ht : value.drop (i + 4) = t := drop_add_of_drop (a := [c, b1, b2, b3]) hdc
        rw [ht] at h2
        rw [← hd, hdc]
        have ne : ∀ b : Byte, 128 ≤ b.val → b ≠ 92 ∧ b ≠ 34 := by
          intro b hb
          constructor <;> (intro hh; revert hb; rw [hh]; decide)
        refine ⟨c :: b1 :: b2 :: b3 :: enc, by simp [h1], ?_⟩
        exact ParsesTo_raw c _ _ (ne c hc).1 (ne c hc).2
          (ParsesTo_raw b1 _ _ (ne b1 hb1).1 (ne b1 hb1).2
            (ParsesTo_raw b2 _ _ (ne b2 hb2).1 (ne b2 hb2).2
              (ParsesTo_raw b3 _ _ (ne b3 hb3).1 (ne b3 hb3).2 h2)))

/-- What `String::format` writes for a string reads back as the string. -/
theorem String_format_parses (s out : Str) (h : String_format s = .ok out) :
    ∃ enc, out = 34 :: enc ++ [34] ∧ ParsesTo enc s := by
  unfold String_format at h
  cases hl : String_format_loop s s.length 0 [34] with
  | error e => simp [hl, bind, Except.bind] at h
  | ok buffer =>
    simp only [hl, bind, Except.bind, pure, Except.pure] at h
    cases h
    obtain ⟨enc, h1, h2⟩ := String_format_loop_parses s s.length 0 [34] buffer hl
    exact ⟨enc, by simp [h1], by simpa using h2⟩

theorem String_parse_format {text : Str} {offset : Nat} {rest : Str} (s out : Str)
    (hf : String_format s = .ok out) (h : text.drop offset = out ++ rest) :
    String_parse text offset = .ok (s, offset + out.length) := by
  obtain ⟨enc, rfl, hp⟩ := String_format_parses s out hf
  have h0 : text.drop offset = 34 :: (enc ++ 34 :: rest) := by
    rw [h]; simp
  have h1 : text.drop (offset + 1) = enc ++ 34 :: rest := drop_succ_of_drop h0
  have h2 : text.drop (offset + 1 + enc.length) = 34 :: rest := drop_add_of_drop h1
  have hlen := length_of_drop h1
  simp only [List.length_append, List.length_cons] at hlen
  have hloop := hp text (offset + 1) [] rest (text.length + 1) h1 (by omega)
  unfold String_parse
  simp only [hloop, bind, Except.bind, YaJsonAssert, lt_length_of_drop h2, decide_True, if_true,
    charAt_of_drop h2, pure, Except.pure, List.nil_append]
  simp [Nat.add_assoc]
  omega

/-! ## Rounding and the highest bit -/

theorem roundHalfEven_cases (n d : Nat) :
    (roundHalfEven n d = n / d ∧ (2 * (n % d) < d ∨ (2 * (n % d) = d ∧ (n / d) % 2 = 0))) ∨
    (roundHalfEven n d = n / d + 1 ∧
      (d < 2 * (n % d) ∨ (2 * (n % d) = d ∧ (n / d) % 2 = 1))) := by
  by_cases h1 : 2 * (n % d) < d
  · have e : roundHalfEven n d = n / d := by
      unfold roundHalfEven
      simp only [h1, if_true]
    exact Or.inl ⟨e, Or.inl h1⟩
  · by_cases h2 : d < 2 * (n % d)
    · have e : roundHalfEven n d = n / d + 1 := by
        unfold roundHalfEven
        simp only [h1, h2, if_true, if_false]
      exact Or.inr ⟨e, Or.inl h2⟩
    · have he : 2 * (n % d) = d := by omega
      by_cases h3 : n / d % 2 = 0
      · have e : roundHalfEven n d = n / d := by
          unfold roundHalfEven
          simp only [h1, h2, h3, if_true, if_false]
        exact Or.inl ⟨e, Or.inr ⟨he, h3⟩⟩
      · have e : roundHalfEven n d = n / d + 1 := by
          unfold roundHalfEven
          simp only [h1, h2, h3, if_false]
        exact Or.inr ⟨e, Or.inr ⟨he, by omega⟩⟩

theorem log2Loop_eq : ∀ (fuel n : Nat), n ≤ fuel → log2Loop fuel n = Nat.log 2 n
  | 0, n, h => by
    have : n = 0 := by omega
    subst this
    simp [log2Loop]
  | fuel + 1, n, h => by
    simp only [log2Loop]
    by_cases hn : n < 2
    · simp only [hn, if_true]
      exact (Nat.log_of_lt hn).symm
    · simp only [hn, if_false]
      rw [log2Loop_eq fuel (n / 2) (by omega)]
      exact (Nat.log_of_one_lt_of_le (by decide) (by omega)).symm

theorem log2Floor_bounds (n : Nat) (hn : 0 < n) :
    2 ^ log2Floor n ≤ n ∧ n < 2 ^ (log2Floor n + 1) := by
  have e : log2Floor n = Nat.log 2 n := log2Loop_eq n n (Nat.le_refl _)
  rw [e]
  exact ⟨Nat.pow_log_le_self 2 (by omega), Nat.lt_pow_succ_log_self (by omega) n⟩


/-! ## Rounding to the nearest: bounds and uniqueness -/

theorem roundHalfEven_near (n d : Nat) (hd : 0 < d) :
    2 * (roundHalfEven n d * d) ≤ 2 * n + d ∧ 2 * n ≤ 2 * (roundHalfEven n d * d) + d := by
  have hdm := Nat.div_add_mod n d
  have hlt := Nat.mod_lt n hd
  have hq : d * (n / d) = n / d * d := Nat.mul_comm _ _
  rcases roundHalfEven_cases n d with ⟨e, h⟩ | ⟨e, h⟩
  · rw [e]
    constructor
    · omega
    · rcases h with h | ⟨h, _⟩ <;> omega
  · rw [e, Nat.add_mul, Nat.one_mul]
    constructor
    · rcases h with h | ⟨h, _⟩ <;> omega
    · omega

theorem roundHalfEven_unique (n d k : Nat) (h1 : 2 * (k * d) < 2 * n + d)
    (h2 : 2 * n < 2 * (k * d) + d) : roundHalfEven n d = k := by
  have hd : 0 < d := by
    rcases Nat.eq_zero_or_pos d with h | h
    · subst h; omega
    · exact h
  obtain ⟨a, b⟩ := roundHalfEven_near n d hd
  generalize roundHalfEven n d = r at a b
  rcases Nat.lt_trichotomy r k with h | h | h
  · have : (r + 1) * d ≤ k * d := Nat.mul_le_mul_right d h
    rw [Nat.add_mul, Nat.one_mul] at this
    omega
  · exact h
  · have : (k + 1) * d ≤ r * d := Nat.mul_le_mul_right d h
    rw [Nat.add_mul, Nat.one_mul] at this
    omega

/-- Rounding `u` units to millionths and the millionths back to a multiple of `2^s`
units, a spacing below one millionth, gives the same millionths again. -/
theorem millionths_fine (U M k s : Nat) (hM : 0 < M) (hs : M * 2 ^ s < U) :
    roundHalfEven (roundHalfEven (k * U) (M * 2 ^ s) * 2 ^ s * M) U = k := by
  have hp : 0 < M * 2 ^ s := Nat.mul_pos hM (Nat.two_pow_pos s)
  obtain ⟨a, b⟩ := roundHalfEven_near (k * U) (M * 2 ^ s) hp
  generalize roundHalfEven (k * U) (M * 2 ^ s) = r at a b
  have e : r * 2 ^ s * M = r * (M * 2 ^ s) := by ring
  rw [e]
  apply roundHalfEven_unique <;> omega

/-- Rounding `u` units to millionths and the millionths back to a multiple of `2^s`
units, a spacing above one millionth at which `u` itself lies, gives `u` again. -/
theorem millionths_coarse (U M u m s : Nat) (hu : u = m * 2 ^ s) (hs : U < M * 2 ^ s)
    (hU : 0 < U) :
    roundHalfEven (roundHalfEven (u * M) U * U) (M * 2 ^ s) = m := by
  obtain ⟨a, b⟩ := roundHalfEven_near (u * M) U hU
  generalize roundHalfEven (u * M) U = k at a b
  have e : u * M = m * (M * 2 ^ s) := by rw [hu]; ring
  rw [e] at a b
  apply roundHalfEven_unique <;> omega

theorem log2Floor_eq (n a : Nat) (h1 : 2 ^ a ≤ n) (h2 : n < 2 ^ (a + 1)) : log2Floor n = a := by
  have hn : 0 < n := Nat.lt_of_lt_of_le (Nat.two_pow_pos a) h1
  obtain ⟨b1, b2⟩ := log2Floor_bounds n hn
  generalize log2Floor n = l at b1 b2
  rcases Nat.lt_trichotomy l a with h | h | h
  · have : 2 ^ (l + 1) ≤ 2 ^ a := Nat.pow_le_pow_right (by omega) h
    omega
  · exact h
  · have : 2 ^ (a + 1) ≤ 2 ^ l := Nat.pow_le_pow_right (by omega) h
    omega


theorem Double.isFinite_iff (d : Double) : d.isFinite = true ↔ d.expo.val ≠ 2047 := by
  unfold Double.isFinite Double.isNaN Double.isInf
  by_cases h : d.expo.val = 2047
  · by_cases h2 : d.frac.val = 0 <;> simp [h, h2]
  · simp [h]

theorem pow52 : (2 : Nat) ^ 52 = 4503599627370496 := by norm_num
theorem pow53 : (2 : Nat) ^ 53 = 9007199254740992 := by norm_num

/-- The units of a finite double are a mantissa below `2^53` times a power of two. -/
theorem Double.units_form (a : Double) (hf : a.expo.val ≠ 2047) :
    ∃ mant t, a.units = mant * 2 ^ t ∧ mant < 9007199254740992 ∧ t ≤ 2045 := by
  have hfr := a.frac.isLt
  have he := a.expo.isLt
  unfold Double.units
  by_cases h0 : a.expo.val = 0
  · exact ⟨a.frac.val, 0, by simp [h0], by omega, by omega⟩
  · exact ⟨4503599627370496 + a.frac.val, a.expo.val - 1, by simp [h0], by omega, by omega⟩

theorem Double.ofUnits_self (a : Double) (hf : a.expo.val ≠ 2047) :
    Double.ofUnits a.sign a.units = a := by
  obtain ⟨s, e, f⟩ := a
  have hfr := f.isLt
  have he := e.isLt
  simp only at hf
  unfold Double.units Double.ofUnits
  simp only
  by_cases h0 : e.val = 0
  · simp only [h0, if_true, hfr, Double.mk.injEq, Fin.ext_iff, Nat.mod_eq_of_lt hfr, true_and]
    simp [h0]
  · simp only [h0, if_false]
    have hp : 0 < 2 ^ (e.val - 1) := Nat.two_pow_pos _
    have hlow : 2 ^ (52 + (e.val - 1)) ≤ (4503599627370496 + f.val) * 2 ^ (e.val - 1) := by
      rw [Nat.pow_add, pow52]
      exact Nat.mul_le_mul_right _ (by omega)
    have hhigh : (4503599627370496 + f.val) * 2 ^ (e.val - 1) < 2 ^ (52 + (e.val - 1) + 1) := by
      rw [show 52 + (e.val - 1) + 1 = 53 + (e.val - 1) by omega, Nat.pow_add, pow53]
      exact Nat.mul_lt_mul_of_pos_right (by omega) hp
    have hl := log2Floor_eq _ _ hlow hhigh
    have hge : ¬ ((4503599627370496 + f.val) * 2 ^ (e.val - 1) < 4503599627370496) := by
      have : 4503599627370496 * 1 ≤ (4503599627370496 + f.val) * 2 ^ (e.val - 1) :=
        Nat.mul_le_mul (by omega) hp
      omega
    rw [if_neg hge]
    have h1 : ¬ (log2Floor ((4503599627370496 + f.val) * 2 ^ (e.val - 1)) - 51 ≥ 2047) := by
      rw [hl]; omega
    rw [if_neg h1]
    have e1 : 52 + (e.val - 1) - 51 = e.val := by omega
    have e2 : 52 + (e.val - 1) - 52 = e.val - 1 := by omega
    simp only [Double.mk.injEq, Fin.ext_iff, true_and, hl, e1, e2, Nat.mul_div_cancel _ hp]
    constructor
    · exact Nat.mod_eq_of_lt he
    · omega

/-- The double of `R` units has `R` units when `R` is in the finite range and is the
magnitude of a double: below `2^52`, or a multiple of the spacing at its highest bit. -/
theorem Double.ofUnits_units (neg : Bool) (R : Nat) (hfin : R < 2 ^ 2098)
    (hrep : R < 4503599627370496 ∨ 2 ^ (log2Floor R - 52) ∣ R) :
    (Double.ofUnits neg R).units = R ∧ (Double.ofUnits neg R).expo.val ≠ 2047 ∧
      (Double.ofUnits neg R).sign = neg := by
  unfold Double.ofUnits
  by_cases h1 : R < 4503599627370496
  · rw [if_pos h1]
    simp [Double.units, Nat.mod_eq_of_lt h1]
  · rw [if_neg h1]
    have hdiv : 2 ^ (log2Floor R - 52) ∣ R := by
      rcases hrep with h | h
      · exact absurd h h1
      · exact h
    have hR : 0 < R := by omega
    obtain ⟨b1, b2⟩ := log2Floor_bounds R hR
    have hl52 : 52 ≤ log2Floor R := by
      by_contra hc
      have : 2 ^ (log2Floor R + 1) ≤ 2 ^ 52 := Nat.pow_le_pow_right (by omega) (by omega)
      rw [pow52] at this
      omega
    have hl : log2Floor R ≤ 2097 := by
      by_contra hc
      have : 2 ^ 2098 ≤ 2 ^ log2Floor R := Nat.pow_le_pow_right (by omega) (by omega)
      omega
    have h2 : ¬ (log2Floor R - 51 ≥ 2047) := by omega
    simp only [h2, if_false]
    have hm : (log2Floor R - 51) % 2048 = log2Floor R - 51 := Nat.mod_eq_of_lt (by omega)
    obtain ⟨q, hq⟩ := hdiv
    have hg : 0 < 2 ^ (log2Floor R - 52) := Nat.two_pow_pos _
    have hq1 : 4503599627370496 ≤ q := by
      by_contra hc
      have : 2 ^ (log2Floor R - 52) * q < 2 ^ (log2Floor R - 52) * 4503599627370496 :=
        Nat.mul_lt_mul_of_pos_left (by omega) hg
      rw [← pow52, ← Nat.pow_add, show log2Floor R - 52 + 52 = log2Floor R by omega] at this
      omega
    have hq2 : q < 9007199254740992 := by
      by_contra hc
      have : 2 ^ (log2Floor R - 52) * 9007199254740992 ≤ 2 ^ (log2Floor R - 52) * q :=
        Nat.mul_le_mul_left _ (by omega)
      rw [← pow53, ← Nat.pow_add,
        show log2Floor R - 52 + 53 = log2Floor R + 1 by omega] at this
      omega
    have hdq : R / 2 ^ (log2Floor R - 52) = q := by
      have := Nat.mul_div_cancel_left q hg
      rw [← hq] at this
      exact this
    refine ⟨?_, ?_, trivial⟩
    · simp only [Double.units, hm, hdq]
      have n0 : ¬ (log2Floor R - 51 = 0) := by omega
      simp only [n0, if_false]
      have e1 : log2Floor R - 51 - 1 = log2Floor R - 52 := by omega
      have e2 : 4503599627370496 + q % 4503599627370496 = q := by omega
      rw [e1, e2, Nat.mul_comm]
      exact hq.symm
    · simp only [hm]
      omega


theorem rep_of_mantissa (r s : Nat) (h1 : 4503599627370496 ≤ r) (h2 : r ≤ 9007199254740992) :
    2 ^ (log2Floor (r * 2 ^ s) - 52) ∣ r * 2 ^ s := by
  have hp : 0 < 2 ^ s := Nat.two_pow_pos s
  rcases Nat.lt_or_ge r 9007199254740992 with h | h
  · have hlow : 2 ^ (52 + s) ≤ r * 2 ^ s := by
      rw [Nat.pow_add, pow52]
      exact Nat.mul_le_mul_right _ h1
    have hhigh : r * 2 ^ s < 2 ^ (52 + s + 1) := by
      rw [show 52 + s + 1 = 53 + s by omega, Nat.pow_add, pow53]
      exact Nat.mul_lt_mul_of_pos_right h hp
    rw [log2Floor_eq _ _ hlow hhigh, show 52 + s - 52 = s by omega]
    exact Dvd.intro_left r rfl
  · have hr : r = 9007199254740992 := by omega
    have e : r * 2 ^ s = 2 ^ (53 + s) := by rw [hr, Nat.pow_add, pow53]
    have hl : log2Floor (2 ^ (53 + s)) = 53 + s :=
      log2Floor_eq _ _ (Nat.le_refl _) (Nat.pow_lt_pow_right (by omega) (by omega))
    rw [e, hl]
    exact Nat.pow_dvd_pow 2 (by omega)

theorem powU : (2 : Nat) ^ 1074 = 1048576 * 2 ^ 1054 := by
  rw [show (1048576 : Nat) = 2 ^ 20 by norm_num, ← Nat.pow_add]

theorem Double.reparsed_eq (d : Double) :
    d.reparsed = Double.round d.sign (d.millionths * 2 ^ 1074) 1000000 := by
  unfold Double.reparsed Double.ofDecimal
  have h : ¬ ((-6 : Int) ≥ 0) := by decide
  rw [if_neg h]
  have e : (10 : Nat) ^ (-(-6 : Int)).toNat = 1000000 := by decide
  rw [e]

/-- The double read back from the six-decimal text of a finite double: it is finite, has
the sign and the millionths of the double, and is zero when the millionths are. -/
theorem Double.reparsed_spec (d : Double) (hf : d.expo.val ≠ 2047) :
    d.reparsed.expo.val ≠ 2047 ∧ d.reparsed.sign = d.sign ∧
      d.reparsed.millionths = d.millionths ∧ (d.millionths = 0 → d.reparsed.units = 0) := by
  have hP : 0 < (2 : Nat) ^ 1054 := Nat.two_pow_pos _
  have hU := powU
  have hUpos : 0 < (2 : Nat) ^ 1074 := Nat.two_pow_pos _
  have key : ∀ R : Nat, R < 2 ^ 2098 → (R < 4503599627370496 ∨ 2 ^ (log2Floor R - 52) ∣ R) →
      roundHalfEven (R * 1000000) (2 ^ 1074) = d.millionths → (d.millionths = 0 → R = 0) →
      (Double.ofUnits d.sign R).expo.val ≠ 2047 ∧ (Double.ofUnits d.sign R).sign = d.sign ∧
      (Double.ofUnits d.sign R).millionths = d.millionths ∧
      (d.millionths = 0 → (Double.ofUnits d.sign R).units = 0) := by
    intro R h1 h2 h3 h4
    obtain ⟨a, b, c⟩ := Double.ofUnits_units d.sign R h1 h2
    refine ⟨b, c, ?_, ?_⟩
    · unfold Double.millionths at h3 ⊢
      rw [a]
      exact h3
    · intro h
      rw [a]
      exact h4 h
  rw [Double.reparsed_eq]
  unfold Double.round
  simp only
  by_cases hu0 : d.millionths * 2 ^ 1074 / 1000000 < 9007199254740992
  · -- below 2^53 units the doubles are one unit apart
    rw [if_pos hu0]
    have hfine := millionths_fine (2 ^ 1074) 1000000 d.millionths 0 (by omega) (by omega)
    simp only [Nat.pow_zero, Nat.mul_one] at hfine
    have hR : roundHalfEven (d.millionths * 2 ^ 1074) 1000000 ≤ 9007199254740992 := by
      rcases roundHalfEven_cases (d.millionths * 2 ^ 1074) 1000000 with ⟨e, _⟩ | ⟨e, _⟩ <;>
        (rw [e]; omega)
    apply key _ _ _ hfine
    · intro h0
      rw [h0, Nat.zero_mul]
      rfl
    · calc roundHalfEven (d.millionths * 2 ^ 1074) 1000000 ≤ 2 ^ 53 := by rw [pow53]; exact hR
        _ < 2 ^ 2098 := Nat.pow_lt_pow_right (by omega) (by omega)
    · rcases Nat.lt_or_ge (roundHalfEven (d.millionths * 2 ^ 1074) 1000000) 4503599627370496
        with h | h
      · exact Or.inl h
      · right
        have := rep_of_mantissa _ 0 h hR
        simpa using this
  · rw [if_neg hu0]
    have hu0' : 9007199254740992 ≤ d.millionths * 2 ^ 1074 / 1000000 := by omega
    obtain ⟨b1, b2⟩ := log2Floor_bounds (d.millionths * 2 ^ 1074 / 1000000) (by omega)
    have hk0 : d.millionths ≠ 0 := by
      intro h0
      rw [h0, Nat.zero_mul, Nat.zero_div] at hu0'
      omega
    have hl53 : 53 ≤ log2Floor (d.millionths * 2 ^ 1074 / 1000000) := by
      by_contra hc
      have : 2 ^ (log2Floor (d.millionths * 2 ^ 1074 / 1000000) + 1) ≤ 2 ^ 53 :=
        Nat.pow_le_pow_right (by omega) (by omega)
      rw [pow53] at this
      omega
    by_cases hs : log2Floor (d.millionths * 2 ^ 1074 / 1000000) - 52 ≤ 1054
    · -- spacing below one millionth
      generalize hsdef : log2Floor (d.millionths * 2 ^ 1074 / 1000000) - 52 = s at hs
      have hl : log2Floor (d.millionths * 2 ^ 1074 / 1000000) = 52 + s := by omega
      rw [hl] at b1 b2
      have hp : 0 < 2 ^ s := Nat.two_pow_pos s
      have hsP : 2 ^ s ≤ 2 ^ 1054 := Nat.pow_le_pow_right (by omega) hs
      have hfine := millionths_fine (2 ^ 1074) 1000000 d.millionths s (by omega) (by omega)
      have hq : d.millionths * 2 ^ 1074 / (1000000 * 2 ^ s) =
          d.millionths * 2 ^ 1074 / 1000000 / 2 ^ s := (Nat.div_div_eq_div_mul _ _ _).symm
      have hq1 : 4503599627370496 ≤ d.millionths * 2 ^ 1074 / 1000000 / 2 ^ s := by
        rw [Nat.le_div_iff_mul_le hp, ← pow52, ← Nat.pow_add]
        exact b1
      have hq2 : d.millionths * 2 ^ 1074 / 1000000 / 2 ^ s < 9007199254740992 := by
        rw [Nat.div_lt_iff_lt_mul hp, ← pow53, ← Nat.pow_add,
          show 53 + s = 52 + s + 1 by omega]
        exact b2
      have hr1 : 4503599627370496 ≤ roundHalfEven (d.millionths * 2 ^ 1074) (1000000 * 2 ^ s) := by
        rcases roundHalfEven_cases (d.millionths * 2 ^ 1074) (1000000 * 2 ^ s)
          with ⟨e, _⟩ | ⟨e, _⟩ <;> (rw [e, hq]; omega)
      have hr2 : roundHalfEven (d.millionths * 2 ^ 1074) (1000000 * 2 ^ s) ≤ 9007199254740992 := by
        rcases roundHalfEven_cases (d.millionths * 2 ^ 1074) (1000000 * 2 ^ s)
          with ⟨e, _⟩ | ⟨e, _⟩ <;> (rw [e, hq]; omega)
      apply key _ _ (Or.inr (rep_of_mantissa _ s hr1 hr2)) hfine (fun h => absurd h hk0)
      calc roundHalfEven (d.millionths * 2 ^ 1074) (1000000 * 2 ^ s) * 2 ^ s
          ≤ 2 ^ 53 * 2 ^ 1054 := by rw [pow53]; exact Nat.mul_le_mul hr2 hsP
        _ = 2 ^ (53 + 1054) := by rw [← Nat.pow_add]
        _ < 2 ^ 2098 := Nat.pow_lt_pow_right (by omega) (by omega)
    · -- spacing above one millionth: the double itself is read back
      generalize hsdef : log2Floor (d.millionths * 2 ^ 1074 / 1000000) - 52 = s at hs
      have hl : log2Floor (d.millionths * 2 ^ 1074 / 1000000) = 52 + s := by omega
      rw [hl] at b1 b2
      have hs' : 1055 ≤ s := by omega
      obtain ⟨mant, t, hform, hmant, _⟩ := Double.units_form d hf
      obtain ⟨na, nb⟩ := roundHalfEven_near (d.units * 1000000) (2 ^ 1074) hUpos
      have hdm := Nat.div_mul_le_self (d.millionths * 2 ^ 1074) 1000000
      have hB : 2 ^ 53 * 2 ^ 1054 ≤ 2 ^ (52 + s) := by
        rw [← Nat.pow_add]
        exact Nat.pow_le_pow_right (by omega) (by omega)
      rw [pow53] at hB
      have hA : 0 < 2 ^ t := Nat.two_pow_pos t
      have huA : d.units + 2 ^ t ≤ 9007199254740992 * 2 ^ t := by
        rw [hform]
        have : (mant + 1) * 2 ^ t ≤ 9007199254740992 * 2 ^ t := Nat.mul_le_mul_right _ (by omega)
        rw [Nat.add_mul, Nat.one_mul] at this
        exact this
      have hst : s ≤ t := by
        by_contra hc
        have h5 : 2 ^ 53 * 2 ^ t ≤ 2 ^ (52 + s) := by
          rw [← Nat.pow_add]
          exact Nat.pow_le_pow_right (by omega) (by omega)
        rw [pow53] at h5
        change 2 * (d.millionths * 2 ^ 1074) ≤ _ at na
        rcases Nat.lt_or_ge t 1054 with ht | ht
        · have : 2 ^ (t + 1) ≤ 2 ^ 1054 := Nat.pow_le_pow_right (by omega) (by omega)
          rw [Nat.pow_succ] at this
          omega
        · have : 2 ^ 1054 ≤ 2 ^ t := Nat.pow_le_pow_right (by omega) ht
          omega
      have hu : d.units = mant * 2 ^ (t - s) * 2 ^ s := by
        rw [hform, Nat.mul_assoc, ← Nat.pow_add, show t - s + s = t by omega]
      have hsU : 2 ^ 1074 < 1000000 * 2 ^ s := by
        have : 2 ^ 1055 ≤ 2 ^ s := Nat.pow_le_pow_right (by omega) hs'
        rw [Nat.pow_succ] at this
        omega
      have hc := millionths_coarse (2 ^ 1074) 1000000 d.units _ s hu hsU hUpos
      change roundHalfEven (d.millionths * 2 ^ 1074) (1000000 * 2 ^ s) = _ at hc
      rw [hc, ← hu, Double.ofUnits_self d hf]
      exact ⟨hf, rfl, rfl, fun h => absurd h hk0⟩

/-! ## The text of a Real and what `std::stod` reads from it -/

theorem natToString_length (n b : Nat) (h : n < 10 ^ b) (hb : 0 < b) :
    (natToString n).length ≤ b := by
  obtain ⟨ds, h1, _, _, _, h5⟩ :=
    digitsLoop_reads 10 (by omega) digitValue_digitChar_dec (n + 1) n [] (by omega)
  simp only [List.append_nil] at h1
  unfold natToString
  rw [h1]
  rcases h5 with h5 | h5
  · omega
  · by_contra hc
    have : 10 ^ b ≤ 10 ^ (ds.length - 1) := Nat.pow_le_pow_right (by omega) (by omega)
    omega

theorem double_to_string_finite (d : Double) (hf : d.expo.val ≠ 2047) :
    double_to_string d = (if d.sign then [45] else []) ++
      (natToString (d.millionths / 1000000) ++ 46 ::
        (List.replicate (6 - (natToString (d.millionths % 1000000)).length) 48
          ++ natToString (d.millionths % 1000000))) := by
  unfold double_to_string Double.millionths
  have h1 : d.isNaN = false := by simp [Double.isNaN, hf]
  have h2 : d.isInf = false := by simp [Double.isInf, hf]
  simp only [h1, h2, Bool.false_eq_true, if_false, List.append_assoc, List.singleton_append,
    List.cons_append, List.nil_append]

theorem takeDigits_stop (base : Nat) (c : Byte) (rest : Str) (a k : Nat)
    (h : digitValue base c = none) : takeDigits base (c :: rest) a k = (a, k) := by
  simp [takeDigits, h]

theorem stod_eval (span : Str) (neg : Bool) (sl ip ic m fc : Nat) (FR : Str)
    (hws : countSpaces span = 0) (hsign : takeSign span = (neg, sl))
    (hint : takeDigits 10 (span.drop sl) 0 0 = (ip, ic))
    (hafter : (span.drop sl).drop ic = 46 :: FR)
    (hfrac : takeDigits 10 FR ip 0 = (m, fc)) (hne : ¬ (ic + fc = 0))
    (hend : (span.drop sl).drop (ic + 1 + fc) = []) :
    stod span =
      if (Double.ofDecimal neg m (0 - (fc : Int))).isInf then .error .out_of_range
      else if stodUnderflow m (0 - (fc : Int)) (Double.ofDecimal neg m (0 - (fc : Int))) then
        .error .out_of_range
      else .ok (Double.ofDecimal neg m (0 - (fc : Int)), sl + ic + 1 + fc + 0) := by
  unfold stod
  simp only [hws, List.drop_zero, hsign, Nat.zero_add, hint, hafter, hfrac, hne, if_false,
    if_true, hend]

/-- `std::stod` reads the text that `std::to_string` wrote for a finite double to its end,
as the double nearest to the millionths of the text. -/
theorem stod_double_to_string (d : Double) (hf : d.expo.val ≠ 2047) :
    stod (double_to_string d) = .ok (d.reparsed, (double_to_string d).length) := by
  obtain ⟨rI, neI, dgI⟩ := natToString_reads (d.millionths / 1000000)
  obtain ⟨rF, neF, dgF⟩ := natToString_reads (d.millionths % 1000000)
  have hlenF := natToString_length (d.millionths % 1000000) 6
    (Nat.mod_lt _ (by norm_num)) (by omega)
  have rZ := readsAs_zero_replicate 10 (by decide) _ _ rF
    (6 - (natToString (d.millionths % 1000000)).length)
  rw [double_to_string_finite d hf]
  generalize hI : natToString (d.millionths / 1000000) = IP at rI neI dgI
  generalize hZ : List.replicate (6 - (natToString (d.millionths % 1000000)).length) 48
    ++ natToString (d.millionths % 1000000) = FR at rZ
  have hFRlen : FR.length = 6 := by
    rw [← hZ]
    simp only [List.length_append, List.length_replicate]
    omega
  obtain ⟨c, t, hct⟩ := List.exists_cons_of_ne_nil neI
  obtain ⟨dd, hdd, hcd⟩ := dgI c (by rw [hct]; exact List.mem_cons_self _ _)
  obtain ⟨f1, _, _, f4, f5⟩ := digitChar_dec_facts dd hdd
  rw [← hcd] at f1 f4 f5
  have e46 : digitValue 10 (46 : Byte) = none := by decide
  have hint : ∀ a k, takeDigits 10 (IP ++ 46 :: FR) a k =
      (a * 10 ^ IP.length + d.millionths / 1000000, k + IP.length) := by
    intro a k
    rw [rI a k, takeDigits_stop 10 46 FR _ _ e46]
  have hfrac : takeDigits 10 FR (d.millionths / 1000000) 0 = (d.millionths, 6) := by
    have := rZ (d.millionths / 1000000) 0 []
    rw [List.append_nil, takeDigits_nil, hFRlen] at this
    have e : d.millionths / 1000000 * 10 ^ 6 + d.millionths % 1000000 = d.millionths := by
      have := Nat.div_add_mod d.millionths 1000000
      rw [show (10 : Nat) ^ 6 = 1000000 by norm_num]
      omega
    rw [this, e, Nat.zero_add]
  have hdrop : (IP ++ 46 :: FR).drop IP.length = 46 :: FR := by
    rw [List.drop_left]
  have hdrop2 : (IP ++ 46 :: FR).drop (IP.length + 1 + 6) = [] := by
    apply List.drop_eq_nil_of_le
    simp only [List.length_append, List.length_cons]
    omega
  have hne : ¬ (IP.length + 6 = 0) := by omega
  have hfin := Double.reparsed_spec d hf
  have hre : Double.ofDecimal d.sign d.millionths (0 - ((6 : Nat) : Int)) = d.reparsed := rfl
  have hinf : d.reparsed.isInf = false := by simp [Double.isInf, hfin.1]
  have hunder : stodUnderflow d.millionths (0 - ((6 : Nat) : Int)) d.reparsed = false := by
    unfold stodUnderflow
    have h6 : ¬ ((0 : Int) - ((6 : Nat) : Int) ≥ 0) := by decide
    have e6 : (10 : Nat) ^ (-((0 : Int) - ((6 : Nat) : Int))).toNat = 1000000 := by decide
    simp only [h6, if_false, e6]
    rcases Nat.eq_zero_or_pos d.millionths with h0 | h0
    · have := hfin.2.2.2 h0
      simp [this, h0]
    · have hP : 2 ^ 54 ≤ 2 ^ 1054 := Nat.pow_le_pow_right (by omega) (by omega)
      rw [show (2 : Nat) ^ 54 = 18014398509481984 by norm_num] at hP
      have hk : 1 * 2 ^ 1074 ≤ d.millionths * 2 ^ 1074 := Nat.mul_le_mul_right _ h0
      rw [powU] at hk ⊢
      have : ¬ (4 * (d.millionths * (1048576 * 2 ^ 1054)) < 18014398509481983 * 1000000) := by
        omega
      simp [this]
  have hlen : ((if d.sign then [45] else []) ++ (IP ++ 46 :: FR)).length =
      (if d.sign then 1 else 0) + IP.length + 1 + 6 + 0 := by
    by_cases hs : d.sign = true
    · simp only [hs, if_true, List.length_append, List.length_cons, List.length_nil, hFRlen]
      omega
    · simp only [hs, if_false, List.length_append, List.length_cons, List.length_nil, hFRlen,
        Bool.false_eq_true]
      omega
  rw [stod_eval _ d.sign (if d.sign then 1 else 0) (d.millionths / 1000000) IP.length
    d.millionths 6 FR ?_ ?_ ?_ ?_ hfrac hne ?_, hre, hinf, hunder, hlen]
  · simp
  · by_cases hs : d.sign = true
    · simp [hs, countSpaces, show isspace (45 : Byte) = false by decide]
    · simp only [hs, if_false, List.nil_append, Bool.false_eq_true, hct]
      simp [countSpaces, f1]
  · by_cases hs : d.sign = true
    · simp [hs, takeSign]
    · simp only [hs, if_false, List.nil_append, Bool.false_eq_true, hct]
      simp [takeSign, f4, f5]
  · by_cases hs : d.sign = true
    · simp only [hs, if_true, List.singleton_append, List.drop_succ_cons, List.drop_zero]
      have := hint 0 0
      simpa using this
    · simp only [hs, if_false, List.nil_append, Bool.false_eq_true, List.drop_zero]
      have := hint 0 0
      simpa using this
  · by_cases hs : d.sign = true
    · simp only [hs, if_true, List.singleton_append, List.drop_succ_cons, List.drop_zero, hdrop]
    · simp only [hs, if_false, List.nil_append, Bool.false_eq_true, List.drop_zero, hdrop]
  · by_cases hs : d.sign = true
    · simp only [hs, if_true, List.singleton_append, List.drop_succ_cons, List.drop_zero, hdrop2]
    · simp only [hs, if_false, List.nil_append, Bool.false_eq_true, List.drop_zero, hdrop2]

theorem double_to_string_chars (d : Double) (hf : d.expo.val ≠ 2047) :
    (∃ c t, double_to_string d = c :: t ∧ isIntegerChar c = true) ∧
    (∀ c ∈ double_to_string d, isIntegerChar c = true ∨ isRealChar c = true) ∧
    (double_to_string d).any isRealChar = true := by
  obtain ⟨_, neI, dgI⟩ := natToString_reads (d.millionths / 1000000)
  obtain ⟨_, _, dgF⟩ := natToString_reads (d.millionths % 1000000)
  have hI : ∀ c ∈ natToString (d.millionths / 1000000), isIntegerChar c = true := by
    intro c hc
    obtain ⟨x, hx, e⟩ := dgI c hc
    rw [e]
    exact (digitChar_dec_facts x hx).2.1
  have hF : ∀ c ∈ natToString (d.millionths % 1000000), isIntegerChar c = true := by
    intro c hc
    obtain ⟨x, hx, e⟩ := dgF c hc
    rw [e]
    exact (digitChar_dec_facts x hx).2.1
  rw [double_to_string_finite d hf]
  refine ⟨?_, ?_, ?_⟩
  · by_cases hs : d.sign = true
    · exact ⟨45, _, by simp only [hs, if_true]; rfl, by decide⟩
    · obtain ⟨c, t, hct⟩ := List.exists_cons_of_ne_nil neI
      refine ⟨c, t ++ 46 :: (List.replicate (6 - (natToString (d.millionths % 1000000)).length)
        48 ++ natToString (d.millionths % 1000000)), ?_,
        hI c (by rw [hct]; exact List.mem_cons_self _ _)⟩
      simp only [hs, if_false, List.nil_append, Bool.false_eq_true, hct, List.cons_append]
  · intro c hc
    rcases List.mem_append.mp hc with h | h
    · left
      by_cases hs : d.sign = true
      · simp only [hs, if_true, List.mem_singleton] at h
        rw [h]; decide
      · simp [hs] at h
    · rcases List.mem_append.mp h with h | h
      · exact Or.inl (hI c h)
      · rcases List.mem_cons.mp h with h | h
        · right; rw [h]; decide
        · rcases List.mem_append.mp h with h | h
          · left; rw [List.eq_of_mem_replicate h]; decide
          · exact Or.inl (hF c h)
  · simp only [List.any_append, List.any_cons, Bool.or_eq_true]
    right; right; left
    decide

theorem parseNumber_loop_mixed (text : Str) :
    ∀ (s : Str) (fuel offset : Nat) (rest : Str) (b : Bool),
    text.drop offset = s ++ rest →
    (∀ c ∈ s, isIntegerChar c = true ∨ isRealChar c = true) →
    NumTerminated rest → s.length ≤ fuel →
    parseNumber_loop text fuel offset b = (offset + s.length, b || s.any isRealChar)
  | [], fuel, offset, rest, b, h, _, hr, _ => by
    cases fuel with
    | zero => simp [parseNumber_loop]
    | succ f =>
      simp only [parseNumber_loop]
      cases rest with
      | nil =>
        have hl := length_of_drop h
        simp only [List.append_nil, List.length_nil] at hl
        have : ¬ offset < text.length := by omega
        simp [this]
      | cons c t =>
        simp only [List.nil_append] at h
        simp [charAt_of_drop h, (hr c t rfl).1, (hr c t rfl).2]
  | w :: ws, fuel, offset, rest, b, h, hw, hr, hf => by
    cases fuel with
    | zero => simp at hf
    | succ f =>
      have h' : text.drop offset = w :: (ws ++ rest) := h
      have hi : (isIntegerChar w || isRealChar w) = true := by
        rcases hw w (List.mem_cons_self _ _) with e | e <;> simp [e]
      simp only [parseNumber_loop, lt_length_of_drop h', charAt_of_drop h', hi,
        decide_True, Bool.and_self, if_true]
      rw [parseNumber_loop_mixed text ws f (offset + 1) rest _ (drop_succ_of_drop h')
        (fun c hc => hw c (List.mem_cons_of_mem _ hc)) hr (by simpa using hf)]
      simp only [List.length_cons, List.any_cons, Bool.or_assoc, Prod.mk.injEq, and_true]
      omega

/-- `Value::_parseNumber` on the text `std::to_string` wrote for a finite double: the
Real of the double nearest to the millionths of the text. -/
theorem Value_parseNumber_real {text : Str} {offset : Nat} {rest : Str} (d : Double)
    (hf : d.expo.val ≠ 2047)
    (h : text.drop offset = double_to_string d ++ rest) (ht : NumTerminated rest) :
    Value_parseNumber text offset =
      .ok (Value.Real d.reparsed, offset + (double_to_string d).length) := by
  obtain ⟨⟨c, t, hct, _⟩, hall, hany⟩ := double_to_string_chars d hf
  have hl := length_of_drop h
  simp only [List.length_append] at hl
  have hloop := parseNumber_loop_mixed text (double_to_string d) (text.length - offset) offset
    rest false h hall ht (by omega)
  have hpos : 0 < (double_to_string d).length := by rw [hct]; simp
  unfold Value_parseNumber
  simp only [hloop, bind, Except.bind, YaJsonAssert, hany, Bool.false_or]
  have h1 : offset < offset + (double_to_string d).length := by omega
  simp only [h1, decide_True, if_true]
  have h2 : offset + (double_to_string d).length - offset = (double_to_string d).length := by
    omega
  rw [h2, substr_of_drop h, stod_double_to_string d hf]
  simp [pure, Except.pure]


/-! ## Induction over values -/

theorem Value.induct {P : Value → Prop} (hNull : P .Null) (hBool : ∀ b, P (.Boolean b))
    (hInt : ∀ i, P (.Integer i)) (hReal : ∀ r, P (.Real r)) (hStr : ∀ s, P (.String s))
    (hArr : ∀ xs, (∀ x ∈ xs, P x) → P (.Array xs))
    (hObj : ∀ m : Members, (∀ p ∈ m, P p.2) → P (.Object m)) : ∀ v, P v := by
  intro v
  refine Value.rec (motive_1 := P) (motive_2 := fun xs => ∀ x ∈ xs, P x)
    (motive_3 := fun m => ∀ p ∈ m, P p.2) (motive_4 := fun p => P p.2)
    hNull hBool hInt hReal hStr (fun xs ih => hArr xs ih) (fun m ih => hObj m ih)
    ?_ ?_ ?_ ?_ ?_ v
  · intro x hx; cases hx
  · intro head tail h1 h2 x hx
    rcases List.mem_cons.mp hx with h | h
    · rw [h]; exact h1
    · exact h2 x h
  · intro p hp; cases hp
  · intro head tail h1 h2 p hp
    rcases List.mem_cons.mp hp with h | h
    · rw [h]; exact h1
    · exact h2 p h
  · intro k v h; exact h

theorem allNodesList_iff (p : Value → Bool) : ∀ xs : List Value,
    allNodesList p xs = true ↔ ∀ x ∈ xs, x.allNodes p = true
  | [] => by simp [allNodesList]
  | x :: rest => by simp [allNodesList, allNodesList_iff p rest]

theorem allNodesMembers_iff (p : Value → Bool) : ∀ m : Members,
    allNodesMembers p m = true ↔ ∀ q ∈ m, q.2.allNodes p = true
  | [] => by simp [allNodesMembers]
  | (k, x) :: rest => by simp [allNodesMembers, allNodesMembers_iff p rest]

theorem allNodes_array (p : Value → Bool) (xs : List Value) :
    (Value.Array xs).allNodes p = true ↔
      p (.Array xs) = true ∧ ∀ x ∈ xs, x.allNodes p = true := by
  simp [Value.allNodes, allNodesList_iff]

theorem allNodes_object (p : Value → Bool) (m : Members) :
    (Value.Object m).allNodes p = true ↔
      p (.Object m) = true ∧ ∀ q ∈ m, q.2.allNodes p = true := by
  simp [Value.allNodes, allNodesMembers_iff]

/-! ## Shape of the formatted text -/

theorem Array_format_loop_cons (x : Value) (rest : List Value) (indent indentLevel : Int)
    (linePfx lineSuffix body : Str)
    (h : Array_format_loop (x :: rest) indent indentLevel linePfx lineSuffix = .ok body) :
    ∃ value more, x.format indent (indentLevel + 1) = .ok value ∧
      Array_format_loop rest indent indentLevel linePfx lineSuffix = .ok more ∧
      body = linePfx ++ value ++ (if rest.isEmpty then [] else [44]) ++ lineSuffix ++ more := by
  rw [Array_format_loop] at h
  cases hx : x.format indent (indentLevel + 1) with
  | error e => simp [hx] at h
  | ok value =>
    cases hr : Array_format_loop rest indent indentLevel linePfx lineSuffix with
    | error e => simp [hx, hr] at h
    | ok more =>
      simp only [hx, hr] at h
      cases h
      exact ⟨value, more, rfl, rfl, rfl⟩

theorem Object_format_loop_cons (key : Str) (x : Value) (rest : Members)
    (indent indentLevel : Int) (linePfx lineSuffix body : Str)
    (h : Object_format_loop ((key, x) :: rest) indent indentLevel linePfx lineSuffix = .ok body) :
    ∃ keyStr value more, String_format key = .ok keyStr ∧
      x.format indent (indentLevel + 1) = .ok value ∧
      Object_format_loop rest indent indentLevel linePfx lineSuffix = .ok more ∧
      body = linePfx ++ keyStr ++ [58] ++ value ++ (if rest.isEmpty then [] else [44])
        ++ lineSuffix ++ more := by
  rw [Object_format_loop] at h
  cases hk : String_format key with
  | error e => simp [hk] at h
  | ok keyStr =>
    cases hx : x.format indent (indentLevel + 1) with
    | error e => simp [hk, hx] at h
    | ok value =>
      cases hr : Object_format_loop rest indent indentLevel linePfx lineSuffix with
      | error e => simp [hk, hx, hr] at h
      | ok more =>
        simp only [hk, hx, hr] at h
        cases h
        exact ⟨keyStr, value, more, rfl, rfl, rfl, rfl⟩

theorem Value_format_array (xs : List Value) (indent indentLevel : Int) (out : Str)
    (h : (Value.Array xs).format indent indentLevel = .ok out) :
    ∃ linePfx lastLinePfx body,
      indentStrings indent indentLevel = .ok (linePfx, lastLinePfx) ∧
      Array_format_loop xs indent indentLevel linePfx (if indent ≥ 0 then [10] else []) = .ok body ∧
      out = [91] ++ (if indent ≥ 0 then [10] else []) ++ body ++ lastLinePfx ++ [93] := by
  rw [Value.format] at h
  cases hi : indentStrings indent indentLevel with
  | error e => simp [hi] at h
  | ok r =>
    obtain ⟨linePfx, lastLinePfx⟩ := r
    simp only [hi] at h
    cases hb : Array_format_loop xs indent indentLevel linePfx (if indent ≥ 0 then [10] else []) with
    | error e => simp [hb] at h
    | ok body =>
      simp only [hb] at h
      cases h
      exact ⟨linePfx, lastLinePfx, body, rfl, hb, rfl⟩

theorem Value_format_object (m : Members) (indent indentLevel : Int) (out : Str)
    (h : (Value.Object m).format indent indentLevel = .ok out) :
    ∃ linePfx lastLinePfx body,
      indentStrings indent indentLevel = .ok (linePfx, lastLinePfx) ∧
      Object_format_loop m indent indentLevel linePfx (if indent ≥ 0 then [10] else []) = .ok body ∧
      out = [123] ++ (if indent ≥ 0 then [10] else []) ++ body ++ lastLinePfx ++ [125] := by
  rw [Value.format] at h
  cases hi : indentStrings indent indentLevel with
  | error e => simp [hi] at h
  | ok r =>
    obtain ⟨linePfx, lastLinePfx⟩ := r
    simp only [hi] at h
    cases hb : Object_format_loop m indent indentLevel linePfx (if indent ≥ 0 then [10] else []) with
    | error e => simp [hb] at h
    | ok body =>
      simp only [hb] at h
      cases h
      exact ⟨linePfx, lastLinePfx, body, rfl, hb, rfl⟩

theorem indentStrings_spaces (indent indentLevel : Int) (linePfx lastLinePfx : Str)
    (h : indentStrings indent indentLevel = .ok (linePfx, lastLinePfx)) :
    (∀ c ∈ linePfx, c = 32) ∧ (∀ c ∈ lastLinePfx, c = 32) := by
  unfold indentStrings at h
  split at h
  · split at h
    · cases h
    · cases h
      exact ⟨fun c hc => List.eq_of_mem_replicate hc, fun c hc => List.eq_of_mem_replicate hc⟩
  · cases h
    simp

theorem ValueStart_facts (c : Byte) (h : ValueStart c) :
    isspace c = false ∧ c ≠ 93 ∧ c ≠ 125 ∧ c ≠ 44 := by
  rcases h with h | h | h | h | h | h | h
  any_goals (subst h; decide)
  simp only [isIntegerChar, Bool.or_eq_true, Bool.and_eq_true, decide_eq_true_eq] at h
  refine ⟨?_, ?_, ?_, ?_⟩
  · simp only [isspace, Bool.or_eq_false_iff, decide_eq_false_iff_not, Bool.and_eq_false_iff]
    omega
  all_goals (intro hc; rw [hc] at h; revert h; decide)

theorem allNodes_mono (p q : Value → Bool) (hpq : ∀ x, p x = true → q x = true) :
    ∀ v : Value, v.allNodes p = true → v.allNodes q = true := by
  intro v
  induction v using Value.induct with
  | hArr xs ih =>
    intro h
    obtain ⟨h1, h2⟩ := (allNodes_array p xs).mp h
    exact (allNodes_array q xs).mpr ⟨hpq _ h1, fun x hx => ih x hx (h2 x hx)⟩
  | hObj m ih =>
    intro h
    obtain ⟨h1, h2⟩ := (allNodes_object p m).mp h
    exact (allNodes_object q m).mpr ⟨hpq _ h1, fun x hx => ih x hx (h2 x hx)⟩
  | hNull => intro h; exact hpq _ h
  | hBool b => intro h; exact hpq _ h
  | hInt i => intro h; exact hpq _ h
  | hReal r => intro h; exact hpq _ h
  | hStr s => intro h; exact hpq _ h

theorem RealsExact_of_noReal (v : Value) (h : v.NoReal) : v.RealsExact :=
  allNodes_mono _ _ (by intro x hx; cases x <;> simp_all [nodeRealExact, Value.getType]) v h

theorem RealsFinite_of_exact (v : Value) (h : v.RealsExact) : v.RealsFinite :=
  allNodes_mono _ _ (by
    intro x hx
    cases x <;> simp_all [nodeRealExact, nodeRealFinite]) v h

theorem RealsFinite_of_noReal (v : Value) (h : v.NoReal) : v.RealsFinite :=
  RealsFinite_of_exact v (RealsExact_of_noReal v h)

theorem RealsFinite_real (r : Double) (h : (Value.Real r).RealsFinite) : r.expo.val ≠ 2047 :=
  (Double.isFinite_iff r).mp (by simpa [Value.RealsFinite, Value.allNodes, nodeRealFinite] using h)

theorem Value_format_start (v : Value) (indent indentLevel : Int) (out : Str)
    (hnr : v.RealsFinite) (h : v.format indent indentLevel = .ok out) :
    ∃ c t, out = c :: t ∧ ValueStart c := by
  cases v with
  | Null => rw [Value.format] at h; cases h; exact ⟨_, _, rfl, by simp [ValueStart]⟩
  | Boolean b =>
    rw [Value.format] at h; cases h
    cases b
    · exact ⟨_, _, rfl, by simp [ValueStart]⟩
    · exact ⟨_, _, rfl, by simp [ValueStart]⟩
  | Integer i =>
    rw [Value.format] at h; cases h
    obtain ⟨hne, hall⟩ := int_to_string_chars i
    obtain ⟨c, t, hct⟩ := List.exists_cons_of_ne_nil hne
    refine ⟨c, t, hct, ?_⟩
    right; right; right; right; right; right
    exact hall c (by rw [hct]; exact List.mem_cons_self _ _)
  | Real r =>
    rw [Value.format] at h; cases h
    obtain ⟨⟨c, t, hct, hc⟩, _, _⟩ := double_to_string_chars r (RealsFinite_real r hnr)
    refine ⟨c, t, hct, ?_⟩
    right; right; right; right; right; right
    exact hc
  | String s =>
    rw [Value.format] at h
    obtain ⟨enc, h1, _⟩ := String_format_parses s out h
    exact ⟨34, enc ++ [34], by simpa using h1, by simp [ValueStart]⟩
  | Array xs =>
    obtain ⟨_, _, _, _, _, h3⟩ := Value_format_array xs indent indentLevel out h
    exact ⟨91, _, h3, by simp [ValueStart]⟩
  | Object m =>
    obtain ⟨_, _, _, _, _, h3⟩ := Value_format_object m indent indentLevel out h
    exact ⟨123, _, h3, by simp [ValueStart]⟩


/-! ## Parsing back an Array -/

theorem NumTerminated_nil : NumTerminated [] := by
  intro c t h; cases h

theorem NumTerminated_of_sep (c : Byte) (t : Str) (h : Sep c) : NumTerminated (c :: t) := by
  intro c' t' e
  cases e
  rcases h with h | h | h | h
  · simp only [isspace, Bool.or_eq_true, Bool.and_eq_true, decide_eq_true_eq] at h
    simp only [isIntegerChar, isRealChar, Bool.or_eq_false_iff, decide_eq_false_iff_not,
      Bool.and_eq_false_iff]
    omega
  all_goals (subst h; decide)

theorem NumTerminated_append_ws (ws : Str) (c : Byte) (t : Str)
    (hw : ∀ a ∈ ws, isspace a = true) (hc : Sep c) : NumTerminated (ws ++ c :: t) := by
  cases ws with
  | nil => exact NumTerminated_of_sep c t hc
  | cons a ws' => exact NumTerminated_of_sep a _ (Or.inl (hw a (List.mem_cons_self _ _)))

theorem Array_parse_loop_end (parse : Str → Nat → Except Err (Value × Nat)) {text : Str}
    {offset : Nat} {rest : Str} (result : List Value) (fuel : Nat)
    (h : text.drop offset = 93 :: rest) :
    Array_parse_loop parse text (fuel + 1) offset result = .ok (result, offset) := by
  simp [Array_parse_loop, charAt_of_drop h]

theorem Array_parse_loop_format (parse : Str → Nat → Except Err (Value × Nat)) (text : Str)
    (indent indentLevel : Int) (linePfx lineSuffix lastLinePfx : Str) (bound : Nat)
    (hLP : ∀ c ∈ linePfx, isspace c = true) (hLS : ∀ c ∈ lineSuffix, isspace c = true)
    (hLLP : ∀ c ∈ lastLinePfx, isspace c = true) :
    ∀ (xs : List Value) (x : Value) (value more w : Str) (offset : Nat) (result : List Value)
      (fuel : Nat) (rest : Str),
      (∀ y ∈ x :: xs, y.RealsFinite ∧ ParsesBack parse text bound indent (indentLevel + 1) y) →
      x.format indent (indentLevel + 1) = .ok value →
      Array_format_loop xs indent indentLevel linePfx lineSuffix = .ok more →
      (∀ c ∈ w, isspace c = true) →
      text.drop offset = w ++ (value ++ ((if xs.isEmpty then [] else [44]) ++
        (lineSuffix ++ (more ++ (lastLinePfx ++ 93 :: rest))))) →
      text.length - offset < fuel → text.length - offset < bound →
      Array_parse_loop parse text fuel offset result =
        .ok (result ++ x :: xs, offset + (w ++ (value ++ ((if xs.isEmpty then [] else [44]) ++
          (lineSuffix ++ (more ++ lastLinePfx))))).length)
  | xs, x, value, more, w, offset, result, fuel, rest, hall, hx, hmore, hw, hd, hfuel, hbound => by
    obtain ⟨hnr, hpb⟩ := hall x (List.mem_cons_self _ _)
    obtain ⟨c0, t0, hv0, hstart⟩ := Value_format_start x indent (indentLevel + 1) value hnr hx
    obtain ⟨s1, s2, s3, s4⟩ := ValueStart_facts c0 hstart
    have hlen := length_of_drop hd
    simp only [List.length_append, List.length_cons] at hlen
    -- the loop is entered
    obtain ⟨f, rfl⟩ : ∃ f, fuel = f + 1 := ⟨fuel - 1, by omega⟩
    have hfirst : ∃ c t, text.drop offset = c :: t ∧ c ≠ 93 := by
      cases w with
      | nil => exact ⟨c0, _, by rw [hd, hv0]; rfl, s2⟩
      | cons a w' =>
        refine ⟨a, _, by rw [hd]; rfl, ?_⟩
        intro ha
        have := hw a (List.mem_cons_self _ _)
        rw [ha] at this
        revert this
        decide
    obtain ⟨cf, tf, hcf, hne⟩ := hfirst
    have hd1 : text.drop offset = w ++ (c0 :: (t0 ++ ((if xs.isEmpty then [] else [44]) ++
        (lineSuffix ++ (more ++ (lastLinePfx ++ 93 :: rest)))))) := by
      rw [hd, hv0]; rfl
    have hskip : Value.skipWhitespace text offset = offset + w.length :=
      skipWhitespace_eq w _ hd1 hw (by intro c t e; cases e; exact s1)
    have hd2 : text.drop (offset + w.length) = value ++ ((if xs.isEmpty then [] else [44]) ++
        (lineSuffix ++ (more ++ (lastLinePfx ++ 93 :: rest)))) := drop_add_of_drop hd
    have hd2' : text.drop (offset + w.length) = c0 :: (t0 ++ ((if xs.isEmpty then [] else [44]) ++
        (lineSuffix ++ (more ++ (lastLinePfx ++ 93 :: rest))))) := by
      rw [hd2, hv0]; rfl
    have hd3 : text.drop (offset + w.length + value.length) =
        (if xs.isEmpty then [] else [44]) ++
        (lineSuffix ++ (more ++ (lastLinePfx ++ 93 :: rest))) := drop_add_of_drop hd2
    rw [Array_parse_loop]
    simp only [lt_length_of_drop hcf, charAt_of_drop hcf, hne, ne_eq, not_false_eq_true,
      decide_True, Bool.and_self, if_true, hskip, charAt_of_drop hd2', s2, if_false]
    cases xs with
    | nil =>
      rw [Array_format_loop] at hmore
      cases hmore
      simp only [List.isEmpty_nil, if_true, List.nil_append] at hd3 hd2 ⊢
      have hterm : NumTerminated (lineSuffix ++ (lastLinePfx ++ 93 :: rest)) := by
        rw [← List.append_assoc]
        exact NumTerminated_append_ws _ 93 rest
          (by intro a ha; rcases List.mem_append.mp ha with h | h
              · exact hLS a h
              · exact hLLP a h) (Or.inr (Or.inl rfl))
      rw [hpb value (offset + w.length) _ hx hd2 hterm (by omega)]
      have hd3' : text.drop (offset + w.length + value.length) =
          (lineSuffix ++ lastLinePfx) ++ 93 :: rest := by
        rw [hd3]; simp
      have hskip2 : Value.skipWhitespace text (offset + w.length + value.length) =
          offset + w.length + value.length + (lineSuffix ++ lastLinePfx).length :=
        skipWhitespace_eq _ _ hd3'
          (by intro a ha; rcases List.mem_append.mp ha with h | h
              · exact hLS a h
              · exact hLLP a h) (by intro c t e; cases e; decide)
      have hd4 : text.drop (offset + w.length + value.length + (lineSuffix ++ lastLinePfx).length)
          = 93 :: rest := drop_add_of_drop hd3'
      simp only [hskip2, charAt_of_drop hd4, Array_append]
      have hlen4 := length_of_drop hd4
      simp only [List.length_cons] at hlen4
      obtain ⟨f', rfl⟩ : ∃ f', f = f' + 1 := ⟨f - 1, by
        simp only [List.length_nil, Nat.add_zero, Nat.zero_add] at hlen
        omega⟩
      simp only [decide_True, Bool.or_true, if_true]
      have h44 : ¬ ((93 : Byte) = 44) := by decide
      simp only [h44, if_false]
      rw [Array_parse_loop_end parse _ f' hd4]
      simp [Nat.add_assoc]
    | cons x2 xs2 =>
      obtain ⟨value2, more2, hx2, hmore2, hbody⟩ :=
        Array_format_loop_cons x2 xs2 indent indentLevel linePfx lineSuffix more hmore
      simp only [List.isEmpty_cons, Bool.false_eq_true, if_false] at hd3 hd2 ⊢
      have hterm : NumTerminated ([44] ++ (lineSuffix ++ (more ++ (lastLinePfx ++ 93 :: rest)))) :=
        NumTerminated_of_sep 44 _ (Or.inr (Or.inr (Or.inr rfl)))
      rw [hpb value (offset + w.length) _ hx hd2 hterm (by omega)]
      have hd3' : text.drop (offset + w.length + value.length) =
          44 :: (lineSuffix ++ (more ++ (lastLinePfx ++ 93 :: rest))) := hd3
      have hskip2 : Value.skipWhitespace text (offset + w.length + value.length) =
          offset + w.length + value.length := skipWhitespace_none hd3' (by decide)
      obtain ⟨hnr2, _⟩ := hall x2 (List.mem_cons_of_mem _ (List.mem_cons_self _ _))
      obtain ⟨c2, t2, hv2, hstart2⟩ :=
        Value_format_start x2 indent (indentLevel + 1) value2 hnr2 hx2
      have hd4 : text.drop (offset + w.length + value.length + 1) =
          (lineSuffix ++ linePfx) ++ (value2 ++ ((if xs2.isEmpty then [] else [44]) ++
            (lineSuffix ++ (more2 ++ (lastLinePfx ++ 93 :: rest))))) := by
        rw [drop_succ_of_drop hd3', hbody]
        simp
      have hd4' : text.drop (offset + w.length + value.length + 1) =
          (lineSuffix ++ linePfx) ++ (c2 :: (t2 ++ ((if xs2.isEmpty then [] else [44]) ++
            (lineSuffix ++ (more2 ++ (lastLinePfx ++ 93 :: rest)))))) := by
        rw [hd4, hv2]; rfl
      have hws : ∀ a ∈ lineSuffix ++ linePfx, isspace a = true := by
        intro a ha
        rcases List.mem_append.mp ha with h | h
        · exact hLS a h
        · exact hLP a h
      have hskip3 : Value.skipWhitespace text (offset + w.length + value.length + 1) =
          offset + w.length + value.length + 1 + (lineSuffix ++ linePfx).length :=
        skipWhitespace_eq _ _ hd4' hws
          (by intro c t e; cases e; exact (ValueStart_facts c2 hstart2).1)
      have hd5 : text.drop (offset + w.length + value.length + 1 + (lineSuffix ++ linePfx).length)
          = [] ++ (value2 ++ ((if xs2.isEmpty then [] else [44]) ++
            (lineSuffix ++ (more2 ++ (lastLinePfx ++ 93 :: rest))))) := drop_add_of_drop hd4
      simp only [hskip2, charAt_of_drop hd3', Array_append, decide_True, Bool.true_or, if_true,
        hskip3]
      have hlen5 := length_of_drop hd5
      rw [Array_parse_loop_format parse text indent indentLevel linePfx lineSuffix lastLinePfx
        bound hLP hLS hLLP xs2 x2 value2 more2 [] _ (result ++ [x]) f rest
        (fun y hy => hall y (List.mem_cons_of_mem _ hy)) hx2 hmore2 (by simp) hd5
        (by omega) (by omega)]
      rw [hbody]
      simp only [List.append_assoc, List.singleton_append, List.length_append, List.length_cons,
        List.length_nil, List.nil_append]
      congr 2
      omega
termination_by xs => xs.length


/-! ## Parsing back an Object -/

theorem mapAssign_append (key : Str) (v : Value) : ∀ (m : Members),
    (∀ p ∈ m, strLess p.1 key = true) → mapAssign key v m = m ++ [(key, v)]
  | [], _ => rfl
  | (k, x) :: rest, h => by
    have h1 : strLess k key = true := h (k, x) (List.mem_cons_self _ _)
    simp only [mapAssign, h1, if_true, List.cons_append]
    rw [mapAssign_append key v rest (fun p hp => h p (List.mem_cons_of_mem _ hp))]

theorem Object_parse_loop_end (parse : Str → Nat → Except Err (Value × Nat)) {text : Str}
    {offset : Nat} {rest : Str} (result : Members) (fuel : Nat)
    (h : text.drop offset = 125 :: rest) :
    Object_parse_loop parse text (fuel + 1) offset result = .ok (result, offset) := by
  simp [Object_parse_loop, charAt_of_drop h]

theorem Object_parse_loop_format (parse : Str → Nat → Except Err (Value × Nat)) (text : Str)
    (indent indentLevel : Int) (linePfx lineSuffix lastLinePfx : Str) (bound : Nat)
    (hLP : ∀ c ∈ linePfx, isspace c = true) (hLS : ∀ c ∈ lineSuffix, isspace c = true)
    (hLLP : ∀ c ∈ lastLinePfx, isspace c = true) :
    ∀ (ms : Members) (key : Str) (x : Value) (keyStr value more w : Str) (offset : Nat)
      (result : Members) (fuel : Nat) (rest : Str),
      (∀ q ∈ (key, x) :: ms,
        q.2.RealsFinite ∧ ParsesBack parse text bound indent (indentLevel + 1) q.2) →
      KeysAscending (result ++ (key, x) :: ms) →
      String_format key = .ok keyStr →
      x.format indent (indentLevel + 1) = .ok value →
      Object_format_loop ms indent indentLevel linePfx lineSuffix = .ok more →
      (∀ c ∈ w, isspace c = true) →
      text.drop offset = w ++ (keyStr ++ (58 :: (value ++ ((if ms.isEmpty then [] else [44]) ++
        (lineSuffix ++ (more ++ (lastLinePfx ++ 125 :: rest))))))) →
      text.length - offset < fuel → text.length - offset < bound →
      Object_parse_loop parse text fuel offset result =
        .ok (result ++ (key, x) :: ms,
          offset + (w ++ (keyStr ++ (58 :: (value ++ ((if ms.isEmpty then [] else [44]) ++
            (lineSuffix ++ (more ++ lastLinePfx))))))).length)
  | ms, key, x, keyStr, value, more, w, offset, result, fuel, rest, hall, hasc, hk, hx, hmore,
      hw, hd, hfuel, hbound => by
    obtain ⟨hnr, hpb⟩ := hall (key, x) (List.mem_cons_self _ _)
    obtain ⟨enc, hks, _⟩ := String_format_parses key keyStr hk
    have hks' : keyStr = 34 :: (enc ++ [34]) := by simpa using hks
    have hlen := length_of_drop hd
    simp only [List.length_append, List.length_cons] at hlen
    obtain ⟨f, rfl⟩ : ∃ f, fuel = f + 1 := ⟨fuel - 1, by omega⟩
    have hfirst : ∃ c t, text.drop offset = c :: t ∧ c ≠ 125 := by
      cases w with
      | nil => exact ⟨34, _, by rw [hd, hks']; rfl, by decide⟩
      | cons a w' =>
        refine ⟨a, _, by rw [hd]; rfl, ?_⟩
        intro ha
        have := hw a (List.mem_cons_self _ _)
        rw [ha] at this
        revert this
        decide
    obtain ⟨cf, tf, hcf, hne⟩ := hfirst
    have hd1 : text.drop offset = w ++ (34 :: ((enc ++ [34]) ++ (58 :: (value ++
        ((if ms.isEmpty then [] else [44]) ++
        (lineSuffix ++ (more ++ (lastLinePfx ++ 125 :: rest)))))))) := by
      rw [hd, hks']; rfl
    have hskip : Value.skipWhitespace text offset = offset + w.length :=
      skipWhitespace_eq w _ hd1 hw (by intro c t e; cases e; decide)
    have hd2 : text.drop (offset + w.length) = keyStr ++ (58 :: (value ++
        ((if ms.isEmpty then [] else [44]) ++
        (lineSuffix ++ (more ++ (lastLinePfx ++ 125 :: rest)))))) := drop_add_of_drop hd
    have hd2' : text.drop (offset + w.length) = 34 :: ((enc ++ [34]) ++ (58 :: (value ++
        ((if ms.isEmpty then [] else [44]) ++
        (lineSuffix ++ (more ++ (lastLinePfx ++ 125 :: rest))))))) := by
      rw [hd2, hks']; rfl
    have hd3 : text.drop (offset + w.length + keyStr.length) = 58 :: (value ++
        ((if ms.isEmpty then [] else [44]) ++
        (lineSuffix ++ (more ++ (lastLinePfx ++ 125 :: rest))))) := drop_add_of_drop hd2
    have hskip3 : Value.skipWhitespace text (offset + w.length + keyStr.length) =
        offset + w.length + keyStr.length := skipWhitespace_none hd3 (by decide)
    have hd4 : text.drop (offset + w.length + keyStr.length + 1) = value ++
        ((if ms.isEmpty then [] else [44]) ++
        (lineSuffix ++ (more ++ (lastLinePfx ++ 125 :: rest)))) := drop_succ_of_drop hd3
    have hd5 : text.drop (offset + w.length + keyStr.length + 1 + value.length) =
        (if ms.isEmpty then [] else [44]) ++
        (lineSuffix ++ (more ++ (lastLinePfx ++ 125 :: rest))) := drop_add_of_drop hd4
    have hset : Object_set result key x = result ++ [(key, x)] := by
      unfold Object_set
      apply mapAssign_append
      intro p hp
      have := (List.pairwise_append.mp hasc).2.2 p hp (key, x) (List.mem_cons_self _ _)
      exact this
    have e34 : ¬ ((34 : Byte) = 125) := by decide
    rw [Object_parse_loop]
    simp only [lt_length_of_drop hcf, charAt_of_drop hcf, hne, ne_eq, not_false_eq_true,
      decide_True, Bool.and_self, if_true, hskip, lt_length_of_drop hd2', charAt_of_drop hd2',
      e34, if_false, String_parse_format key keyStr hk hd2, hskip3, lt_length_of_drop hd3,
      charAt_of_drop hd3, hset]
    cases ms with
    | nil =>
      rw [Object_format_loop] at hmore
      cases hmore
      simp only [List.isEmpty_nil, if_true, List.nil_append] at hd5 hd4 ⊢
      have hterm : NumTerminated (lineSuffix ++ (lastLinePfx ++ 125 :: rest)) := by
        rw [← List.append_assoc]
        exact NumTerminated_append_ws _ 125 rest
          (by intro a ha; rcases List.mem_append.mp ha with h | h
              · exact hLS a h
              · exact hLLP a h) (Or.inr (Or.inr (Or.inl rfl)))
      rw [hpb value _ _ hx hd4 hterm (by omega)]
      have hd5' : text.drop (offset + w.length + keyStr.length + 1 + value.length) =
          (lineSuffix ++ lastLinePfx) ++ 125 :: rest := by
        rw [hd5]; simp
      have hskip5 : Value.skipWhitespace text (offset + w.length + keyStr.length + 1 + value.length)
          = offset + w.length + keyStr.length + 1 + value.length
            + (lineSuffix ++ lastLinePfx).length :=
        skipWhitespace_eq _ _ hd5'
          (by intro a ha; rcases List.mem_append.mp ha with h | h
              · exact hLS a h
              · exact hLLP a h) (by intro c t e; cases e; decide)
      have hd6 : text.drop (offset + w.length + keyStr.length + 1 + value.length
          + (lineSuffix ++ lastLinePfx).length) = 125 :: rest := drop_add_of_drop hd5'
      have hlen6 := length_of_drop hd6
      simp only [List.length_cons] at hlen6
      obtain ⟨f', rfl⟩ : ∃ f', f = f' + 1 := ⟨f - 1, by
        simp only [List.length_nil, Nat.add_zero, Nat.zero_add] at hlen
        omega⟩
      have h44 : ¬ ((125 : Byte) = 44) := by decide
      simp only [hskip5, charAt_of_drop hd6, decide_True, Bool.or_true, if_true, h44, if_false,
        hset]
      rw [Object_parse_loop_end parse _ f' hd6]
      simp [Nat.add_assoc]
      omega
    | cons q2 ms2 =>
      obtain ⟨key2, x2⟩ := q2
      obtain ⟨keyStr2, value2, more2, hk2, hx2, hmore2, hbody⟩ :=
        Object_format_loop_cons key2 x2 ms2 indent indentLevel linePfx lineSuffix more hmore
      simp only [List.isEmpty_cons, Bool.false_eq_true, if_false] at hd5 hd4 ⊢
      have hterm : NumTerminated ([44] ++ (lineSuffix ++ (more ++ (lastLinePfx ++ 125 :: rest)))) :=
        NumTerminated_of_sep 44 _ (Or.inr (Or.inr (Or.inr rfl)))
      rw [hpb value _ _ hx hd4 hterm (by omega)]
      have hd5' : text.drop (offset + w.length + keyStr.length + 1 + value.length) =
          44 :: (lineSuffix ++ (more ++ (lastLinePfx ++ 125 :: rest))) := hd5
      have hskip5 : Value.skipWhitespace text (offset + w.length + keyStr.length + 1 + value.length)
          = offset + w.length + keyStr.length + 1 + value.length :=
        skipWhitespace_none hd5' (by decide)
      obtain ⟨enc2, hks2, _⟩ := String_format_parses key2 keyStr2 hk2
      have hks2' : keyStr2 = 34 :: (enc2 ++ [34]) := by simpa using hks2
      have hd6 : text.drop (offset + w.length + keyStr.length + 1 + value.length + 1) =
          (lineSuffix ++ linePfx) ++ (keyStr2 ++ (58 :: (value2 ++
            ((if ms2.isEmpty then [] else [44]) ++
            (lineSuffix ++ (more2 ++ (lastLinePfx ++ 125 :: rest))))))) := by
        rw [drop_succ_of_drop hd5', hbody]
        simp
      have hd6' : text.drop (offset + w.length + keyStr.length + 1 + value.length + 1) =
          (lineSuffix ++ linePfx) ++ (34 :: ((enc2 ++ [34]) ++ (58 :: (value2 ++
            ((if ms2.isEmpty then [] else [44]) ++
            (lineSuffix ++ (more2 ++ (lastLinePfx ++ 125 :: rest)))))))) := by
        rw [hd6, hks2']; rfl
      have hws : ∀ a ∈ lineSuffix ++ linePfx, isspace a = true := by
        intro a ha
        rcases List.mem_append.mp ha with h | h
        · exact hLS a h
        · exact hLP a h
      have hskip6 : Value.skipWhitespace text
          (offset + w.length + keyStr.length + 1 + value.length + 1) =
          offset + w.length + keyStr.length + 1 + value.length + 1
            + (lineSuffix ++ linePfx).length :=
        skipWhitespace_eq _ _ hd6' hws (by intro c t e; cases e; decide)
      have hd7 : text.drop (offset + w.length + keyStr.length + 1 + value.length + 1
          + (lineSuffix ++ linePfx).length)
          = [] ++ (keyStr2 ++ (58 :: (value2 ++ ((if ms2.isEmpty then [] else [44]) ++
            (lineSuffix ++ (more2 ++ (lastLinePfx ++ 125 :: rest))))))) := drop_add_of_drop hd6
      simp only [hskip5, charAt_of_drop hd5', decide_True, Bool.true_or, if_true, hskip6, hset]
      have hlen7 := length_of_drop hd7
      have hasc' : KeysAscending ((result ++ [(key, x)]) ++ (key2, x2) :: ms2) := by
        simpa using hasc
      rw [Object_parse_loop_format parse text indent indentLevel linePfx lineSuffix lastLinePfx
        bound hLP hLS hLLP ms2 key2 x2 keyStr2 value2 more2 [] _ (result ++ [(key, x)]) f rest
        (fun y hy => hall y (List.mem_cons_of_mem _ hy)) hasc' hk2 hx2 hmore2 (by simp) hd7
        (by omega) (by omega)]
      rw [hbody]
      simp only [List.append_assoc, List.singleton_append, List.length_append, List.length_cons,
        List.length_nil, List.nil_append]
      congr 2
      omega
termination_by ms => ms.length


/-! ## The round trip -/

theorem isspace_ne (a : Byte) (h : isspace a = true) : a ≠ 93 ∧ a ≠ 125 := by
  constructor <;> (intro ha; rw [ha] at h; revert h; decide)

theorem Array_parse_loop_empty (parse : Str → Nat → Except Err (Value × Nat)) {text : Str}
    {offset : Nat} {rest : Str} (w : Str) (result : List Value) (fuel : Nat)
    (hw : ∀ c ∈ w, isspace c = true) (h : text.drop offset = w ++ 93 :: rest) :
    Array_parse_loop parse text (fuel + 1) offset result = .ok (result, offset + w.length) := by
  cases w with
  | nil => simpa using Array_parse_loop_end parse result fuel h
  | cons a w' =>
    have h1 : text.drop offset = a :: (w' ++ 93 :: rest) := h
    have hskip := skipWhitespace_eq (a :: w') (93 :: rest) h hw (by intro c t e; cases e; decide)
    have h2 : text.drop (offset + (a :: w').length) = 93 :: rest := drop_add_of_drop h
    rw [Array_parse_loop]
    simp only [lt_length_of_drop h1, charAt_of_drop h1,
      (isspace_ne a (hw a (List.mem_cons_self _ _))).1, hskip, charAt_of_drop h2, ne_eq,
      not_false_eq_true, decide_True, Bool.and_self, if_true]

theorem Object_parse_loop_empty (parse : Str → Nat → Except Err (Value × Nat)) {text : Str}
    {offset : Nat} {rest : Str} (w : Str) (result : Members) (fuel : Nat)
    (hw : ∀ c ∈ w, isspace c = true) (h : text.drop offset = w ++ 125 :: rest) :
    Object_parse_loop parse text (fuel + 1) offset result = .ok (result, offset + w.length) := by
  cases w with
  | nil => simpa using Object_parse_loop_end parse result fuel h
  | cons a w' =>
    have h1 : text.drop offset = a :: (w' ++ 125 :: rest) := h
    have hskip := skipWhitespace_eq (a :: w') (125 :: rest) h hw (by intro c t e; cases e; decide)
    have h2 : text.drop (offset + (a :: w').length) = 125 :: rest := drop_add_of_drop h
    rw [Object_parse_loop]
    simp only [lt_length_of_drop h1, charAt_of_drop h1,
      (isspace_ne a (hw a (List.mem_cons_self _ _))).2, hskip, charAt_of_drop h2,
      lt_length_of_drop h2, ne_eq, not_false_eq_true, decide_True, Bool.and_self, if_true]

theorem lineSuffix_space (indent : Int) :
    ∀ c ∈ (if indent ≥ 0 then [10] else [] : Str), isspace c = true := by
  intro c hc
  split at hc
  · simp only [List.mem_singleton] at hc
    rw [hc]; decide
  · cases hc

theorem spaces_isspace (s : Str) (h : ∀ c ∈ s, c = 32) : ∀ c ∈ s, isspace c = true := by
  intro c hc
  rw [h c hc]
  decide

theorem Value_parseWord_eq {text : Str} {offset : Nat} (word rest : Str)
    (h : text.drop offset = word ++ rest) :
    Value_parseWord text word offset = .ok (offset + word.length) := by
  simp [Value_parseWord, substr_of_drop h]

theorem parse_depth_format : ∀ v : Value, v.WellFormed → v.RealsExact →
    ∀ (indent indentLevel : Int) (text : Str) (depth : Nat),
      ParsesBack (Value.parse_depth depth) text depth indent indentLevel v := by
  intro v
  induction v using Value.induct with
  | hNull =>
    intro _ _ indent indentLevel text depth out offset rest hf hd _ hb
    rw [Value.format] at hf
    cases hf
    obtain ⟨d, rfl⟩ : ∃ d, depth = d + 1 := ⟨depth - 1, by omega⟩
    have hd' : text.drop offset = 110 :: ([117, 108, 108] ++ rest) := hd
    rw [Value.parse_depth]
    simp only [skipWhitespace_none hd' (by decide), lt_length_of_drop hd', if_true,
      charAt_of_drop hd', Value_parseWord_eq _ rest hd]
    simp
  | hBool b =>
    intro _ _ indent indentLevel text depth out offset rest hf hd _ hb
    rw [Value.format] at hf
    cases hf
    obtain ⟨d, rfl⟩ : ∃ d, depth = d + 1 := ⟨depth - 1, by omega⟩
    cases b
    · simp only [Bool.false_eq_true, if_false] at hd ⊢
      have hd' : text.drop offset = 102 :: ([97, 108, 115, 101] ++ rest) := hd
      rw [Value.parse_depth]
      simp only [skipWhitespace_none hd' (by decide), lt_length_of_drop hd', if_true,
        charAt_of_drop hd', Value_parseWord_eq _ rest hd]
      simp
    · simp only [if_true] at hd ⊢
      have hd' : text.drop offset = 116 :: ([114, 117, 101] ++ rest) := hd
      rw [Value.parse_depth]
      simp only [skipWhitespace_none hd' (by decide), lt_length_of_drop hd', if_true,
        charAt_of_drop hd', Value_parseWord_eq _ rest hd]
      simp
  | hInt i =>
    intro hwf _ indent indentLevel text depth out offset rest hf hd ht hb
    rw [Value.format] at hf
    cases hf
    obtain ⟨d, rfl⟩ : ∃ d, depth = d + 1 := ⟨depth - 1, by omega⟩
    have hr : -9223372036854775808 ≤ i ∧ i ≤ 9223372036854775807 := by
      simpa [Value.WellFormed, Value.allNodes, nodeWellFormed] using hwf
    obtain ⟨hne, hall⟩ := int_to_string_chars i
    obtain ⟨c, t, hct⟩ := List.exists_cons_of_ne_nil hne
    have hci : isIntegerChar c = true := hall c (by rw [hct]; exact List.mem_cons_self _ _)
    have hd' : text.drop offset = c :: (t ++ rest) := by rw [hd, hct]; rfl
    have hstart : ValueStart c := by
      right; right; right; right; right; right; exact hci
    have hcs : c ≠ 123 ∧ c ≠ 91 ∧ c ≠ 34 ∧ c ≠ 116 ∧ c ≠ 102 ∧ c ≠ 110 := by
      simp only [isIntegerChar, Bool.or_eq_true, Bool.and_eq_true, decide_eq_true_eq] at hci
      refine ⟨?_, ?_, ?_, ?_, ?_, ?_⟩ <;> (intro hc; rw [hc] at hci; revert hci; decide)
    rw [Value.parse_depth]
    simp only [skipWhitespace_none hd' (ValueStart_facts c hstart).1, lt_length_of_drop hd',
      if_true, charAt_of_drop hd', hcs.1, hcs.2.1, hcs.2.2.1, hcs.2.2.2.1, hcs.2.2.2.2.1,
      hcs.2.2.2.2.2, if_false]
    exact Value_parseNumber_integer i hr hd ht
  | hReal r =>
    intro _ hex indent indentLevel text depth out offset rest hf hd ht hb
    rw [Value.format] at hf
    cases hf
    obtain ⟨d, rfl⟩ : ∃ d, depth = d + 1 := ⟨depth - 1, by omega⟩
    have hfin := RealsFinite_real r (RealsFinite_of_exact _ hex)
    have hfix : r.reparsed = r := by
      have : nodeRealExact (.Real r) = true := hex
      simp only [nodeRealExact, Bool.and_eq_true, decide_eq_true_eq] at this
      exact this.2
    obtain ⟨⟨c, t, hct, hci⟩, _, _⟩ := double_to_string_chars r hfin
    have hd' : text.drop offset = c :: (t ++ rest) := by rw [hd, hct]; rfl
    have hstart : ValueStart c := by
      right; right; right; right; right; right; exact hci
    have hcs : c ≠ 123 ∧ c ≠ 91 ∧ c ≠ 34 ∧ c ≠ 116 ∧ c ≠ 102 ∧ c ≠ 110 := by
      simp only [isIntegerChar, Bool.or_eq_true, Bool.and_eq_true, decide_eq_true_eq] at hci
      refine ⟨?_, ?_, ?_, ?_, ?_, ?_⟩ <;> (intro hc; rw [hc] at hci; revert hci; decide)
    rw [Value.parse_depth]
    simp only [skipWhitespace_none hd' (ValueStart_facts c hstart).1, lt_length_of_drop hd',
      if_true, charAt_of_drop hd', hcs.1, hcs.2.1, hcs.2.2.1, hcs.2.2.2.1, hcs.2.2.2.2.1,
      hcs.2.2.2.2.2, if_false]
    rw [Value_parseNumber_real r hfin hd ht, hfix]
  | hStr s =>
    intro _ _ indent indentLevel text depth out offset rest hf hd _ hb
    rw [Value.format] at hf
    obtain ⟨d, rfl⟩ : ∃ d, depth = d + 1 := ⟨depth - 1, by omega⟩
    obtain ⟨enc, hout, _⟩ := String_format_parses s out hf
    have hd' : text.drop offset = 34 :: ((enc ++ [34]) ++ rest) := by rw [hd, hout]; rfl
    rw [Value.parse_depth]
    simp only [skipWhitespace_none hd' (by decide), lt_length_of_drop hd', if_true,
      charAt_of_drop hd', String_parse_format s out hf hd]
    simp
  | hArr xs ih =>
    intro hwf hnr indent indentLevel text depth out offset rest hf hd _ hb
    obtain ⟨d, rfl⟩ : ∃ d, depth = d + 1 := ⟨depth - 1, by omega⟩
    obtain ⟨linePfx, lastLinePfx, body, hind, hbody, hout⟩ :=
      Value_format_array xs indent indentLevel out hf
    obtain ⟨hsp1, hsp2⟩ := indentStrings_spaces indent indentLevel linePfx lastLinePfx hind
    have hLP := spaces_isspace linePfx hsp1
    have hLLP := spaces_isspace lastLinePfx hsp2
    have hLS := lineSuffix_space indent
    generalize hls : (if indent ≥ 0 then [10] else [] : Str) = lineSuffix at hbody hout hLS
    have hwf' := ((allNodes_array _ xs).mp hwf).2
    have hnr' := ((allNodes_array _ xs).mp hnr).2
    have hd' : text.drop offset = 91 :: (lineSuffix ++ (body ++ (lastLinePfx ++ 93 :: rest))) := by
      rw [hd, hout]; simp
    have hd1 : text.drop (offset + 1) = lineSuffix ++ (body ++ (lastLinePfx ++ 93 :: rest)) :=
      drop_succ_of_drop hd'
    have hlen := length_of_drop hd'
    simp only [List.length_append, List.length_cons] at hlen
    have e1 : ¬ ((91 : Byte) = 123) := by decide
    rw [Value.parse_depth]
    simp only [skipWhitespace_none hd' (by decide), lt_length_of_drop hd', if_true,
      charAt_of_drop hd', e1, if_false, Array_parse]
    have hloop : Array_parse_loop (Value.parse_depth d) text (text.length + 1) (offset + 1) [] =
        .ok (xs, offset + 1 + (lineSuffix ++ (body ++ lastLinePfx)).length) := by
      cases xs with
      | nil =>
        rw [Array_format_loop] at hbody
        cases hbody
        have hd2 : text.drop (offset + 1) = (lineSuffix ++ ([] ++ lastLinePfx)) ++ 93 :: rest := by
          rw [hd1]; simp
        exact Array_parse_loop_empty _ _ [] text.length
          (by intro a ha
              simp only [List.nil_append] at ha
              rcases List.mem_append.mp ha with h | h
              · exact hLS a h
              · exact hLLP a h) hd2
      | cons x xs' =>
        obtain ⟨value, more, hx, hmore, hb'⟩ :=
          Array_format_loop_cons x xs' indent indentLevel linePfx lineSuffix body hbody
        have hd2 : text.drop (offset + 1) = (lineSuffix ++ linePfx) ++ (value ++
            ((if xs'.isEmpty then [] else [44]) ++
            (lineSuffix ++ (more ++ (lastLinePfx ++ 93 :: rest))))) := by
          rw [hd1, hb']; simp
        have := Array_parse_loop_format (Value.parse_depth d) text indent indentLevel linePfx
          lineSuffix lastLinePfx d hLP hLS hLLP xs' x value more (lineSuffix ++ linePfx)
          (offset + 1) [] (text.length + 1) rest
          (fun y hy => ⟨RealsFinite_of_exact _ (hnr' y hy),
            ih y hy (hwf' y hy) (hnr' y hy) indent (indentLevel + 1) text d⟩)
          hx hmore
          (by intro a ha
              rcases List.mem_append.mp ha with h | h
              · exact hLS a h
              · exact hLP a h)
          hd2 (by omega) (by omega)
        rw [this, hb']
        simp only [List.nil_append, List.append_assoc, List.length_append]
    have hd3 : text.drop (offset + 1 + (lineSuffix ++ (body ++ lastLinePfx)).length) =
        93 :: rest := by
      apply drop_add_of_drop (a := lineSuffix ++ (body ++ lastLinePfx))
      rw [hd1]; simp
    have hlen3 := length_of_drop hd3
    simp only [List.length_cons] at hlen3
    simp only [hloop, bind, Except.bind, YaJsonAssert, pure, Except.pure]
    have hle : offset + 1 + (lineSuffix ++ (body ++ lastLinePfx)).length + 1 ≤ text.length := by
      omega
    simp only [hle, decide_True, if_true, hout]
    simp only [List.length_append, List.length_cons, List.length_nil]
    congr 2
    omega
  | hObj m ih =>
    intro hwf hnr indent indentLevel text depth out offset rest hf hd _ hb
    obtain ⟨d, rfl⟩ : ∃ d, depth = d + 1 := ⟨depth - 1, by omega⟩
    obtain ⟨linePfx, lastLinePfx, body, hind, hbody, hout⟩ :=
      Value_format_object m indent indentLevel out hf
    obtain ⟨hsp1, hsp2⟩ := indentStrings_spaces indent indentLevel linePfx lastLinePfx hind
    have hLP := spaces_isspace linePfx hsp1
    have hLLP := spaces_isspace lastLinePfx hsp2
    have hLS := lineSuffix_space indent
    generalize hls : (if indent ≥ 0 then [10] else [] : Str) = lineSuffix at hbody hout hLS
    have hwf' := ((allNodes_object _ m).mp hwf).2
    have hasc : KeysAscending m := by
      have := ((allNodes_object _ m).mp hwf).1
      simpa [nodeWellFormed] using this
    have hnr' := ((allNodes_object _ m).mp hnr).2
    have hd' : text.drop offset = 123 :: (lineSuffix ++ (body ++ (lastLinePfx ++ 125 :: rest))) := by
      rw [hd, hout]; simp
    have hd1 : text.drop (offset + 1) = lineSuffix ++ (body ++ (lastLinePfx ++ 125 :: rest)) :=
      drop_succ_of_drop hd'
    have hlen := length_of_drop hd'
    simp only [List.length_append, List.length_cons] at hlen
    rw [Value.parse_depth]
    simp only [skipWhitespace_none hd' (by decide), lt_length_of_drop hd', if_true,
      charAt_of_drop hd', Object_parse]
    have hloop : Object_parse_loop (Value.parse_depth d) text (text.length + 1) (offset + 1) [] =
        .ok (m, offset + 1 + (lineSuffix ++ (body ++ lastLinePfx)).length) := by
      cases m with
      | nil =>
        rw [Object_format_loop] at hbody
        cases hbody
        have hd2 : text.drop (offset + 1) = (lineSuffix ++ ([] ++ lastLinePfx)) ++ 125 :: rest := by
          rw [hd1]; simp
        exact Object_parse_loop_empty _ _ [] text.length
          (by intro a ha
              simp only [List.nil_append] at ha
              rcases List.mem_append.mp ha with h | h
              · exact hLS a h
              · exact hLLP a h) hd2
      | cons q m' =>
        obtain ⟨key, x⟩ := q
        obtain ⟨keyStr, value, more, hk, hx, hmore, hb'⟩ :=
          Object_format_loop_cons key x m' indent indentLevel linePfx lineSuffix body hbody
        have hd2 : text.drop (offset + 1) = (lineSuffix ++ linePfx) ++ (keyStr ++ (58 :: (value ++
            ((if m'.isEmpty then [] else [44]) ++
            (lineSuffix ++ (more ++ (lastLinePfx ++ 125 :: rest))))))) := by
          rw [hd1, hb']; simp
        have := Object_parse_loop_format (Value.parse_depth d) text indent indentLevel linePfx
          lineSuffix lastLinePfx d hLP hLS hLLP m' key x keyStr value more (lineSuffix ++ linePfx)
          (offset + 1) [] (text.length + 1) rest
          (fun y hy => ⟨RealsFinite_of_exact _ (hnr' y hy),
            ih y hy (hwf' y hy) (hnr' y hy) indent (indentLevel + 1) text d⟩)
          (by simpa using hasc) hk hx hmore
          (by intro a ha
              rcases List.mem_append.mp ha with h | h
              · exact hLS a h
              · exact hLP a h)
          hd2 (by omega) (by omega)
        rw [this, hb']
        simp only [List.nil_append, List.append_assoc, List.length_append, List.cons_append,
          List.length_cons]
    have hd3 : text.drop (offset + 1 + (lineSuffix ++ (body ++ lastLinePfx)).length) =
        125 :: rest := by
      apply drop_add_of_drop (a := lineSuffix ++ (body ++ lastLinePfx))
      rw [hd1]; simp
    have hlen3 := length_of_drop hd3
    simp only [List.length_cons] at hlen3
    simp only [hloop, bind, Except.bind, YaJsonAssert, pure, Except.pure]
    have hle : offset + 1 + (lineSuffix ++ (body ++ lastLinePfx)).length + 1 ≤ text.length := by
      omega
    simp only [hle, decide_True, if_true, hout]
    simp only [List.length_append, List.length_cons, List.length_nil]
    congr 2
    omega

/-- Parsing the text that `format` wrote for a value whose Reals their six-decimal text
denotes exactly gives the value. -/
theorem parse_format_exact (v : Value) (hwf : v.WellFormed) (hex : v.RealsExact)
    (indent indentLevel : Int) (text : Str) (hf : v.format indent indentLevel = .ok text) :
    Value.parse text = .ok v := by
  have := parse_depth_format v hwf hex indent indentLevel text (text.length + 1) text 0 []
    hf (by simp) NumTerminated_nil (by omega)
  simp [Value.parse, Value.parse_at, this]

/-- Parsing the text that `format` wrote for a value without a Real gives the value. -/
theorem parse_format (v : Value) (hwf : v.WellFormed) (hnr : v.NoReal)
    (indent indentLevel : Int) (text : Str) (hf : v.format indent indentLevel = .ok text) :
    Value.parse text = .ok v :=
  parse_format_exact v hwf (RealsExact_of_noReal v hnr) indent indentLevel text hf


/-! ## `format` succeeds on valid UTF-8 -/

theorem charAt_of_drop2 {text : Str} {i : Nat} {c b1 : Byte} {t : Str}
    (h : text.drop i = c :: b1 :: t) : charAt text (i + 1) = b1 ∧ i + 1 < text.length :=
  ⟨charAt_of_drop (drop_succ_of_drop h), lt_length_of_drop (drop_succ_of_drop h)⟩

theorem String_codepoint_one {value : Str} {i : Nat} {c : Byte} {t : Str}
    (h : value.drop i = c :: t) (hc : c.val < 128) :
    String_codepoint value i = .ok (c.val, i + 1) := by
  have m := (byte_masks c).1.mpr hc
  unfold String_codepoint
  simp only [lt_length_of_drop h, charAt_of_drop h, m, decide_True, Bool.and_self, if_true,
    assert_bind, Nat.add_sub_cancel, and_mod256, pure, Except.pure]
  have : c.val % 256 = c.val := by omega
  have h2 : c.val % 256 ≤ 127 := by omega
  simp [this, h2]
  omega

theorem String_codepoint_two {value : Str} {i : Nat} {c b1 : Byte} {t : Str}
    (h : value.drop i = c :: b1 :: t) (hc : 0xC2 ≤ c.val ∧ c.val ≤ 0xDF)
    (hb1 : isContinuation b1 = true) :
    ∃ cp, String_codepoint value i = .ok (cp, i + 2) ∧ cp ≤ 0xFFFF := by
  simp only [isContinuation, Bool.and_eq_true, decide_eq_true_eq] at hb1
  obtain ⟨hb, hlt⟩ := charAt_of_drop2 h
  have m1 : ¬ (0x80 &&& c.val = 0) := fun hh => by
    have := (byte_masks c).1.mp hh; omega
  have m2 := (byte_masks c).2.1.mpr ⟨by omega, by omega⟩
  have m3 := (byte_masks b1).2.2.2.2.mpr ⟨by omega, by omega⟩
  have e : ((c.val &&& 31) <<< 6) ||| (b1.val &&& 63) = (c.val % 32) * 64 + b1.val % 64 := by
    rw [and_mod64, and_mod32, or_shift2 _ _ (Nat.mod_lt _ (by omega))]
  have e21 : i + 2 - 1 = i + 1 := rfl
  refine ⟨(c.val % 32) * 64 + b1.val % 64, ?_, by omega⟩
  unfold String_codepoint
  simp only [lt_length_of_drop h, charAt_of_drop h, m1, m2, hlt, decide_True, decide_False,
    Bool.and_self, Bool.and_false, Bool.false_eq_true, if_true, if_false, assert_bind,
    Nat.add_sub_cancel, e21, hb, m3, e, pure, Except.pure]
  have g1 : i + 2 ≤ value.length := by omega
  have g2 : c.val % 32 * 64 + b1.val % 64 > 127 := by omega
  have g3 : c.val % 32 * 64 + b1.val % 64 ≤ 2047 := by omega
  simp [g1, g2, g3]

theorem String_codepoint_three {value : Str} {i : Nat} {c b1 b2 : Byte} {t : Str}
    (h : value.drop i = c :: b1 :: b2 :: t) (hc : 0xE0 ≤ c.val ∧ c.val ≤ 0xEF)
    (hb1 : isContinuation b1 = true) (hb2 : isContinuation b2 = true)
    (hs : c.val ≠ 0xE0 ∨ 0xA0 ≤ b1.val) :
    ∃ cp, String_codepoint value i = .ok (cp, i + 3) ∧ cp ≤ 0xFFFF := by
  simp only [isContinuation, Bool.and_eq_true, decide_eq_true_eq] at hb1 hb2
  obtain ⟨hb, hlt⟩ := charAt_of_drop2 h
  obtain ⟨hb', hlt'⟩ := charAt_of_drop2 (drop_succ_of_drop h)
  have m1 : ¬ (0x80 &&& c.val = 0) := fun hh => by
    have := (byte_masks c).1.mp hh; omega
  have m2 : ¬ (0xE0 &&& c.val = 0xC0) := fun hh => by
    have := (byte_masks c).2.1.mp hh; omega
  have m3 := (byte_masks c).2.2.1.mpr ⟨by omega, by omega⟩
  have m4 := (byte_masks b1).2.2.2.2.mpr ⟨by omega, by omega⟩
  have m5 := (byte_masks b2).2.2.2.2.mpr ⟨by omega, by omega⟩
  have e : (((c.val &&& 15) <<< 12) ||| ((b1.val &&& 63) <<< 6)) ||| (b2.val &&& 63)
      = (c.val % 16) * 4096 + (b1.val % 64) * 64 + b2.val % 64 := by
    rw [and_mod64, and_mod64, and_mod16,
      or_shift3 _ _ _ (Nat.mod_lt _ (by omega)) (Nat.mod_lt _ (by omega))]
  have e31 : i + 3 - 1 = i + 2 := rfl
  have e32 : i + 3 - 2 = i + 1 := rfl
  have e12 : i + 1 + 1 = i + 2 := rfl
  rw [e12] at hb' hlt'
  refine ⟨(c.val % 16) * 4096 + (b1.val % 64) * 64 + b2.val % 64, ?_, by omega⟩
  unfold String_codepoint
  simp only [lt_length_of_drop h, charAt_of_drop h, m1, m2, m3, hlt, hlt', decide_True,
    decide_False, Bool.and_self, Bool.and_false, Bool.false_eq_true, if_true, if_false,
    assert_bind, Nat.add_sub_cancel, e31, e32, hb, hb', m4, m5, e, pure, Except.pure]
  have g1 : i + 3 ≤ value.length := by omega
  have g2 : c.val % 16 * 4096 + b1.val % 64 * 64 + b2.val % 64 > 2047 := by omega
  have g3 : c.val % 16 * 4096 + b1.val % 64 * 64 + b2.val % 64 ≤ 65535 := by omega
  simp [g1, g2, g3]

theorem String_codepoint_four {value : Str} {i : Nat} {c b1 b2 b3 : Byte} {t : Str}
    (h : value.drop i = c :: b1 :: b2 :: b3 :: t) (hc : 0xF0 ≤ c.val ∧ c.val ≤ 0xF4)
    (hb1 : isContinuation b1 = true) (hb2 : isContinuation b2 = true)
    (hb3 : isContinuation b3 = true)
    (hs : c.val ≠ 0xF0 ∨ 0x90 ≤ b1.val) (hm : c.val ≠ 0xF4 ∨ b1.val ≤ 0x8F) :
    ∃ cp, String_codepoint value i = .ok (cp, i + 4) ∧ 0xFFFF < cp := by
  simp only [isContinuation, Bool.and_eq_true, decide_eq_true_eq] at hb1 hb2 hb3
  obtain ⟨hb, hlt⟩ := charAt_of_drop2 h
  obtain ⟨hb', hlt'⟩ := charAt_of_drop2 (drop_succ_of_drop h)
  obtain ⟨hb'', hlt''⟩ := charAt_of_drop2 (drop_succ_of_drop (drop_succ_of_drop h))
  have m1 : ¬ (0x80 &&& c.val = 0) := fun hh => by
    have := (byte_masks c).1.mp hh; omega
  have m2 : ¬ (0xE0 &&& c.val = 0xC0) := fun hh => by
    have := (byte_masks c).2.1.mp hh; omega
  have m3 : ¬ (0xF0 &&& c.val = 0xE0) := fun hh => by
    have := (byte_masks c).2.2.1.mp hh; omega
  have m4 := (byte_masks c).2.2.2.1.mpr ⟨by omega, by omega⟩
  have m5 := (byte_masks b1).2.2.2.2.mpr ⟨by omega, by omega⟩
  have m6 := (byte_masks b2).2.2.2.2.mpr ⟨by omega, by omega⟩
  have m7 := (byte_masks b3).2.2.2.2.mpr ⟨by omega, by omega⟩
  have e : ((((c.val &&& 7) <<< 18) ||| ((b1.val &&& 63) <<< 12)) ||| ((b2.val &&& 63) <<< 6))
      ||| (b3.val &&& 63)
      = (c.val % 8) * 262144 + (b1.val % 64) * 4096 + (b2.val % 64) * 64 + b3.val % 64 := by
    rw [and_mod64, and_mod64, and_mod64, and_mod8,
      or_shift4 _ _ _ _ (Nat.mod_lt _ (by omega)) (Nat.mod_lt _ (by omega))
        (Nat.mod_lt _ (by omega))]
  have e41 : i + 4 - 1 = i + 3 := rfl
  have e42 : i + 4 - 2 = i + 2 := rfl
  have e43 : i + 4 - 3 = i + 1 := rfl
  have e12 : i + 1 + 1 = i + 2 := rfl
  have e13 : i + 1 + 1 + 1 = i + 3 := rfl
  rw [e12] at hb' hlt'
  rw [e13] at hb'' hlt''
  refine ⟨(c.val % 8) * 262144 + (b1.val % 64) * 4096 + (b2.val % 64) * 64 + b3.val % 64,
    ?_, by omega⟩
  unfold String_codepoint
  simp only [lt_length_of_drop h, charAt_of_drop h, m1, m2, m3, m4, hlt, hlt', hlt'',
    decide_True, decide_False, Bool.and_self, Bool.and_false, Bool.false_eq_true, if_true,
    if_false, assert_bind, Nat.add_sub_cancel, e41, e42, e43, hb, hb', hb'', m5, m6, m7, e,
    pure, Except.pure]
  have g1 : i + 4 ≤ value.length := by omega
  have g2 : c.val % 8 * 262144 + b1.val % 64 * 4096 + b2.val % 64 * 64 + b3.val % 64 > 65535 := by
    omega
  have g3 : c.val % 8 * 262144 + b1.val % 64 * 4096 + b2.val % 64 * 64 + b3.val % 64
      ≤ 1114111 := by omega
  simp [g1, g2, g3]


theorem utf8SeqLength_cases (s : Str) (h : utf8SeqLength s ≠ 0) :
    (∃ c t, s = c :: t ∧ c.val ≤ 0x7F ∧ utf8SeqLength s = 1) ∨
    (∃ c b1 t, s = c :: b1 :: t ∧ (0xC2 ≤ c.val ∧ c.val ≤ 0xDF) ∧ isContinuation b1 = true ∧
      utf8SeqLength s = 2) ∨
    (∃ c b1 b2 t, s = c :: b1 :: b2 :: t ∧ (0xE0 ≤ c.val ∧ c.val ≤ 0xEF) ∧
      isContinuation b1 = true ∧ isContinuation b2 = true ∧ (c.val ≠ 0xE0 ∨ 0xA0 ≤ b1.val) ∧
      utf8SeqLength s = 3) ∨
    (∃ c b1 b2 b3 t, s = c :: b1 :: b2 :: b3 :: t ∧ (0xF0 ≤ c.val ∧ c.val ≤ 0xF4) ∧
      isContinuation b1 = true ∧ isContinuation b2 = true ∧ isContinuation b3 = true ∧
      (c.val ≠ 0xF0 ∨ 0x90 ≤ b1.val) ∧ (c.val ≠ 0xF4 ∨ b1.val ≤ 0x8F) ∧
      utf8SeqLength s = 4) := by
  unfold utf8SeqLength at h
  split at h
  · exact absurd rfl h
  · rename_i b0 rest
    by_cases h1 : b0.val ≤ 0x7F
    · left
      exact ⟨b0, rest, rfl, h1, by simp [utf8SeqLength, h1]⟩
    simp only [h1, if_false] at h
    by_cases h2 : 0xC2 ≤ b0.val ∧ b0.val ≤ 0xDF
    · simp only [h2, and_self, if_true] at h
      right; left
      split at h
      · rename_i b1 t
        by_cases hc : isContinuation b1 = true
        · exact ⟨b0, b1, t, rfl, h2, hc, by simp [utf8SeqLength, h1, h2, hc]⟩
        · simp [hc] at h
      · exact absurd rfl h
    simp only [h2, if_false] at h
    by_cases h3 : 0xE0 ≤ b0.val ∧ b0.val ≤ 0xEF
    · simp only [h3, and_self, if_true] at h
      right; right; left
      split at h
      · rename_i b1 b2 t
        split at h
        · rename_i hc
          have hc' := hc
          simp only [Bool.and_eq_true, Bool.or_eq_true, decide_eq_true_eq, bne_iff_ne, ne_eq]
            at hc'
          refine ⟨b0, b1, b2, t, rfl, h3, hc'.1.1.1, hc'.1.1.2, ?_, ?_⟩
          swap
          · unfold utf8SeqLength
            simp only [h1, h2, h3, if_false, if_true, and_self]
            exact if_pos hc
          rcases hc'.1.2 with h | h
          · left; simpa using h
          · right; exact h
        · exact absurd rfl h
      · exact absurd rfl h
    simp only [h3, if_false] at h
    by_cases h4 : 0xF0 ≤ b0.val ∧ b0.val ≤ 0xF4
    · simp only [h4, and_self, if_true] at h
      right; right; right
      split at h
      · rename_i b1 b2 b3 t
        split at h
        · rename_i hc
          have hc' := hc
          simp only [Bool.and_eq_true, Bool.or_eq_true, decide_eq_true_eq, bne_iff_ne, ne_eq]
            at hc'
          refine ⟨b0, b1, b2, b3, t, rfl, h4, hc'.1.1.1.1, hc'.1.1.1.2, hc'.1.1.2, ?_, ?_, ?_⟩
          rotate_left 2
          · unfold utf8SeqLength
            simp only [h1, h2, h3, h4, if_false, if_true, and_self]
            exact if_pos hc
          · rcases hc'.1.2 with h | h
            · left; simpa using h
            · right; exact h
          · rcases hc'.2 with h | h
            · left; simpa using h
            · right; exact h
        · exact absurd rfl h
      · exact absurd rfl h
    simp [h4] at h

theorem String_format_loop_valid (value : Str) : ∀ (fuel i : Nat) (buffer : Str) (vf : Nat),
    validUtf8Loop vf (value.drop i) = true → value.length - i ≤ fuel →
    ∃ out, String_format_loop value fuel i buffer = .ok out
  | 0, i, buffer, _, _, hf => by
    have : ¬ i < value.length := by omega
    exact ⟨buffer, by simp [String_format_loop, this]⟩
  | fuel + 1, i, buffer, vf, hv, hf => by
    rw [String_format_loop]
    by_cases hi : i < value.length
    swap
    · exact ⟨buffer, by simp [hi]⟩
    simp only [hi, if_true]
    have hd := drop_eq_cons_of_lt hi
    obtain ⟨vf', rfl⟩ : ∃ vf', vf = vf' + 1 := by
      cases vf with
      | zero => rw [hd] at hv; simp [validUtf8Loop] at hv
      | succ n => exact ⟨n, rfl⟩
    rw [validUtf8Loop] at hv
    have hne : (value.drop i).isEmpty = false := by rw [hd]; rfl
    simp only [hne, Bool.false_eq_true, if_false, Bool.and_eq_true, decide_eq_true_eq,
      List.drop_drop] at hv
    obtain ⟨hn, hrest⟩ := hv
    have next : ∀ (k : Nat) (b : Str), utf8SeqLength (value.drop i) = k → 0 < k →
        ∃ out, String_format_loop value fuel (i + k) b = .ok out := by
      intro k b hk hpos
      rw [hk] at hrest
      exact String_format_loop_valid value fuel (i + k) b vf' hrest (by omega)
    rcases utf8SeqLength_cases (value.drop i) hn with
      ⟨c, t, hs, hc, hlen⟩ | ⟨c, b1, t, hs, hc, hb1, hlen⟩ |
      ⟨c, b1, b2, t, hs, hc, hb1, hb2, hsh, hlen⟩ |
      ⟨c, b1, b2, b3, t, hs, hc, hb1, hb2, hb3, hsh, hmx, hlen⟩
    · -- one byte
      have hcc : charAt value i = c := charAt_of_drop hs
      by_cases c1 : c = 92
      · simp only [hcc, c1, if_true]; exact next 1 _ hlen (by omega)
      by_cases c2 : c = 34
      · simp only [hcc, c1, c2, if_true, if_false]; exact next 1 _ hlen (by omega)
      by_cases c3 : c = 47
      · simp only [hcc, c1, c2, c3, if_true, if_false]; exact next 1 _ hlen (by omega)
      by_cases c4 : c = 9
      · simp only [hcc, c1, c2, c3, c4, if_true, if_false]; exact next 1 _ hlen (by omega)
      by_cases c5 : c = 13
      · simp only [hcc, c1, c2, c3, c4, c5, if_true, if_false]
        exact next 1 _ hlen (by omega)
      by_cases c6 : c = 10
      · simp only [hcc, c1, c2, c3, c4, c5, c6, if_true, if_false]
        exact next 1 _ hlen (by omega)
      by_cases c7 : c = 8
      · simp only [hcc, c1, c2, c3, c4, c5, c6, c7, if_true, if_false]
        exact next 1 _ hlen (by omega)
      by_cases c8 : c = 12
      · simp only [hcc, c1, c2, c3, c4, c5, c6, c7, c8, if_true, if_false]
        exact next 1 _ hlen (by omega)
      simp only [hcc, c1, c2, c3, c4, c5, c6, c7, c8, if_false]
      unfold String_formatCodepoint
      rw [String_codepoint_one hs (by omega)]
      simp only [bind, Except.bind, Nat.add_sub_cancel_left, if_true, Nat.add_sub_cancel, pure,
        Except.pure]
      exact next 1 _ hlen (by omega)
    all_goals
      have hcc : charAt value i = c := charAt_of_drop hs
      have hne8 : c ≠ 92 ∧ c ≠ 34 ∧ c ≠ 47 ∧ c ≠ 9 ∧ c ≠ 13 ∧ c ≠ 10 ∧ c ≠ 8 ∧ c ≠ 12 := by
        refine ⟨?_, ?_, ?_, ?_, ?_, ?_, ?_, ?_⟩ <;>
          (intro hh; rw [hh] at hc; revert hc; decide)
      simp only [hcc, hne8.1, hne8.2.1, hne8.2.2.1, hne8.2.2.2.1, hne8.2.2.2.2.1,
        hne8.2.2.2.2.2.1, hne8.2.2.2.2.2.2.1, hne8.2.2.2.2.2.2.2, if_false]
      unfold String_formatCodepoint
    · obtain ⟨cp, hcp, hle⟩ := String_codepoint_two hs hc hb1
      have e1 : i + 2 - i = 2 := by omega
      have e2 : i + 2 - 1 + 1 = i + 2 := by omega
      have e3 : ¬ cp > 65535 := by omega
      simp only [hcp, bind, Except.bind, e1, e2, e3, OfNat.ofNat_ne_one, if_false,
        decide_False, Bool.false_eq_true, pure, Except.pure]
      exact next 2 _ hlen (by omega)
    · obtain ⟨cp, hcp, hle⟩ := String_codepoint_three hs hc hb1 hb2 hsh
      have e1 : i + 3 - i = 3 := by omega
      have e2 : i + 3 - 1 + 1 = i + 3 := by omega
      have e3 : ¬ cp > 65535 := by omega
      simp only [hcp, bind, Except.bind, e1, e2, e3, OfNat.ofNat_ne_one, if_false,
        decide_False, Bool.false_eq_true, pure, Except.pure]
      exact next 3 _ hlen (by omega)
    · obtain ⟨cp, hcp, hgt⟩ := String_codepoint_four hs hc hb1 hb2 hb3 hsh hmx
      have e1 : i + 4 - i = 4 := by omega
      have e2 : i + 4 - 1 + 1 = i + 4 := by omega
      have e3 : cp > 65535 := by omega
      simp only [hcp, bind, Except.bind, e1, e2, e3, OfNat.ofNat_ne_one, if_false,
        decide_True, if_true, pure, Except.pure]
      exact next 4 _ hlen (by omega)

theorem String_format_valid (s : Str) (h : validUtf8 s = true) :
    ∃ out, String_format s = .ok out := by
  obtain ⟨buffer, hb⟩ := String_format_loop_valid s s.length 0 [34] s.length
    (by simpa [validUtf8] using h) (by omega)
  exact ⟨buffer ++ [34], by simp [String_format, hb, bind, Except.bind, pure, Except.pure]⟩


theorem indentStrings_ok (indent indentLevel : Int) (h : 0 ≤ indentLevel) :
    ∃ r, indentStrings indent indentLevel = .ok r := by
  unfold indentStrings
  by_cases hi : indent ≥ 0
  · have : ¬ indent * indentLevel < 0 := by
      have := Int.mul_nonneg hi h
      omega
    simp only [hi, this, if_true, if_false]
    exact ⟨_, rfl⟩
  · simp only [hi, if_false]
    exact ⟨_, rfl⟩

theorem Array_format_loop_ok (indent indentLevel : Int) (linePfx lineSuffix : Str) :
    ∀ xs : List Value, (∀ x ∈ xs, ∃ out, x.format indent (indentLevel + 1) = .ok out) →
      ∃ body, Array_format_loop xs indent indentLevel linePfx lineSuffix = .ok body
  | [], _ => ⟨[], by rw [Array_format_loop]⟩
  | x :: rest, h => by
    obtain ⟨value, hx⟩ := h x (List.mem_cons_self _ _)
    obtain ⟨more, hm⟩ := Array_format_loop_ok indent indentLevel linePfx lineSuffix rest
      (fun y hy => h y (List.mem_cons_of_mem _ hy))
    rw [Array_format_loop]
    simp only [hx, hm]
    exact ⟨_, rfl⟩

theorem Object_format_loop_ok (indent indentLevel : Int) (linePfx lineSuffix : Str) :
    ∀ m : Members, (∀ q ∈ m, validUtf8 q.1 = true ∧
        ∃ out, q.2.format indent (indentLevel + 1) = .ok out) →
      ∃ body, Object_format_loop m indent indentLevel linePfx lineSuffix = .ok body
  | [], _ => ⟨[], by rw [Object_format_loop]⟩
  | (key, x) :: rest, h => by
    obtain ⟨hk, value, hx⟩ := h (key, x) (List.mem_cons_self _ _)
    obtain ⟨keyStr, hks⟩ := String_format_valid key hk
    obtain ⟨more, hm⟩ := Object_format_loop_ok indent indentLevel linePfx lineSuffix rest
      (fun y hy => h y (List.mem_cons_of_mem _ hy))
    rw [Object_format_loop]
    simp only [hks, hx, hm]
    exact ⟨_, rfl⟩

/-- On a value whose strings and keys are valid UTF-8, `format` succeeds at every
indent and every depth that is not negative. -/
theorem format_ok : ∀ v : Value, v.ValidUtf8 →
    ∀ (indent indentLevel : Int), 0 ≤ indentLevel →
      ∃ out, v.format indent indentLevel = .ok out := by
  intro v
  induction v using Value.induct with
  | hNull => intro _ _ _ _; exact ⟨_, by rw [Value.format]⟩
  | hBool b => intro _ _ _ _; exact ⟨_, by rw [Value.format]⟩
  | hInt i => intro _ _ _ _; exact ⟨_, by rw [Value.format]⟩
  | hReal r => intro _ _ _ _; exact ⟨_, by rw [Value.format]⟩
  | hStr s =>
    intro hv _ _ _
    have : validUtf8 s = true := by
      simpa [Value.ValidUtf8, Value.allNodes, nodeValidUtf8] using hv
    obtain ⟨out, ho⟩ := String_format_valid s this
    exact ⟨out, by rw [Value.format]; exact ho⟩
  | hArr xs ih =>
    intro hv indent indentLevel hl
    have hv' := ((allNodes_array _ xs).mp hv).2
    obtain ⟨⟨linePfx, lastLinePfx⟩, hi⟩ := indentStrings_ok indent indentLevel hl
    obtain ⟨body, hb⟩ := Array_format_loop_ok indent indentLevel linePfx
      (if indent ≥ 0 then [10] else []) xs
      (fun x hx => ih x hx (hv' x hx) indent (indentLevel + 1) (by omega))
    rw [Value.format]
    simp only [hi, hb]
    exact ⟨_, rfl⟩
  | hObj m ih =>
    intro hv indent indentLevel hl
    have hv' := ((allNodes_object _ m).mp hv).2
    have hkeys : ∀ q ∈ m, validUtf8 q.1 = true := by
      have := ((allNodes_object _ m).mp hv).1
      simpa [nodeValidUtf8] using this
    obtain ⟨⟨linePfx, lastLinePfx⟩, hi⟩ := indentStrings_ok indent indentLevel hl
    obtain ⟨body, hb⟩ := Object_format_loop_ok indent indentLevel linePfx
      (if indent ≥ 0 then [10] else []) m
      (fun q hq => ⟨hkeys q hq, ih q hq (hv' q hq) indent (indentLevel + 1) (by omega)⟩)
    rw [Value.format]
    simp only [hi, hb]
    exact ⟨_, rfl⟩

/-- C1. Round trip: for every value that holds no Real and whose String payloads and
Object keys are valid UTF-8, and for every indent (negative for compact, or any indent
from 0 on), `format(indent)` succeeds and `Value::parse` of the text succeeds and
returns the value itself. `WellFormed` says what the C++ types guarantee: Integer
payloads are `int64_t`, the members of an Object are in the key order of `std::map`. -/
theorem parse_format_round_trip (v : Value) (indent : Int) (hwf : v.WellFormed)
    (hnr : v.NoReal) (hutf : v.ValidUtf8) :
    ∃ text, v.format indent 0 = .ok text ∧ Value.parse text = .ok v := by
  obtain ⟨text, ht⟩ := format_ok v hutf indent 0 (by omega)
  exact ⟨text, ht, parse_format v hwf hnr indent 0 text ht⟩

/-- C1 at the sample document with indent 4. -/
theorem parse_format_round_trip_witness :
    sampleValue.WellFormed ∧ sampleValue.NoReal ∧ sampleValue.ValidUtf8 ∧
    ∃ text, sampleValue.format 4 0 = .ok text ∧ Value.parse text = .ok sampleValue :=
  ⟨by decide, by decide, by decide,
    parse_format_round_trip sampleValue 4 (by decide) (by decide) (by decide)⟩


/-! ## `operator==` after the round trip -/

theorem Value_eq_refl : ∀ v : Value, v.NoReal → Value.eq v v = true := by
  intro v
  induction v using Value.induct with
  | hNull => intro _; rw [Value.eq]; rfl
  | hBool b => intro _; rw [Value.eq]; simp [Value.isNull, Instance_equals]
  | hInt i => intro _; rw [Value.eq]; simp [Value.isNull, Instance_equals]
  | hReal r => intro h; simp [Value.NoReal, Value.allNodes, Value.getType] at h
  | hStr s => intro _; rw [Value.eq]; simp [Value.isNull, Instance_equals]
  | hArr xs ih =>
    intro h
    have h' := ((allNodes_array _ xs).mp h).2
    rw [Value_eq_array, List.forall₂_same]
    exact fun x hx => ih x hx (h' x hx)
  | hObj m ih =>
    intro h
    have h' := ((allNodes_object _ m).mp h).2
    rw [Value_eq_object, List.forall₂_same]
    exact fun q hq => ⟨rfl, ih q hq (h' q hq)⟩


/-! ## `Real::equals` does not depend on the order of its operands -/

theorem Double.abs_round (s s' : Bool) (n d : Nat) :
    (Double.round s n d).abs = (Double.round s' n d).abs := by
  unfold Double.round Double.ofUnits Double.infinity Double.abs
  simp only
  split <;> split <;> (try split) <;> rfl

theorem Double.eq_infinity_of_isInf (a : Double) (h : a.isInf = true) :
    a = Double.infinity a.sign := by
  obtain ⟨s, e, f⟩ := a
  simp only [Double.isInf, Bool.and_eq_true, decide_eq_true_eq] at h
  simp only [Double.infinity]
  congr
  · exact Fin.ext h.1
  · exact Fin.ext h.2

theorem Double.abs_sub_comm (a b : Double) : (a.sub b).abs = (b.sub a).abs := by
  unfold Double.sub
  by_cases hn : (a.isNaN || b.isNaN) = true
  · have hn' : (b.isNaN || a.isNaN) = true := by rw [Bool.or_comm]; exact hn
    simp only [hn, hn', if_true]
  have hn' : ¬ (b.isNaN || a.isNaN) = true := by rw [Bool.or_comm]; exact hn
  simp only [hn, hn', if_false]
  by_cases ha : a.isInf = true
  · by_cases hb : b.isInf = true
    · simp only [ha, hb, if_true, Bool.true_and]
      by_cases hs : (a.sign == b.sign) = true
      · have hs' : (b.sign == a.sign) = true := by
          simp only [beq_iff_eq] at hs ⊢; exact hs.symm
        simp only [hs, hs', if_true]
      · have hs' : ¬ (b.sign == a.sign) = true := by
          simp only [beq_iff_eq] at hs ⊢; exact fun h => hs h.symm
        simp only [hs, hs', if_false, Bool.false_eq_true]
        rw [Double.eq_infinity_of_isInf a ha, Double.eq_infinity_of_isInf b hb]
        rfl
    · simp only [ha, hb, if_true, if_false, Bool.false_and, Bool.false_eq_true]
      rw [Double.eq_infinity_of_isInf a ha]
      rfl
  · by_cases hb : b.isInf = true
    · simp only [ha, hb, if_true, if_false, Bool.false_and, Bool.false_eq_true]
      rw [Double.eq_infinity_of_isInf b hb]
      rfl
    · simp only [ha, hb, if_false, Bool.false_eq_true]
      by_cases hk : a.key - b.key = 0
      · have hk' : b.key - a.key = 0 := by omega
        simp only [hk, hk', if_true]
        rfl
      · have hk' : ¬ b.key - a.key = 0 := by omega
        simp only [hk, hk', if_false]
        have e : (b.key - a.key).natAbs = (a.key - b.key).natAbs := by omega
        rw [e]
        exact Double.abs_round _ _ _ _

theorem Double.lt_nan_left (a b : Double) (h : a.isNaN = true) : a.lt b = false := by
  simp [Double.lt, h]

theorem Double.nan_isNaN : Double.nan.isNaN = true := by decide

theorem Double.abs_isNaN (a : Double) : a.abs.isNaN = a.isNaN := rfl

theorem Double.abs_isInf (a : Double) : a.abs.isInf = a.isInf := rfl

theorem Double.abs_units (a : Double) : a.abs.units = a.units := rfl

theorem Double.sub_isNaN_of_isNaN (a b : Double) (h : (a.isNaN || b.isNaN) = true) :
    (a.sub b).isNaN = true := by
  unfold Double.sub
  simp only [h, if_true]
  exact Double.nan_isNaN

theorem Double.units_lt (a : Double) (hn : a.isNaN = false) (hi : a.isInf = false) :
    (a.units : Int) < 2 ^ 2098 := by
  obtain ⟨s, e, f⟩ := a
  have he : e.val ≠ 2047 := by
    intro h
    simp only [Double.isNaN, Double.isInf, h, decide_True, Bool.true_and, ne_eq,
      decide_not, Bool.not_eq_false', decide_eq_false_iff_not, decide_eq_true_eq] at hn hi
    exact hi hn
  have he' : e.val ≤ 2046 := by omega
  have hf : f.val < 4503599627370496 := f.isLt
  have h2 : (2 : Nat) ^ 52 = 4503599627370496 := by norm_num
  have key : Double.units ⟨s, e, f⟩ < 2 ^ 2098 := by
    unfold Double.units
    simp only
    split
    · calc f.val < 2 ^ 52 := by omega
        _ ≤ 2 ^ 2098 := Nat.pow_le_pow_right (by omega) (by omega)
    · calc (4503599627370496 + f.val) * 2 ^ (e.val - 1)
          < 2 ^ 53 * 2 ^ (e.val - 1) := by
            apply Nat.mul_lt_mul_of_pos_right
            · have : (2 : Nat) ^ 53 = 9007199254740992 := by norm_num
              omega
            · exact Nat.two_pow_pos _
        _ = 2 ^ (53 + (e.val - 1)) := by rw [← Nat.pow_add]
        _ ≤ 2 ^ 2098 := Nat.pow_le_pow_right (by omega) (by omega)
  exact_mod_cast key

theorem Double.mul_congr (e x y : Double) (hs : x.sign = y.sign) (hn : x.isNaN = y.isNaN)
    (hi : x.isInf = y.isInf) (hu : x.units = y.units) : e.mul x = e.mul y := by
  unfold Double.mul
  rw [hs, hn, hi, hu]

theorem Double.epsilon_mul_max_comm (x y : Double) (hx : x.isNaN = false) (hy : y.isNaN = false)
    (sx : x.sign = false) (sy : y.sign = false) :
    Double.epsilon.mul (Double.max x y) = Double.epsilon.mul (Double.max y x) := by
  unfold Double.max
  cases h1 : x.lt y <;> cases h2 : y.lt x <;>
    simp only [if_true, if_false, Bool.false_eq_true]
  · simp only [Double.lt, hx, hy, Bool.not_false, Bool.true_and,
      decide_eq_false_iff_not] at h1 h2
    have hk : x.key = y.key := by omega
    unfold Double.key at hk
    simp only [sx, sy, Bool.false_eq_true, if_false] at hk
    cases ix : x.isInf <;> cases iy : y.isInf
    · simp only [ix, iy, if_false, Bool.false_eq_true] at hk
      apply Double.mul_congr
      · rw [sx, sy]
      · rw [hx, hy]
      · rw [ix, iy]
      · exact_mod_cast hk
    · have := Double.units_lt x hx ix
      simp only [ix, iy, if_true, if_false, Bool.false_eq_true] at hk
      omega
    · have := Double.units_lt y hy iy
      simp only [ix, iy, if_true, if_false, Bool.false_eq_true] at hk
      omega
    · rw [Double.eq_infinity_of_isInf x ix, Double.eq_infinity_of_isInf y iy, sx, sy]
  · simp only [Double.lt, hx, hy, Bool.not_false, Bool.true_and, decide_eq_true_eq] at h1 h2
    omega

theorem Real_equals_comm (a b : Double) : Real_equals a b = Real_equals b a := by
  unfold Real_equals
  simp only
  by_cases hn : (a.isNaN || b.isNaN) = true
  · have h1 := Double.sub_isNaN_of_isNaN a b hn
    have h2 := Double.sub_isNaN_of_isNaN b a (by rw [Bool.or_comm]; exact hn)
    rw [Double.lt_nan_left _ _ (by rw [Double.abs_isNaN]; exact h1),
      Double.lt_nan_left _ _ (by rw [Double.abs_isNaN]; exact h2)]
  · simp only [Bool.or_eq_true, not_or, Bool.not_eq_true] at hn
    rw [Double.abs_sub_comm a b,
      Double.epsilon_mul_max_comm a.abs b.abs (by rw [Double.abs_isNaN]; exact hn.1)
        (by rw [Double.abs_isNaN]; exact hn.2) rfl rfl]

theorem Value_eq_real (a b : Double) : Value.eq (.Real a) (.Real b) = Real_equals a b := by
  rw [Value.eq]
  simp only [Value.isNull, Instance_equals, Bool.false_and, Bool.false_eq_true, if_false,
    bne_self_eq_false]
  rw [Real_equals_comm b a, Bool.and_self]

set_option maxRecDepth 100000 in
/-- C6. Two Real values `a` and `b` compare equal under `operator==` iff
`|a - b| < epsilon * max(|a|, |b|)`, computed in double arithmetic with `epsilon` the
machine epsilon `2^-52` and a strict inequality; so `3.14159265` is equal to itself and
not equal to `3.14159264`, and `0.0` is not equal to `0.0`. -/
theorem real_equality_relative_epsilon :
    (∀ a b : Double, Value.eq (.Real a) (.Real b) = true ↔
      Double.lt (Double.abs (Double.sub a b))
        (Double.mul Double.epsilon (Double.max (Double.abs a) (Double.abs b))) = true) ∧
    Double.epsilon.units = 2 ^ (1074 - 52) ∧
    Value.eq (.Real Double.pi9) (.Real Double.pi9) = true ∧
    Value.eq (.Real Double.pi9) (.Real Double.pi9below) = false ∧
    Value.eq (.Real Double.zero) (.Real Double.zero) = false := by
  refine ⟨?_, ?_, ?_, ?_, ?_⟩
  · intro a b
    rw [Value_eq_real]
    rfl
  · decide!
  · rw [Value_eq_real]; decide!
  · rw [Value_eq_real]; decide!
  · rw [Value_eq_real]; decide!

/-! ## The value read back from the formatted text -/

theorem reparsedList_eq : ∀ xs : List Value, reparsedList xs = xs.map Value.reparsed
  | [] => by simp [reparsedList]
  | x :: rest => by simp [reparsedList, reparsedList_eq rest]

theorem reparsedMembers_eq : ∀ m : Members,
    reparsedMembers m = m.map (fun q => (q.1, q.2.reparsed))
  | [] => by simp [reparsedMembers]
  | (k, x) :: rest => by simp [reparsedMembers, reparsedMembers_eq rest]

theorem Double.reparsed_reparsed (d : Double) (hf : d.expo.val ≠ 2047) :
    d.reparsed.reparsed = d.reparsed := by
  obtain ⟨_, h2, h3, _⟩ := Double.reparsed_spec d hf
  unfold Double.reparsed at h2 h3 ⊢
  rw [h2, h3]

theorem double_to_string_reparsed (d : Double) (hf : d.expo.val ≠ 2047) :
    double_to_string d.reparsed = double_to_string d := by
  obtain ⟨h1, h2, h3, _⟩ := Double.reparsed_spec d hf
  rw [double_to_string_finite d hf, double_to_string_finite d.reparsed h1, h2, h3]

theorem Array_format_loop_congr (indent indentLevel : Int) (linePfx lineSuffix : Str) :
    ∀ (xs : List Value) (f : Value → Value),
      (∀ x ∈ xs, (f x).format indent (indentLevel + 1) = x.format indent (indentLevel + 1)) →
      Array_format_loop (xs.map f) indent indentLevel linePfx lineSuffix =
        Array_format_loop xs indent indentLevel linePfx lineSuffix
  | [], _, _ => rfl
  | x :: rest, f, h => by
    rw [List.map_cons, Array_format_loop, Array_format_loop, h x (List.mem_cons_self _ _),
      Array_format_loop_congr indent indentLevel linePfx lineSuffix rest f
        (fun y hy => h y (List.mem_cons_of_mem _ hy))]
    simp

theorem Object_format_loop_congr (indent indentLevel : Int) (linePfx lineSuffix : Str) :
    ∀ (m : Members) (f : Value → Value),
      (∀ q ∈ m, (f q.2).format indent (indentLevel + 1) = q.2.format indent (indentLevel + 1)) →
      Object_format_loop (m.map (fun q => (q.1, f q.2))) indent indentLevel linePfx lineSuffix =
        Object_format_loop m indent indentLevel linePfx lineSuffix
  | [], _, _ => rfl
  | (k, x) :: rest, f, h => by
    rw [List.map_cons, Object_format_loop, Object_format_loop, h (k, x) (List.mem_cons_self _ _),
      Object_format_loop_congr indent indentLevel linePfx lineSuffix rest f
        (fun y hy => h y (List.mem_cons_of_mem _ hy))]
    simp

/-- The value read back has the formatted text of the value. -/
theorem format_reparsed : ∀ v : Value, v.RealsFinite → ∀ (indent indentLevel : Int),
    v.reparsed.format indent indentLevel = v.format indent indentLevel := by
  intro v
  induction v using Value.induct with
  | hNull => intro _ _ _; rw [Value.reparsed]
  | hBool b => intro _ _ _; rw [Value.reparsed]
  | hInt i => intro _ _ _; rw [Value.reparsed]
  | hStr s => intro _ _ _; rw [Value.reparsed]
  | hReal r =>
    intro h _ _
    rw [Value.reparsed, Value.format, Value.format,
      double_to_string_reparsed r (RealsFinite_real r h)]
  | hArr xs ih =>
    intro h indent indentLevel
    have h' := ((allNodes_array _ xs).mp h).2
    rw [Value.reparsed, reparsedList_eq, Value.format, Value.format]
    cases indentStrings indent indentLevel with
    | error e => rfl
    | ok pq =>
      simp only [Array_format_loop_congr indent indentLevel _ _ xs Value.reparsed
        (fun x hx => ih x hx (h' x hx) indent (indentLevel + 1))]
  | hObj m ih =>
    intro h indent indentLevel
    have h' := ((allNodes_object _ m).mp h).2
    rw [Value.reparsed, reparsedMembers_eq, Value.format, Value.format]
    cases indentStrings indent indentLevel with
    | error e => rfl
    | ok pq =>
      simp only [Object_format_loop_congr indent indentLevel _ _ m Value.reparsed
        (fun q hq => ih q hq (h' q hq) indent (indentLevel + 1))]

theorem KeysAscending_map (m : Members) (f : Value → Value) (h : KeysAscending m) :
    KeysAscending (m.map (fun q => (q.1, f q.2))) := by
  unfold KeysAscending at h ⊢
  rw [List.pairwise_map]
  exact h

/-- The value read back is well formed, and its Reals are the doubles their text
denotes. -/
theorem reparsed_exact : ∀ v : Value, v.WellFormed → v.RealsFinite →
    v.reparsed.WellFormed ∧ v.reparsed.RealsExact := by
  intro v
  induction v using Value.induct with
  | hNull => intro h _; rw [Value.reparsed]; exact ⟨h, by decide⟩
  | hBool b => intro h _; rw [Value.reparsed]; exact ⟨h, rfl⟩
  | hInt i => intro h _; rw [Value.reparsed]; exact ⟨h, rfl⟩
  | hStr s => intro h _; rw [Value.reparsed]; exact ⟨h, rfl⟩
  | hReal r =>
    intro _ hfin
    have hf := RealsFinite_real r hfin
    rw [Value.reparsed]
    refine ⟨rfl, ?_⟩
    show nodeRealExact (.Real r.reparsed) = true
    simp only [nodeRealExact, Bool.and_eq_true, decide_eq_true_eq]
    exact ⟨(Double.isFinite_iff _).mpr (Double.reparsed_spec r hf).1,
      Double.reparsed_reparsed r hf⟩
  | hArr xs ih =>
    intro hwf hfin
    have hw := ((allNodes_array _ xs).mp hwf).2
    have hf := ((allNodes_array _ xs).mp hfin).2
    rw [Value.reparsed, reparsedList_eq]
    constructor
    · exact (allNodes_array _ _).mpr ⟨rfl, by
        intro y hy
        obtain ⟨x, hx, rfl⟩ := List.mem_map.mp hy
        exact (ih x hx (hw x hx) (hf x hx)).1⟩
    · exact (allNodes_array _ _).mpr ⟨rfl, by
        intro y hy
        obtain ⟨x, hx, rfl⟩ := List.mem_map.mp hy
        exact (ih x hx (hw x hx) (hf x hx)).2⟩
  | hObj m ih =>
    intro hwf hfin
    have hw := ((allNodes_object _ m).mp hwf).2
    have hasc : KeysAscending m := by
      have := ((allNodes_object _ m).mp hwf).1
      simpa [nodeWellFormed] using this
    have hf := ((allNodes_object _ m).mp hfin).2
    rw [Value.reparsed, reparsedMembers_eq]
    constructor
    · refine (allNodes_object _ _).mpr ⟨?_, ?_⟩
      · simpa [nodeWellFormed] using KeysAscending_map m Value.reparsed hasc
      · intro y hy
        obtain ⟨x, hx, rfl⟩ := List.mem_map.mp hy
        exact (ih x hx (hw x hx) (hf x hx)).1
    · refine (allNodes_object _ _).mpr ⟨rfl, ?_⟩
      intro y hy
      obtain ⟨x, hx, rfl⟩ := List.mem_map.mp hy
      exact (ih x hx (hw x hx) (hf x hx)).2

/-- Parsing the text that `format` wrote for a value with finite Reals gives the value
with every Real replaced by the double its six-decimal text denotes. -/
theorem parse_format_reals (v : Value) (hwf : v.WellFormed) (hfin : v.RealsFinite)
    (indent indentLevel : Int) (text : Str) (hf : v.format indent indentLevel = .ok text) :
    Value.parse text = .ok v.reparsed := by
  obtain ⟨h1, h2⟩ := reparsed_exact v hwf hfin
  exact parse_format_exact v.reparsed h1 h2 indent indentLevel text
    (by rw [format_reparsed v hfin]; exact hf)

theorem forall₂_map_same {α : Type} (R : α → α → Prop) (f : α → α) :
    ∀ xs : List α, List.Forall₂ R (xs.map f) xs ↔ ∀ x ∈ xs, R (f x) x
  | [] => by simp
  | x :: rest => by simp [forall₂_map_same R f rest]

/-- The value read back is `==` to the value exactly when every Real is reproduced by
its six-decimal text. -/
theorem Value_eq_reparsed : ∀ v : Value, v.RealsFinite →
    (Value.eq v.reparsed v = true ↔ v.RealsReproduced) := by
  intro v
  induction v using Value.induct with
  | hNull => intro _; rw [Value.reparsed, Value.eq]; simp [Value.isNull, Value.RealsReproduced, Value.allNodes, nodeRealReproduced]
  | hBool b =>
    intro _
    rw [Value.reparsed, Value.eq]
    simp [Value.isNull, Instance_equals, Value.RealsReproduced, Value.allNodes, nodeRealReproduced]
  | hInt i =>
    intro _
    rw [Value.reparsed, Value.eq]
    simp [Value.isNull, Instance_equals, Value.RealsReproduced, Value.allNodes, nodeRealReproduced]
  | hStr s =>
    intro _
    rw [Value.reparsed, Value.eq]
    simp [Value.isNull, Instance_equals, Value.RealsReproduced, Value.allNodes, nodeRealReproduced]
  | hReal r =>
    intro hfin
    have hf := (Double.isFinite_iff r).mpr (RealsFinite_real r hfin)
    rw [Value.reparsed, Value_eq_real]
    simp [Value.RealsReproduced, Value.allNodes, nodeRealReproduced, hf]
  | hArr xs ih =>
    intro hfin
    have hf := ((allNodes_array _ xs).mp hfin).2
    rw [Value.reparsed, reparsedList_eq, Value_eq_array, forall₂_map_same]
    constructor
    · intro h
      exact (allNodes_array _ xs).mpr ⟨rfl, fun x hx => (ih x hx (hf x hx)).mp (h x hx)⟩
    · intro h x hx
      exact (ih x hx (hf x hx)).mpr (((allNodes_array _ xs).mp h).2 x hx)
  | hObj m ih =>
    intro hfin
    have hf := ((allNodes_object _ m).mp hfin).2
    rw [Value.reparsed, reparsedMembers_eq, Value_eq_object,
      forall₂_map_same (fun p q => p.1 = q.1 ∧ Value.eq p.2 q.2 = true)
        (fun q => (q.1, q.2.reparsed))]
    constructor
    · intro h
      exact (allNodes_object _ m).mpr ⟨rfl, fun x hx => (ih x hx (hf x hx)).mp (h x hx).2⟩
    · intro h x hx
      exact ⟨rfl, (ih x hx (hf x hx)).mpr (((allNodes_object _ m).mp h).2 x hx)⟩


/-! ## Writing to and erasing from a map -/

theorem mapFind_mapAssign_self (key : Str) (value : Value) (m : Members) :
    mapFind key (mapAssign key value m) = some value := by
  induction m with
  | nil => simp [mapAssign, mapFind, strLess_irrefl]
  | cons p rest ih =>
    obtain ⟨k, x⟩ := p
    simp only [mapAssign]
    by_cases h1 : strLess k key = true
    · simp only [h1, if_true, mapFind]
      exact ih
    · by_cases h2 : strLess key k = true
      · simp [h1, h2, mapFind, strLess_irrefl]
      · simp [h1, h2, mapFind]

theorem mapFind_mapAssign_other (key k' : Str) (value : Value) (hk : k' ≠ key) (m : Members) :
    mapFind k' (mapAssign key value m) = mapFind k' m := by
  induction m with
  | nil =>
    simp only [mapAssign, mapFind]
    by_cases h1 : strLess key k' = true
    · simp [h1]
    · by_cases h2 : strLess k' key = true
      · simp [h1, h2]
      · exact absurd (strLess_total k' key (by simpa using h2) (by simpa using h1)) hk
  | cons p rest ih =>
    obtain ⟨k, x⟩ := p
    simp only [mapAssign]
    by_cases h1 : strLess k key = true
    · simp only [h1, if_true, mapFind, ih]
    · by_cases h2 : strLess key k = true
      · simp only [h1, h2, if_true, if_false]
        by_cases h3 : strLess key k' = true
        · simp only [mapFind, h3, if_true]
        · by_cases h4 : strLess k' key = true
          · have h5 : strLess k' k = true := strLess_trans _ _ _ h4 h2
            have h6 : strLess k k' = false := strLess_asymm _ _ h5
            simp [mapFind, h3, h4, h5, h6]
          · exact absurd (strLess_total k' key (by simpa using h4) (by simpa using h3)) hk
      · have hkk : k = key := strLess_total k key (by simpa using h1) (by simpa using h2)
        subst hkk
        simp only [h1, if_false, mapFind]
        by_cases h3 : strLess k k' = true
        · simp only [h3, if_true]
        · by_cases h4 : strLess k' k = true
          · simp only [h3, h4, if_true, if_false]
          · exact absurd (strLess_total k' k (by simpa using h4) (by simpa using h3)) hk

theorem mapAssign_length (key : Str) (value : Value) (m : Members) :
    (mapAssign key value m).length = if (mapFind key m).isSome then m.length else m.length + 1 := by
  induction m with
  | nil => simp [mapAssign, mapFind]
  | cons p rest ih =>
    obtain ⟨k, x⟩ := p
    simp only [mapAssign, mapFind]
    by_cases h1 : strLess k key = true
    · simp only [h1, if_true, List.length_cons, ih]
      split <;> rfl
    · by_cases h2 : strLess key k = true
      · simp [h1, h2]
      · simp [h1, h2]

theorem mem_mapAssign (key : Str) (value : Value) (m : Members) (p : Str × Value)
    (h : p ∈ mapAssign key value m) : p.1 = key ∨ p ∈ m := by
  induction m with
  | nil =>
    simp only [mapAssign, List.mem_singleton] at h
    left
    rw [h]
  | cons q rest ih =>
    obtain ⟨k, x⟩ := q
    simp only [mapAssign] at h
    by_cases h1 : strLess k key = true
    · simp only [h1, if_true, List.mem_cons] at h
      cases h with
      | inl h => right; rw [h]; exact List.mem_cons_self _ _
      | inr h =>
        cases ih h with
        | inl h => exact Or.inl h
        | inr h => exact Or.inr (List.mem_cons_of_mem _ h)
    · by_cases h2 : strLess key k = true
      · simp only [h1, h2, if_true, if_false, Bool.false_eq_true, List.mem_cons] at h
        cases h with
        | inl h => left; rw [h]
        | inr h =>
          cases h with
          | inl h => right; rw [h]; exact List.mem_cons_self _ _
          | inr h => exact Or.inr (List.mem_cons_of_mem _ h)
      · have hkk : k = key := strLess_total k key (by simpa using h1) (by simpa using h2)
        simp only [h1, h2, if_false, Bool.false_eq_true, List.mem_cons] at h
        cases h with
        | inl h => left; rw [h]; exact hkk
        | inr h => exact Or.inr (List.mem_cons_of_mem _ h)

/-- Writing a key keeps the keys of a map ascending. -/
theorem KeysAscending_mapAssign (key : Str) (value : Value) (m : Members)
    (hm : KeysAscending m) : KeysAscending (mapAssign key value m) := by
  induction m with
  | nil => simp [mapAssign, KeysAscending]
  | cons q rest ih =>
    obtain ⟨k, x⟩ := q
    have hc := List.pairwise_cons.mp hm
    simp only [mapAssign]
    by_cases h1 : strLess k key = true
    · simp only [h1, if_true]
      refine List.pairwise_cons.mpr ⟨?_, ih hc.2⟩
      intro p hp
      rcases mem_mapAssign key value rest p hp with h | h
      · rw [h]; exact h1
      · exact hc.1 p h
    · by_cases h2 : strLess key k = true
      · simp only [h1, h2, if_true, if_false]
        refine List.pairwise_cons.mpr ⟨?_, hm⟩
        intro p hp
        rcases List.mem_cons.mp hp with h | h
        · rw [h]; exact h2
        · exact strLess_trans _ _ _ h2 (hc.1 p h)
      · simp only [h1, h2, if_false]
        exact List.pairwise_cons.mpr ⟨hc.1, hc.2⟩

theorem mapIndex_fst_of_find_none (key : Str) (m : Members) (h : mapFind key m = none) :
    (mapIndex key m).1 = mapAssign key Value.Null m := by
  induction m with
  | nil => rfl
  | cons p rest ih =>
    obtain ⟨k, x⟩ := p
    simp only [mapFind] at h
    simp only [mapIndex, mapAssign]
    by_cases h1 : strLess k key = true
    · simp only [h1, if_true] at h ⊢
      rw [ih h]
    · by_cases h2 : strLess key k = true
      · simp [h1, h2]
      · simp [h1, h2] at h

/-- The lookup of `operator[]` keeps the keys of a map ascending. -/
theorem KeysAscending_mapIndex (key : Str) (m : Members) (hm : KeysAscending m) :
    KeysAscending (mapIndex key m).1 := by
  cases h : mapFind key m with
  | none =>
    rw [mapIndex_fst_of_find_none key m h]
    exact KeysAscending_mapAssign key _ m hm
  | some v =>
    rw [mapIndex_of_find_some key m v h]
    exact hm

theorem mapErase_sublist (key : Str) (m : Members) : (mapErase key m).Sublist m := by
  induction m with
  | nil => exact List.Sublist.refl _
  | cons p rest ih =>
    obtain ⟨k, x⟩ := p
    simp only [mapErase]
    by_cases h1 : strLess k key = true
    · simp only [h1, if_true]
      exact List.Sublist.cons₂ _ ih
    · by_cases h2 : strLess key k = true
      · simp only [h1, h2, if_true, if_false]
        exact List.Sublist.refl _
      · simp only [h1, h2, if_false]
        exact List.sublist_cons_self _ _

/-- Erasing a key keeps the keys of a map ascending. -/
theorem KeysAscending_mapErase (key : Str) (m : Members) (hm : KeysAscending m) :
    KeysAscending (mapErase key m) :=
  List.Pairwise.sublist (mapErase_sublist key m) hm

theorem mapErase_of_find_none (key : Str) (m : Members) (h : mapFind key m = none) :
    mapErase key m = m := by
  induction m with
  | nil => rfl
  | cons p rest ih =>
    obtain ⟨k, x⟩ := p
    simp only [mapFind] at h
    simp only [mapErase]
    by_cases h1 : strLess k key = true
    · simp only [h1, if_true] at h ⊢
      rw [ih h]
    · by_cases h2 : strLess key k = true
      · simp [h1, h2]
      · simp [h1, h2] at h

theorem mapErase_length_of_find_some (key : Str) (m : Members) (v : Value)
    (h : mapFind key m = some v) : (mapErase key m).length + 1 = m.length := by
  induction m with
  | nil => simp [mapFind] at h
  | cons p rest ih =>
    obtain ⟨k, x⟩ := p
    simp only [mapFind] at h
    simp only [mapErase]
    by_cases h1 : strLess k key = true
    · simp only [h1, if_true] at h ⊢
      simp [ih h]
    · by_cases h2 : strLess key k = true
      · simp [h1, h2] at h
      · simp [h1, h2]

theorem mapFind_mapErase_self (key : Str) (m : Members) (hm : KeysAscending m) :
    mapFind key (mapErase key m) = none := by
  induction m with
  | nil => rfl
  | cons p rest ih =>
    obtain ⟨k, x⟩ := p
    have hc := List.pairwise_cons.mp hm
    simp only [mapErase]
    by_cases h1 : strLess k key = true
    · simp only [h1, if_true, mapFind]
      exact ih hc.2
    · by_cases h2 : strLess key k = true
      · simp [h1, h2, mapFind]
      · have hkk : k = key := strLess_total k key (by simpa using h1) (by simpa using h2)
        subst hkk
        simp only [h1, if_false]
        exact mapFind_none_of_lt_all k rest hc.1

theorem mapFind_mapErase_other (key k' : Str) (hk : k' ≠ key) (m : Members)
    (hm : KeysAscending m) : mapFind k' (mapErase key m) = mapFind k' m := by
  induction m with
  | nil => rfl
  | cons p rest ih =>
    obtain ⟨k, x⟩ := p
    have hc := List.pairwise_cons.mp hm
    simp only [mapErase]
    by_cases h1 : strLess k key = true
    · simp only [h1, if_true, mapFind, ih hc.2]
    · by_cases h2 : strLess key k = true
      · simp only [h1, h2, if_true, if_false, Bool.false_eq_true]
      · have hkk : k = key := strLess_total k key (by simpa using h1) (by simpa using h2)
        subst hkk
        simp only [h1, if_false, Bool.false_eq_true, mapFind]
        by_cases h3 : strLess k k' = true
        · simp only [h3, if_true]
        · by_cases h4 : strLess k' k = true
          · simp only [h3, h4, if_true, if_false]
            apply mapFind_none_of_lt_all
            intro p hp
            exact strLess_trans _ _ _ h4 (hc.1 p hp)
          · exact absurd (strLess_total k' k (by simpa using h4) (by simpa using h3)) hk

theorem mem_of_mapFind (key : Str) (v : Value) (m : Members) (h : mapFind key m = some v) :
    (key, v) ∈ m := by
  induction m with
  | nil => simp [mapFind] at h
  | cons p rest ih =>
    obtain ⟨k, x⟩ := p
    simp only [mapFind] at h
    by_cases h1 : strLess k key = true
    · simp only [h1, if_true] at h
      exact List.mem_cons_of_mem _ (ih h)
    · by_cases h2 : strLess key k = true
      · simp [h1, h2] at h
      · have hkk : k = key := strLess_total k key (by simpa using h1) (by simpa using h2)
        simp only [h1, h2, if_false, Bool.false_eq_true, Option.some.injEq] at h
        rw [hkk, h]
        exact List.mem_cons_self _ _

theorem mapFind_of_mem (key : Str) (v : Value) (m : Members) (hm : KeysAscending m)
    (h : (key, v) ∈ m) : mapFind key m = some v := by
  induction m with
  | nil => simp at h
  | cons p rest ih =>
    obtain ⟨k, x⟩ := p
    have hc := List.pairwise_cons.mp hm
    rcases List.mem_cons.mp h with h | h
    · cases h
      exact mapFind_head _ _ _
    · have h1 : strLess k key = true := hc.1 (key, v) h
      simp only [mapFind, h1, if_true]
      exact ih hc.2 h


/-! ## C11: `set` -/

theorem mapAssign_mapIndex (key : Str) (v : Value) : ∀ m : Members,
    mapAssign key v (mapIndex key m).1 = mapAssign key v m
  | [] => by simp [mapIndex, mapAssign, strLess_irrefl]
  | (k, x) :: rest => by
    by_cases h1 : strLess k key = true
    · simp only [mapIndex, h1, if_true, mapAssign]
      rw [mapAssign_mapIndex key v rest]
    · by_cases h2 : strLess key k = true
      · simp [mapIndex, h1, h2, mapAssign, strLess_irrefl]
      · simp [mapIndex, h1, h2, mapAssign]

theorem Object_set_ref_const (m : Members) (key : Str) (v : Value) :
    Object_set_ref m key (fun _ => v) = Object_set m key v := by
  simp only [Object_set_ref, Object_set, mapAssign_mapIndex]


/-- C11. `set(key, value)` on an Object, `value` being the reference the call passes (what
it denotes for each state of the receiver). The call succeeds, the keys stay in ascending
order, afterwards `has(key)` is true, the lookup of every other key is as before, and
`count()` is one more when `key` was absent and the same when it was present. The value
stored at `key` is what the reference denotes once `_value[key]` has entered the key: for
a reference that does not reach the receiver that is `value` itself and the call is
`Value.set`; with the key present the receiver is not changed before the value is read;
with the receiver itself as the argument and the key absent, the stored value is the
receiver with the key already entered as Null, so `o.set("k", o)` on the empty Object
stores `{"k":null}` where the argument was `{}`. -/
theorem set_inserts_or_overwrites (m : Members) (key : Str) (value : Value → Value) :
    ∃ m', (Value.Object m).set_ref key value = .ok (.Object m') ∧
      (KeysAscending m → KeysAscending m') ∧
      (Value.Object m').has key = .ok true ∧
      (Value.Object m').get_key key =
        .ok (.Object m', value (.Object (Object_get m key).1)) ∧
      (∀ k, k ≠ key → (Value.Object m').has k = (Value.Object m).has k ∧
        mapFind k m' = mapFind k m) ∧
      (Value.Object m).count = .ok m.length ∧
      ((Value.Object m).has key = .ok false → (Value.Object m').count = .ok (m.length + 1)) ∧
      ((Value.Object m).has key = .ok true → (Value.Object m').count = .ok m.length) ∧
      (∀ v : Value, (∀ r, value r = v) →
        (Value.Object m).set_ref key value = (Value.Object m).set key v ∧
        (Value.Object m').get_key key = .ok (.Object m', v)) ∧
      ((Value.Object m).has key = .ok true →
        (Value.Object m').get_key key = .ok (.Object m', value (.Object m))) ∧
      ((Value.Object m).has key = .ok false →
        (Value.Object m).set_ref key (fun r => r) =
          .ok (.Object (Object_set m key (.Object (Object_set m key .Null))))) ∧
      (Value.Object []).set_ref [107] (fun r => r) =
        .ok (.Object [([107], .Object [([107], .Null)])]) ∧
      (Value.Object []).set [107] (.Object []) = .ok (.Object [([107], .Object [])]) := by
  have hm : Object_set_ref m key (fun entered => value (.Object entered)) =
      mapAssign key (value (.Object (mapIndex key m).1)) m := by
    simp only [Object_set_ref, mapAssign_mapIndex]
  have hget : ∀ x : Value, (Value.Object (mapAssign key x m)).get_key key =
      .ok (.Object (mapAssign key x m), x) := by
    intro x
    simp only [Value.get_key, Object_get]
    rw [mapIndex_of_find_some key _ x (mapFind_mapAssign_self key x m)]
  refine ⟨mapAssign key (value (.Object (mapIndex key m).1)) m, ?_,
    KeysAscending_mapAssign key _ m, ?_, ?_, ?_, rfl, ?_, ?_, ?_, ?_, ?_, by decide, by decide⟩
  · simp only [Value.set_ref, hm]
  · simp [Value.has, Object_has, mapFind_mapAssign_self]
  · exact hget _
  · intro k hk
    have := mapFind_mapAssign_other key k (value (.Object (mapIndex key m).1)) hk m
    exact ⟨by simp [Value.has, Object_has, this], this⟩
  · intro h
    simp only [Value.has, Object_has, Except.ok.injEq] at h
    simp [Value.count, Object_count, mapAssign_length, h]
  · intro h
    simp only [Value.has, Object_has, Except.ok.injEq] at h
    simp [Value.count, Object_count, mapAssign_length, h]
  · intro v hv
    constructor
    · simp only [Value.set_ref, Value.set, hv, Object_set_ref_const]
    · rw [hv]; exact hget v
  · intro h
    simp only [Value.has, Object_has, Except.ok.injEq, Option.isSome_iff_exists] at h
    obtain ⟨x, hx⟩ := h
    have e : (mapIndex key m).1 = m := by rw [mapIndex_of_find_some key m x hx]
    have := hget (value (.Object (mapIndex key m).1))
    rw [e] at this ⊢
    exact this
  · intro h
    simp only [Value.has, Object_has, Except.ok.injEq] at h
    have hn : mapFind key m = none := by
      cases hf : mapFind key m with
      | none => rfl
      | some x => simp [hf] at h
    simp only [Value.set_ref, Object_set_ref, Object_set, mapAssign_mapIndex]
    rw [mapIndex_fst_of_find_none key m hn]

/-! ## C12: `insert` and `append` -/

theorem Array_insert_eq (xs : List Value) (v : Value) (b : Nat) :
    Array_insert xs v b = xs.take (min b xs.length) ++ v :: xs.drop (min b xs.length) := by
  unfold Array_insert
  simp only
  by_cases h : b ≥ xs.length
  · have hmin : min b xs.length = xs.length := Nat.min_eq_right h
    simp [h, hmin]
  · have hmin : min b xs.length = b := Nat.min_eq_left (by omega)
    simp only [h, if_false, hmin]

/-- C12. `insert(v, b)` on an Array of length `n` never fails and gives the elements
before `m = min(b, n)`, then `v`, then the elements from `m` on, so the length is `n + 1`
and `v` is at index `m`; `append(v)` gives the same array as `insert(v, b)` for every
`b >= n`, with `v` the last element. Inserting before index 999 into a 3-element array
puts the new element at index 3. -/
theorem insert_clamps_append_at_end (xs : List Value) (v : Value) (b : Nat) :
    (∃ ys, (Value.Array xs).insert v b = .ok (.Array ys) ∧
      ys = xs.take (min b xs.length) ++ v :: xs.drop (min b xs.length) ∧
      ys.length = xs.length + 1 ∧ ys[min b xs.length]? = some v) ∧
    (xs.length ≤ b → (Value.Array xs).append v = (Value.Array xs).insert v b) ∧
    ((Value.Array xs).append v = .ok (.Array (xs ++ [v])) ∧ (xs ++ [v]).getLast? = some v) ∧
    (Value.Array [.Integer 1, .Integer 2, .Integer 3]).insert (.Integer 9) 999 =
      .ok (.Array [.Integer 1, .Integer 2, .Integer 3, .Integer 9]) := by
  have hle : min b xs.length ≤ xs.length := Nat.min_le_right _ _
  refine ⟨⟨_, rfl, Array_insert_eq xs v b, ?_, ?_⟩, ?_, ⟨rfl, by simp⟩, by decide⟩
  · rw [Array_insert_eq]
    simp only [List.length_append, List.length_take, List.length_cons, List.length_drop]
    omega
  · rw [Array_insert_eq]
    have hl : (xs.take (min b xs.length)).length = min b xs.length := by
      rw [List.length_take]
      omega
    rw [List.getElem?_append_right (by omega), hl]
    simp
  · intro h
    simp only [Value.append, Value.insert, Array_append, Array_insert]
    have : b ≥ xs.length := h
    simp [this]

/-! ## C13: `erase(start, end)` -/

/-- C13. `erase(start, end)` on an Array of length `n` with `start <= end` succeeds and
leaves the elements before `start` followed by the elements from `min(end, n)` on; for
`start >= n` the array is unchanged; with the default `end` (the maximum `size_t`) the
array is cut to its first `min(start, n)` elements. -/
theorem erase_range_removes (xs : List Value) (start stop : Nat) (h : start ≤ stop) :
    (Value.Array xs).erase_range start stop =
      .ok (.Array (xs.take start ++ xs.drop (min stop xs.length))) ∧
    (xs.length ≤ start → (Value.Array xs).erase_range start stop = .ok (.Array xs)) ∧
    (xs.length ≤ SIZE_MAX → start ≤ SIZE_MAX →
      (Value.Array xs).erase_from start = .ok (.Array (xs.take start)) ∧
      (xs.take start).length = min start xs.length) := by
  have key : ∀ stop', start ≤ stop' →
      Array_erase xs start stop' = xs.take start ++ xs.drop (min stop' xs.length) := by
    intro stop' h'
    unfold Array_erase
    simp only
    by_cases h1 : start ≥ xs.length
    · have hmin : min stop' xs.length = xs.length := Nat.min_eq_right (by omega)
      simp [h1, hmin, List.take_of_length_le h1]
    · simp only [h1, if_false]
      by_cases h2 : stop' ≥ xs.length
      · have hmin : min stop' xs.length = xs.length := Nat.min_eq_right h2
        have h3 : ¬ xs.length < start := by omega
        simp only [h2, if_true, h3, if_false, hmin]
      · have hmin : min stop' xs.length = stop' := Nat.min_eq_left (by omega)
        have h3 : ¬ stop' < start := by omega
        simp only [h2, if_false, h3, hmin]
  refine ⟨?_, ?_, ?_⟩
  · simp only [Value.erase_range]
    rw [key stop h]
  · intro hn
    simp only [Value.erase_range, Array_erase]
    have : start ≥ xs.length := hn
    simp [this]
  · intro hn hs
    constructor
    · simp only [Value.erase_from, Value.erase_range]
      rw [key SIZE_MAX hs]
      have hmin : min SIZE_MAX xs.length = xs.length := Nat.min_eq_right hn
      simp [hmin]
    · simp [List.length_take]

/-- C13 on the array `[1, 2, 3]`: erasing `[5, 8)` changes nothing, erasing `[1, 2)`
removes the element at index 1, erasing from 1 on leaves the first element. -/
theorem erase_range_removes_witness :
    (5 ≤ 8 ∧ (Value.Array [.Integer 1, .Integer 2, .Integer 3]).erase_range 5 8 =
      .ok (.Array [.Integer 1, .Integer 2, .Integer 3])) ∧
    (Value.Array [.Integer 1, .Integer 2, .Integer 3]).erase_range 1 2 =
      .ok (.Array [.Integer 1, .Integer 3]) ∧
    (Value.Array [.Integer 1, .Integer 2, .Integer 3]).erase_from 1 =
      .ok (.Array [.Integer 1]) :=
  ⟨⟨by decide, (erase_range_removes [.Integer 1, .Integer 2, .Integer 3] 5 8 (by decide)).1⟩,
    by decide, by decide⟩

/-! ## C14: `erase(key)` -/

/-- C14. `erase(key)` on an Object succeeds and removes exactly that key: the keys stay
ascending, afterwards `has(key)` is false, the lookup of every other key is as before,
`count()` is one less when the key was present, and the Object is unchanged when the key
was absent. -/
theorem erase_key_removes (m : Members) (key : Str) (hm : KeysAscending m) :
    ∃ m', (Value.Object m).erase_key key = .ok (.Object m') ∧ KeysAscending m' ∧
      (Value.Object m').has key = .ok false ∧
      (∀ k, k ≠ key → (Value.Object m').has k = (Value.Object m).has k ∧
        mapFind k m' = mapFind k m) ∧
      (Value.Object m).count = .ok m.length ∧
      ((Value.Object m).has key = .ok true →
        (Value.Object m').count = .ok (m.length - 1) ∧ 0 < m.length) ∧
      ((Value.Object m).has key = .ok false → m' = m) := by
  refine ⟨mapErase key m, rfl, KeysAscending_mapErase key m hm, ?_, ?_, rfl, ?_, ?_⟩
  · simp [Value.has, Object_has, mapFind_mapErase_self key m hm]
  · intro k hk
    have := mapFind_mapErase_other key k hk m hm
    exact ⟨by simp [Value.has, Object_has, this], this⟩
  · intro h
    simp only [Value.has, Object_has, Except.ok.injEq, Option.isSome_iff_exists] at h
    obtain ⟨v, hv⟩ := h
    have := mapErase_length_of_find_some key m v hv
    simp only [Value.count, Object_count, Except.ok.injEq]
    omega
  · intro h
    simp only [Value.has, Object_has, Except.ok.injEq] at h
    cases hf : mapFind key m with
    | none => exact mapErase_of_find_none key m hf
    | some v => simp [hf] at h

/-- C14 on the Object `{"a":1,"b":2}` with the key `"a"`. -/
theorem erase_key_removes_witness :
    KeysAscending [([97], .Integer 1), ([98], .Integer 2)] ∧
    (Value.Object [([97], .Integer 1), ([98], .Integer 2)]).erase_key [97] =
      .ok (.Object [([98], .Integer 2)]) ∧
    ∃ m', (Value.Object [([97], .Integer 1), ([98], .Integer 2)]).erase_key [97] =
        .ok (.Object m') ∧ KeysAscending m' ∧ (Value.Object m').has [97] = .ok false :=
  ⟨by decide, by decide,
    (erase_key_removes [([97], .Integer 1), ([98], .Integer 2)] [97] (by decide)).imp
      (fun _ h => ⟨h.1, h.2.1, h.2.2.1⟩)⟩


/-! ## C15, C16: `clear` -/

/-- C15, as the code has it. `clear()` succeeds on a Null, an Array and an Object: Null
stays Null, an Array becomes the empty Array and an Object the empty Object; on a
Boolean, an Integer, a Real and a String it throws `std::domain_error`. -/
theorem clear_by_kind :
    Value.Null.clear = .ok .Null ∧
    (∀ xs, (Value.Array xs).clear = .ok (.Array [])) ∧
    (∀ m, (Value.Object m).clear = .ok (.Object [])) ∧
    (∀ b, (Value.Boolean b).clear = .error .domain_error) ∧
    (∀ i, (Value.Integer i).clear = .error .domain_error) ∧
    (∀ r, (Value.Real r).clear = .error .domain_error) ∧
    (∀ s, (Value.String s).clear = .error .domain_error) :=
  ⟨rfl, fun _ => rfl, fun _ => rfl, fun _ => rfl, fun _ => rfl, fun _ => rfl, fun _ => rfl⟩

/-- C15 fails as stated: `clear()` on the Integer 1 throws `std::domain_error`, and
`clear()` on the Array `[null]` leaves the empty Array, which is not Null. -/
theorem clear_fails_on_scalar :
    (Value.Integer 1).clear = .error .domain_error ∧
    (Value.Array [.Null]).clear = .ok (.Array []) ∧
    (Value.Array []).isNull = false ∧
    (Value.Array [.Null]).clear ≠ .ok .Null := by
  decide

/-- C16. `clear()` on an Array or an Object succeeds and leaves a container of the same
kind with `count() == 0`; on Null it succeeds and leaves Null; on a Boolean, Integer,
Real or String it throws `std::domain_error` and the value is as it was. -/
theorem clear_as_tested (v : Value) :
    ((v.getType = .Array ∨ v.getType = .Object) →
      ∃ v', v.clear = .ok v' ∧ v'.getType = v.getType ∧ v'.count = .ok 0) ∧
    (v.isNull = true → v.clear = .ok .Null ∧ (v.after v.clear).isNull = true) ∧
    ((v.getType = .Boolean ∨ v.getType = .Integer ∨ v.getType = .Real ∨ v.getType = .String) →
      v.clear = .error .domain_error ∧ v.after v.clear = v) := by
  cases v <;>
    simp [Value.getType, Value.clear, Value.isNull, Value.count, Value.after, Array_count,
      Object_count]

/-! ## C17: the Null receiver -/

/-- C17. On a Null Value each of `set`, `get(key)`, `get(index)` (mutable and read-only,
also through `operator[]`), `append`, `insert`, `erase(start, end)` and `erase(key)` throws
`std::domain_error` and the receiver is Null afterwards; `clear()` succeeds and leaves
Null, the assignment of a whole value succeeds and makes the receiver that value, and
`+=` and `-=` on Null are the assignment of the integer `0 + k` and `0 - k`. -/
theorem null_receiver (key : Str) (value : Value) (index before start stop : Nat) (k : Int) :
    (Value.Null.set key value = .error .domain_error ∧
      Value.Null.after (Value.Null.set key value) = .Null) ∧
    (Value.Null.get_key key = .error .domain_error ∧
      Value.Null.afterGet (Value.Null.get_key key) = .Null) ∧
    (Value.Null.get_key_const key = .error .domain_error ∧
      Value.Null.afterGet (Value.Null.get_key_const key) = .Null) ∧
    (Value.Null.get_index index = .error .domain_error ∧
      Value.Null.afterGet (Value.Null.get_index index) = .Null) ∧
    (Value.Null.get_index_const index = .error .domain_error ∧
      Value.Null.afterGet (Value.Null.get_index_const index) = .Null) ∧
    (Value.Null.subscript_key key = .error .domain_error ∧
      Value.Null.subscript_key_const key = .error .domain_error ∧
      Value.Null.subscript_index index = .error .domain_error ∧
      Value.Null.subscript_index_const index = .error .domain_error) ∧
    (Value.Null.append value = .error .domain_error ∧
      Value.Null.after (Value.Null.append value) = .Null) ∧
    (Value.Null.insert value before = .error .domain_error ∧
      Value.Null.after (Value.Null.insert value before) = .Null) ∧
    (Value.Null.erase_range start stop = .error .domain_error ∧
      Value.Null.erase_from start = .error .domain_error ∧
      Value.Null.after (Value.Null.erase_range start stop) = .Null) ∧
    (Value.Null.erase_key key = .error .domain_error ∧
      Value.Null.after (Value.Null.erase_key key) = .Null) ∧
    (Value.Null.clear = .ok .Null ∧ Value.Null.after Value.Null.clear = .Null) ∧
    Value.Null.assign value = value ∧
    (Value.Null.add_assign k = .ok (Value.Null.assign_int64 (wrapInt64 (0 + k))) ∧
      Value.Null.sub_assign k = .ok (Value.Null.assign_int64 (wrapInt64 (0 - k)))) := by
  refine ⟨⟨rfl, rfl⟩, ⟨rfl, rfl⟩, ⟨rfl, rfl⟩, ⟨rfl, rfl⟩, ⟨rfl, rfl⟩, ⟨rfl, rfl, rfl, rfl⟩,
    ⟨rfl, rfl⟩, ⟨rfl, rfl⟩, ⟨rfl, rfl, rfl⟩, ⟨rfl, rfl⟩, ⟨rfl, rfl⟩, rfl, rfl, rfl⟩

/-! ## C18: access with the wrong kind -/

/-- C18. On a Value that is not Null: `keys()`, `has()`, `get(key)`, `set()` and
`erase(key)` succeed on an Object and throw `std::domain_error` on every other kind;
`get(index)`, `append()`, `insert()` and `erase(start, end)` (for `start <= end`, the
ranges `std::vector::erase` is defined for) succeed on an Array and throw
`std::domain_error` on every other kind, `erase` whatever the range; `count()` succeeds on an Array and on an Object
and throws `std::domain_error` on every other kind; after each throw the Value is as it
was. -/
theorem wrong_type_fails (v : Value) (hv : v.isNull = false) (key : Str) (value : Value)
    (index before start stop : Nat) :
    (v.getType = .Object →
      (∃ ks, v.keys = .ok ks) ∧ (∃ b, v.has key = .ok b) ∧ (∃ r, v.get_key key = .ok r) ∧
      (∃ r, v.get_key_const key = .ok r) ∧
      (∃ v', v.set key value = .ok v') ∧ (∃ v', v.erase_key key = .ok v')) ∧
    (v.getType ≠ .Object →
      v.keys = .error .domain_error ∧ v.has key = .error .domain_error ∧
      v.get_key key = .error .domain_error ∧ v.get_key_const key = .error .domain_error ∧
      v.set key value = .error .domain_error ∧ v.erase_key key = .error .domain_error ∧
      v.afterGet (v.get_key key) = v ∧ v.afterGet (v.get_key_const key) = v ∧
      v.after (v.set key value) = v ∧ v.after (v.erase_key key) = v) ∧
    (v.getType = .Array →
      (∃ r, v.get_index index = .ok r) ∧ (∃ r, v.get_index_const index = .ok r) ∧
      (∃ v', v.append value = .ok v') ∧
      (∃ v', v.insert value before = .ok v') ∧
      (start ≤ stop → ∃ v', v.erase_range start stop = .ok v')) ∧
    (v.getType ≠ .Array →
      v.get_index index = .error .domain_error ∧
      v.get_index_const index = .error .domain_error ∧
      v.append value = .error .domain_error ∧
      v.insert value before = .error .domain_error ∧
      v.erase_range start stop = .error .domain_error ∧
      v.afterGet (v.get_index index) = v ∧ v.afterGet (v.get_index_const index) = v ∧
      v.after (v.append value) = v ∧ v.after (v.insert value before) = v ∧
      v.after (v.erase_range start stop) = v) ∧
    ((v.getType = .Array ∨ v.getType = .Object) → ∃ n, v.count = .ok n) ∧
    (v.getType ≠ .Array → v.getType ≠ .Object → v.count = .error .domain_error) := by
  cases v <;>
    simp [Value.isNull] at hv <;>
    simp [Value.getType, Value.keys, Value.has, Value.get_key, Value.get_key_const, Value.set,
      Value.erase_key, Value.get_index, Value.get_index_const, Value.append, Value.insert,
      Value.erase_range, Value.count, Value.after, Value.afterGet]

/-- C18 on the Array `[null]`: `keys()` throws and `count()` is 1. -/
theorem wrong_type_fails_witness :
    (Value.Array [.Null]).isNull = false ∧
    (Value.Array [.Null]).keys = .error .domain_error ∧
    (Value.Array [.Null]).after ((Value.Array [.Null]).set [107] .Null) = .Array [.Null] ∧
    ∃ n, (Value.Array [.Null]).count = .ok n :=
  ⟨rfl,
    ((wrong_type_fails (.Array [.Null]) rfl [107] .Null 0 0 0 0).2.1 (by decide)).1,
    ((wrong_type_fails (.Array [.Null]) rfl [107] .Null 0 0 0 0).2.1 (by decide)).2.2.2.2.2.2.2.2.1,
    (wrong_type_fails (.Array [.Null]) rfl [107] .Null 0 0 0 0).2.2.2.2.1 (Or.inl rfl)⟩

/-! ## C19: `+=` and `-=` -/

/-- C19. For an `int64_t` operand `k`: on an Integer holding `n`, `+= k` leaves the
Integer `n + k` when that is in the signed 64-bit range, and `-= k` leaves the Integer
`n - k` when that is; on Null the receiver counts as 0, so `+= k` leaves the Integer `k`
and `-= k` the Integer `-k` (when `-k` is in range); on a Boolean, Real, String, Array or
Object both throw `std::domain_error` and the receiver is as it was. -/
theorem compound_assignment (k : Int)
    (hk : -9223372036854775808 ≤ k ∧ k ≤ 9223372036854775807) :
    (∀ n : Int, -9223372036854775808 ≤ n + k → n + k ≤ 9223372036854775807 →
      (Value.Integer n).add_assign k = .ok (.Integer (n + k))) ∧
    (∀ n : Int, -9223372036854775808 ≤ n - k → n - k ≤ 9223372036854775807 →
      (Value.Integer n).sub_assign k = .ok (.Integer (n - k))) ∧
    Value.Null.add_assign k = .ok (.Integer k) ∧
    (-k ≤ 9223372036854775807 → Value.Null.sub_assign k = .ok (.Integer (-k))) ∧
    (∀ v : Value, v.getType ≠ .Integer → v.getType ≠ .Null →
      v.add_assign k = .error .domain_error ∧ v.sub_assign k = .error .domain_error ∧
      v.after (v.add_assign k) = v ∧ v.after (v.sub_assign k) = v) := by
  have wrap : ∀ i : Int, -9223372036854775808 ≤ i → i ≤ 9223372036854775807 →
      wrapInt64 i = i := by
    intro i h1 h2
    unfold wrapInt64
    omega
  refine ⟨?_, ?_, ?_, ?_, ?_⟩
  · intro n h1 h2
    simp [Value.add_assign, Value.integer, Value.assign_int64, bind, Except.bind, pure,
      Except.pure, wrap _ h1 h2]
  · intro n h1 h2
    simp [Value.sub_assign, Value.integer, Value.assign_int64, bind, Except.bind, pure,
      Except.pure, wrap _ h1 h2]
  · simp [Value.add_assign, Value.integer, Value.assign_int64, bind, Except.bind, pure,
      Except.pure, wrap _ hk.1 hk.2]
  · intro h
    simp [Value.sub_assign, Value.integer, Value.assign_int64, bind, Except.bind, pure,
      Except.pure, wrap (-k) (by omega) h]
  · intro v h1 h2
    cases v <;>
      simp [Value.getType] at h1 h2 <;>
      simp [Value.add_assign, Value.sub_assign, Value.integer, bind, Except.bind, Value.after]

/-- C19 with the operand 5: `7 += 5` is 12, `7 -= 5` is 2, Null becomes 5 and -5, and
the String `"a"` throws. -/
theorem compound_assignment_witness :
    ((-9223372036854775808 : Int) ≤ 5 ∧ (5 : Int) ≤ 9223372036854775807) ∧
    (Value.Integer 7).add_assign 5 = .ok (.Integer 12) ∧
    (Value.Integer 7).sub_assign 5 = .ok (.Integer 2) ∧
    Value.Null.add_assign 5 = .ok (.Integer 5) ∧
    Value.Null.sub_assign 5 = .ok (.Integer (-5)) ∧
    (Value.String [97]).add_assign 5 = .error .domain_error :=
  ⟨by decide, (compound_assignment 5 (by decide)).1 7 (by decide) (by decide),
    (compound_assignment 5 (by decide)).2.1 7 (by decide) (by decide),
    (compound_assignment 5 (by decide)).2.2.1,
    (compound_assignment 5 (by decide)).2.2.2.1 (by decide),
    ((compound_assignment 5 (by decide)).2.2.2.2 (.String [97]) (by decide) (by decide)).1⟩


/-! ## C20: the queries of an Object -/

theorem Object_has_iff_mem_keys (m : Members) (hm : KeysAscending m) (k : Str) :
    Object_has m k = true ↔ k ∈ Object_keys m := by
  unfold Object_has Object_keys
  rw [Option.isSome_iff_exists, List.mem_map]
  constructor
  · rintro ⟨v, hv⟩
    exact ⟨(k, v), mem_of_mapFind k v m hv, rfl⟩
  · rintro ⟨⟨k', v⟩, hp, hk⟩
    simp only at hk
    subst hk
    exact ⟨v, mapFind_of_mem k' v m hm hp⟩

theorem Object_keys_ascending (m : Members) (hm : KeysAscending m) :
    (Object_keys m).Pairwise (fun a b => strLess a b = true) := by
  unfold Object_keys
  rw [List.pairwise_map]
  exact hm

theorem Object_keys_nodup (m : Members) (hm : KeysAscending m) : (Object_keys m).Nodup := by
  have h := Object_keys_ascending m hm
  unfold List.Nodup
  refine List.Pairwise.imp ?_ h
  intro a b hab heq
  rw [heq, strLess_irrefl] at hab
  exact Bool.noConfusion hab

/-- C20. The `std::map` of an Object is ascending by key from the empty Object on and is
kept so by `set`, `get(key)` and `erase(key)`. On such an Object `keys()` lists the key
of every member, once each, in strictly ascending order of `std::string::operator<`,
`count()` is the length of `keys()`, and `has(k)` is true exactly when `k` occurs in
`keys()`, also when `k` is bound to Null. On Null `count()` is 0, `keys()` is empty and
`has(k)` is false; on an Array `count()` is the number of elements. -/
theorem object_queries (m : Members) (hm : KeysAscending m) :
    (∃ ks, (Value.Object m).keys = .ok ks ∧
      ks.Pairwise (fun a b => strLess a b = true) ∧ ks.Nodup ∧
      (∀ k v, (k, v) ∈ m → k ∈ ks) ∧ (∀ k, k ∈ ks → ∃ v, (k, v) ∈ m) ∧
      (Value.Object m).count = .ok ks.length ∧
      (∀ k, (Value.Object m).has k = .ok (decide (k ∈ ks))) ∧
      (∀ k, (k, Value.Null) ∈ m → (Value.Object m).has k = .ok true)) ∧
    (KeysAscending [] ∧ Value.object = .Object [] ∧
      (∀ k v, KeysAscending (Object_set m k v)) ∧ (∀ k, KeysAscending (Object_get m k).1) ∧
      (∀ k, KeysAscending (Object_erase m k))) ∧
    (Value.Null.count = .ok 0 ∧ Value.Null.keys = .ok [] ∧
      ∀ k, Value.Null.has k = .ok false) ∧
    (∀ xs : List Value, (Value.Array xs).count = .ok xs.length) := by
  refine ⟨⟨Object_keys m, rfl, Object_keys_ascending m hm, Object_keys_nodup m hm, ?_, ?_, ?_,
    ?_, ?_⟩, ⟨List.Pairwise.nil, rfl, ?_, ?_, ?_⟩, ⟨rfl, rfl, fun _ => rfl⟩, fun _ => rfl⟩
  · intro k v h
    exact List.mem_map.mpr ⟨(k, v), h, rfl⟩
  · intro k h
    obtain ⟨⟨k', v⟩, hp, hk⟩ := List.mem_map.mp h
    simp only at hk
    subst hk
    exact ⟨v, hp⟩
  · simp [Value.count, Object_count, Object_keys]
  · intro k
    simp only [Value.has, Except.ok.injEq]
    rw [Bool.eq_iff_iff, decide_eq_true_iff]
    exact Object_has_iff_mem_keys m hm k
  · intro k h
    simp only [Value.has, Except.ok.injEq]
    exact (Object_has_iff_mem_keys m hm k).mpr (List.mem_map.mpr ⟨(k, Value.Null), h, rfl⟩)
  · intro k v
    exact KeysAscending_mapAssign k v m hm
  · intro k
    exact KeysAscending_mapIndex k m hm
  · intro k
    exact KeysAscending_mapErase k m hm

/-- C20 on the Object `{"a":null,"b":2}`. -/
theorem object_queries_witness :
    KeysAscending [([97], .Null), ([98], .Integer 2)] ∧
    (Value.Object [([97], .Null), ([98], .Integer 2)]).keys = .ok [[97], [98]] ∧
    (Value.Object [([97], .Null), ([98], .Integer 2)]).has [97] = .ok true ∧
    (Value.Object [([97], .Null), ([98], .Integer 2)]).has [99] = .ok false ∧
    ∃ ks, (Value.Object [([97], .Null), ([98], .Integer 2)]).keys = .ok ks ∧
      ks.Pairwise (fun a b => strLess a b = true) ∧ ks.Nodup :=
  ⟨by decide, by decide, by decide, by decide,
    (object_queries [([97], .Null), ([98], .Integer 2)] (by decide)).1.imp
      (fun _ h => ⟨h.1, h.2.1, h.2.2.1⟩)⟩

/-! ## C21: the literal words -/

theorem lt_length_of_charAt_ne_zero (text : Str) (i : Nat) (h : charAt text i ≠ 0) :
    i < text.length := by
  by_contra hn
  apply h
  simp only [charAt, List.getD_eq_getElem?_getD]
  rw [List.getElem?_eq_none (by omega)]
  rfl

theorem Value_parseWord_iff (text word : Str) (offset : Nat) :
    Value_parseWord text word offset =
      if word <+: text.drop offset then .ok (offset + word.length)
      else .error .invalid_argument := by
  unfold Value_parseWord substr
  simp only [ne_eq, ite_not]
  by_cases h : word <+: text.drop offset
  · rw [if_pos h, if_pos (List.prefix_iff_eq_take.mp h).symm]
  · rw [if_neg h, if_neg]
    intro he
    exact h (List.prefix_iff_eq_take.mpr he.symm)

/-- C21. When the first character after the white space at the cursor is `t`, `f` or `n`,
`Value::parse` succeeds exactly when the text there starts with `true`, `false` or `null`
respectively; it then gives Boolean true, Boolean false or Null and the cursor is 4, 5 or
4 characters further; in every other case it throws `std::invalid_argument`, as for the
cut-off `tru` and for `[trust]`. -/
theorem literal_words (text : Str) (position : Nat) :
    (charAt text (Value.skipWhitespace text position) = 116 →
      Value.parse_at text position =
        if [116, 114, 117, 101] <+: text.drop (Value.skipWhitespace text position) then
          .ok (.Boolean true, Value.skipWhitespace text position + 4)
        else .error .invalid_argument) ∧
    (charAt text (Value.skipWhitespace text position) = 102 →
      Value.parse_at text position =
        if [102, 97, 108, 115, 101] <+: text.drop (Value.skipWhitespace text position) then
          .ok (.Boolean false, Value.skipWhitespace text position + 5)
        else .error .invalid_argument) ∧
    (charAt text (Value.skipWhitespace text position) = 110 →
      Value.parse_at text position =
        if [110, 117, 108, 108] <+: text.drop (Value.skipWhitespace text position) then
          .ok (.Null, Value.skipWhitespace text position + 4)
        else .error .invalid_argument) ∧
    Value.parse [116, 114, 117] = .error .invalid_argument ∧
    Value.parse [91, 116, 114, 117, 115, 116, 93] = .error .invalid_argument ∧
    Value.parse_at [32, 116, 114, 117, 101, 44] 0 = .ok (.Boolean true, 5) := by
  have n1 : ∀ c : Byte, c = 116 ∨ c = 102 ∨ c = 110 → c ≠ 123 ∧ c ≠ 91 ∧ c ≠ 34 := by
    intro c h
    rcases h with h | h | h <;> (rw [h]; decide)
  have n2 : ¬ ((102 : Byte) = 116) := by decide
  have n3 : ¬ ((110 : Byte) = 116) ∧ ¬ ((110 : Byte) = 102) := by decide
  refine ⟨?_, ?_, ?_, by decide, by decide, by decide⟩
  · intro hc
    have hlt := lt_length_of_charAt_ne_zero text _ (by rw [hc]; decide)
    obtain ⟨a1, a2, a3⟩ := n1 116 (Or.inl rfl)
    unfold Value.parse_at
    rw [Value.parse_depth]
    simp only [hlt, if_true, hc, Value_parseWord_iff, a1, a2, a3, if_false]
    by_cases hp : [116, 114, 117, 101] <+: text.drop (Value.skipWhitespace text position)
    · simp only [hp, if_true, List.length_cons, List.length_nil]
    · simp only [hp, if_false]
  · intro hc
    have hlt := lt_length_of_charAt_ne_zero text _ (by rw [hc]; decide)
    obtain ⟨a1, a2, a3⟩ := n1 102 (Or.inr (Or.inl rfl))
    unfold Value.parse_at
    rw [Value.parse_depth]
    simp only [hlt, if_true, hc, Value_parseWord_iff, a1, a2, a3, n2, if_false]
    by_cases hp : [102, 97, 108, 115, 101] <+: text.drop (Value.skipWhitespace text position)
    · simp only [hp, if_true, List.length_cons, List.length_nil]
    · simp only [hp, if_false]
  · intro hc
    have hlt := lt_length_of_charAt_ne_zero text _ (by rw [hc]; decide)
    obtain ⟨a1, a2, a3⟩ := n1 110 (Or.inr (Or.inr rfl))
    unfold Value.parse_at
    rw [Value.parse_depth]
    simp only [hlt, if_true, hc, Value_parseWord_iff, a1, a2, a3, n3.1, n3.2, if_false]
    by_cases hp : [110, 117, 108, 108] <+: text.drop (Value.skipWhitespace text position)
    · simp only [hp, if_true, List.length_cons, List.length_nil]
    · simp only [hp, if_false]

/-! ## C22: integer literals -/

theorem digitValue_dec (c : Byte) :
    digitValue 10 c = if 48 ≤ c.val ∧ c.val ≤ 57 then some (c.val - 48) else none := by
  unfold digitValue
  simp only [Bool.and_eq_true, decide_eq_true_eq]
  by_cases h1 : 48 ≤ c.val ∧ c.val ≤ 57
  · have : c.val - 48 < 10 := by omega
    simp [h1, this]
  · rw [if_neg h1, if_neg h1]
    by_cases h2 : 97 ≤ c.val ∧ c.val ≤ 102
    · have : ¬ c.val - 87 < 10 := by omega
      simp [h2, this]
    · rw [if_neg h2]
      by_cases h3 : 65 ≤ c.val ∧ c.val ≤ 70
      · have : ¬ c.val - 55 < 10 := by omega
        simp [h3, this]
      · rw [if_neg h3]

theorem takeDigits_specDecimal_some : ∀ (s : Str) (acc n k : Nat),
    specDecimal s acc = some n → takeDigits 10 s acc k = (n, k + s.length)
  | [], acc, n, k, h => by
    simp only [specDecimal, Option.some.injEq] at h
    simp [takeDigits, h]
  | c :: rest, acc, n, k, h => by
    simp only [specDecimal] at h
    by_cases hc : 48 ≤ c.val ∧ c.val ≤ 57
    · rw [if_pos hc] at h
      simp only [takeDigits, digitValue_dec, hc, and_self, if_true]
      rw [takeDigits_specDecimal_some rest _ n (k + 1) h]
      simp only [List.length_cons]
      congr 1
      omega
    · rw [if_neg hc] at h
      cases h

theorem takeDigits_count_le : ∀ (s : Str) (acc k : Nat),
    (takeDigits 10 s acc k).2 ≤ k + s.length
  | [], acc, k => by simp [takeDigits]
  | c :: rest, acc, k => by
    simp only [takeDigits, digitValue_dec]
    by_cases hc : 48 ≤ c.val ∧ c.val ≤ 57
    · simp only [hc, and_self, if_true, List.length_cons]
      have := takeDigits_count_le rest (acc * 10 + (c.val - 48)) (k + 1)
      omega
    · simp only [hc, if_false, List.length_cons]
      omega

theorem takeDigits_specDecimal_none : ∀ (s : Str) (acc k : Nat),
    specDecimal s acc = none → (takeDigits 10 s acc k).2 < k + s.length
  | [], acc, k, h => by simp [specDecimal] at h
  | c :: rest, acc, k, h => by
    simp only [specDecimal] at h
    simp only [takeDigits, digitValue_dec]
    by_cases hc : 48 ≤ c.val ∧ c.val ≤ 57
    · rw [if_pos hc] at h
      simp only [hc, and_self, if_true, List.length_cons]
      have := takeDigits_specDecimal_none rest _ (k + 1) h
      omega
    · simp only [hc, if_false, List.length_cons]
      omega

theorem countSpaces_of_not_space (c : Byte) (rest : Str) (h : isspace c = false) :
    countSpaces (c :: rest) = 0 := by
  simp [countSpaces, h]

theorem stoll_eval (span : Str) (neg : Bool) (sl n count : Nat) (hws : countSpaces span = 0)
    (hsign : takeSign span = (neg, sl)) (htd : takeDigits 10 (span.drop sl) 0 0 = (n, count)) :
    stoll span =
      if count = 0 then .error .invalid_argument
      else if (if neg then -(n : Int) else n) < -9223372036854775808 ∨
          (if neg then -(n : Int) else n) > 9223372036854775807 then .error .out_of_range
      else .ok ((if neg then -(n : Int) else n), sl + count) := by
  unfold stoll
  simp only [hws, List.drop_zero, hsign, Nat.zero_add, htd, Bool.or_eq_true, decide_eq_true_eq]

theorem stoll_whole (span : Str) (neg : Bool) (sl n : Nat) (hws : countSpaces span = 0)
    (hsign : takeSign span = (neg, sl)) (hsl : sl < span.length)
    (hs : specDecimal (span.drop sl) 0 = some n) :
    stoll span =
      if (if neg then -(n : Int) else n) < -9223372036854775808 ∨
          (if neg then -(n : Int) else n) > 9223372036854775807 then .error .out_of_range
      else .ok ((if neg then -(n : Int) else n), span.length) := by
  have htd := takeDigits_specDecimal_some (span.drop sl) 0 n 0 hs
  rw [Nat.zero_add] at htd
  rw [stoll_eval span neg sl n _ hws hsign htd]
  have hlen : (span.drop sl).length = span.length - sl := List.length_drop _ _
  have h0 : ¬ (span.drop sl).length = 0 := by omega
  have e : sl + (span.drop sl).length = span.length := by omega
  rw [if_neg h0, e]

theorem stoll_part (span : Str) (neg : Bool) (sl : Nat) (hws : countSpaces span = 0)
    (hsign : takeSign span = (neg, sl)) (hsl : sl ≤ span.length)
    (hs : specDecimal (span.drop sl) 0 = none) :
    ∀ v after, stoll span = .ok (v, after) → after ≠ span.length := by
  intro v after hst
  have hlt := takeDigits_specDecimal_none (span.drop sl) 0 0 hs
  have hlen : (span.drop sl).length = span.length - sl := List.length_drop _ _
  rw [stoll_eval span neg sl (takeDigits 10 (span.drop sl) 0 0).1
    (takeDigits 10 (span.drop sl) 0 0).2 hws hsign rfl] at hst
  by_cases h0 : (takeDigits 10 (span.drop sl) 0 0).2 = 0
  · rw [if_pos h0] at hst
    cases hst
  · rw [if_neg h0] at hst
    by_cases hr : (if neg then -((takeDigits 10 (span.drop sl) 0 0).1 : Int)
          else (takeDigits 10 (span.drop sl) 0 0).1) < -9223372036854775808 ∨
        (if neg then -((takeDigits 10 (span.drop sl) 0 0).1 : Int)
          else (takeDigits 10 (span.drop sl) 0 0).1) > 9223372036854775807
    · rw [if_pos hr] at hst
      cases hst
    · rw [if_neg hr] at hst
      simp only [Except.ok.injEq, Prod.mk.injEq] at hst
      omega

/-- `std::stoll` on a span of the characters `+-0123456789`: it converts the whole span
exactly when the span is an integer literal in range. -/
theorem stoll_span (span : Str) (hne : span ≠ []) (hspan : ∀ c ∈ span, isIntegerChar c = true) :
    (∀ n, specIntegerLiteral span = some n →
      stoll span =
        if n < -9223372036854775808 ∨ n > 9223372036854775807 then .error .out_of_range
        else .ok (n, span.length)) ∧
    (specIntegerLiteral span = none →
      ∀ v after, stoll span = .ok (v, after) → after ≠ span.length) := by
  obtain ⟨c, rest, rfl⟩ := List.exists_cons_of_ne_nil hne
  have hci := hspan c (List.mem_cons_self _ _)
  have hsp : isspace c = false := by
    simp only [isIntegerChar, Bool.or_eq_true, Bool.and_eq_true, decide_eq_true_eq] at hci
    simp only [isspace, Bool.or_eq_false_iff, decide_eq_false_iff_not, Bool.and_eq_false_iff]
    omega
  have hws := countSpaces_of_not_space c rest hsp
  by_cases h45 : c = 45
  · subst h45
    have hsign : takeSign ((45 : Byte) :: rest) = (true, 1) := by simp [takeSign]
    have hdrop : ((45 : Byte) :: rest).drop 1 = rest := rfl
    cases hr : rest with
    | nil =>
      refine ⟨by intro n hn; simp [specIntegerLiteral] at hn, ?_⟩
      intro _ v after hst
      rw [stoll_eval _ true 1 0 0 (by rw [← hr]; exact hws) (by rw [← hr]; exact hsign)
        (by simp [takeDigits])] at hst
      simp at hst
    | cons r rs =>
      rw [← hr]
      have hre : rest.isEmpty = false := by rw [hr]; rfl
      have hlen : 1 < ((45 : Byte) :: rest).length := by rw [hr]; simp
      cases hs : specDecimal rest 0 with
      | none =>
        refine ⟨by intro n hn; simp [specIntegerLiteral, hre, hs] at hn, fun _ => ?_⟩
        exact stoll_part _ true 1 hws hsign (by omega) (by rw [hdrop]; exact hs)
      | some m =>
        refine ⟨?_, by intro hn; simp [specIntegerLiteral, hre, hs] at hn⟩
        intro n hn
        have hnm : -(m : Int) = n := by simpa [specIntegerLiteral, hre, hs] using hn
        subst hnm
        have := stoll_whole _ true 1 m hws hsign hlen (by rw [hdrop]; exact hs)
        simpa using this
  · by_cases h43 : c = 43
    · subst h43
      have hsign : takeSign ((43 : Byte) :: rest) = (false, 1) := by simp [takeSign]
      have hdrop : ((43 : Byte) :: rest).drop 1 = rest := rfl
      have e : ¬ ((43 : Byte) = 45) := by decide
      cases hr : rest with
      | nil =>
        refine ⟨by intro n hn; simp [specIntegerLiteral] at hn, ?_⟩
        intro _ v after hst
        rw [stoll_eval _ false 1 0 0 (by rw [← hr]; exact hws) (by rw [← hr]; exact hsign)
          (by simp [takeDigits])] at hst
        simp at hst
      | cons r rs =>
        rw [← hr]
        have hre : rest.isEmpty = false := by rw [hr]; rfl
        have hlen : 1 < ((43 : Byte) :: rest).length := by rw [hr]; simp
        cases hs : specDecimal rest 0 with
        | none =>
          refine ⟨by intro n hn; simp [specIntegerLiteral, e, hre, hs] at hn, fun _ => ?_⟩
          exact stoll_part _ false 1 hws hsign (by omega) (by rw [hdrop]; exact hs)
        | some m =>
          refine ⟨?_, by intro hn; simp [specIntegerLiteral, e, hre, hs] at hn⟩
          intro n hn
          have hnm : (m : Int) = n := by simpa [specIntegerLiteral, e, hre, hs] using hn
          subst hnm
          have := stoll_whole _ false 1 m hws hsign hlen (by rw [hdrop]; exact hs)
          simpa using this
    · have hsign : takeSign (c :: rest) = (false, 0) := by simp [takeSign, h45, h43]
      cases hs : specDecimal (c :: rest) 0 with
      | none =>
        refine ⟨by intro n hn; simp [specIntegerLiteral, h45, h43, hs] at hn, fun _ => ?_⟩
        exact stoll_part _ false 0 hws hsign (by omega) (by simpa using hs)
      | some m =>
        refine ⟨?_, by intro hn; simp [specIntegerLiteral, h45, h43, hs] at hn⟩
        intro n hn
        have hnm : (m : Int) = n := by simpa [specIntegerLiteral, h45, h43, hs] using hn
        subst hnm
        have := stoll_whole _ false 0 m hws hsign (by simp) (by simpa using hs)
        simpa using this

theorem Value_parseNumber_span {text : Str} {offset : Nat} (span rest : Str)
    (hd : text.drop offset = span ++ rest) (hne : span ≠ [])
    (hspan : ∀ c ∈ span, isIntegerChar c = true) (hmax : NumTerminated rest) :
    Value_parseNumber text offset =
      match stoll span with
      | .error _ => .error .invalid_argument
      | .ok (converted, after) =>
        if after = span.length then .ok (Value.Integer converted, offset + span.length)
        else .error .invalid_argument := by
  have hl := length_of_drop hd
  simp only [List.length_append] at hl
  have hloop := parseNumber_loop_eq text span (text.length - offset) offset rest
    false hd hspan hmax (by omega)
  have hpos : 0 < span.length := List.length_pos.mpr hne
  unfold Value_parseNumber
  simp only [hloop, bind, Except.bind, YaJsonAssert]
  have h1 : offset < offset + span.length := by omega
  simp only [h1, decide_True, if_true, Bool.false_eq_true, if_false]
  have h2 : offset + span.length - offset = span.length := by omega
  rw [h2, substr_of_drop hd]
  cases stoll span with
  | error e => rfl
  | ok r =>
    obtain ⟨converted, after⟩ := r
    simp only [decide_eq_true_eq]
    by_cases ha : after = span.length
    · simp [ha, pure, Except.pure]
    · simp [ha]

/-- C22. On a non-empty maximal span of the characters `+-0123456789`, `Value::parse`
succeeds exactly when the span is an optional single sign followed by one or more decimal
digits that denote an integer in the signed 64-bit range; the result is the Integer of
that value and the cursor is after the span; otherwise it throws
`std::invalid_argument`. -/
theorem integer_literals_strict (text : Str) (offset : Nat) (span rest : Str)
    (hd : text.drop offset = span ++ rest) (hne : span ≠ [])
    (hspan : ∀ c ∈ span, isIntegerChar c = true) (hmax : NumTerminated rest) :
    Value.parse_at text offset =
      match specIntegerLiteral span with
      | some n =>
        if -9223372036854775808 ≤ n ∧ n ≤ 9223372036854775807 then
          .ok (.Integer n, offset + span.length)
        else .error .invalid_argument
      | none => .error .invalid_argument := by
  obtain ⟨c, t, hct⟩ := List.exists_cons_of_ne_nil hne
  have hci : isIntegerChar c = true := hspan c (by rw [hct]; exact List.mem_cons_self _ _)
  have hd' : text.drop offset = c :: (t ++ rest) := by rw [hd, hct]; rfl
  have hstart : ValueStart c := by
    right; right; right; right; right; right; exact hci
  have hcs : c ≠ 123 ∧ c ≠ 91 ∧ c ≠ 34 ∧ c ≠ 116 ∧ c ≠ 102 ∧ c ≠ 110 := by
    simp only [isIntegerChar, Bool.or_eq_true, Bool.and_eq_true, decide_eq_true_eq] at hci
    refine ⟨?_, ?_, ?_, ?_, ?_, ?_⟩ <;> (intro hc; rw [hc] at hci; revert hci; decide)
  unfold Value.parse_at
  rw [Value.parse_depth]
  simp only [skipWhitespace_none hd' (ValueStart_facts c hstart).1, lt_length_of_drop hd',
    if_true, charAt_of_drop hd', hcs.1, hcs.2.1, hcs.2.2.1, hcs.2.2.2.1, hcs.2.2.2.2.1,
    hcs.2.2.2.2.2, if_false]
  rw [Value_parseNumber_span span rest hd hne hspan hmax]
  obtain ⟨hsome, hnone⟩ := stoll_span span hne hspan
  cases hs : specIntegerLiteral span with
  | none =>
    simp only
    cases hst : stoll span with
    | error e => rfl
    | ok r =>
      obtain ⟨v, after⟩ := r
      simp only [if_neg (hnone hs v after hst)]
  | some n =>
    simp only
    rw [hsome n hs]
    by_cases hr : n < -9223372036854775808 ∨ n > 9223372036854775807
    · have hr' : ¬ (-9223372036854775808 ≤ n ∧ n ≤ 9223372036854775807) := by omega
      simp only [if_pos hr, if_neg hr']
    · have hr' : -9223372036854775808 ≤ n ∧ n ≤ 9223372036854775807 := by omega
      simp only [if_neg hr, if_pos hr', if_true]

set_option maxRecDepth 100000 in
/-- C22 on concrete texts: `-12` in `[-12]` is the Integer -12, `-9223372036854775808`
is accepted, and `9223372036854775808`, `1-2`, `--1` and `+` throw. -/
theorem integer_literals_strict_witness :
    Value.parse_at [91, 45, 49, 50, 93] 1 = .ok (.Integer (-12), 4) ∧
    Value.parse_at [45, 57, 50, 50, 51, 51, 55, 50, 48, 51, 54, 56, 53, 52, 55, 55, 53, 56,
      48, 56] 0 = .ok (.Integer (-9223372036854775808), 20) ∧
    Value.parse_at [57, 50, 50, 51, 51, 55, 50, 48, 51, 54, 56, 53, 52, 55, 55, 53, 56, 48,
      56] 0 = .error .invalid_argument ∧
    Value.parse_at [49, 45, 50] 0 = .error .invalid_argument ∧
    Value.parse_at [45, 45, 49] 0 = .error .invalid_argument ∧
    Value.parse_at [43] 0 = .error .invalid_argument :=
  ⟨(integer_literals_strict [91, 45, 49, 50, 93] 1 [45, 49, 50] [93] rfl (by decide)
      (by decide) (NumTerminated_of_sep 93 [] (Or.inr (Or.inl rfl)))).trans (by decide),
    (integer_literals_strict _ 0 [45, 57, 50, 50, 51, 51, 55, 50, 48, 51, 54, 56, 53, 52, 55,
      55, 53, 56, 48, 56] [] rfl (by decide) (by decide) NumTerminated_nil).trans (by decide),
    (integer_literals_strict _ 0 [57, 50, 50, 51, 51, 55, 50, 48, 51, 54, 56, 53, 52, 55, 55,
      53, 56, 48, 56] [] rfl (by decide) (by decide) NumTerminated_nil).trans (by decide),
    (integer_literals_strict _ 0 [49, 45, 50] [] rfl (by decide) (by decide)
      NumTerminated_nil).trans (by decide),
    (integer_literals_strict _ 0 [45, 45, 49] [] rfl (by decide) (by decide)
      NumTerminated_nil).trans (by decide),
    (integer_literals_strict _ 0 [43] [] rfl (by decide) (by decide)
      NumTerminated_nil).trans (by decide)⟩

/-! ## C24: the escapes of one character -/

theorem String_parse_loop_error {text : Str} {offset : Nat} {result : Str} {e : Err}
    (fuel : Nat) (hlt : offset < text.length)
    (hs : String_parse_switch text offset result = .error e) :
    String_parse_loop text (fuel + 1) offset result = .error e := by
  rw [String_parse_loop]
  simp only [hlt, if_true, hs]

/-- C24. In the loop of `String::parse`, at a backslash followed by the character `e`
(the `'\0'` of `text[size()]` at the end of the input): `/ " \ b f r n t` append slash,
quote, backslash, backspace (8), form feed (12), carriage return (13), line feed (10) and
tab (9) and the cursor moves past the two characters; every `e` other than these eight and
`u` throws `std::invalid_argument`, which ends the parse. A raw `/` and an escaped `\/`
read as the same character, and `"\i"` and a text that ends after the backslash are
rejected. -/
theorem escape_decoding_table (text : Str) (offset : Nat) (result : Str)
    (h : charAt text offset = 92) :
    (charAt text (offset + 1) = 47 →
      String_parse_switch text offset result = .ok (offset + 2, result ++ [47])) ∧
    (charAt text (offset + 1) = 34 →
      String_parse_switch text offset result = .ok (offset + 2, result ++ [34])) ∧
    (charAt text (offset + 1) = 92 →
      String_parse_switch text offset result = .ok (offset + 2, result ++ [92])) ∧
    (charAt text (offset + 1) = 98 →
      String_parse_switch text offset result = .ok (offset + 2, result ++ [8])) ∧
    (charAt text (offset + 1) = 102 →
      String_parse_switch text offset result = .ok (offset + 2, result ++ [12])) ∧
    (charAt text (offset + 1) = 114 →
      String_parse_switch text offset result = .ok (offset + 2, result ++ [13])) ∧
    (charAt text (offset + 1) = 110 →
      String_parse_switch text offset result = .ok (offset + 2, result ++ [10])) ∧
    (charAt text (offset + 1) = 116 →
      String_parse_switch text offset result = .ok (offset + 2, result ++ [9])) ∧
    ((charAt text (offset + 1) ≠ 47 ∧ charAt text (offset + 1) ≠ 34 ∧
        charAt text (offset + 1) ≠ 92 ∧ charAt text (offset + 1) ≠ 98 ∧
        charAt text (offset + 1) ≠ 102 ∧ charAt text (offset + 1) ≠ 114 ∧
        charAt text (offset + 1) ≠ 110 ∧ charAt text (offset + 1) ≠ 116 ∧
        charAt text (offset + 1) ≠ 117) →
      String_parse_switch text offset result = .error .invalid_argument ∧
      ∀ fuel, String_parse_loop text (fuel + 1) offset result = .error .invalid_argument) ∧
    (offset + 1 = text.length →
      String_parse_switch text offset result = .error .invalid_argument) ∧
    (∀ enc s, ParsesTo enc s →
      ParsesTo (47 :: enc) (47 :: s) ∧ ParsesTo (92 :: 47 :: enc) (47 :: s)) := by
  have hlt := lt_length_of_charAt_ne_zero text offset (by rw [h]; decide)
  have key : String_parse_switch text offset result = String_parseEscaped text offset result := by
    simp [String_parse_switch, h]
  have hbad : (charAt text (offset + 1) ≠ 47 ∧ charAt text (offset + 1) ≠ 34 ∧
        charAt text (offset + 1) ≠ 92 ∧ charAt text (offset + 1) ≠ 98 ∧
        charAt text (offset + 1) ≠ 102 ∧ charAt text (offset + 1) ≠ 114 ∧
        charAt text (offset + 1) ≠ 110 ∧ charAt text (offset + 1) ≠ 116 ∧
        charAt text (offset + 1) ≠ 117) →
      String_parse_switch text offset result = .error .invalid_argument := by
    intro hn
    obtain ⟨a1, a2, a3, a4, a5, a6, a7, a8, a9⟩ := hn
    rw [key]
    simp [String_parseEscaped, a1, a2, a3, a4, a5, a6, a7, a8, a9]
  refine ⟨?_, ?_, ?_, ?_, ?_, ?_, ?_, ?_, ?_, ?_, ?_⟩
  · intro he
    rw [key]
    simp [String_parseEscaped, he, pure, Except.pure]
  · intro he
    rw [key]
    simp [String_parseEscaped, he, pure, Except.pure]
  · intro he
    rw [key]
    simp [String_parseEscaped, he, pure, Except.pure]
  · intro he
    rw [key]
    simp [String_parseEscaped, he, pure, Except.pure]
  · intro he
    rw [key]
    simp [String_parseEscaped, he, pure, Except.pure]
  · intro he
    rw [key]
    simp [String_parseEscaped, he, pure, Except.pure]
  · intro he
    rw [key]
    simp [String_parseEscaped, he, pure, Except.pure]
  · intro he
    rw [key]
    simp [String_parseEscaped, he, pure, Except.pure]
  · intro hn
    exact ⟨hbad hn, fun fuel => String_parse_loop_error fuel hlt (hbad hn)⟩
  · intro hend
    apply hbad
    rw [hend, charAt_end]
    decide
  · intro enc s hp
    exact ⟨ParsesTo_raw 47 enc s (by decide) (by decide) hp,
      ParsesTo_escape 47 47 enc s (Or.inr (Or.inr (Or.inl ⟨rfl, rfl⟩))) hp⟩

set_option maxRecDepth 100000 in
/-- C24 on concrete texts: `"a\/b"` and `"a/b"` are the same String, `"\b\f\r\n\t"` is the
five control characters, `"\i"` and `"\` throw `std::invalid_argument`. -/
theorem escape_decoding_table_witness :
    (charAt [34, 92, 105, 34] 1 = 92 ∧
      String_parse_switch [34, 92, 105, 34] 1 [] = .error .invalid_argument) ∧
    Value.parse [34, 97, 92, 47, 98, 34] = .ok (.String [97, 47, 98]) ∧
    Value.parse [34, 97, 47, 98, 34] = .ok (.String [97, 47, 98]) ∧
    Value.parse [34, 92, 98, 92, 102, 92, 114, 92, 110, 92, 116, 34] =
      .ok (.String [8, 12, 13, 10, 9]) ∧
    Value.parse [34, 92, 105, 34] = .error .invalid_argument ∧
    Value.parse [34, 92] = .error .invalid_argument :=
  ⟨⟨by decide, ((escape_decoding_table [34, 92, 105, 34] 1 [] (by decide)).2.2.2.2.2.2.2.2.1
      (by decide)).1⟩, by decide, by decide, by decide, by decide, by decide⟩

/-! ## C25: the escape `\uXXXX` -/

set_option maxRecDepth 100000 in
/-- C25 does not hold of the code: `std::stol` skips white space and takes a sign and a
`0x` prefix, so `"\u+041"`, `"\u 041"` and `"\u0x41"` parse to the String `A` and
`"\u-000"` to the String of the character 0, although their four characters are not all
hexadecimal digits; `"A"` is `A` and `"\u00g1"` throws. -/
theorem unicode_escape_accepts_sign :
    Value.parse [34, 92, 117, 43, 48, 52, 49, 34] = .ok (.String [65]) ∧
    Value.parse [34, 92, 117, 32, 48, 52, 49, 34] = .ok (.String [65]) ∧
    Value.parse [34, 92, 117, 48, 120, 52, 49, 34] = .ok (.String [65]) ∧
    Value.parse [34, 92, 117, 45, 48, 48, 48, 34] = .ok (.String [0]) ∧
    Value.parse [34, 92, 117, 48, 48, 52, 49, 34] = .ok (.String [65]) ∧
    Value.parse [34, 92, 117, 48, 48, 103, 49, 34] = .error .invalid_argument := by
  decide

/-! ## C26: the escape `\u{...}` -/

theorem digitValue_hex (c : Byte) :
    digitValue 16 c =
      if 48 ≤ c.val ∧ c.val ≤ 57 then some (c.val - 48)
      else if 97 ≤ c.val ∧ c.val ≤ 102 then some (c.val - 87)
      else if 65 ≤ c.val ∧ c.val ≤ 70 then some (c.val - 55)
      else none := by
  unfold digitValue
  simp only [Bool.and_eq_true, decide_eq_true_eq]
  by_cases h1 : 48 ≤ c.val ∧ c.val ≤ 57
  · have : c.val - 48 < 16 := by omega
    simp [h1, this]
  · simp only [if_neg h1]
    by_cases h2 : 97 ≤ c.val ∧ c.val ≤ 102
    · have : c.val - 87 < 16 := by omega
      simp [h2, this]
    · simp only [if_neg h2]
      by_cases h3 : 65 ≤ c.val ∧ c.val ≤ 70
      · have : c.val - 55 < 16 := by omega
        simp [h3, this]
      · simp only [if_neg h3]

theorem specHexValue_head (c : Byte) (rest : Str) (acc v : Nat)
    (h : specHexValue (c :: rest) acc = some v) :
    ∃ d, digitValue 16 c = some d ∧ specHexValue rest (acc * 16 + d) = some v ∧
      isspace c = false ∧ c ≠ 45 ∧ c ≠ 43 ∧ c ≠ 120 ∧ c ≠ 88 ∧ c ≠ 125 := by
  have hne : ∀ n : Nat, c.val = n → ∀ b : Byte, b.val ≠ n → c ≠ b := by
    intro n hn b hb hcb
    rw [hcb] at hn
    exact hb hn
  simp only [specHexValue] at h
  rw [digitValue_hex]
  by_cases h1 : 48 ≤ c.val ∧ c.val ≤ 57
  · rw [if_pos h1] at h ⊢
    refine ⟨_, rfl, h, ?_, ?_, ?_, ?_, ?_, ?_⟩
    · simp only [isspace, Bool.or_eq_false_iff, decide_eq_false_iff_not, Bool.and_eq_false_iff]
      omega
    all_goals (intro hc; rw [hc] at h1; revert h1; decide)
  · rw [if_neg h1] at h ⊢
    by_cases h2 : 97 ≤ c.val ∧ c.val ≤ 102
    · rw [if_pos h2] at h ⊢
      refine ⟨_, rfl, h, ?_, ?_, ?_, ?_, ?_, ?_⟩
      · simp only [isspace, Bool.or_eq_false_iff, decide_eq_false_iff_not,
          Bool.and_eq_false_iff]
        omega
      all_goals (intro hc; rw [hc] at h2; revert h2; decide)
    · rw [if_neg h2] at h ⊢
      by_cases h3 : 65 ≤ c.val ∧ c.val ≤ 70
      · rw [if_pos h3] at h ⊢
        refine ⟨_, rfl, h, ?_, ?_, ?_, ?_, ?_, ?_⟩
        · simp only [isspace, Bool.or_eq_false_iff, decide_eq_false_iff_not,
            Bool.and_eq_false_iff]
          omega
        all_goals (intro hc; rw [hc] at h3; revert h3; decide)
      · rw [if_neg h3] at h
        cases h

theorem takeDigits_specHexValue : ∀ (s : Str) (acc v k : Nat),
    specHexValue s acc = some v → takeDigits 16 s acc k = (v, k + s.length)
  | [], acc, v, k, h => by
    simp only [specHexValue, Option.some.injEq] at h
    simp [takeDigits, h]
  | c :: rest, acc, v, k, h => by
    obtain ⟨d, hd, hrest, _⟩ := specHexValue_head c rest acc v h
    simp only [takeDigits, hd]
    rw [takeDigits_specHexValue rest _ v (k + 1) hrest]
    simp only [List.length_cons]
    congr 1
    omega

theorem not_mem_of_specHexValue : ∀ (s : Str) (acc v : Nat),
    specHexValue s acc = some v → (125 : Byte) ∉ s
  | [], _, _, _ => by simp
  | c :: rest, acc, v, h => by
    obtain ⟨d, _, hrest, _, _, _, _, _, h125⟩ := specHexValue_head c rest acc v h
    intro hm
    rcases List.mem_cons.mp hm with e | e
    · exact h125 e.symm
    · exact not_mem_of_specHexValue rest _ v hrest e

/-- `std::stol(str, &pos, 16)` on a non-empty string of hexadecimal digits. -/
theorem stol16_hex (s : Str) (v : Nat) (hne : s ≠ []) (hv : specHexValue s 0 = some v) :
    stol16 s =
      if (v : Int) > 9223372036854775807 then .error .out_of_range
      else .ok ((v : Int), s.length) := by
  obtain ⟨c, rest, rfl⟩ := List.exists_cons_of_ne_nil hne
  obtain ⟨d, hd, hrest, hsp, h45, h43, _, _, _⟩ := specHexValue_head c rest 0 v hv
  have hws : countSpaces (c :: rest) = 0 := by simp [countSpaces, hsp]
  have hsign : takeSign (c :: rest) = (false, 0) := by simp [takeSign, h45, h43]
  have htd := takeDigits_specHexValue (c :: rest) 0 v 0 hv
  have hnn : ¬ ((v : Int) < -9223372036854775808) := by omega
  by_cases hbig : (v : Int) > 9223372036854775807
  · match rest, hrest, hws, hsign, htd with
    | [], _, hws, hsign, htd => simp [stol16, hws, hsign, htd, hbig]
    | [_], _, hws, hsign, htd => simp [stol16, hws, hsign, htd, hbig]
    | x :: h :: t, hr, hws, hsign, htd =>
      obtain ⟨_, _, _, _, _, _, hx1, hx2, _⟩ := specHexValue_head x (h :: t) _ v hr
      simp [stol16, hws, hsign, htd, hbig, hx1, hx2]
  · match rest, hrest, hws, hsign, htd with
    | [], _, hws, hsign, htd => simp [stol16, hws, hsign, htd, hbig, hnn]
    | [_], _, hws, hsign, htd => simp [stol16, hws, hsign, htd, hbig, hnn]
    | x :: h :: t, hr, hws, hsign, htd =>
      obtain ⟨_, _, _, _, _, _, hx1, hx2, _⟩ := specHexValue_head x (h :: t) _ v hr
      simp [stol16, hws, hsign, htd, hbig, hnn, hx1, hx2]

theorem indexOf_append_cons (a : Byte) : ∀ (s tail : Str), a ∉ s →
    (s ++ a :: tail).indexOf? a = some s.length
  | [], tail, _ => by simp [List.indexOf?, List.findIdx?_cons]
  | c :: rest, tail, h => by
    have hc : c ≠ a := fun e => h (by rw [e]; exact List.mem_cons_self _ _)
    have hr : a ∉ rest := fun e => h (List.mem_cons_of_mem _ e)
    have ih := indexOf_append_cons a rest tail hr
    simp only [List.indexOf?] at ih ⊢
    simp only [List.cons_append, List.findIdx?_cons, beq_iff_eq, hc, if_false,
      Bool.false_eq_true, List.length_cons]
    rw [List.findIdx?_succ, ih]
    rfl

theorem indexOf_none (a : Byte) : ∀ (s : Str), a ∉ s → s.indexOf? a = none
  | [], _ => by simp [List.indexOf?]
  | c :: rest, h => by
    have hc : c ≠ a := fun e => h (by rw [e]; exact List.mem_cons_self _ _)
    have hr : a ∉ rest := fun e => h (List.mem_cons_of_mem _ e)
    have ih := indexOf_none a rest hr
    simp only [List.indexOf?] at ih ⊢
    simp only [List.findIdx?_cons, beq_iff_eq, hc, if_false, Bool.false_eq_true]
    rw [List.findIdx?_succ, ih]
    rfl

theorem String_utf8_ok (v : Nat) (h : v ≤ 0x10FFFF) : ∃ bytes, String_utf8 v = .ok bytes := by
  unfold String_utf8
  by_cases h1 : v ≤ 0x7F
  · rw [if_pos h1]
    exact ⟨_, rfl⟩
  · rw [if_neg h1]
    by_cases h2 : v ≤ 0x7FF
    · rw [if_pos h2]
      exact ⟨_, rfl⟩
    · rw [if_neg h2]
      by_cases h3 : v ≤ 0xFFFF
      · rw [if_pos h3]
        exact ⟨_, rfl⟩
      · rw [if_neg h3, if_pos h]
        exact ⟨_, rfl⟩

theorem String_utf8_error (v : Nat) (h : 0x10FFFF < v) :
    String_utf8 v = .error .invalid_argument := by
  unfold String_utf8
  rw [if_neg (by omega), if_neg (by omega), if_neg (by omega), if_neg (by omega)]

theorem String_parse_switch_escape (text : Str) (offset : Nat) (result tail : Str)
    (hd : text.drop offset = 92 :: 117 :: tail) :
    String_parse_switch text offset result =
      match String_parseEscapedUnicode text (offset + 1) result with
      | .error e => .error e
      | .ok (o, r) => .ok (o + 1, r) := by
  have hd1 : text.drop (offset + 1) = 117 :: tail := drop_succ_of_drop hd
  unfold String_parse_switch String_parseEscaped
  simp only [charAt_of_drop hd, if_true, charAt_of_drop hd1]
  have n : ∀ b : Byte, b = 47 ∨ b = 34 ∨ b = 92 ∨ b = 98 ∨ b = 102 ∨ b = 114 ∨ b = 110 ∨
      b = 116 → ¬ ((117 : Byte) = b) := by
    intro b hb
    rcases hb with h | h | h | h | h | h | h | h <;> (rw [h]; decide)
  simp only [n 47 (by simp), n 34 (by simp), n 92 (by simp), n 98 (by simp), n 102 (by simp),
    n 114 (by simp), n 110 (by simp), n 116 (by simp), if_false, if_true, bind, Except.bind,
    pure, Except.pure]
  cases String_parseEscapedUnicode text (offset + 1) result with
  | error e => rfl
  | ok r => rfl

theorem findCloseBrace_some (text : Str) (pos : Nat) (s tail : Str)
    (hd : text.drop pos = s ++ 125 :: tail) (hs : (125 : Byte) ∉ s) :
    findCloseBrace text pos = some (pos + s.length) := by
  unfold findCloseBrace
  rw [hd, indexOf_append_cons 125 s tail hs]

theorem findCloseBrace_none (text : Str) (pos : Nat) (h : (125 : Byte) ∉ text.drop pos) :
    findCloseBrace text pos = none := by
  unfold findCloseBrace
  rw [indexOf_none 125 _ h]

/-- C26. In the loop of `String::parse`, at `\u{H}` with `H` one or more hexadecimal
digits of value `v`: for `v <= 0x10FFFF` the UTF-8 encoding of `v` is appended and the
cursor is after the `}`; for `v > 0x10FFFF` an exception ends the parse. `\u{}` and a
`\u{` that no `}` follows throw `std::invalid_argument`. -/
theorem brace_unicode_escape (text : Str) (offset : Nat) (result H tail : Str) (v : Nat)
    (hd : text.drop offset = [92, 117, 123] ++ H ++ 125 :: tail) (hne : H ≠ [])
    (hv : specHexValue H 0 = some v) :
    (v ≤ 0x10FFFF → ∃ bytes, String_utf8 v = .ok bytes ∧
      String_parse_switch text offset result = .ok (offset + 3 + H.length + 1, result ++ bytes)) ∧
    (0x10FFFF < v → ∃ e, String_parse_switch text offset result = .error e ∧
      ∀ fuel, String_parse_loop text (fuel + 1) offset result = .error e) ∧
    (∀ (text' : Str) (offset' : Nat) (result' tail' : Str),
      text'.drop offset' = [92, 117, 123, 125] ++ tail' →
      String_parse_switch text' offset' result' = .error .invalid_argument) ∧
    (∀ (text' : Str) (offset' : Nat) (result' tail' : Str),
      text'.drop offset' = [92, 117, 123] ++ tail' → (125 : Byte) ∉ tail' →
      String_parse_switch text' offset' result' = .error .invalid_argument) := by
  have hd0 : text.drop offset = 92 :: 117 :: (123 :: (H ++ 125 :: tail)) := by
    rw [hd]; simp
  have hd1 : text.drop (offset + 1) = 117 :: (123 :: (H ++ 125 :: tail)) := drop_succ_of_drop hd0
  have hd2 : text.drop (offset + 1 + 1) = 123 :: (H ++ 125 :: tail) := drop_succ_of_drop hd1
  have hd3 : text.drop (offset + 1 + 2) = H ++ 125 :: tail := drop_succ_of_drop hd2
  have hfind := findCloseBrace_some text (offset + 1 + 2) H tail hd3
    (not_mem_of_specHexValue H 0 v hv)
  have hsize : offset + 1 + 2 + H.length - (offset + 1) - 2 = H.length := by omega
  have hpos : 0 < H.length := List.length_pos.mpr hne
  have hne2 : offset + 1 + 2 ≠ offset + 1 + 2 + H.length := by omega
  have hlt := lt_length_of_drop hd0
  have hunicode : String_parseEscapedUnicode text (offset + 1) result =
      if (v : Int) > 9223372036854775807 then .error .out_of_range
      else match String_utf8 v with
        | .error e => .error e
        | .ok bytes => .ok (offset + 1 + (1 + H.length + 1), result ++ bytes) := by
    unfold String_parseEscapedUnicode
    simp only [charAt_of_drop hd2, if_true, hfind, hsize, substr_of_drop hd3,
      stol16_hex H v hne hv, bind, Except.bind, YaJsonAssert, hne2, ne_eq, not_false_eq_true,
      decide_True, decide_not, Bool.not_eq_true', decide_eq_false_iff_not]
    by_cases hb : (v : Int) > 9223372036854775807
    · simp [hb]
    · have hv' : ((v : Int) % 18446744073709551616).toNat = v := by omega
      simp only [hb, if_false, hv', decide_True, if_true]
      cases String_utf8 v with
      | error e => rfl
      | ok b => rfl
  refine ⟨?_, ?_, ?_, ?_⟩
  · intro hle
    obtain ⟨bytes, hb⟩ := String_utf8_ok v hle
    refine ⟨bytes, hb, ?_⟩
    rw [String_parse_switch_escape text offset result _ hd0, hunicode]
    have : ¬ ((v : Int) > 9223372036854775807) := by omega
    simp only [this, if_false, hb]
    congr 2
    omega
  · intro hgt
    have hsw : ∃ e, String_parse_switch text offset result = .error e := by
      rw [String_parse_switch_escape text offset result _ hd0, hunicode]
      by_cases hb : (v : Int) > 9223372036854775807
      · exact ⟨.out_of_range, by simp only [hb, if_true]⟩
      · exact ⟨.invalid_argument, by simp only [hb, if_false, String_utf8_error v hgt]⟩
    obtain ⟨e, he⟩ := hsw
    exact ⟨e, he, fun fuel => String_parse_loop_error fuel hlt he⟩
  · intro text' offset' result' tail' hd'
    have h0 : text'.drop offset' = 92 :: 117 :: (123 :: 125 :: tail') := hd'
    have h1 : text'.drop (offset' + 1) = 117 :: (123 :: 125 :: tail') := drop_succ_of_drop h0
    have h2 : text'.drop (offset' + 1 + 1) = 123 :: 125 :: tail' := drop_succ_of_drop h1
    have h3 : text'.drop (offset' + 1 + 2) = [] ++ 125 :: tail' := drop_succ_of_drop h2
    have hf := findCloseBrace_some text' (offset' + 1 + 2) [] tail' h3 (by simp)
    rw [String_parse_switch_escape text' offset' result' _ h0]
    unfold String_parseEscapedUnicode
    simp [charAt_of_drop h2, hf, bind, Except.bind, YaJsonAssert]
  · intro text' offset' result' tail' hd' hno
    have h0 : text'.drop offset' = 92 :: 117 :: (123 :: tail') := hd'
    have h1 : text'.drop (offset' + 1) = 117 :: (123 :: tail') := drop_succ_of_drop h0
    have h2 : text'.drop (offset' + 1 + 1) = 123 :: tail' := drop_succ_of_drop h1
    have h3 : text'.drop (offset' + 1 + 2) = tail' := drop_succ_of_drop h2
    have hf := findCloseBrace_none text' (offset' + 1 + 2) (by rw [h3]; exact hno)
    rw [String_parse_switch_escape text' offset' result' _ h0]
    unfold String_parseEscapedUnicode
    simp [charAt_of_drop h2, hf]

set_option maxRecDepth 100000 in
/-- C26 on concrete texts: `"\u{1F60D}"` is the four bytes of U+1F60D, `"\u{0000000041}"`
is `A`, and `"\u{110000}"`, `"\u{}"` and `"\u{41"` throw. -/
theorem brace_unicode_escape_witness :
    (∃ bytes, String_utf8 0x1F60D = .ok bytes ∧
      String_parse_switch [34, 92, 117, 123, 49, 70, 54, 48, 68, 125, 34] 1 [] =
        .ok (1 + 3 + 5 + 1, [] ++ bytes)) ∧
    Value.parse [34, 92, 117, 123, 49, 70, 54, 48, 68, 125, 34] =
      .ok (.String [0xF0, 0x9F, 0x98, 0x8D]) ∧
    Value.parse [34, 92, 117, 123, 48, 48, 48, 48, 48, 48, 48, 48, 52, 49, 125, 34] =
      .ok (.String [65]) ∧
    Value.parse [34, 92, 117, 123, 49, 49, 48, 48, 48, 48, 125, 34] =
      .error .invalid_argument ∧
    Value.parse [34, 92, 117, 123, 125, 34] = .error .invalid_argument ∧
    Value.parse [34, 92, 117, 123, 52, 49, 34] = .error .invalid_argument :=
  ⟨(brace_unicode_escape [34, 92, 117, 123, 49, 70, 54, 48, 68, 125, 34] 1 []
      [49, 70, 54, 48, 68] [34] 0x1F60D rfl (by decide) (by decide)).1 (by decide),
    by decide, by decide, by decide, by decide, by decide⟩

/-! ## The decoder in arithmetic -/

theorem String_codepoint_arith (value : Str) (i : Nat) :
    String_codepoint value i =
      if i < value.length ∧ (charAt value i).val < 128 then .ok ((charAt value i).val, i + 1)
      else if i + 1 < value.length ∧ 192 ≤ (charAt value i).val ∧ (charAt value i).val < 224 then
        if (128 ≤ (charAt value (i + 1)).val ∧ (charAt value (i + 1)).val < 192) ∧
            127 < (charAt value i).val % 32 * 64 + (charAt value (i + 1)).val % 64 then
          .ok ((charAt value i).val % 32 * 64 + (charAt value (i + 1)).val % 64, i + 2)
        else .error .invalid_argument
      else if i + 2 < value.length ∧ 224 ≤ (charAt value i).val ∧ (charAt value i).val < 240 then
        if (128 ≤ (charAt value (i + 1)).val ∧ (charAt value (i + 1)).val < 192) ∧
            (128 ≤ (charAt value (i + 2)).val ∧ (charAt value (i + 2)).val < 192) ∧
            2047 < (charAt value i).val % 16 * 4096 + (charAt value (i + 1)).val % 64 * 64
              + (charAt value (i + 2)).val % 64 then
          .ok ((charAt value i).val % 16 * 4096 + (charAt value (i + 1)).val % 64 * 64
              + (charAt value (i + 2)).val % 64, i + 3)
        else .error .invalid_argument
      else if i + 3 < value.length ∧ 240 ≤ (charAt value i).val ∧ (charAt value i).val < 248 then
        if (128 ≤ (charAt value (i + 1)).val ∧ (charAt value (i + 1)).val < 192) ∧
            (128 ≤ (charAt value (i + 2)).val ∧ (charAt value (i + 2)).val < 192) ∧
            (128 ≤ (charAt value (i + 3)).val ∧ (charAt value (i + 3)).val < 192) ∧
            65535 < (charAt value i).val % 8 * 262144 + (charAt value (i + 1)).val % 64 * 4096
              + (charAt value (i + 2)).val % 64 * 64 + (charAt value (i + 3)).val % 64 ∧
            (charAt value i).val % 8 * 262144 + (charAt value (i + 1)).val % 64 * 4096
              + (charAt value (i + 2)).val % 64 * 64 + (charAt value (i + 3)).val % 64
              ≤ 1114111 then
          .ok ((charAt value i).val % 8 * 262144 + (charAt value (i + 1)).val % 64 * 4096
              + (charAt value (i + 2)).val % 64 * 64 + (charAt value (i + 3)).val % 64, i + 4)
        else .error .invalid_argument
      else .error .invalid_argument := by
  have e21 : i + 2 - 1 = i + 1 := rfl
  have e31 : i + 3 - 1 = i + 2 := rfl
  have e32 : i + 3 - 2 = i + 1 := rfl
  have e41 : i + 4 - 1 = i + 3 := rfl
  have e42 : i + 4 - 2 = i + 2 := rfl
  have e43 : i + 4 - 3 = i + 1 := rfl
  generalize hc : charAt value i = c
  generalize hb1 : charAt value (i + 1) = b1
  generalize hb2 : charAt value (i + 2) = b2
  generalize hb3 : charAt value (i + 3) = b3
  have m := byte_masks c
  have m1 := (byte_masks b1).2.2.2.2
  have m2 := (byte_masks b2).2.2.2.2
  have m3 := (byte_masks b3).2.2.2.2
  have c2 : ((c.val &&& 31) <<< 6) ||| (b1.val &&& 63) = c.val % 32 * 64 + b1.val % 64 := by
    rw [and_mod64, and_mod32, or_shift2 _ _ (Nat.mod_lt _ (by omega))]
  have c3 : (((c.val &&& 15) <<< 12) ||| ((b1.val &&& 63) <<< 6)) ||| (b2.val &&& 63)
      = c.val % 16 * 4096 + b1.val % 64 * 64 + b2.val % 64 := by
    rw [and_mod64, and_mod64, and_mod16,
      or_shift3 _ _ _ (Nat.mod_lt _ (by omega)) (Nat.mod_lt _ (by omega))]
  have c4 : ((((c.val &&& 7) <<< 18) ||| ((b1.val &&& 63) <<< 12)) ||| ((b2.val &&& 63) <<< 6))
      ||| (b3.val &&& 63)
      = c.val % 8 * 262144 + b1.val % 64 * 4096 + b2.val % 64 * 64 + b3.val % 64 := by
    rw [and_mod64, and_mod64, and_mod64, and_mod8,
      or_shift4 _ _ _ _ (Nat.mod_lt _ (by omega)) (Nat.mod_lt _ (by omega))
        (Nat.mod_lt _ (by omega))]
  unfold String_codepoint
  simp only [assert_bind, pure, Except.pure, Nat.add_sub_cancel, e21, e31, e32, e41, e42, e43,
    hc, hb1, hb2, hb3, c2, c3, c4, and_mod256, m.1, m.2.1, m.2.2.1, m.2.2.2.1, m1, m2, m3,
    Bool.and_eq_true, decide_eq_true_eq]
  have hcl := c.isLt
  by_cases a1 : i < value.length ∧ c.val < 128
  · have : c.val % 256 ≤ 127 := by omega
    have e : c.val % 256 = c.val := by omega
    have e' : c.val ≤ 127 := by omega
    simp only [a1, and_self, if_true, this, e, e']
  · simp only [a1, if_false]
    by_cases a2 : i + 1 < value.length ∧ 192 ≤ c.val ∧ c.val < 224
    · have g : i + 2 ≤ value.length := by omega
      have g2 : c.val % 32 * 64 + b1.val % 64 ≤ 2047 := by omega
      simp only [a2, and_self, if_true, g, g2, and_true]
      by_cases q1 : 128 ≤ b1.val ∧ b1.val < 192
      · by_cases q2 : 127 < c.val % 32 * 64 + b1.val % 64
        · simp only [q1, q2, and_self, if_true, gt_iff_lt]
        · simp only [q1, q2, and_self, if_true, if_false, and_false, gt_iff_lt]
      · simp only [q1, if_false, false_and]
    · simp only [a2, if_false]
      by_cases a3 : i + 2 < value.length ∧ 224 ≤ c.val ∧ c.val < 240
      · have g : i + 3 ≤ value.length := by omega
        have g2 : c.val % 16 * 4096 + b1.val % 64 * 64 + b2.val % 64 ≤ 65535 := by omega
        simp only [a3, and_self, if_true, g, g2, and_true]
        by_cases q2 : 128 ≤ b2.val ∧ b2.val < 192
        · by_cases q1 : 128 ≤ b1.val ∧ b1.val < 192
          · by_cases q3 : 2047 < c.val % 16 * 4096 + b1.val % 64 * 64 + b2.val % 64
            · simp only [q1, q2, q3, and_self, if_true, gt_iff_lt]
            · simp only [q1, q2, q3, and_self, if_true, if_false, and_false, gt_iff_lt]
          · simp only [q1, q2, and_self, if_true, if_false, false_and]
        · simp only [q2, if_false, false_and, and_false]
      · simp only [a3, if_false]
        by_cases a4 : i + 3 < value.length ∧ 240 ≤ c.val ∧ c.val < 248
        · have g : i + 4 ≤ value.length := by omega
          simp only [a4, and_self, if_true, g]
          by_cases q3 : 128 ≤ b3.val ∧ b3.val < 192
          · by_cases q2 : 128 ≤ b2.val ∧ b2.val < 192
            · by_cases q1 : 128 ≤ b1.val ∧ b1.val < 192
              · by_cases q4 : 65535 < c.val % 8 * 262144 + b1.val % 64 * 4096
                    + b2.val % 64 * 64 + b3.val % 64 ∧
                  c.val % 8 * 262144 + b1.val % 64 * 4096 + b2.val % 64 * 64 + b3.val % 64
                    ≤ 1114111
                · simp only [q1, q2, q3, q4, and_self, if_true, gt_iff_lt]
                · simp only [q1, q2, q3, and_self, if_true, true_and, gt_iff_lt, q4, if_false]
              · simp only [q1, q2, q3, and_self, if_true, if_false, false_and]
            · simp only [q2, q3, and_self, if_true, if_false, false_and, and_false]
          · simp only [q3, if_false, false_and, and_false]
        · simp only [a4, if_false]

theorem drop_shape (value : Str) (i : Nat) :
    value.drop i =
      if i < value.length then
        charAt value i ::
          (if i + 1 < value.length then
            charAt value (i + 1) ::
              (if i + 2 < value.length then
                charAt value (i + 2) ::
                  (if i + 3 < value.length then charAt value (i + 3) :: value.drop (i + 4)
                   else [])
               else [])
           else [])
      else [] := by
  by_cases h0 : i < value.length
  · rw [if_pos h0, drop_eq_cons_of_lt h0]
    congr 1
    by_cases h1 : i + 1 < value.length
    · rw [if_pos h1, drop_eq_cons_of_lt h1]
      congr 1
      by_cases h2 : i + 2 < value.length
      · rw [if_pos h2, drop_eq_cons_of_lt h2]
        congr 1
        by_cases h3 : i + 3 < value.length
        · rw [if_pos h3, drop_eq_cons_of_lt h3]
        · rw [if_neg h3]
          exact List.drop_eq_nil_of_le (by omega)
      · rw [if_neg h2]
        exact List.drop_eq_nil_of_le (by omega)
    · rw [if_neg h1]
      exact List.drop_eq_nil_of_le (by omega)
  · rw [if_neg h0]
    exact List.drop_eq_nil_of_le (by omega)

theorem specDecode_shape (c b1 b2 b3 : Byte) (t : Str) (l1 l2 l3 : Prop)
    [Decidable l1] [Decidable l2] [Decidable l3] :
    specDecode (c :: (if l1 then b1 :: (if l2 then b2 :: (if l3 then b3 :: t else []) else [])
      else [])) =
      if c.val ≤ 0x7F then some (c.val, 1)
      else if 0xC2 ≤ c.val ∧ c.val ≤ 0xDF then
        if l1 ∧ (128 ≤ b1.val ∧ b1.val ≤ 191) then
          some ((c.val - 0xC0) * 64 + (b1.val - 0x80), 2)
        else none
      else if 0xE0 ≤ c.val ∧ c.val ≤ 0xEF then
        if (l1 ∧ l2) ∧ (128 ≤ b1.val ∧ b1.val ≤ 191) ∧ (128 ≤ b2.val ∧ b2.val ≤ 191) ∧
            (c.val ≠ 0xE0 ∨ 0xA0 ≤ b1.val) then
          some ((c.val - 0xE0) * 4096 + (b1.val - 0x80) * 64 + (b2.val - 0x80), 3)
        else none
      else if 0xF0 ≤ c.val ∧ c.val ≤ 0xF4 then
        if (l1 ∧ l2 ∧ l3) ∧ (128 ≤ b1.val ∧ b1.val ≤ 191) ∧ (128 ≤ b2.val ∧ b2.val ≤ 191) ∧
            (128 ≤ b3.val ∧ b3.val ≤ 191) ∧ (c.val ≠ 0xF0 ∨ 0x90 ≤ b1.val) ∧
            (c.val ≠ 0xF4 ∨ b1.val ≤ 0x8F) then
          some ((c.val - 0xF0) * 262144 + (b1.val - 0x80) * 4096 + (b2.val - 0x80) * 64
            + (b3.val - 0x80), 4)
        else none
      else none := by
  by_cases h1 : l1 <;> by_cases h2 : l2 <;> by_cases h3 : l3 <;>
    simp only [h1, h2, h3, if_true, if_false, specDecode, isContinuation, Bool.and_eq_true,
      decide_eq_true_eq, Bool.or_eq_true, ne_eq, decide_not, Bool.not_eq_true',
      decide_eq_false_iff_not, true_and, false_and, and_true, and_false, and_assoc]

set_option maxHeartbeats 1600000 in
/-- `String::_codepoint` decodes exactly the UTF-8 forms of the specification, and throws
`std::invalid_argument` at everything else. -/
theorem String_codepoint_spec (value : Str) (i : Nat) :
    String_codepoint value i =
      match specDecode (value.drop i) with
      | some (cp, n) => .ok (cp, i + n)
      | none => .error .invalid_argument := by
  rw [String_codepoint_arith, drop_shape]
  generalize charAt value i = c
  generalize charAt value (i + 1) = b1
  generalize charAt value (i + 2) = b2
  generalize charAt value (i + 3) = b3
  have hcl := c.isLt
  have h1l := b1.isLt
  have h2l := b2.isLt
  have h3l := b3.isLt
  by_cases h0 : i < value.length
  swap
  · have n1 : ¬ i + 1 < value.length := by omega
    have n2 : ¬ i + 2 < value.length := by omega
    have n3 : ¬ i + 3 < value.length := by omega
    simp only [h0, n1, n2, n3, false_and, if_false, specDecode]
  rw [if_pos h0, specDecode_shape]
  simp only [h0, true_and]
  by_cases a1 : c.val < 128
  · have a1' : c.val ≤ 127 := by omega
    simp only [a1, a1', if_true]
  have a1' : ¬ c.val ≤ 127 := by omega
  simp only [a1, a1', if_false]
  by_cases r2 : 192 ≤ c.val ∧ c.val < 224
  · have x3 : ¬ (224 ≤ c.val ∧ c.val < 240) := by omega
    have x4 : ¬ (240 ≤ c.val ∧ c.val < 248) := by omega
    have y3 : ¬ (224 ≤ c.val ∧ c.val ≤ 239) := by omega
    have y4 : ¬ (240 ≤ c.val ∧ c.val ≤ 244) := by omega
    simp only [r2, x3, x4, y3, y4, and_true, and_false, if_false]
    split_ifs <;> first | (exfalso; omega) | (refine congrArg (fun x => (Except.ok (x, _) : Except Err (Nat × Nat))) ?_; omega) | rfl
  have y2 : ¬ (194 ≤ c.val ∧ c.val ≤ 223) := by omega
  simp only [r2, y2, and_false, if_false]
  by_cases r3 : 224 ≤ c.val ∧ c.val < 240
  · have x4 : ¬ (240 ≤ c.val ∧ c.val < 248) := by omega
    have y3 : 224 ≤ c.val ∧ c.val ≤ 239 := by omega
    simp only [r3, x4, y3, and_true, and_false, if_false, if_true]
    split_ifs <;> first | (exfalso; omega) | (refine congrArg (fun x => (Except.ok (x, _) : Except Err (Nat × Nat))) ?_; omega) | rfl
  have y3 : ¬ (224 ≤ c.val ∧ c.val ≤ 239) := by omega
  simp only [r3, y3, and_false, if_false]
  by_cases r4 : 240 ≤ c.val ∧ c.val < 248
  · by_cases y4 : 240 ≤ c.val ∧ c.val ≤ 244
    · rw [if_pos y4]
      simp only [r4, and_true]
      split_ifs <;> first | (exfalso; omega) | (refine congrArg (fun x => (Except.ok (x, _) : Except Err (Nat × Nat))) ?_; omega) | rfl
    · rw [if_neg y4]
      simp only [r4, and_true]
      split_ifs <;> first | (exfalso; omega) | rfl
  have y4 : ¬ (240 ≤ c.val ∧ c.val ≤ 244) := by omega
  simp only [r4, y4, and_false, if_false]

/-! ## The forms of the specification -/

theorem specDecode_facts (s : Str) (cp n : Nat) (h : specDecode s = some (cp, n)) :
    ∃ c t, s = c :: t ∧ n ≤ s.length ∧
      ((n = 1 ∧ cp = c.val ∧ c.val < 128) ∨
       (n = 2 ∧ 128 ≤ cp ∧ cp ≤ 2047 ∧ 194 ≤ c.val) ∨
       (n = 3 ∧ 2048 ≤ cp ∧ cp ≤ 65535 ∧ 194 ≤ c.val) ∨
       (n = 4 ∧ 65536 ≤ cp ∧ cp ≤ 1114111 ∧ 194 ≤ c.val)) := by
  match s, h with
  | [], h => simp [specDecode] at h
  | c :: rest, h =>
    refine ⟨c, rest, rfl, ?_⟩
    have hcl := c.isLt
    simp only [specDecode] at h
    by_cases a1 : c.val ≤ 127
    · simp only [a1, if_true, Option.some.injEq, Prod.mk.injEq] at h
      refine ⟨by simp [← h.2], Or.inl ⟨h.2.symm, h.1.symm, by omega⟩⟩
    simp only [a1, if_false] at h
    by_cases a2 : 194 ≤ c.val ∧ c.val ≤ 223
    · simp only [a2, and_self, if_true] at h
      match rest, h with
      | [], h => simp at h
      | b1 :: t, h =>
        have h1l := b1.isLt
        by_cases q : isContinuation b1 = true
        · simp only [q, if_true, Option.some.injEq, Prod.mk.injEq] at h
          simp only [isContinuation, Bool.and_eq_true, decide_eq_true_eq] at q
          refine ⟨by simp [← h.2], Or.inr (Or.inl ⟨h.2.symm, ?_, ?_, a2.1⟩)⟩ <;> omega
        · simp [q] at h
    simp only [a2, if_false] at h
    by_cases a3 : 224 ≤ c.val ∧ c.val ≤ 239
    · simp only [a3, and_self, if_true] at h
      match rest, h with
      | [], h => simp at h
      | [_], h => simp at h
      | b1 :: b2 :: t, h =>
        have h1l := b1.isLt
        have h2l := b2.isLt
        simp only at h
        split at h
        · rename_i q
          simp only [isContinuation, Bool.and_eq_true, decide_eq_true_eq, Bool.or_eq_true,
            ne_eq, decide_not, Bool.not_eq_true', decide_eq_false_iff_not] at q
          simp only [Option.some.injEq, Prod.mk.injEq] at h
          refine ⟨by simp [← h.2], Or.inr (Or.inr (Or.inl ⟨h.2.symm, ?_, ?_, by omega⟩))⟩ <;>
            omega
        · cases h
    simp only [a3, if_false] at h
    by_cases a4 : 240 ≤ c.val ∧ c.val ≤ 244
    · simp only [a4, and_self, if_true] at h
      match rest, h with
      | [], h => simp at h
      | [_], h => simp at h
      | [_, _], h => simp at h
      | b1 :: b2 :: b3 :: t, h =>
        have h1l := b1.isLt
        have h2l := b2.isLt
        have h3l := b3.isLt
        simp only at h
        split at h
        · rename_i q
          simp only [isContinuation, Bool.and_eq_true, decide_eq_true_eq, Bool.or_eq_true,
            ne_eq, decide_not, Bool.not_eq_true', decide_eq_false_iff_not] at q
          simp only [Option.some.injEq, Prod.mk.injEq] at h
          refine ⟨by simp [← h.2], Or.inr (Or.inr (Or.inr ⟨h.2.symm, ?_, ?_, by omega⟩))⟩ <;>
            omega
        · cases h
    simp [a4] at h

theorem digitsLoop_small (base fuel n : Nat) (acc : Str) (h : n < base) :
    digitsLoop base (fuel + 1) n acc = digitChar n :: acc := by
  simp [digitsLoop, h]

theorem digitsLoop_big (base fuel n : Nat) (acc : Str) (h : ¬ n < base) :
    digitsLoop base (fuel + 1) n acc =
      digitsLoop base fuel (n / base) (digitChar (n % base) :: acc) := by
  simp [digitsLoop, h]

/-- The four lowercase hexadecimal digits of `setw(4)`, `setfill('0')` and `hex`. -/
theorem hex_setw4_eq (cp : Nat) (h : cp < 65536) :
    hex_setw4 cp = [digitChar (cp / 4096), digitChar (cp / 256 % 16), digitChar (cp / 16 % 16),
      digitChar (cp % 16)] := by
  unfold hex_setw4
  by_cases h1 : cp < 16
  · rw [digitsLoop_small 16 cp cp [] h1]
    have e1 : cp / 4096 = 0 := by omega
    have e2 : cp / 256 % 16 = 0 := by omega
    have e3 : cp / 16 % 16 = 0 := by omega
    have e4 : cp % 16 = cp := by omega
    rw [e1, e2, e3, e4]
    rfl
  · obtain ⟨f1, rfl⟩ : ∃ f1, cp = f1 + 16 := ⟨cp - 16, by omega⟩
    rw [digitsLoop_big 16 _ _ [] h1]
    by_cases h2 : (f1 + 16) / 16 < 16
    · rw [show f1 + 16 = (f1 + 15) + 1 by omega, digitsLoop_small 16 (f1 + 15) _ _ (by omega)]
      have e1 : (f1 + 15 + 1) / 4096 = 0 := by omega
      have e2 : (f1 + 15 + 1) / 256 % 16 = 0 := by omega
      have e3 : (f1 + 15 + 1) / 16 % 16 = (f1 + 15 + 1) / 16 := by omega
      rw [e1, e2, e3]
      rfl
    · rw [show f1 + 16 = (f1 + 15) + 1 by omega, digitsLoop_big 16 (f1 + 15) _ _ (by omega)]
      by_cases h3 : (f1 + 15 + 1) / 16 / 16 < 16
      · rw [show f1 + 15 = (f1 + 14) + 1 by omega,
          digitsLoop_small 16 (f1 + 14) _ _ (by omega)]
        have e1 : (f1 + 14 + 1 + 1) / 4096 = 0 := by omega
        have e2 : (f1 + 14 + 1 + 1) / 256 % 16 = (f1 + 14 + 1 + 1) / 16 / 16 := by omega
        have e3 : (f1 + 14 + 1 + 1) / 16 % 16 = (f1 + 14 + 1 + 1) / 16 % 16 := rfl
        rw [e1, e2]
        rfl
      · rw [show f1 + 15 = (f1 + 14) + 1 by omega,
          digitsLoop_big 16 (f1 + 14) _ _ (by omega)]
        rw [show f1 + 14 = (f1 + 13) + 1 by omega,
          digitsLoop_small 16 (f1 + 13) _ _ (by omega)]
        have e1 : (f1 + 13 + 1 + 1 + 1) / 16 / 16 / 16 = (f1 + 13 + 1 + 1 + 1) / 4096 := by omega
        have e2 : (f1 + 13 + 1 + 1 + 1) / 16 / 16 % 16 = (f1 + 13 + 1 + 1 + 1) / 256 % 16 := by
          omega
        rw [e1, e2]
        rfl

/-! ## `String::format` against the specification -/

/-- From `0x80` on the text of a codepoint is the `\u` escape up to `0xFFFF` and the raw
bytes above. -/
theorem specFormatCodepoint_high (cp : Nat) (raw : Str) (h : 128 ≤ cp) :
    specFormatCodepoint cp raw =
      if cp ≤ 0xFFFF then
        [92, 117, digitChar (cp / 4096), digitChar (cp / 256 % 16), digitChar (cp / 16 % 16),
          digitChar (cp % 16)]
      else raw := by
  have n1 : ¬ cp = 92 := by omega
  have n2 : ¬ cp = 34 := by omega
  have n3 : ¬ cp = 47 := by omega
  have n4 : ¬ cp = 9 := by omega
  have n5 : ¬ cp = 13 := by omega
  have n6 : ¬ cp = 10 := by omega
  have n7 : ¬ cp = 8 := by omega
  have n8 : ¬ cp = 12 := by omega
  have n9 : ¬ cp < 128 := by omega
  unfold specFormatCodepoint
  rw [if_neg n1, if_neg n2, if_neg n3, if_neg n4, if_neg n5, if_neg n6, if_neg n7, if_neg n8,
    if_neg n9]

theorem specFormatBody_nil (sf : Nat) : specFormatBody sf [] = some [] := by
  cases sf <;> simp [specFormatBody]

theorem String_format_loop_done (value : Str) (fuel i : Nat) (buffer : Str)
    (h : ¬ i < value.length) : String_format_loop value fuel i buffer = .ok buffer := by
  cases fuel <;> simp [String_format_loop, h]

/-- The loop of `String::format` appends the text the specification gives for the rest of
the payload, and throws `std::invalid_argument` when the rest is not a run of UTF-8
forms. -/
theorem String_format_loop_spec (value : Str) : ∀ (fuel sf i : Nat) (buffer : Str),
    value.length - i ≤ fuel → value.length - i ≤ sf →
    String_format_loop value fuel i buffer =
      match specFormatBody sf (value.drop i) with
      | some body => .ok (buffer ++ body)
      | none => .error .invalid_argument
  | 0, sf, i, buffer, hf, _ => by
    have hi : ¬ i < value.length := by omega
    rw [String_format_loop_done value 0 i buffer hi, List.drop_eq_nil_of_le (by omega),
      specFormatBody_nil]
    simp
  | fuel + 1, sf, i, buffer, hf, hsf => by
    by_cases hi : i < value.length
    swap
    · rw [String_format_loop_done value _ i buffer hi, List.drop_eq_nil_of_le (by omega),
        specFormatBody_nil]
      simp
    obtain ⟨sf', rfl⟩ : ∃ sf', sf = sf' + 1 := ⟨sf - 1, by omega⟩
    have hd := drop_eq_cons_of_lt hi
    have hne : (value.drop i).isEmpty = false := by rw [hd]; rfl
    have hdd : ∀ n, (value.drop i).drop n = value.drop (i + n) := by
      intro n
      rw [List.drop_drop, Nat.add_comm]
    rw [String_format_loop, specFormatBody]
    simp only [hi, if_true, hne, Bool.false_eq_true, if_false]
    -- what the loop does after a step of `n` bytes that appends `piece`
    have next : ∀ (n : Nat) (piece : Str), 0 < n →
        String_format_loop value fuel (i + n) (buffer ++ piece) =
          match specFormatBody sf' (value.drop (i + n)) with
          | some body => .ok (buffer ++ (piece ++ body))
          | none => .error .invalid_argument := by
      intro n piece hn
      rw [String_format_loop_spec value fuel sf' (i + n) (buffer ++ piece) (by omega) (by omega)]
      cases specFormatBody sf' (value.drop (i + n)) with
      | none => rfl
      | some body => simp
    -- an escaped character
    have esc : ∀ (c : Byte) (piece : Str), charAt value i = c → c.val < 128 →
        specFormatCodepoint c.val [c] = piece →
        String_format_loop value fuel (i + 1) (buffer ++ piece) =
          match (match specDecode (value.drop i) with
            | none => none
            | some (cp, n) =>
              match specFormatBody sf' ((value.drop i).drop n) with
              | none => none
              | some more => some (specFormatCodepoint cp ((value.drop i).take n) ++ more)) with
          | some body => .ok (buffer ++ body)
          | none => .error .invalid_argument := by
      intro c piece hc hlt hp
      have hdec : specDecode (value.drop i) = some (c.val, 1) := by
        rw [hd, hc]
        simp [specDecode, Nat.le_of_lt_succ hlt]
      have htake : (value.drop i).take 1 = [c] := by rw [hd, hc]; rfl
      rw [hdec]
      simp only [hdd, htake, hp]
      rw [next 1 piece (by omega)]
      cases specFormatBody sf' (value.drop (i + 1)) with
      | none => rfl
      | some body => rfl
    by_cases c1 : charAt value i = 92
    · simp only [c1, if_true]
      exact esc 92 _ c1 (by decide) (by decide)
    by_cases c2 : charAt value i = 34
    · simp only [c1, c2, if_true, if_false]
      exact esc 34 _ c2 (by decide) (by decide)
    by_cases c3 : charAt value i = 47
    · simp only [c1, c2, c3, if_true, if_false]
      exact esc 47 _ c3 (by decide) (by decide)
    by_cases c4 : charAt value i = 9
    · simp only [c1, c2, c3, c4, if_true, if_false]
      exact esc 9 _ c4 (by decide) (by decide)
    by_cases c5 : charAt value i = 13
    · simp only [c1, c2, c3, c4, c5, if_true, if_false]
      exact esc 13 _ c5 (by decide) (by decide)
    by_cases c6 : charAt value i = 10
    · simp only [c1, c2, c3, c4, c5, c6, if_true, if_false]
      exact esc 10 _ c6 (by decide) (by decide)
    by_cases c7 : charAt value i = 8
    · simp only [c1, c2, c3, c4, c5, c6, c7, if_true, if_false]
      exact esc 8 _ c7 (by decide) (by decide)
    by_cases c8 : charAt value i = 12
    · simp only [c1, c2, c3, c4, c5, c6, c7, c8, if_true, if_false]
      exact esc 12 _ c8 (by decide) (by decide)
    simp only [c1, c2, c3, c4, c5, c6, c7, c8, if_false]
    have hval : ∀ (b : Byte) (k : Nat), b.val = k → charAt value i ≠ b →
        (charAt value i).val ≠ k :=
      fun b k hk hb hv => hb (Fin.ext (by rw [hv, hk]))
    unfold String_formatCodepoint
    rw [String_codepoint_spec]
    cases hdec : specDecode (value.drop i) with
    | none => simp [bind, Except.bind]
    | some r =>
      obtain ⟨cp, n⟩ := r
      obtain ⟨c, t, hs, hnl, hcase⟩ := specDecode_facts _ cp n hdec
      have hcc : charAt value i = c := by
        rw [hd] at hs
        exact (List.cons.inj hs).1
      have hlen : (value.drop i).length = value.length - i := List.length_drop _ _
      simp only [bind, Except.bind, hdd, pure, Except.pure]
      have e0 : i + n - i = n := by omega
      rw [e0]
      rcases hcase with ⟨rfl, hcp, hc⟩ | ⟨rfl, h1, h2, _⟩ | ⟨rfl, h1, h2, _⟩ | ⟨rfl, h1, h2, _⟩
      · -- one byte that is not escaped
        have htake : (value.drop i).take 1 = [c] := by rw [hs]; rfl
        have hpiece : specFormatCodepoint cp [c] = [c] := by
          rw [← hcc] at hcp
          have n1 := hval 92 92 rfl c1
          have n2 := hval 34 34 rfl c2
          have n3 := hval 47 47 rfl c3
          have n4 := hval 9 9 rfl c4
          have n5 := hval 13 13 rfl c5
          have n6 := hval 10 10 rfl c6
          have n7 := hval 8 8 rfl c7
          have n8 := hval 12 12 rfl c8
          rw [← hcp] at n1 n2 n3 n4 n5 n6 n7 n8
          have hlt : cp < 128 := by rw [hcp, hcc]; exact hc
          simp only [specFormatCodepoint]
          rw [if_neg n1, if_neg n2, if_neg n3, if_neg n4, if_neg n5, if_neg n6, if_neg n7,
            if_neg n8, if_pos hlt]
        simp only [if_true, Nat.add_sub_cancel, htake, hpiece, hcc]
        rw [next 1 [c] (by omega)]
        cases specFormatBody sf' (value.drop (i + 1)) with
        | none => rfl
        | some body => rfl
      · -- two bytes
        have e1 : ¬ (2 = 1) := by omega
        have e2 : ¬ cp > 65535 := by omega
        have e3 : i + 2 - 1 + 1 = i + 2 := by omega
        have hpiece : specFormatCodepoint cp ((value.drop i).take 2) =
            [92, 117] ++ hex_setw4 cp := by
          rw [hex_setw4_eq cp (by omega)]
          rw [specFormatCodepoint_high cp _ (by omega), if_pos (by omega)]
          rfl
        simp only [e1, if_false, e2, decide_False, Bool.false_eq_true, e3, hpiece]
        rw [List.append_assoc, next 2 _ (by omega)]
        cases specFormatBody sf' (value.drop (i + 2)) with
        | none => rfl
        | some body => rfl
      · -- three bytes
        have e1 : ¬ (3 = 1) := by omega
        have e2 : ¬ cp > 65535 := by omega
        have e3 : i + 3 - 1 + 1 = i + 3 := by omega
        have hpiece : specFormatCodepoint cp ((value.drop i).take 3) =
            [92, 117] ++ hex_setw4 cp := by
          rw [hex_setw4_eq cp (by omega)]
          rw [specFormatCodepoint_high cp _ (by omega), if_pos (by omega)]
          rfl
        simp only [e1, if_false, e2, decide_False, Bool.false_eq_true, e3, hpiece]
        rw [List.append_assoc, next 3 _ (by omega)]
        cases specFormatBody sf' (value.drop (i + 3)) with
        | none => rfl
        | some body => rfl
      · -- four bytes
        have e1 : ¬ (4 = 1) := by omega
        have e2 : cp > 65535 := by omega
        have e3 : i + 4 - 1 + 1 = i + 4 := by omega
        have hpiece : specFormatCodepoint cp ((value.drop i).take 4) =
            substr value i 4 := by
          rw [specFormatCodepoint_high cp _ (by omega), if_neg (by omega)]
          rfl
        simp only [e1, if_false, e2, decide_True, if_true, e3, hpiece]
        rw [next 4 _ (by omega)]
        cases specFormatBody sf' (value.drop (i + 4)) with
        | none => rfl
        | some body => rfl

/-- `String::format` writes a quote, the text the specification gives for the payload and
a quote, and throws `std::invalid_argument` exactly when the payload is not a run of UTF-8
forms. -/
theorem String_format_spec (s : Str) :
    String_format s =
      match specFormatBody s.length s with
      | some body => .ok (34 :: body ++ [34])
      | none => .error .invalid_argument := by
  unfold String_format
  rw [String_format_loop_spec s s.length s.length 0 [34] (by omega) (by omega)]
  simp only [List.drop_zero]
  cases specFormatBody s.length s with
  | none => rfl
  | some body => rfl

/-! ## Encoding, then decoding -/

theorem toChar_val_of_lt (n : Nat) (h : n < 256) : (toChar n).val = n := by
  simp [toChar, Fin.ofNat, Nat.mod_eq_of_lt h]

/-- The bytes `String::_utf8` writes for a codepoint up to `0x10FFFF` are the UTF-8 form
of that codepoint. -/
theorem specDecode_utf8 (cp : Nat) (h : cp ≤ 0x10FFFF) (rest : Str) :
    ∃ bytes, String_utf8 cp = .ok bytes ∧ bytes ≠ [] ∧
      specDecode (bytes ++ rest) = some (cp, bytes.length) ∧
      (bytes.length = 1 ↔ cp < 128) ∧
      ∀ b ∈ bytes, cp < 128 ∨ 128 ≤ b.val := by
  unfold String_utf8
  by_cases h1 : cp ≤ 0x7F
  · rw [if_pos h1]
    have hv := toChar_val_of_lt cp (by omega)
    refine ⟨_, rfl, by simp, ?_, by simp; omega, fun b _ => Or.inl (by omega)⟩
    simp only [List.singleton_append, specDecode, hv]
    rw [if_pos (by omega)]
    rfl
  rw [if_neg h1]
  by_cases h2 : cp ≤ 0x7FF
  · rw [if_pos h2]
    have v0 : (toChar ((6 <<< 5) ||| (cp >>> 6))).val = 192 + cp / 64 := by
      rw [Nat.shiftRight_eq_div_pow, or_lead2 _ (by omega)]
      exact toChar_val_of_lt _ (by omega)
    have v1 : (toChar ((2 <<< 6) ||| (cp &&& 0x3F))).val = 128 + cp % 64 := by
      rw [and_mod64, or_cont _ (Nat.mod_lt _ (by omega))]
      exact toChar_val_of_lt _ (by omega)
    refine ⟨_, rfl, by simp, ?_, by simp; omega, ?_⟩
    · simp only [List.cons_append, List.nil_append, specDecode, v0, v1, isContinuation]
      have a1 : ¬ 192 + cp / 64 ≤ 127 := by omega
      have a2 : 194 ≤ 192 + cp / 64 ∧ 192 + cp / 64 ≤ 223 := by omega
      have q : (decide (128 ≤ 128 + cp % 64) && decide (128 + cp % 64 ≤ 191)) = true := by
        simp only [Bool.and_eq_true, decide_eq_true_eq]; omega
      rw [if_neg a1, if_pos a2, if_pos q]
      simp only [List.length_cons, List.length_nil, Option.some.injEq, Prod.mk.injEq, and_true]
      omega
    · intro b hb
      right
      simp only [List.mem_cons, List.mem_singleton, List.not_mem_nil, or_false] at hb
      rcases hb with hb | hb <;> (rw [hb]; omega)
  rw [if_neg h2]
  by_cases h3 : cp ≤ 0xFFFF
  · rw [if_pos h3]
    have v0 : (toChar ((14 <<< 4) ||| (cp >>> 12))).val = 224 + cp / 4096 := by
      rw [Nat.shiftRight_eq_div_pow, or_lead3 _ (by omega)]
      exact toChar_val_of_lt _ (by omega)
    have v1 : (toChar ((2 <<< 6) ||| ((cp >>> 6) &&& 0x3F))).val = 128 + cp / 64 % 64 := by
      rw [Nat.shiftRight_eq_div_pow, and_mod64, or_cont _ (Nat.mod_lt _ (by omega))]
      exact toChar_val_of_lt _ (by omega)
    have v2 : (toChar ((2 <<< 6) ||| (cp &&& 0x3F))).val = 128 + cp % 64 := by
      rw [and_mod64, or_cont _ (Nat.mod_lt _ (by omega))]
      exact toChar_val_of_lt _ (by omega)
    refine ⟨_, rfl, by simp, ?_, by simp; omega, ?_⟩
    · simp only [List.cons_append, List.nil_append, specDecode, v0, v1, v2, isContinuation]
      have a1 : ¬ 224 + cp / 4096 ≤ 127 := by omega
      have a2 : ¬ (194 ≤ 224 + cp / 4096 ∧ 224 + cp / 4096 ≤ 223) := by omega
      have a3 : 224 ≤ 224 + cp / 4096 ∧ 224 + cp / 4096 ≤ 239 := by omega
      have q : ((decide (128 ≤ 128 + cp / 64 % 64) && decide (128 + cp / 64 % 64 ≤ 191)) &&
          (decide (128 ≤ 128 + cp % 64) && decide (128 + cp % 64 ≤ 191)) &&
          (decide (224 + cp / 4096 ≠ 224) || decide (160 ≤ 128 + cp / 64 % 64))) = true := by
        simp only [Bool.and_eq_true, decide_eq_true_eq, Bool.or_eq_true, ne_eq, decide_not,
          Bool.not_eq_true', decide_eq_false_iff_not]
        omega
      rw [if_neg a1, if_neg a2, if_pos a3, if_pos q]
      simp only [List.length_cons, List.length_nil, Option.some.injEq, Prod.mk.injEq, and_true]
      omega
    · intro b hb
      right
      simp only [List.mem_cons, List.mem_singleton, List.not_mem_nil, or_false] at hb
      rcases hb with hb | hb | hb <;> (rw [hb]; omega)
  rw [if_neg h3, if_pos h]
  have v0 : (toChar ((30 <<< 3) ||| (cp >>> 18))).val = 240 + cp / 262144 := by
    rw [Nat.shiftRight_eq_div_pow, or_lead4 _ (by omega)]
    exact toChar_val_of_lt _ (by omega)
  have v1 : (toChar ((2 <<< 6) ||| ((cp >>> 12) &&& 0x3F))).val = 128 + cp / 4096 % 64 := by
    rw [Nat.shiftRight_eq_div_pow, and_mod64, or_cont _ (Nat.mod_lt _ (by omega))]
    exact toChar_val_of_lt _ (by omega)
  have v2 : (toChar ((2 <<< 6) ||| ((cp >>> 6) &&& 0x3F))).val = 128 + cp / 64 % 64 := by
    rw [Nat.shiftRight_eq_div_pow, and_mod64, or_cont _ (Nat.mod_lt _ (by omega))]
    exact toChar_val_of_lt _ (by omega)
  have v3 : (toChar ((2 <<< 6) ||| (cp &&& 0x3F))).val = 128 + cp % 64 := by
    rw [and_mod64, or_cont _ (Nat.mod_lt _ (by omega))]
    exact toChar_val_of_lt _ (by omega)
  refine ⟨_, rfl, by simp, ?_, by simp; omega, ?_⟩
  · simp only [List.cons_append, List.nil_append, specDecode, v0, v1, v2, v3, isContinuation]
    have a1 : ¬ 240 + cp / 262144 ≤ 127 := by omega
    have a2 : ¬ (194 ≤ 240 + cp / 262144 ∧ 240 + cp / 262144 ≤ 223) := by omega
    have a3 : ¬ (224 ≤ 240 + cp / 262144 ∧ 240 + cp / 262144 ≤ 239) := by omega
    have a4 : 240 ≤ 240 + cp / 262144 ∧ 240 + cp / 262144 ≤ 244 := by omega
    have q : ((decide (128 ≤ 128 + cp / 4096 % 64) && decide (128 + cp / 4096 % 64 ≤ 191)) &&
        (decide (128 ≤ 128 + cp / 64 % 64) && decide (128 + cp / 64 % 64 ≤ 191)) &&
        (decide (128 ≤ 128 + cp % 64) && decide (128 + cp % 64 ≤ 191)) &&
        (decide (240 + cp / 262144 ≠ 240) || decide (144 ≤ 128 + cp / 4096 % 64)) &&
        (decide (240 + cp / 262144 ≠ 244) || decide (128 + cp / 4096 % 64 ≤ 143))) = true := by
      simp only [Bool.and_eq_true, decide_eq_true_eq, Bool.or_eq_true, ne_eq, decide_not,
        Bool.not_eq_true', decide_eq_false_iff_not]
      omega
    rw [if_neg a1, if_neg a2, if_neg a3, if_pos a4, if_pos q]
    simp only [List.length_cons, List.length_nil, Option.some.injEq, Prod.mk.injEq, and_true]
    omega
  · intro b hb
    right
    simp only [List.mem_cons, List.mem_singleton, List.not_mem_nil, or_false] at hb
    rcases hb with hb | hb | hb | hb <;> (rw [hb]; omega)

/-! ## Which strings `format` accepts -/

theorem utf8FormsLoop_isSome : ∀ (fuel : Nat) (s : Str),
    utf8FormsLoop fuel s = (specFormatBody fuel s).isSome
  | 0, s => by
    unfold utf8FormsLoop specFormatBody
    cases s <;> simp
  | fuel + 1, s => by
    unfold utf8FormsLoop specFormatBody
    by_cases he : s.isEmpty = true
    · simp [he]
    · simp only [he, if_false]
      cases hd : specDecode s with
      | none => simp
      | some r =>
        obtain ⟨cp, n⟩ := r
        simp only
        rw [utf8FormsLoop_isSome fuel (s.drop n)]
        cases specFormatBody fuel (s.drop n) <;> simp

/-- `String::format` succeeds exactly on a run of UTF-8 forms, and fails with
`std::invalid_argument` on anything else. -/
theorem String_format_forms (s : Str) :
    (utf8Forms s = true → ∃ out, String_format s = .ok out) ∧
    (utf8Forms s = false → String_format s = .error .invalid_argument) := by
  rw [String_format_spec, utf8Forms, utf8FormsLoop_isSome]
  cases specFormatBody s.length s with
  | none => simp
  | some body => simp

theorem String_format_ok_forms (s out : Str) (h : String_format s = .ok out) :
    utf8Forms s = true := by
  cases hu : utf8Forms s with
  | true => rfl
  | false => rw [(String_format_forms s).2 hu] at h; cases h

theorem indentStrings_ok_compact (indent indentLevel : Int) (h : indent < 0 ∨ 0 ≤ indentLevel) :
    ∃ r, indentStrings indent indentLevel = .ok r := by
  cases h with
  | inr h => exact indentStrings_ok indent indentLevel h
  | inl h =>
    unfold indentStrings
    have hi : ¬ indent ≥ 0 := by omega
    simp only [hi, if_false]
    exact ⟨_, rfl⟩

theorem Object_format_loop_ok_forms (indent indentLevel : Int) (linePfx lineSuffix : Str) :
    ∀ m : Members, (∀ q ∈ m, utf8Forms q.1 = true ∧
        ∃ out, q.2.format indent (indentLevel + 1) = .ok out) →
      ∃ body, Object_format_loop m indent indentLevel linePfx lineSuffix = .ok body
  | [], _ => ⟨[], by rw [Object_format_loop]⟩
  | (key, x) :: rest, h => by
    obtain ⟨hk, value, hx⟩ := h (key, x) (List.mem_cons_self _ _)
    obtain ⟨keyStr, hks⟩ := (String_format_forms key).1 hk
    obtain ⟨more, hm⟩ := Object_format_loop_ok_forms indent indentLevel linePfx lineSuffix rest
      (fun y hy => h y (List.mem_cons_of_mem _ hy))
    rw [Object_format_loop]
    simp only [hks, hx, hm]
    exact ⟨_, rfl⟩

/-- On a value whose strings and keys are runs of UTF-8 forms, `format` succeeds when the
indent is negative or the starting depth is not negative. -/
theorem format_ok_forms : ∀ v : Value, v.Utf8Forms →
    ∀ (indent indentLevel : Int), indent < 0 ∨ 0 ≤ indentLevel →
      ∃ out, v.format indent indentLevel = .ok out := by
  intro v
  induction v using Value.induct with
  | hNull => intro _ _ _ _; exact ⟨_, by rw [Value.format]⟩
  | hBool b => intro _ _ _ _; exact ⟨_, by rw [Value.format]⟩
  | hInt i => intro _ _ _ _; exact ⟨_, by rw [Value.format]⟩
  | hReal r => intro _ _ _ _; exact ⟨_, by rw [Value.format]⟩
  | hStr s =>
    intro hv _ _ _
    have : utf8Forms s = true := by
      simpa [Value.Utf8Forms, Value.allNodes, nodeUtf8Forms] using hv
    obtain ⟨out, ho⟩ := (String_format_forms s).1 this
    exact ⟨out, by rw [Value.format]; exact ho⟩
  | hArr xs ih =>
    intro hv indent indentLevel hl
    have hv' := ((allNodes_array _ xs).mp hv).2
    obtain ⟨⟨linePfx, lastLinePfx⟩, hi⟩ := indentStrings_ok_compact indent indentLevel hl
    obtain ⟨body, hb⟩ := Array_format_loop_ok indent indentLevel linePfx
      (if indent ≥ 0 then [10] else []) xs
      (fun x hx => ih x hx (hv' x hx) indent (indentLevel + 1) (by omega))
    rw [Value.format]
    simp only [hi, hb]
    exact ⟨_, rfl⟩
  | hObj m ih =>
    intro hv indent indentLevel hl
    have hv' := ((allNodes_object _ m).mp hv).2
    have hkeys : ∀ q ∈ m, utf8Forms q.1 = true := by
      have := ((allNodes_object _ m).mp hv).1
      simpa [nodeUtf8Forms] using this
    obtain ⟨⟨linePfx, lastLinePfx⟩, hi⟩ := indentStrings_ok_compact indent indentLevel hl
    obtain ⟨body, hb⟩ := Object_format_loop_ok_forms indent indentLevel linePfx
      (if indent ≥ 0 then [10] else []) m
      (fun q hq => ⟨hkeys q hq, ih q hq (hv' q hq) indent (indentLevel + 1) (by omega)⟩)
    rw [Value.format]
    simp only [hi, hb]
    exact ⟨_, rfl⟩

theorem Array_format_loop_members (indent indentLevel : Int) (linePfx lineSuffix : Str) :
    ∀ (xs : List Value) (body : Str),
      Array_format_loop xs indent indentLevel linePfx lineSuffix = .ok body →
      ∀ x ∈ xs, ∃ out, x.format indent (indentLevel + 1) = .ok out
  | [], _, _ => fun x hx => by cases hx
  | y :: rest, body, h => by
    obtain ⟨value, more, hy, hr, _⟩ := Array_format_loop_cons y rest indent indentLevel
      linePfx lineSuffix body h
    intro x hx
    cases hx with
    | head => exact ⟨value, hy⟩
    | tail _ hx => exact Array_format_loop_members indent indentLevel linePfx lineSuffix rest more hr x hx

theorem Object_format_loop_members (indent indentLevel : Int) (linePfx lineSuffix : Str) :
    ∀ (m : Members) (body : Str),
      Object_format_loop m indent indentLevel linePfx lineSuffix = .ok body →
      ∀ q ∈ m, utf8Forms q.1 = true ∧ ∃ out, q.2.format indent (indentLevel + 1) = .ok out
  | [], _, _ => fun x hx => by cases hx
  | (key, y) :: rest, body, h => by
    obtain ⟨keyStr, value, more, hk, hy, hr, _⟩ := Object_format_loop_cons key y rest indent
      indentLevel linePfx lineSuffix body h
    intro x hx
    cases hx with
    | head => exact ⟨String_format_ok_forms key keyStr hk, value, hy⟩
    | tail _ hx => exact Object_format_loop_members indent indentLevel linePfx lineSuffix rest more hr x hx

/-- A value that `format` accepts has only runs of UTF-8 forms as strings and keys. -/
theorem forms_of_format_ok : ∀ v : Value, ∀ (indent indentLevel : Int) (out : Str),
    v.format indent indentLevel = .ok out → v.Utf8Forms := by
  intro v
  induction v using Value.induct with
  | hNull => intro _ _ _ _; simp [Value.Utf8Forms, Value.allNodes, nodeUtf8Forms]
  | hBool b => intro _ _ _ _; simp [Value.Utf8Forms, Value.allNodes, nodeUtf8Forms]
  | hInt i => intro _ _ _ _; simp [Value.Utf8Forms, Value.allNodes, nodeUtf8Forms]
  | hReal r => intro _ _ _ _; simp [Value.Utf8Forms, Value.allNodes, nodeUtf8Forms]
  | hStr s =>
    intro indent indentLevel out h
    rw [Value.format] at h
    have := String_format_ok_forms s out h
    simpa [Value.Utf8Forms, Value.allNodes, nodeUtf8Forms] using this
  | hArr xs ih =>
    intro indent indentLevel out h
    obtain ⟨linePfx, lastLinePfx, body, _, hb, _⟩ := Value_format_array xs indent indentLevel out h
    have hm := Array_format_loop_members indent indentLevel linePfx _ xs body hb
    refine (allNodes_array _ xs).mpr ⟨by simp [nodeUtf8Forms], fun x hx => ?_⟩
    obtain ⟨o, ho⟩ := hm x hx
    exact ih x hx indent (indentLevel + 1) o ho
  | hObj m ih =>
    intro indent indentLevel out h
    obtain ⟨linePfx, lastLinePfx, body, _, hb, _⟩ := Value_format_object m indent indentLevel out h
    have hm := Object_format_loop_members indent indentLevel linePfx _ m body hb
    refine (allNodes_object _ m).mpr ⟨?_, fun q hq => ?_⟩
    · simp only [nodeUtf8Forms, List.all_eq_true]
      exact fun q hq => (hm q hq).1
    · obtain ⟨o, ho⟩ := (hm q hq).2
      exact ih q hq indent (indentLevel + 1) o ho

/-! ## Raw bytes of a string literal -/

theorem ParsesTo_raw_all : ∀ s : Str, (∀ c ∈ s, c ≠ 34 ∧ c ≠ 92) → ParsesTo s s
  | [], _ => ParsesTo_nil
  | c :: rest, h =>
    ParsesTo_raw c rest rest (h c (List.mem_cons_self _ _)).2 (h c (List.mem_cons_self _ _)).1
      (ParsesTo_raw_all rest (fun d hd => h d (List.mem_cons_of_mem _ hd)))

theorem String_parse_of_ParsesTo {text : Str} {offset : Nat} {rest : Str} (enc s : Str)
    (hp : ParsesTo enc s) (h : text.drop offset = 34 :: (enc ++ 34 :: rest)) :
    String_parse text offset = .ok (s, offset + enc.length + 2) := by
  have h1 : text.drop (offset + 1) = enc ++ 34 :: rest := drop_succ_of_drop h
  have h2 : text.drop (offset + 1 + enc.length) = 34 :: rest := drop_add_of_drop h1
  have hlen := length_of_drop h1
  simp only [List.length_append, List.length_cons] at hlen
  have hloop := hp text (offset + 1) [] rest (text.length + 1) h1 (by omega)
  unfold String_parse
  simp only [hloop, bind, Except.bind, YaJsonAssert, lt_length_of_drop h2, decide_True, if_true,
    charAt_of_drop h2, pure, Except.pure, List.nil_append]
  simp only [Except.ok.injEq, Prod.mk.injEq, true_and]
  omega

theorem Value_parse_raw_string (s : Str) (hraw : ∀ c ∈ s, c ≠ 34 ∧ c ≠ 92) :
    Value.parse (34 :: s ++ [34]) = .ok (.String s) := by
  have hd : (34 :: s ++ [34] : Str).drop 0 = 34 :: (s ++ 34 :: []) := by simp
  have hs := String_parse_of_ParsesTo s s (ParsesTo_raw_all s hraw) hd
  have hc : charAt (34 :: s ++ [34]) 0 = 34 := by simp [charAt]
  have hw : Value.skipWhitespace (34 :: s ++ [34]) 0 = 0 :=
    skipWhitespace_eq [] (34 :: (s ++ 34 :: [])) hd (by simp)
      (fun c t hct => by cases hct; decide)
  unfold Value.parse Value.parse_at
  rw [Value.parse_depth]
  simp only [hw, hc, hs]
  simp

/-! ## Claims on validation and on the formatted string -/

set_option maxRecDepth 100000 in
/-- C28. Lazy UTF-8 validation: a string literal of raw bytes `s` (no quote, no
backslash) parses to the String holding exactly `s`, whatever the bytes are; when `s` is
not a run of UTF-8 forms, `format` of that String fails with `std::invalid_argument` at
every indent and depth, and `format` of any value that holds such a string or key does
not succeed. The text of the test, an array with the string of the bytes `0x80 x y z`,
parses and the result fails to format with `std::invalid_argument`. -/
theorem lazy_utf8_validation (s : Str) (hraw : ∀ c ∈ s, c ≠ 34 ∧ c ≠ 92) :
    Value.parse (34 :: s ++ [34]) = .ok (.String s) ∧
    (utf8Forms s = false →
      ∀ indent indentLevel : Int,
        (Value.String s).format indent indentLevel = .error .invalid_argument) ∧
    (∀ (v : Value) (indent indentLevel : Int) (out : Str),
      ¬ v.Utf8Forms → v.format indent indentLevel ≠ .ok out) ∧
    Value.parse [91, 34, 0x80, 120, 121, 122, 34, 93]
      = .ok (.Array [.String [0x80, 120, 121, 122]]) ∧
    (Value.Array [.String [0x80, 120, 121, 122]]).format (-1) 0 = .error .invalid_argument := by
  refine ⟨Value_parse_raw_string s hraw, ?_, ?_, by decide, by decide⟩
  · intro hbad indent indentLevel
    rw [Value.format]
    exact (String_format_forms s).2 hbad
  · intro v indent indentLevel out hv h
    exact hv (forms_of_format_ok v indent indentLevel out h)

set_option maxRecDepth 100000 in
/-- C28 at the bytes `0x80 x y z` of the test. -/
theorem lazy_utf8_validation_witness :
    (∀ c ∈ ([0x80, 120, 121, 122] : Str), c ≠ 34 ∧ c ≠ 92) ∧
    Value.parse [34, 0x80, 120, 121, 122, 34] = .ok (.String [0x80, 120, 121, 122]) ∧
    utf8Forms [0x80, 120, 121, 122] = false ∧
    (Value.String [0x80, 120, 121, 122]).format (-1) 0 = .error .invalid_argument :=
  ⟨by decide, (lazy_utf8_validation [0x80, 120, 121, 122] (by decide)).1, by decide,
    (lazy_utf8_validation [0x80, 120, 121, 122] (by decide)).2.1 (by decide) (-1) 0⟩

/-- C29, amended. On a value whose String payloads and Object keys are all runs of UTF-8
forms (1 to 4 bytes, shortest encoding, codepoint up to `0x10FFFF`), `format` succeeds at
every indent and start depth where the indent is negative (compact), or the start depth
is not negative and `indent * indentLevel` stays below `2^31` at the deepest level at
which the value holds an Array or Object, so that no `int` product of the formatter
overflows; no check inside `String::_codepoint` fails there. -/
theorem format_never_fails_on_forms (v : Value) (indent indentLevel : Int)
    (hv : v.Utf8Forms)
    (hd : indent < 0 ∨
      (0 ≤ indentLevel ∧ indent * (v.deepestLevel indentLevel.toNat : Nat) < 2147483648)) :
    ∃ out, v.format indent indentLevel = .ok out :=
  format_ok_forms v hv indent indentLevel (hd.imp id And.left)

set_option maxRecDepth 100000 in
/-- C29 at the sample document, with indent 4 at depth 0, where the deepest container is
at level 2, and compact at depth -1. -/
theorem format_never_fails_on_forms_witness :
    sampleValue.Utf8Forms ∧
    ((4 : Int) < 0 ∨ ((0 : Int) ≤ 0 ∧
      (4 : Int) * (sampleValue.deepestLevel (0 : Int).toNat : Nat) < 2147483648)) ∧
    (∃ out, sampleValue.format 4 0 = .ok out) ∧
    ∃ out, sampleValue.format (-1) (-1) = .ok out :=
  ⟨by decide, by decide, format_never_fails_on_forms sampleValue 4 0 (by decide) (by decide),
    format_never_fails_on_forms sampleValue (-1) (-1) (by decide) (by decide)⟩

/-- C29 as stated fails: the empty Array and the empty Object hold no string at all, and
`format` with indent 1 at start depth -1 asks for a prefix of `size_t(-1)` spaces, which
`std::string::assign` refuses with `std::length_error`. -/
theorem format_fails_at_negative_depth :
    (Value.Array []).Utf8Forms ∧ (Value.Object []).Utf8Forms ∧
    (Value.Array []).format 1 (-1) = .error .length_error ∧
    (Value.Object []).format 1 (-1) = .error .length_error := by
  decide

/-! ## No brace escape in the formatted text -/

theorem digitChar_ne_brace (d : Nat) (h : d < 16) : digitChar d ≠ 123 := by
  have : ∀ d : Fin 16, digitChar d.val ≠ 123 := by decide
  exact this ⟨d, h⟩

theorem specFormatCodepoint_cases (cp : Nat) (raw : Str) :
    (specFormatCodepoint cp raw).length = 2 ∨
    (specFormatCodepoint cp raw = raw ∧ (cp < 128 ∨ 0xFFFF < cp)) ∨
    (cp ≤ 0xFFFF ∧ specFormatCodepoint cp raw =
      [92, 117, digitChar (cp / 4096), digitChar (cp / 256 % 16), digitChar (cp / 16 % 16),
        digitChar (cp % 16)]) := by
  unfold specFormatCodepoint
  by_cases h1 : cp = 92
  · rw [if_pos h1]; exact Or.inl rfl
  rw [if_neg h1]
  by_cases h2 : cp = 34
  · rw [if_pos h2]; exact Or.inl rfl
  rw [if_neg h2]
  by_cases h3 : cp = 47
  · rw [if_pos h3]; exact Or.inl rfl
  rw [if_neg h3]
  by_cases h4 : cp = 9
  · rw [if_pos h4]; exact Or.inl rfl
  rw [if_neg h4]
  by_cases h5 : cp = 13
  · rw [if_pos h5]; exact Or.inl rfl
  rw [if_neg h5]
  by_cases h6 : cp = 10
  · rw [if_pos h6]; exact Or.inl rfl
  rw [if_neg h6]
  by_cases h7 : cp = 8
  · rw [if_pos h7]; exact Or.inl rfl
  rw [if_neg h7]
  by_cases h8 : cp = 12
  · rw [if_pos h8]; exact Or.inl rfl
  rw [if_neg h8]
  by_cases h9 : cp < 0x80
  · rw [if_pos h9]; exact Or.inr (Or.inl ⟨rfl, Or.inl h9⟩)
  rw [if_neg h9]
  by_cases h10 : cp ≤ 0xFFFF
  · rw [if_pos h10]; exact Or.inr (Or.inr ⟨h10, rfl⟩)
  rw [if_neg h10]
  exact Or.inr (Or.inl ⟨rfl, Or.inr (by omega)⟩)

theorem specFormatCodepoint_no_brace (s : Str) (cp n : Nat) (h : specDecode s = some (cp, n)) :
    ¬ ([92, 117, 123] : Str) <+: specFormatCodepoint cp (s.take n) := by
  obtain ⟨c, t, hs, hn, hcases⟩ := specDecode_facts s cp n h
  intro hp
  have hlen := hp.length_le
  rcases specFormatCodepoint_cases cp (s.take n) with h2 | ⟨hraw, hcp⟩ | ⟨hcp, hu⟩
  · rw [h2] at hlen
    simp only [List.length_cons, List.length_nil] at hlen
    omega
  · rw [hraw] at hp hlen
    rw [hs] at hp hlen
    rcases hcases with hc | hc | hc | hc
    · obtain ⟨rfl, _, _⟩ := hc
      simp only [List.length_cons, List.length_nil, List.take_succ_cons, List.take_zero] at hlen
      omega
    · omega
    · omega
    · obtain ⟨rfl, _, _, hc⟩ := hc
      obtain ⟨r, hr⟩ := hp
      simp only [List.take_succ_cons, List.cons_append, List.cons.injEq] at hr
      have h0 := congrArg Fin.val hr.1
      have : (92 : Byte).val = 92 := rfl
      omega
  · rw [hu] at hp
    obtain ⟨r, hr⟩ := hp
    simp only [List.cons_append, List.nil_append, List.cons.injEq] at hr
    exact digitChar_ne_brace (cp / 4096) (by omega) hr.2.2.1.symm

set_option maxRecDepth 100000 in
/-- C30. String formatting: `format` of a String is a double quote, the texts of the
codepoints of the payload in order, and a closing double quote, the text of a codepoint
being the two-character escape for backslash, double quote, slash, tab, CR, LF, backspace
and form feed, the byte itself for any other codepoint below `0x80`, `\u` and four
zero-padded lowercase hexadecimal digits from `0x80` to `0xFFFF`, and the raw bytes above
`0xFFFF` (`specFormatBody`); on a payload that is not a run of UTF-8 forms it fails with
`std::invalid_argument`. The text of no codepoint starts a brace escape. The examples:
`a/b` gives `"a\/b"`, the eight escaped characters give their escapes, U+00E9 gives
`\u00e9`, U+FFFF gives `\uffff`, U+1F600 stays raw, and the payload of the three
characters backslash, `u`, opening brace gives an escaped backslash, `u` and the brace. -/
theorem string_format_by_codepoint (s : Str) (indent indentLevel : Int) :
    ((Value.String s).format indent indentLevel =
      match specFormatBody s.length s with
      | some body => .ok (34 :: body ++ [34])
      | none => .error .invalid_argument) ∧
    (∀ (t : Str) (cp n : Nat), specDecode t = some (cp, n) →
      ¬ ([92, 117, 123] : Str) <+: specFormatCodepoint cp (t.take n)) ∧
    (Value.String [97, 47, 98]).format indent indentLevel = .ok [34, 97, 92, 47, 98, 34] ∧
    (Value.String [92, 34, 47, 9, 13, 10, 8, 12]).format indent indentLevel =
      .ok [34, 92, 92, 92, 34, 92, 47, 92, 116, 92, 114, 92, 110, 92, 98, 92, 102, 34] ∧
    (Value.String [0xC3, 0xA9]).format indent indentLevel =
      .ok [34, 92, 117, 48, 48, 101, 57, 34] ∧
    (Value.String [0xEF, 0xBF, 0xBF]).format indent indentLevel =
      .ok [34, 92, 117, 102, 102, 102, 102, 34] ∧
    (Value.String [0xF0, 0x9F, 0x98, 0x80]).format indent indentLevel =
      .ok [34, 0xF0, 0x9F, 0x98, 0x80, 34] ∧
    (Value.String [92, 117, 123]).format indent indentLevel =
      .ok [34, 92, 92, 117, 123, 34] := by
  refine ⟨?_, specFormatCodepoint_no_brace, ?_, ?_, ?_, ?_, ?_, ?_⟩
  · rw [Value.format]
    exact String_format_spec s
  all_goals (rw [Value.format]; decide)

/-! ## Runs of UTF-8 forms -/

theorem utf8FormsLoop_nil (fuel : Nat) : utf8FormsLoop fuel [] = true := by
  cases fuel <;> simp [utf8FormsLoop]

theorem utf8FormsLoop_succ : ∀ (fuel : Nat) (s : Str),
    utf8FormsLoop fuel s = true → utf8FormsLoop (fuel + 1) s = true
  | 0, s, h => by
    have : s = [] := by simpa [utf8FormsLoop] using h
    rw [this]
    exact utf8FormsLoop_nil _
  | fuel + 1, s, h => by
    rw [utf8FormsLoop] at h ⊢
    by_cases he : s.isEmpty = true
    · simp [he]
    · simp only [he, if_false] at h ⊢
      cases hd : specDecode s with
      | none => simp [hd] at h
      | some r =>
        obtain ⟨cp, n⟩ := r
        simp only [hd] at h ⊢
        exact utf8FormsLoop_succ fuel _ h

theorem utf8FormsLoop_add (fuel : Nat) (s : Str) (h : utf8FormsLoop fuel s = true) :
    ∀ k : Nat, utf8FormsLoop (fuel + k) s = true
  | 0 => h
  | k + 1 => utf8FormsLoop_succ _ _ (utf8FormsLoop_add fuel s h k)

theorem specDecode_append (a b : Str) (cp n : Nat) (h : specDecode a = some (cp, n)) :
    specDecode (a ++ b) = some (cp, n) := by
  match a, h with
  | [], h => simp [specDecode] at h
  | [c], h =>
    simp only [specDecode] at h
    simp only [List.cons_append, List.nil_append, specDecode]
    split_ifs at h ⊢
    exact h
  | [c, b1], h =>
    simp only [specDecode] at h
    simp only [List.cons_append, List.nil_append, specDecode]
    split_ifs at h ⊢ <;> exact h
  | [c, b1, b2], h =>
    simp only [specDecode] at h
    simp only [List.cons_append, List.nil_append, specDecode]
    split_ifs at h ⊢ <;> exact h
  | c :: b1 :: b2 :: b3 :: t, h =>
    simp only [specDecode] at h
    simp only [List.cons_append, specDecode]
    exact h

theorem utf8FormsLoop_append : ∀ (f : Nat) (a : Str), utf8FormsLoop f a = true →
    ∀ (g : Nat) (b : Str), utf8FormsLoop g b = true → utf8FormsLoop (f + g) (a ++ b) = true
  | 0, a, ha, g, b, hb => by
    have : a = [] := by simpa [utf8FormsLoop] using ha
    rw [this, Nat.zero_add]
    exact hb
  | f + 1, a, ha, g, b, hb => by
    by_cases he : a = []
    · rw [he, List.nil_append, Nat.add_comm]
      exact utf8FormsLoop_add g b hb (f + 1)
    · have hne : a.isEmpty = false := by cases a <;> simp_all
      rw [utf8FormsLoop] at ha
      simp only [hne, Bool.false_eq_true, if_false] at ha
      cases hd : specDecode a with
      | none => simp [hd] at ha
      | some r =>
        obtain ⟨cp, n⟩ := r
        simp only [hd] at ha
        obtain ⟨c, t, hs, hn, _⟩ := specDecode_facts a cp n hd
        have hne2 : (a ++ b).isEmpty = false := by cases a <;> simp_all
        have e : f + 1 + g = (f + g) + 1 := by omega
        rw [e, utf8FormsLoop]
        simp only [hne2, Bool.false_eq_true, if_false, specDecode_append a b cp n hd]
        rw [List.drop_append_of_le_length hn]
        exact utf8FormsLoop_append f _ ha g b hb

theorem utf8Forms_append (a b : Str) (ha : utf8Forms a = true) (hb : utf8Forms b = true) :
    utf8Forms (a ++ b) = true := by
  unfold utf8Forms at *
  rw [List.length_append]
  exact utf8FormsLoop_append _ a ha _ b hb

theorem utf8Forms_nil : utf8Forms [] = true := utf8FormsLoop_nil _

theorem utf8Forms_ascii (c : Byte) (h : c.val < 128) : utf8Forms [c] = true := by
  simp only [utf8Forms, List.length_singleton, utf8FormsLoop, List.isEmpty_cons,
    Bool.false_eq_true, if_false, specDecode]
  rw [if_pos (by omega)]
  rfl

theorem utf8Forms_utf8 (cp : Nat) (bytes : Str) (h : String_utf8 cp = .ok bytes) :
    utf8Forms bytes = true := by
  have hcp : cp ≤ 0x10FFFF := by
    by_contra hc
    rw [String_utf8_error cp (by omega)] at h
    cases h
  obtain ⟨bs, hb, hne, hd, _⟩ := specDecode_utf8 cp hcp []
  rw [h] at hb
  cases hb
  rw [List.append_nil] at hd
  obtain ⟨c, t, rfl⟩ := List.exists_cons_of_ne_nil hne
  unfold utf8Forms
  rw [List.length_cons, utf8FormsLoop]
  simp only [List.isEmpty_cons, Bool.false_eq_true, if_false, hd]
  rw [List.drop_length]
  exact utf8FormsLoop_nil _

/-! ## What the string parser appends -/

theorem String_parseEscapedUnicode_forms (text : Str) (offset : Nat) (result : Str)
    (o : Nat) (r : Str) (h : String_parseEscapedUnicode text offset result = .ok (o, r)) :
    ∃ bytes, r = result ++ bytes ∧ utf8Forms bytes = true := by
  unfold String_parseEscapedUnicode at h
  by_cases hb : charAt text (offset + 1) = 123
  · rw [if_pos hb] at h
    cases hf : findCloseBrace text (offset + 2) with
    | none => simp [hf] at h
    | some stop =>
      simp only [hf] at h
      cases hst : stol16 (substr text (offset + 2) (stop - offset - 2)) with
      | error e =>
        simp only [hst, bind, Except.bind, YaJsonAssert] at h
        split_ifs at h
      | ok vc =>
        obtain ⟨value, count⟩ := vc
        cases hu : String_utf8 (value % 18446744073709551616).toNat with
        | error e =>
          simp only [hst, hu, bind, Except.bind, YaJsonAssert] at h
          split_ifs at h
        | ok bytes =>
          simp only [hst, hu, bind, Except.bind, YaJsonAssert, pure, Except.pure] at h
          split_ifs at h
          simp only [Except.ok.injEq, Prod.mk.injEq] at h
          exact ⟨bytes, h.2.symm, utf8Forms_utf8 _ bytes hu⟩
  · rw [if_neg hb] at h
    cases hst : stol16 (substr text (offset + 1) 4) with
    | error e => simp [hst, bind, Except.bind] at h
    | ok vc =>
      obtain ⟨value, count⟩ := vc
      cases hu : String_utf8 (value % 18446744073709551616).toNat with
      | error e =>
        simp only [hst, hu, bind, Except.bind, YaJsonAssert] at h
        split_ifs at h
      | ok bytes =>
        simp only [hst, hu, bind, Except.bind, YaJsonAssert, pure, Except.pure] at h
        split_ifs at h
        simp only [Except.ok.injEq, Prod.mk.injEq] at h
        exact ⟨bytes, h.2.symm, utf8Forms_utf8 _ bytes hu⟩

theorem String_parseEscaped_forms (text : Str) (offset : Nat) (result : Str)
    (o : Nat) (r : Str) (h : String_parseEscaped text offset result = .ok (o, r)) :
    ∃ bytes, r = result ++ bytes ∧ utf8Forms bytes = true := by
  unfold String_parseEscaped at h
  simp only [bind, Except.bind, pure, Except.pure] at h
  split_ifs at h
  all_goals first
    | (simp only [Except.ok.injEq, Prod.mk.injEq] at h
       exact ⟨_, h.2.symm, by decide⟩)
    | (cases hu : String_parseEscapedUnicode text (offset + 1) result with
       | error e => simp [hu] at h
       | ok p =>
         obtain ⟨o2, r2⟩ := p
         simp only [hu, Except.ok.injEq, Prod.mk.injEq] at h
         obtain ⟨bytes, hb1, hb2⟩ := String_parseEscapedUnicode_forms text (offset + 1) result o2 r2 hu
         exact ⟨bytes, by rw [← h.2, hb1], hb2⟩)

theorem charAt_ascii (text : Str) (hascii : ∀ c ∈ text, c.val < 128) (i : Nat) :
    (charAt text i).val < 128 := by
  unfold charAt
  by_cases hi : i < text.length
  · rw [List.getD_eq_getElem _ _ hi]
    exact hascii _ (List.getElem_mem _)
  · rw [List.getD_eq_default _ _ (by omega)]
    decide

theorem String_parse_switch_forms (text : Str) (hascii : ∀ c ∈ text, c.val < 128)
    (offset : Nat) (result : Str) (o : Nat) (r : Str)
    (h : String_parse_switch text offset result = .ok (o, r)) :
    ∃ bytes, r = result ++ bytes ∧ utf8Forms bytes = true := by
  unfold String_parse_switch at h
  simp only at h
  split_ifs at h
  · exact String_parseEscaped_forms text offset result o r h
  · simp only [Except.ok.injEq, Prod.mk.injEq] at h
    exact ⟨[], by simp [h.2], utf8Forms_nil⟩
  · simp only [Except.ok.injEq, Prod.mk.injEq] at h
    exact ⟨_, h.2.symm, utf8Forms_ascii _ (charAt_ascii text hascii offset)⟩

theorem String_parse_loop_forms (text : Str) (hascii : ∀ c ∈ text, c.val < 128) :
    ∀ (fuel offset : Nat) (result : Str) (o : Nat) (r : Str),
      utf8Forms result = true → String_parse_loop text fuel offset result = .ok (o, r) →
      utf8Forms r = true
  | 0, _, _, _, _, _, h => by simp [String_parse_loop] at h
  | fuel + 1, offset, result, o, r, hres, h => by
    rw [String_parse_loop] at h
    split_ifs at h with h1
    cases hs : String_parse_switch text offset result with
    | error e => simp [hs] at h
    | ok p =>
      obtain ⟨o2, r2⟩ := p
      simp only [hs] at h
      obtain ⟨bytes, hb1, hb2⟩ := String_parse_switch_forms text hascii offset result o2 r2 hs
      have hr2 : utf8Forms r2 = true := by
        rw [hb1]
        exact utf8Forms_append _ _ hres hb2
      split_ifs at h with h2 h3
      · exact String_parse_loop_forms text hascii fuel o2 r2 o r hr2 h
      · simp only [Except.ok.injEq, Prod.mk.injEq] at h
        rw [← h.2]
        exact hr2

theorem String_parse_forms (text : Str) (hascii : ∀ c ∈ text, c.val < 128)
    (offset : Nat) (s : Str) (o : Nat) (h : String_parse text offset = .ok (s, o)) :
    utf8Forms s = true := by
  unfold String_parse at h
  cases hl : String_parse_loop text (text.length + 1) (offset + 1) [] with
  | error e => simp [hl, bind, Except.bind] at h
  | ok p =>
    obtain ⟨o2, r2⟩ := p
    have := String_parse_loop_forms text hascii _ _ _ o2 r2 utf8Forms_nil hl
    simp only [hl, bind, Except.bind, YaJsonAssert, pure, Except.pure] at h
    split_ifs at h
    simp only [Except.ok.injEq, Prod.mk.injEq] at h
    rw [← h.1]
    exact this

/-! ## What the parser stores -/

theorem mem_mapAssign_value (key : Str) (value : Value) (m : Members) (p : Str × Value)
    (h : p ∈ mapAssign key value m) :
    p ∈ m ∨ (p.2 = value ∧ (p.1 = key ∨ ∃ q ∈ m, q.1 = p.1)) := by
  induction m with
  | nil =>
    simp only [mapAssign, List.mem_singleton] at h
    right
    rw [h]
    exact ⟨rfl, Or.inl rfl⟩
  | cons q rest ih =>
    obtain ⟨k, v⟩ := q
    rw [mapAssign] at h
    split_ifs at h
    · cases h with
      | head => exact Or.inl (List.mem_cons_self _ _)
      | tail _ h =>
        cases ih h with
        | inl h2 => exact Or.inl (List.mem_cons_of_mem _ h2)
        | inr h2 =>
          refine Or.inr ⟨h2.1, ?_⟩
          cases h2.2 with
          | inl h3 => exact Or.inl h3
          | inr h3 =>
            obtain ⟨q, hq, hq2⟩ := h3
            exact Or.inr ⟨q, List.mem_cons_of_mem _ hq, hq2⟩
    · cases h with
      | head => exact Or.inr ⟨rfl, Or.inl rfl⟩
      | tail _ h => exact Or.inl h
    · cases h with
      | head => exact Or.inr ⟨rfl, Or.inr ⟨(k, v), List.mem_cons_self _ _, rfl⟩⟩
      | tail _ h => exact Or.inl (List.mem_cons_of_mem _ h)

theorem MembersForms_set (m : Members) (key : Str) (value : Value) (hm : MembersForms m)
    (hk : utf8Forms key = true) (hv : value.Utf8Forms) :
    MembersForms (Object_set m key value) := by
  intro p hp
  cases mem_mapAssign_value key value m p hp with
  | inl h => exact hm p h
  | inr h =>
    obtain ⟨h2, h3⟩ := h
    refine ⟨?_, by rw [h2]; exact hv⟩
    cases h3 with
    | inl h4 => rw [h4]; exact hk
    | inr h4 =>
      obtain ⟨q, hq, hq2⟩ := h4
      rw [← hq2]
      exact (hm q hq).1

theorem Utf8Forms_object (m : Members) (hm : MembersForms m) : (Value.Object m).Utf8Forms := by
  refine (allNodes_object _ m).mpr ⟨?_, fun q hq => (hm q hq).2⟩
  simp only [nodeUtf8Forms, List.all_eq_true]
  exact fun q hq => (hm q hq).1

theorem Utf8Forms_array (xs : List Value) (hx : ∀ x ∈ xs, x.Utf8Forms) :
    (Value.Array xs).Utf8Forms :=
  (allNodes_array _ xs).mpr ⟨by simp [nodeUtf8Forms], hx⟩

theorem Array_parse_loop_forms (parse : Str → Nat → Except Err (Value × Nat)) (text : Str)
    (hp : ∀ o v o2, parse text o = .ok (v, o2) → v.Utf8Forms) :
    ∀ (fuel offset : Nat) (result xs : List Value) (o : Nat),
      (∀ x ∈ result, x.Utf8Forms) → Array_parse_loop parse text fuel offset result = .ok (xs, o) →
      ∀ x ∈ xs, x.Utf8Forms
  | 0, _, _, _, _, _, h => by simp [Array_parse_loop] at h
  | fuel + 1, offset, result, xs, o, hres, h => by
    rw [Array_parse_loop] at h
    simp only at h
    split_ifs at h with h1 h2
    · simp only [Except.ok.injEq, Prod.mk.injEq] at h
      rw [← h.1]
      exact hres
    · cases hv : parse text (Value.skipWhitespace text offset) with
      | error e => simp [hv] at h
      | ok p =>
        obtain ⟨v, o2⟩ := p
        simp only [hv] at h
        have hr : ∀ x ∈ Array_append result v, x.Utf8Forms := by
          intro x hx
          simp only [Array_append, List.mem_append, List.mem_singleton] at hx
          cases hx with
          | inl hx => exact hres x hx
          | inr hx => rw [hx]; exact hp _ v o2 hv
        split_ifs at h <;> exact Array_parse_loop_forms parse text hp fuel _ _ xs o hr h
    · simp only [Except.ok.injEq, Prod.mk.injEq] at h
      rw [← h.1]
      exact hres

theorem Object_parse_loop_forms (parse : Str → Nat → Except Err (Value × Nat)) (text : Str)
    (hascii : ∀ c ∈ text, c.val < 128)
    (hp : ∀ o v o2, parse text o = .ok (v, o2) → v.Utf8Forms) :
    ∀ (fuel offset : Nat) (result m : Members) (o : Nat),
      MembersForms result → Object_parse_loop parse text fuel offset result = .ok (m, o) →
      MembersForms m
  | 0, _, _, _, _, _, h => by simp [Object_parse_loop] at h
  | fuel + 1, offset, result, m, o, hres, h => by
    rw [Object_parse_loop] at h
    simp only at h
    split_ifs at h with h1 h2 h3 h4
    · simp only [Except.ok.injEq, Prod.mk.injEq] at h
      rw [← h.1]
      exact hres
    · cases hk : String_parse text (Value.skipWhitespace text offset) with
      | error e => simp [hk] at h
      | ok p =>
        obtain ⟨key, o1⟩ := p
        simp only [hk] at h
        have hkey := String_parse_forms text hascii _ key o1 hk
        split_ifs at h with h5 h6
        cases hv : parse text (Value.skipWhitespace text o1 + 1) with
        | error e => simp [hv] at h
        | ok p =>
          obtain ⟨v, o2⟩ := p
          simp only [hv] at h
          have hr := MembersForms_set result key v hres hkey (hp _ v o2 hv)
          split_ifs at h <;> exact Object_parse_loop_forms parse text hascii hp fuel _ _ m o hr h
    · simp only [Except.ok.injEq, Prod.mk.injEq] at h
      rw [← h.1]
      exact hres

theorem Value_parseNumber_forms (text : Str) (offset : Nat) (v : Value) (o : Nat)
    (h : Value_parseNumber text offset = .ok (v, o)) : v.Utf8Forms := by
  unfold Value_parseNumber at h
  simp only [bind, Except.bind, YaJsonAssert, pure, Except.pure] at h
  split_ifs at h
  · cases hs : stod (substr text offset
        ((parseNumber_loop text (text.length - offset) offset false).1 - offset)) with
    | error e => simp [hs] at h
    | ok p =>
      obtain ⟨d, after⟩ := p
      simp only [hs] at h
      split_ifs at h
      simp only [Except.ok.injEq, Prod.mk.injEq] at h
      rw [← h.1]
      simp [Value.Utf8Forms, Value.allNodes, nodeUtf8Forms]
  · cases hs : stoll (substr text offset
        ((parseNumber_loop text (text.length - offset) offset false).1 - offset)) with
    | error e => simp [hs] at h
    | ok p =>
      obtain ⟨d, after⟩ := p
      simp only [hs] at h
      split_ifs at h
      simp only [Except.ok.injEq, Prod.mk.injEq] at h
      rw [← h.1]
      simp [Value.Utf8Forms, Value.allNodes, nodeUtf8Forms]

/-- Every value parsed from a text of ASCII bytes holds only runs of UTF-8 forms. -/
theorem parse_depth_forms (text : Str) (hascii : ∀ c ∈ text, c.val < 128) :
    ∀ (depth position : Nat) (v : Value) (o : Nat),
      Value.parse_depth depth text position = .ok (v, o) → v.Utf8Forms
  | 0, _, _, _, h => by simp [Value.parse_depth] at h
  | depth + 1, position, v, o, h => by
    have ih := parse_depth_forms text hascii depth
    rw [Value.parse_depth] at h
    simp only at h
    split_ifs at h
    · cases ho : Object_parse (Value.parse_depth depth) text (Value.skipWhitespace text position) with
      | error e => simp [ho] at h
      | ok p =>
        obtain ⟨m, o2⟩ := p
        simp only [ho, Except.ok.injEq, Prod.mk.injEq] at h
        rw [← h.1]
        apply Utf8Forms_object
        unfold Object_parse at ho
        cases hl : Object_parse_loop (Value.parse_depth depth) text (text.length + 1)
            (Value.skipWhitespace text position + 1) [] with
        | error e => simp [hl, bind, Except.bind] at ho
        | ok p =>
          obtain ⟨m2, o3⟩ := p
          have hm := Object_parse_loop_forms (Value.parse_depth depth) text hascii
            (fun o v o2 => ih o v o2) _ _ [] m2 o3 (fun q hq => by cases hq) hl
          simp only [hl, bind, Except.bind, YaJsonAssert, pure, Except.pure] at ho
          split_ifs at ho
          simp only [Except.ok.injEq, Prod.mk.injEq] at ho
          rw [← ho.1]
          exact hm
    · cases ho : Array_parse (Value.parse_depth depth) text (Value.skipWhitespace text position) with
      | error e => simp [ho] at h
      | ok p =>
        obtain ⟨xs, o2⟩ := p
        simp only [ho, Except.ok.injEq, Prod.mk.injEq] at h
        rw [← h.1]
        apply Utf8Forms_array
        unfold Array_parse at ho
        cases hl : Array_parse_loop (Value.parse_depth depth) text (text.length + 1)
            (Value.skipWhitespace text position + 1) [] with
        | error e => simp [hl, bind, Except.bind] at ho
        | ok p =>
          obtain ⟨xs2, o3⟩ := p
          have hm := Array_parse_loop_forms (Value.parse_depth depth) text
            (fun o v o2 => ih o v o2) _ _ [] xs2 o3 (fun q hq => by cases hq) hl
          simp only [hl, bind, Except.bind, YaJsonAssert, pure, Except.pure] at ho
          split_ifs at ho
          simp only [Except.ok.injEq, Prod.mk.injEq] at ho
          rw [← ho.1]
          exact hm
    · cases ho : String_parse text (Value.skipWhitespace text position) with
      | error e => simp [ho] at h
      | ok p =>
        obtain ⟨s, o2⟩ := p
        simp only [ho, Except.ok.injEq, Prod.mk.injEq] at h
        rw [← h.1]
        have := String_parse_forms text hascii _ s o2 ho
        simpa [Value.Utf8Forms, Value.allNodes, nodeUtf8Forms] using this
    · cases ho : Value_parseWord text [116, 114, 117, 101] (Value.skipWhitespace text position) with
      | error e => simp [ho] at h
      | ok p =>
        simp only [ho, Except.ok.injEq, Prod.mk.injEq] at h
        rw [← h.1]
        decide
    · cases ho : Value_parseWord text [102, 97, 108, 115, 101] (Value.skipWhitespace text position) with
      | error e => simp [ho] at h
      | ok p =>
        simp only [ho, Except.ok.injEq, Prod.mk.injEq] at h
        rw [← h.1]
        decide
    · cases ho : Value_parseWord text [110, 117, 108, 108] (Value.skipWhitespace text position) with
      | error e => simp [ho] at h
      | ok p =>
        simp only [ho, Except.ok.injEq, Prod.mk.injEq] at h
        rw [← h.1]
        decide
    · exact Value_parseNumber_forms text _ v o h

theorem Value_parse_forms (text : Str) (hascii : ∀ c ∈ text, c.val < 128) (v : Value)
    (h : Value.parse text = .ok v) : v.Utf8Forms := by
  unfold Value.parse Value.parse_at at h
  cases hp : Value.parse_depth (text.length + 1) text 0 with
  | error e => simp [hp] at h
  | ok p =>
    obtain ⟨v2, o⟩ := p
    simp only [hp, Except.ok.injEq] at h
    rw [← h]
    exact parse_depth_forms text hascii _ _ v2 o hp

set_option maxRecDepth 100000 in
/-- C27, amended. String invariant of a parsed value: when the text holds no byte above
`0x7F` (every other character is written as an escape), every String payload and every
Object key of the Value a successful parse returns is a run of UTF-8 forms, 1 to 4 bytes
in shortest encoding of a codepoint up to `0x10FFFF`, the encoding of a surrogate among
them; for any text, the same holds of a parsed Value that `format` accepts. -/
theorem parsed_strings_are_forms (text : Str) (v : Value) (hp : Value.parse text = .ok v) :
    ((∀ c ∈ text, c.val < 128) → v.Utf8Forms) ∧
    (∀ (indent indentLevel : Int) (out : Str),
      v.format indent indentLevel = .ok out → v.Utf8Forms) :=
  ⟨fun hascii => Value_parse_forms text hascii v hp,
    fun indent indentLevel out h => forms_of_format_ok v indent indentLevel out h⟩

set_option maxRecDepth 100000 in
/-- C27 at the text `{"k":["\u00e9\ud800"]}`. -/
theorem parsed_strings_are_forms_witness :
    Value.parse [123, 34, 107, 34, 58, 91, 34, 92, 117, 48, 48, 101, 57, 92, 117, 100, 56, 48,
        48, 34, 93, 125]
      = .ok (.Object [([107], .Array [.String [0xC3, 0xA9, 0xED, 0xA0, 0x80]])]) ∧
    (Value.Object [([107], .Array [.String [0xC3, 0xA9, 0xED, 0xA0, 0x80]])]).Utf8Forms :=
  ⟨by decide,
    (parsed_strings_are_forms
      [123, 34, 107, 34, 58, 91, 34, 92, 117, 48, 48, 101, 57, 92, 117, 100, 56, 48, 48, 34, 93,
        125]
      (.Object [([107], .Array [.String [0xC3, 0xA9, 0xED, 0xA0, 0x80]])]) (by decide)).1
      (by decide)⟩

set_option maxRecDepth 100000 in
/-- C27 as stated fails. The raw byte `0x80` of a string literal or of a key is stored as
it is, and it is not valid UTF-8; the escape `\ud800` stores `ED A0 80`, the encoding of
the surrogate U+D800, which `String::_codepoint` decodes back to `0xD800`. -/
theorem parse_stores_invalid_utf8 :
    Value.parse [34, 0x80, 34] = .ok (.String [0x80]) ∧
    validUtf8 [0x80] = false ∧ utf8Forms [0x80] = false ∧
    Value.parse [123, 34, 0x80, 34, 58, 49, 125] = .ok (.Object [([0x80], .Integer 1)]) ∧
    Value.parse [34, 92, 117, 100, 56, 48, 48, 34] = .ok (.String [0xED, 0xA0, 0x80]) ∧
    String_codepoint [0xED, 0xA0, 0x80] 0 = .ok (0xD800, 3) ∧
    validUtf8 [0xED, 0xA0, 0x80] = false := by
  decide

/-! ## Parsing the members of an object text in any order -/

theorem Object_parse_loop_members (parse : Str → Nat → Except Err (Value × Nat)) (text : Str)
    (indent indentLevel : Int) (linePfx lineSuffix lastLinePfx : Str) (bound : Nat)
    (hLP : ∀ c ∈ linePfx, isspace c = true) (hLS : ∀ c ∈ lineSuffix, isspace c = true)
    (hLLP : ∀ c ∈ lastLinePfx, isspace c = true) :
    ∀ (ms : Members) (key : Str) (x : Value) (keyStr value more w : Str) (offset : Nat)
      (result : Members) (fuel : Nat) (rest : Str),
      (∀ q ∈ (key, x) :: ms,
        q.2.RealsFinite ∧ ParsesBack parse text bound indent (indentLevel + 1) q.2) →
      String_format key = .ok keyStr →
      x.format indent (indentLevel + 1) = .ok value →
      Object_format_loop ms indent indentLevel linePfx lineSuffix = .ok more →
      (∀ c ∈ w, isspace c = true) →
      text.drop offset = w ++ (keyStr ++ (58 :: (value ++ ((if ms.isEmpty then [] else [44]) ++
        (lineSuffix ++ (more ++ (lastLinePfx ++ 125 :: rest))))))) →
      text.length - offset < fuel → text.length - offset < bound →
      Object_parse_loop parse text fuel offset result =
        .ok (((key, x) :: ms).foldl (fun m q => Object_set m q.1 q.2) result,
          offset + (w ++ (keyStr ++ (58 :: (value ++ ((if ms.isEmpty then [] else [44]) ++
            (lineSuffix ++ (more ++ lastLinePfx))))))).length)
  | ms, key, x, keyStr, value, more, w, offset, result, fuel, rest, hall, hk, hx, hmore,
      hw, hd, hfuel, hbound => by
    obtain ⟨hnr, hpb⟩ := hall (key, x) (List.mem_cons_self _ _)
    obtain ⟨enc, hks, _⟩ := String_format_parses key keyStr hk
    have hks' : keyStr = 34 :: (enc ++ [34]) := by simpa using hks
    have hlen := length_of_drop hd
    simp only [List.length_append, List.length_cons] at hlen
    obtain ⟨f, rfl⟩ : ∃ f, fuel = f + 1 := ⟨fuel - 1, by omega⟩
    have hfirst : ∃ c t, text.drop offset = c :: t ∧ c ≠ 125 := by
      cases w with
      | nil => exact ⟨34, _, by rw [hd, hks']; rfl, by decide⟩
      | cons a w' =>
        refine ⟨a, _, by rw [hd]; rfl, ?_⟩
        intro ha
        have := hw a (List.mem_cons_self _ _)
        rw [ha] at this
        revert this
        decide
    obtain ⟨cf, tf, hcf, hne⟩ := hfirst
    have hd1 : text.drop offset = w ++ (34 :: ((enc ++ [34]) ++ (58 :: (value ++
        ((if ms.isEmpty then [] else [44]) ++
        (lineSuffix ++ (more ++ (lastLinePfx ++ 125 :: rest)))))))) := by
      rw [hd, hks']; rfl
    have hskip : Value.skipWhitespace text offset = offset + w.length :=
      skipWhitespace_eq w _ hd1 hw (by intro c t e; cases e; decide)
    have hd2 : text.drop (offset + w.length) = keyStr ++ (58 :: (value ++
        ((if ms.isEmpty then [] else [44]) ++
        (lineSuffix ++ (more ++ (lastLinePfx ++ 125 :: rest)))))) := drop_add_of_drop hd
    have hd2' : text.drop (offset + w.length) = 34 :: ((enc ++ [34]) ++ (58 :: (value ++
        ((if ms.isEmpty then [] else [44]) ++
        (lineSuffix ++ (more ++ (lastLinePfx ++ 125 :: rest))))))) := by
      rw [hd2, hks']; rfl
    have hd3 : text.drop (offset + w.length + keyStr.length) = 58 :: (value ++
        ((if ms.isEmpty then [] else [44]) ++
        (lineSuffix ++ (more ++ (lastLinePfx ++ 125 :: rest))))) := drop_add_of_drop hd2
    have hskip3 : Value.skipWhitespace text (offset + w.length + keyStr.length) =
        offset + w.length + keyStr.length := skipWhitespace_none hd3 (by decide)
    have hd4 : text.drop (offset + w.length + keyStr.length + 1) = value ++
        ((if ms.isEmpty then [] else [44]) ++
        (lineSuffix ++ (more ++ (lastLinePfx ++ 125 :: rest)))) := drop_succ_of_drop hd3
    have hd5 : text.drop (offset + w.length + keyStr.length + 1 + value.length) =
        (if ms.isEmpty then [] else [44]) ++
        (lineSuffix ++ (more ++ (lastLinePfx ++ 125 :: rest))) := drop_add_of_drop hd4
    have e34 : ¬ ((34 : Byte) = 125) := by decide
    rw [Object_parse_loop]
    simp only [lt_length_of_drop hcf, charAt_of_drop hcf, hne, ne_eq, not_false_eq_true,
      decide_True, Bool.and_self, if_true, hskip, lt_length_of_drop hd2', charAt_of_drop hd2',
      e34, if_false, String_parse_format key keyStr hk hd2, hskip3, lt_length_of_drop hd3,
      charAt_of_drop hd3]
    cases ms with
    | nil =>
      rw [Object_format_loop] at hmore
      cases hmore
      simp only [List.isEmpty_nil, if_true, List.nil_append] at hd5 hd4 ⊢
      have hterm : NumTerminated (lineSuffix ++ (lastLinePfx ++ 125 :: rest)) := by
        rw [← List.append_assoc]
        exact NumTerminated_append_ws _ 125 rest
          (by intro a ha; rcases List.mem_append.mp ha with h | h
              · exact hLS a h
              · exact hLLP a h) (Or.inr (Or.inr (Or.inl rfl)))
      rw [hpb value _ _ hx hd4 hterm (by omega)]
      have hd5' : text.drop (offset + w.length + keyStr.length + 1 + value.length) =
          (lineSuffix ++ lastLinePfx) ++ 125 :: rest := by
        rw [hd5]; simp
      have hskip5 : Value.skipWhitespace text (offset + w.length + keyStr.length + 1 + value.length)
          = offset + w.length + keyStr.length + 1 + value.length
            + (lineSuffix ++ lastLinePfx).length :=
        skipWhitespace_eq _ _ hd5'
          (by intro a ha; rcases List.mem_append.mp ha with h | h
              · exact hLS a h
              · exact hLLP a h) (by intro c t e; cases e; decide)
      have hd6 : text.drop (offset + w.length + keyStr.length + 1 + value.length
          + (lineSuffix ++ lastLinePfx).length) = 125 :: rest := drop_add_of_drop hd5'
      have hlen6 := length_of_drop hd6
      simp only [List.length_cons] at hlen6
      obtain ⟨f', rfl⟩ : ∃ f', f = f' + 1 := ⟨f - 1, by
        simp only [List.length_nil, Nat.add_zero, Nat.zero_add] at hlen
        omega⟩
      have h44 : ¬ ((125 : Byte) = 44) := by decide
      simp only [hskip5, charAt_of_drop hd6, decide_True, Bool.or_true, if_true, h44, if_false]
      rw [Object_parse_loop_end parse _ f' hd6]
      simp [Nat.add_assoc]
      omega
    | cons q2 ms2 =>
      obtain ⟨key2, x2⟩ := q2
      obtain ⟨keyStr2, value2, more2, hk2, hx2, hmore2, hbody⟩ :=
        Object_format_loop_cons key2 x2 ms2 indent indentLevel linePfx lineSuffix more hmore
      simp only [List.isEmpty_cons, Bool.false_eq_true, if_false] at hd5 hd4 ⊢
      have hterm : NumTerminated ([44] ++ (lineSuffix ++ (more ++ (lastLinePfx ++ 125 :: rest)))) :=
        NumTerminated_of_sep 44 _ (Or.inr (Or.inr (Or.inr rfl)))
      rw [hpb value _ _ hx hd4 hterm (by omega)]
      have hd5' : text.drop (offset + w.length + keyStr.length + 1 + value.length) =
          44 :: (lineSuffix ++ (more ++ (lastLinePfx ++ 125 :: rest))) := hd5
      have hskip5 : Value.skipWhitespace text (offset + w.length + keyStr.length + 1 + value.length)
          = offset + w.length + keyStr.length + 1 + value.length :=
        skipWhitespace_none hd5' (by decide)
      obtain ⟨enc2, hks2, _⟩ := String_format_parses key2 keyStr2 hk2
      have hks2' : keyStr2 = 34 :: (enc2 ++ [34]) := by simpa using hks2
      have hd6 : text.drop (offset + w.length + keyStr.length + 1 + value.length + 1) =
          (lineSuffix ++ linePfx) ++ (keyStr2 ++ (58 :: (value2 ++
            ((if ms2.isEmpty then [] else [44]) ++
            (lineSuffix ++ (more2 ++ (lastLinePfx ++ 125 :: rest))))))) := by
        rw [drop_succ_of_drop hd5', hbody]
        simp
      have hd6' : text.drop (offset + w.length + keyStr.length + 1 + value.length + 1) =
          (lineSuffix ++ linePfx) ++ (34 :: ((enc2 ++ [34]) ++ (58 :: (value2 ++
            ((if ms2.isEmpty then [] else [44]) ++
            (lineSuffix ++ (more2 ++ (lastLinePfx ++ 125 :: rest)))))))) := by
        rw [hd6, hks2']; rfl
      have hws : ∀ a ∈ lineSuffix ++ linePfx, isspace a = true := by
        intro a ha
        rcases List.mem_append.mp ha with h | h
        · exact hLS a h
        · exact hLP a h
      have hskip6 : Value.skipWhitespace text
          (offset + w.length + keyStr.length + 1 + value.length + 1) =
          offset + w.length + keyStr.length + 1 + value.length + 1
            + (lineSuffix ++ linePfx).length :=
        skipWhitespace_eq _ _ hd6' hws (by intro c t e; cases e; decide)
      have hd7 : text.drop (offset + w.length + keyStr.length + 1 + value.length + 1
          + (lineSuffix ++ linePfx).length)
          = [] ++ (keyStr2 ++ (58 :: (value2 ++ ((if ms2.isEmpty then [] else [44]) ++
            (lineSuffix ++ (more2 ++ (lastLinePfx ++ 125 :: rest))))))) := drop_add_of_drop hd6
      simp only [hskip5, charAt_of_drop hd5', decide_True, Bool.true_or, if_true, hskip6]
      have hlen7 := length_of_drop hd7
      rw [Object_parse_loop_members parse text indent indentLevel linePfx lineSuffix lastLinePfx
        bound hLP hLS hLLP ms2 key2 x2 keyStr2 value2 more2 [] _ (Object_set result key x) f rest
        (fun y hy => hall y (List.mem_cons_of_mem _ hy)) hk2 hx2 hmore2 (by simp) hd7
        (by omega) (by omega)]
      rw [hbody]
      simp only [List.append_assoc, List.singleton_append, List.length_append, List.length_cons,
        List.length_nil, List.nil_append]
      congr 2
      omega
termination_by ms => ms.length

theorem Value_parse_object_members (ps : Members) (indent indentLevel : Int) (text : Str)
    (hv : ∀ q ∈ ps, q.2.WellFormed ∧ q.2.NoReal)
    (hf : (Value.Object ps).format indent indentLevel = .ok text) :
    Value.parse text = .ok (.Object (ps.foldl (fun m q => Object_set m q.1 q.2) [])) := by
  obtain ⟨linePfx, lastLinePfx, body, hind, hbody, hout⟩ :=
    Value_format_object ps indent indentLevel text hf
  obtain ⟨hsp1, hsp2⟩ := indentStrings_spaces indent indentLevel linePfx lastLinePfx hind
  have hLP := spaces_isspace linePfx hsp1
  have hLLP := spaces_isspace lastLinePfx hsp2
  have hLS := lineSuffix_space indent
  generalize hls : (if indent ≥ 0 then [10] else [] : Str) = lineSuffix at hbody hout hLS
  have hd' : text.drop 0 = 123 :: (lineSuffix ++ (body ++ (lastLinePfx ++ 125 :: []))) := by
    rw [List.drop_zero, hout]; simp
  have hd1 : text.drop (0 + 1) = lineSuffix ++ (body ++ (lastLinePfx ++ 125 :: [])) :=
    drop_succ_of_drop hd'
  have hlen := length_of_drop hd'
  simp only [List.length_append, List.length_cons] at hlen
  unfold Value.parse Value.parse_at
  rw [Value.parse_depth]
  simp only [skipWhitespace_none hd' (by decide), lt_length_of_drop hd', if_true,
    charAt_of_drop hd', Object_parse]
  have hloop : Object_parse_loop (Value.parse_depth text.length) text (text.length + 1) (0 + 1) []
      = .ok (ps.foldl (fun m q => Object_set m q.1 q.2) [],
        0 + 1 + (lineSuffix ++ (body ++ lastLinePfx)).length) := by
    cases ps with
    | nil =>
      rw [Object_format_loop] at hbody
      cases hbody
      have hd2 : text.drop (0 + 1) = (lineSuffix ++ ([] ++ lastLinePfx)) ++ 125 :: [] := by
        rw [hd1]; simp
      exact Object_parse_loop_empty _ _ [] text.length
        (by intro a ha
            simp only [List.nil_append] at ha
            rcases List.mem_append.mp ha with h | h
            · exact hLS a h
            · exact hLLP a h) hd2
    | cons q m' =>
      obtain ⟨key, x⟩ := q
      obtain ⟨keyStr, value, more, hk, hx, hmore, hb'⟩ :=
        Object_format_loop_cons key x m' indent indentLevel linePfx lineSuffix body hbody
      have hd2 : text.drop (0 + 1) = (lineSuffix ++ linePfx) ++ (keyStr ++ (58 :: (value ++
          ((if m'.isEmpty then [] else [44]) ++
          (lineSuffix ++ (more ++ (lastLinePfx ++ 125 :: [])))))))  := by
        rw [hd1, hb']; simp
      have := Object_parse_loop_members (Value.parse_depth text.length) text indent indentLevel
        linePfx lineSuffix lastLinePfx text.length hLP hLS hLLP m' key x keyStr value more
        (lineSuffix ++ linePfx) (0 + 1) [] (text.length + 1) []
        (fun y hy => ⟨RealsFinite_of_noReal _ (hv y hy).2,
          parse_depth_format y.2 (hv y hy).1 (RealsExact_of_noReal _ (hv y hy).2) indent
          (indentLevel + 1) text text.length⟩)
        hk hx hmore
        (by intro a ha
            rcases List.mem_append.mp ha with h | h
            · exact hLS a h
            · exact hLP a h)
        hd2 (by omega) (by omega)
      rw [this, hb']
      simp only [List.nil_append, List.append_assoc, List.length_append, List.cons_append,
        List.length_cons]
  have hd3 : text.drop (0 + 1 + (lineSuffix ++ (body ++ lastLinePfx)).length) =
      125 :: [] := by
    apply drop_add_of_drop (a := lineSuffix ++ (body ++ lastLinePfx))
    rw [hd1]; simp
  have hlen3 := length_of_drop hd3
  simp only [List.length_cons] at hlen3
  simp only [hloop, bind, Except.bind, YaJsonAssert, pure, Except.pure]
  have hle : 0 + 1 + (lineSuffix ++ (body ++ lastLinePfx)).length + 1 ≤ text.length := by
    omega
  simp only [hle, decide_True, if_true]

theorem mapFind_foldl_set : ∀ (ps m : Members) (key : Str),
    mapFind key (ps.foldl (fun m q => Object_set m q.1 q.2) m) =
      match lastOccurrence key ps with
      | some v => some v
      | none => mapFind key m
  | [], m, key => by simp [lastOccurrence]
  | (k, v) :: rest, m, key => by
    rw [List.foldl_cons, mapFind_foldl_set rest _ key, lastOccurrence]
    cases lastOccurrence key rest with
    | some w => rfl
    | none =>
      simp only [Object_set]
      by_cases hk : k = key
      · rw [if_pos hk, hk]
        exact mapFind_mapAssign_self key v m
      · rw [if_neg hk]
        exact mapFind_mapAssign_other k key v (fun h => hk h.symm) m

theorem KeysAscending_foldl_set : ∀ (ps m : Members), KeysAscending m →
    KeysAscending (ps.foldl (fun m q => Object_set m q.1 q.2) m)
  | [], _, hm => hm
  | (k, v) :: rest, m, hm => by
    rw [List.foldl_cons]
    exact KeysAscending_foldl_set rest _ (KeysAscending_mapAssign k v m hm)

theorem count_key_of_mapFind (key : Str) (v : Value) : ∀ (m : Members), KeysAscending m →
    mapFind key m = some v → (Object_keys m).count key = 1
  | [], _, h => by simp [mapFind] at h
  | (k, x) :: rest, hm, h => by
    have hc := List.pairwise_cons.mp hm
    simp only [mapFind] at h
    simp only [Object_keys, List.map_cons]
    by_cases h1 : strLess k key = true
    · simp only [h1, if_true] at h
      have hne : k ≠ key := by
        intro e
        rw [e, strLess_irrefl] at h1
        cases h1
      rw [List.count_cons_of_ne (fun e => hne e.symm)]
      exact count_key_of_mapFind key v rest hc.2 h
    · by_cases h2 : strLess key k = true
      · simp [h1, h2] at h
      · have hkk : k = key := strLess_total k key (by simpa using h1) (by simpa using h2)
        rw [hkk, List.count_cons_self]
        have : List.count key (List.map Prod.fst rest) = 0 := by
          apply List.count_eq_zero_of_not_mem
          intro hmem
          obtain ⟨q, hq, hq2⟩ := List.mem_map.mp hmem
          have := hc.1 q hq
          rw [hq2, hkk, strLess_irrefl] at this
          cases this
        omega

theorem lastOccurrence_of_mem (key : Str) : ∀ (ps : Members) (v : Value), (key, v) ∈ ps →
    ∃ w, lastOccurrence key ps = some w
  | [], _, h => by cases h
  | (k, x) :: rest, v, h => by
    rw [lastOccurrence]
    cases hl : lastOccurrence key rest with
    | some w => exact ⟨w, rfl⟩
    | none =>
      cases h with
      | head => exact ⟨x, by simp⟩
      | tail _ h =>
        obtain ⟨w, hw⟩ := lastOccurrence_of_mem key rest v h
        rw [hw] at hl
        cases hl

/-! ## C2 and C3: the round trip with Reals -/

set_option maxRecDepth 100000 in
/-- C2, as the code has it. For every value whose String payloads and Object keys are
runs of UTF-8 forms (1 to 4 bytes, shortest encoding, codepoint up to `0x10FFFF`, which is
what `format` accepts) and whose Reals are finite, `format()` succeeds and `Value::parse`
of the text succeeds, and the parsed value is `==` to the value under `Value::operator==`
exactly when
every Real of the value is reproduced by its six-decimal text, that is when the double
that `std::stod` reads from `std::to_string` of the Real is `==` to the Real. A value
without a Real is such a value, and so are the Reals 3.14, 2.7 and 0.675 of `testCreate`,
2.0 and 1e23. -/
theorem parse_format_eq (v : Value) (hwf : v.WellFormed) (hutf : v.Utf8Forms)
    (hfin : v.RealsFinite) :
    ∃ text v', v.format (-1) 0 = .ok text ∧ Value.parse text = .ok v' ∧
      (Value.eq v' v = true ↔ v.RealsReproduced) ∧
      (v.NoReal → v.RealsReproduced) := by
  obtain ⟨text, ht⟩ := format_ok_forms v hutf (-1) 0 (Or.inl (by omega))
  refine ⟨text, v.reparsed, ht, parse_format_reals v hwf hfin (-1) 0 text ht,
    Value_eq_reparsed v hfin, ?_⟩
  intro hnr
  exact allNodes_mono _ _
    (by intro x hx; cases x <;> simp_all [nodeRealReproduced, Value.getType]) v hnr

set_option maxRecDepth 100000 in
/-- The amended C2 at a document like the one of `testCreate`: its Reals 2.7, 0.675 and
3.14 are reproduced, and the parsed document is `==` to it. -/
theorem parse_format_eq_witness :
    createdValue.WellFormed ∧ createdValue.Utf8Forms ∧ createdValue.RealsFinite ∧
    createdValue.RealsReproduced ∧
    (Value.Array [.Real ⟨false, 1024, 0⟩, .Real ⟨false, 1099, 1456864850168566⟩]).RealsReproduced ∧
    ∃ text v', createdValue.format (-1) 0 = .ok text ∧ Value.parse text = .ok v' ∧
      (Value.eq v' createdValue = true ↔ createdValue.RealsReproduced) ∧
      (createdValue.NoReal → createdValue.RealsReproduced) :=
  ⟨by decide, by decide, by decide, by decide!, by decide!,
    parse_format_eq createdValue (by decide) (by decide) (by decide)⟩

set_option maxRecDepth 100000 in
/-- C2 fails as stated. `Value("\x80")` is built by the string constructor and its
`format()` throws; `Value(1e-7)` formats to `0.000000`, which parses to the Real 0.0,
and `0.0 == 1e-7` is false; `Value(0.0)` formats to `0.000000`, which parses to the
Real 0.0, and `Value(0.0) == Value(0.0)` is false; `Value(INFINITY)` formats to `inf`,
which `Value::parse` rejects. -/
theorem parse_format_eq_fails :
    (Value.String [0x80]).format (-1) 0 = .error .invalid_argument ∧
    ((Value.Real Double.oneE7).format (-1) 0 = .ok [48, 46, 48, 48, 48, 48, 48, 48] ∧
      Value.parse [48, 46, 48, 48, 48, 48, 48, 48] = .ok (.Real Double.zero) ∧
      Value.eq (.Real Double.zero) (.Real Double.oneE7) = false) ∧
    ((Value.Real Double.zero).format (-1) 0 = .ok [48, 46, 48, 48, 48, 48, 48, 48] ∧
      Value.eq (.Real Double.zero) (.Real Double.zero) = false) ∧
    ((Value.Real (Double.infinity false)).format (-1) 0 = .ok [105, 110, 102] ∧
      Value.parse [105, 110, 102] = .error .invalid_argument) ∧
    (Value.Real Double.oneE7).RealsFinite ∧ ¬ (Value.Real Double.oneE7).RealsReproduced ∧
    (Value.Real Double.zero).RealsFinite ∧ ¬ (Value.Real Double.zero).RealsReproduced := by
  refine ⟨rfl, ⟨?_, ?_, ?_⟩, ⟨?_, ?_⟩, ⟨?_, ?_⟩, ?_, ?_, ?_, ?_⟩
  · decide!
  · decide!
  · decide!
  · decide!
  · decide!
  · decide!
  · decide!
  · decide!
  · decide!
  · decide!
  · decide!

/-- C3 (amended). For every value `v` that holds no infinite Real and no NaN and whose
compact format succeeds with `text`, parsing `text` succeeds and formatting the parsed
value compactly gives `text` again, byte for byte. The parsed value is `v` with every
Real replaced by the double nearest to its six-decimal text, and that double has the
same six-decimal text. -/
theorem compact_form_stable (v : Value) (text : Str) (hwf : v.WellFormed)
    (hfin : v.RealsFinite) (hf : v.format (-1) 0 = .ok text) :
    ∃ v', Value.parse text = .ok v' ∧ v'.format (-1) 0 = .ok text ∧ v' = v.reparsed :=
  ⟨v.reparsed, parse_format_reals v hwf hfin (-1) 0 text hf,
    by rw [format_reparsed v hfin]; exact hf, rfl⟩

set_option maxRecDepth 100000 in
/-- C3 at the Array of the Reals 2.0, 3.14, 1e-7, 0.0, -0.0, 1e23 and `2^33 + 2^-19`,
whose compact format is
`[2.000000,3.140000,0.000000,0.000000,-0.000000,99999999999999991611392.000000,8589934592.000002]`. -/
theorem compact_form_stable_witness :
    realsValue.WellFormed ∧ realsValue.RealsFinite ∧
    realsValue.format (-1) 0 = .ok [91, 50, 46, 48, 48, 48, 48, 48, 48, 44, 51, 46, 49, 52,
      48, 48, 48, 48, 44, 48, 46, 48, 48, 48, 48, 48, 48, 44, 48, 46, 48, 48, 48, 48, 48, 48,
      44, 45, 48, 46, 48, 48, 48, 48, 48, 48, 44, 57, 57, 57, 57, 57, 57, 57, 57, 57, 57, 57,
      57, 57, 57, 57, 57, 49, 54, 49, 49, 51, 57, 50, 46, 48, 48, 48, 48, 48, 48, 44, 56, 53,
      56, 57, 57, 51, 52, 53, 57, 50, 46, 48, 48, 48, 48, 48, 50, 93] ∧
    ∃ v', Value.parse [91, 50, 46, 48, 48, 48, 48, 48, 48, 44, 51, 46, 49, 52,
        48, 48, 48, 48, 44, 48, 46, 48, 48, 48, 48, 48, 48, 44, 48, 46, 48, 48, 48, 48, 48, 48,
        44, 45, 48, 46, 48, 48, 48, 48, 48, 48, 44, 57, 57, 57, 57, 57, 57, 57, 57, 57, 57, 57,
        57, 57, 57, 57, 57, 49, 54, 49, 49, 51, 57, 50, 46, 48, 48, 48, 48, 48, 48, 44, 56, 53,
        56, 57, 57, 51, 52, 53, 57, 50, 46, 48, 48, 48, 48, 48, 50, 93] = .ok v' ∧
      v'.format (-1) 0 = .ok [91, 50, 46, 48, 48, 48, 48, 48, 48, 44, 51, 46, 49, 52,
        48, 48, 48, 48, 44, 48, 46, 48, 48, 48, 48, 48, 48, 44, 48, 46, 48, 48, 48, 48, 48, 48,
        44, 45, 48, 46, 48, 48, 48, 48, 48, 48, 44, 57, 57, 57, 57, 57, 57, 57, 57, 57, 57, 57,
        57, 57, 57, 57, 57, 49, 54, 49, 49, 51, 57, 50, 46, 48, 48, 48, 48, 48, 48, 44, 56, 53,
        56, 57, 57, 51, 52, 53, 57, 50, 46, 48, 48, 48, 48, 48, 50, 93] ∧
      v' = realsValue.reparsed :=
  ⟨by decide, by decide, by decide!,
    compact_form_stable realsValue _ (by decide) (by decide) (by decide!)⟩

/-- C3 fails as stated: the compact format of the Real positive infinity succeeds with the
text `inf`, of negative infinity with `-inf` and of a NaN with `nan`, and `Value::parse`
rejects each of these texts with `std::invalid_argument`. -/
theorem compact_form_unstable :
    ((Value.Real (Double.infinity false)).format (-1) 0 = .ok [105, 110, 102] ∧
      Value.parse [105, 110, 102] = .error .invalid_argument) ∧
    ((Value.Real (Double.infinity true)).format (-1) 0 = .ok [45, 105, 110, 102] ∧
      Value.parse [45, 105, 110, 102] = .error .invalid_argument) ∧
    ((Value.Real Double.nan).format (-1) 0 = .ok [110, 97, 110] ∧
      Value.parse [110, 97, 110] = .error .invalid_argument) := by
  refine ⟨⟨?_, ?_⟩, ⟨?_, ?_⟩, ?_, ?_⟩ <;> decide

/-! ## The UTF-8 codec -/

/-- The bytes `String::_utf8` writes, as numbers. -/
theorem String_utf8_layout (c : Nat) (h : c ≤ 0x10FFFF) :
    ∃ bytes, String_utf8 c = .ok bytes ∧
      bytes.map Fin.val =
        if c ≤ 0x7F then [c]
        else if c ≤ 0x7FF then [0xC0 + c / 64, 0x80 + c % 64]
        else if c ≤ 0xFFFF then [0xE0 + c / 4096, 0x80 + c / 64 % 64, 0x80 + c % 64]
        else [0xF0 + c / 262144, 0x80 + c / 4096 % 64, 0x80 + c / 64 % 64, 0x80 + c % 64] := by
  unfold String_utf8
  by_cases h1 : c ≤ 0x7F
  · rw [if_pos h1, if_pos h1]
    exact ⟨_, rfl, by simp [toChar_val_of_lt c (by omega)]⟩
  rw [if_neg h1, if_neg h1]
  by_cases h2 : c ≤ 0x7FF
  · rw [if_pos h2, if_pos h2]
    have v0 : (toChar ((6 <<< 5) ||| (c >>> 6))).val = 192 + c / 64 := by
      rw [Nat.shiftRight_eq_div_pow, or_lead2 _ (by omega)]
      exact toChar_val_of_lt _ (by omega)
    have v1 : (toChar ((2 <<< 6) ||| (c &&& 0x3F))).val = 128 + c % 64 := by
      rw [and_mod64, or_cont _ (Nat.mod_lt _ (by omega))]
      exact toChar_val_of_lt _ (by omega)
    exact ⟨_, rfl, by simp only [List.map_cons, List.map_nil, v0, v1]⟩
  rw [if_neg h2, if_neg h2]
  by_cases h3 : c ≤ 0xFFFF
  · rw [if_pos h3, if_pos h3]
    have v0 : (toChar ((14 <<< 4) ||| (c >>> 12))).val = 224 + c / 4096 := by
      rw [Nat.shiftRight_eq_div_pow, or_lead3 _ (by omega)]
      exact toChar_val_of_lt _ (by omega)
    have v1 : (toChar ((2 <<< 6) ||| ((c >>> 6) &&& 0x3F))).val = 128 + c / 64 % 64 := by
      rw [Nat.shiftRight_eq_div_pow, and_mod64, or_cont _ (Nat.mod_lt _ (by omega))]
      exact toChar_val_of_lt _ (by omega)
    have v2 : (toChar ((2 <<< 6) ||| (c &&& 0x3F))).val = 128 + c % 64 := by
      rw [and_mod64, or_cont _ (Nat.mod_lt _ (by omega))]
      exact toChar_val_of_lt _ (by omega)
    exact ⟨_, rfl, by simp only [List.map_cons, List.map_nil, v0, v1, v2]⟩
  rw [if_neg h3, if_pos h, if_neg h3]
  have v0 : (toChar ((30 <<< 3) ||| (c >>> 18))).val = 240 + c / 262144 := by
    rw [Nat.shiftRight_eq_div_pow, or_lead4 _ (by omega)]
    exact toChar_val_of_lt _ (by omega)
  have v1 : (toChar ((2 <<< 6) ||| ((c >>> 12) &&& 0x3F))).val = 128 + c / 4096 % 64 := by
    rw [Nat.shiftRight_eq_div_pow, and_mod64, or_cont _ (Nat.mod_lt _ (by omega))]
    exact toChar_val_of_lt _ (by omega)
  have v2 : (toChar ((2 <<< 6) ||| ((c >>> 6) &&& 0x3F))).val = 128 + c / 64 % 64 := by
    rw [Nat.shiftRight_eq_div_pow, and_mod64, or_cont _ (Nat.mod_lt _ (by omega))]
    exact toChar_val_of_lt _ (by omega)
  have v3 : (toChar ((2 <<< 6) ||| (c &&& 0x3F))).val = 128 + c % 64 := by
    rw [and_mod64, or_cont _ (Nat.mod_lt _ (by omega))]
    exact toChar_val_of_lt _ (by omega)
  exact ⟨_, rfl, by simp only [List.map_cons, List.map_nil, v0, v1, v2, v3]⟩

set_option maxRecDepth 100000 in
/-- C38. UTF-8 codec round trip: for every codepoint `c` up to `0x10FFFF`,
`String::_utf8(c)` is 1, 2, 3 or 4 bytes long according to `c <= 0x7F`, `c <= 0x7FF`,
`c <= 0xFFFF` and above, the bytes are those of the standard bit pattern (`0xxxxxxx`,
`110xxxxx 10xxxxxx`, `1110xxxx 10xxxxxx 10xxxxxx`, `11110xxx 10xxxxxx 10xxxxxx 10xxxxxx`
with the bits of `c` from the most significant on), and `String::_codepoint` on them at
offset 0 returns `c` and the offset after the last byte; above `0x10FFFF`, `_utf8` throws
`std::invalid_argument`. -/
theorem utf8_codec_round_trip (c : Nat) :
    (c ≤ 0x10FFFF →
      ∃ bytes, String_utf8 c = .ok bytes ∧
        bytes.map Fin.val =
          (if c ≤ 0x7F then [c]
           else if c ≤ 0x7FF then [0xC0 + c / 64, 0x80 + c % 64]
           else if c ≤ 0xFFFF then [0xE0 + c / 4096, 0x80 + c / 64 % 64, 0x80 + c % 64]
           else [0xF0 + c / 262144, 0x80 + c / 4096 % 64, 0x80 + c / 64 % 64, 0x80 + c % 64]) ∧
        bytes.length = (if c ≤ 0x7F then 1 else if c ≤ 0x7FF then 2 else if c ≤ 0xFFFF then 3
          else 4) ∧
        String_codepoint bytes 0 = .ok (c, bytes.length)) ∧
    (0x10FFFF < c → String_utf8 c = .error .invalid_argument) ∧
    String_utf8 0x2620 = .ok [0xE2, 0x98, 0xA0] ∧
    String_codepoint [0xE2, 0x98, 0xA0] 0 = .ok (0x2620, 3) := by
  refine ⟨?_, String_utf8_error c, by decide, by decide⟩
  intro h
  obtain ⟨bytes, hb, hlay⟩ := String_utf8_layout c h
  obtain ⟨bs, hb2, _, hdec, _⟩ := specDecode_utf8 c h []
  rw [hb] at hb2
  cases hb2
  refine ⟨bytes, hb, hlay, ?_, ?_⟩
  · have := congrArg List.length hlay
    rw [List.length_map] at this
    rw [this]
    split_ifs <;> rfl
  · rw [String_codepoint_spec, List.drop_zero]
    rw [List.append_nil] at hdec
    rw [hdec]
    simp

/-! ## A double compared with itself -/

theorem Double.ofUnits_zero : Double.ofUnits false 0 = ⟨false, 0, 0⟩ := by decide

theorem Double.ofUnits_pos (u : Nat) (h : 0 < u) :
    (Double.ofUnits false u).isNaN = false ∧ 0 < (Double.ofUnits false u).key := by
  unfold Double.ofUnits
  by_cases h1 : u < 4503599627370496
  · rw [if_pos h1]
    constructor
    · simp [Double.isNaN]
    · simp only [Double.key, Double.isInf, Double.units, Nat.mod_eq_of_lt h1]
      simp
      exact h
  · rw [if_neg h1]
    simp only
    by_cases h2 : log2Floor u - 51 ≥ 2047
    · rw [if_pos h2]
      constructor
      · decide
      · have e : (Double.infinity false).key = 2 ^ 2098 := by decide!
        rw [e]
        positivity
    · rw [if_neg h2]
      have hb := (log2Floor_bounds u h).2
      have hl : 52 ≤ log2Floor u := by
        by_contra hc
        have : 2 ^ (log2Floor u + 1) ≤ 2 ^ 52 := Nat.pow_le_pow_right (by omega) (by omega)
        have e52 : (2 : Nat) ^ 52 = 4503599627370496 := by norm_num
        omega
      have he : (log2Floor u - 51) % 2048 = log2Floor u - 51 := Nat.mod_eq_of_lt (by omega)
      constructor
      · simp only [Double.isNaN, he]
        have : ¬ (log2Floor u - 51 = 2047) := by omega
        simp [this]
      · simp only [Double.key, Double.isInf, Double.units, he]
        have n1 : ¬ (log2Floor u - 51 = 2047) := by omega
        have n2 : ¬ (log2Floor u - 51 = 0) := by omega
        simp only [n1, n2, decide_False, Bool.false_and, Bool.false_eq_true, if_false]
        have : 0 < (4503599627370496 + u / 2 ^ (log2Floor u - 52) % 4503599627370496) *
            2 ^ (log2Floor u - 51 - 1) := Nat.mul_pos (by omega) (Nat.two_pow_pos _)
        exact_mod_cast this

theorem Double.epsilon_units : Double.epsilon.units = 2 ^ 1022 := by decide!

theorem roundHalfEven_mul_left (a n d : Nat) (ha : 0 < a) :
    roundHalfEven (a * n) (a * d) = roundHalfEven n d := by
  unfold roundHalfEven
  simp only [Nat.mul_div_mul_left n d ha, Nat.mul_mod_mul_left]
  have e1 : (2 * (a * (n % d)) < a * d) ↔ (2 * (n % d) < d) := by
    rw [show 2 * (a * (n % d)) = a * (2 * (n % d)) by ring]
    exact Nat.mul_lt_mul_left ha
  have e2 : (a * d < 2 * (a * (n % d))) ↔ (d < 2 * (n % d)) := by
    rw [show 2 * (a * (n % d)) = a * (2 * (n % d)) by ring]
    exact Nat.mul_lt_mul_left ha
  simp only [e1, e2]

/-- The product `epsilon * |r|` of a finite `r` of `u` units: positive above `2^51`
units, zero up to there. -/
theorem Double.round_epsilon (u : Nat) :
    (2251799813685248 < u →
      (Double.round false (2 ^ 1022 * u) (2 ^ 1074)).isNaN = false ∧
      0 < (Double.round false (2 ^ 1022 * u) (2 ^ 1074)).key) ∧
    (u ≤ 2251799813685248 →
      Double.round false (2 ^ 1022 * u) (2 ^ 1074) = ⟨false, 0, 0⟩) := by
  have hden : (2 : Nat) ^ 1074 = 2 ^ 1022 * 4503599627370496 := by
    rw [show (4503599627370496 : Nat) = 2 ^ 52 by norm_num, ← Nat.pow_add]
  have hA : 0 < (2 : Nat) ^ 1022 := Nat.two_pow_pos _
  rw [hden]
  generalize (2 : Nat) ^ 1022 = A at hA
  unfold Double.round
  simp only [Nat.mul_div_mul_left u 4503599627370496 hA]
  constructor
  · intro hu
    by_cases hs : u / 4503599627370496 < 9007199254740992
    · rw [if_pos hs, roundHalfEven_mul_left A u _ hA]
      apply Double.ofUnits_pos
      rcases roundHalfEven_cases u 4503599627370496 with ⟨e, h⟩ | ⟨e, _⟩
      · rw [e]
        omega
      · rw [e]
        omega
    · rw [if_neg hs]
      have hu0 : 0 < u / 4503599627370496 := by omega
      have hb := (log2Floor_bounds _ hu0).1
      generalize log2Floor (u / 4503599627370496) = l at hb
      rw [Nat.mul_assoc, roundHalfEven_mul_left A u _ hA]
      apply Double.ofUnits_pos
      apply Nat.mul_pos _ (Nat.two_pow_pos _)
      have hq : 0 < u / (4503599627370496 * 2 ^ (l - 52)) := by
        rw [← Nat.div_div_eq_div_mul]
        apply Nat.div_pos _ (Nat.two_pow_pos _)
        exact Nat.le_trans (Nat.pow_le_pow_right (by omega) (by omega)) hb
      rcases roundHalfEven_cases u (4503599627370496 * 2 ^ (l - 52)) with ⟨e, _⟩ | ⟨e, _⟩
      · rw [e]; exact hq
      · rw [e]; omega
  · intro hu
    have hs : u / 4503599627370496 < 9007199254740992 := by omega
    rw [if_pos hs, roundHalfEven_mul_left A u _ hA]
    have : roundHalfEven u 4503599627370496 = 0 := by
      rcases roundHalfEven_cases u 4503599627370496 with ⟨e, _⟩ | ⟨e, h⟩
      · rw [e]; omega
      · omega
    rw [this]
    exact Double.ofUnits_zero

theorem Double.max_self (a : Double) : Double.max a a = a := by
  unfold Double.max
  split <;> rfl

/-- A Real is equal to itself under `Real::equals` exactly when it is finite and of
magnitude above `2^-1023`. -/
theorem Real_equals_self (r : Double) : Real_equals r r = r.aboveTiny := by
  unfold Real_equals Double.aboveTiny
  simp only [Double.max_self]
  cases hn : r.isNaN with
  | true =>
    have h := Double.sub_isNaN_of_isNaN r r (by simp [hn])
    rw [Double.lt_nan_left _ _ (by rw [Double.abs_isNaN]; exact h)]
    rfl
  | false =>
    cases hi : r.isInf with
    | true =>
      have h : (r.sub r).isNaN = true := by
        unfold Double.sub
        simp only [hn, hi, Bool.or_self, Bool.false_eq_true, if_false, if_true, Bool.true_and,
          beq_self_eq_true]
        exact Double.nan_isNaN
      rw [Double.lt_nan_left _ _ (by rw [Double.abs_isNaN]; exact h)]
      rfl
    | false =>
      have hsub : (r.sub r).abs = ⟨false, 0, 0⟩ := by
        unfold Double.sub Double.abs
        simp only [hn, hi, Bool.or_self, Bool.false_eq_true, if_false, sub_self, if_true]
      have hmul : Double.epsilon.mul r.abs =
          Double.round false (2 ^ 1022 * r.units) (2 ^ 1074) := by
        unfold Double.mul
        have e1 : Double.epsilon.isNaN = false := by decide
        have e2 : Double.epsilon.isInf = false := by decide
        have e3 : Double.epsilon.sign = false := rfl
        have e4 : r.abs.sign = false := rfl
        simp only [e1, e2, e3, e4, Double.abs_isNaN, Double.abs_isInf, Double.abs_units, hn, hi,
          Bool.or_self, Bool.false_eq_true, if_false, Double.epsilon_units, bne_self_eq_false]
      rw [hsub, hmul]
      obtain ⟨hpos, hzero⟩ := Double.round_epsilon r.units
      by_cases hu : 2251799813685248 < r.units
      · obtain ⟨h1, h2⟩ := hpos hu
        have hk : (⟨false, 0, 0⟩ : Double).key = 0 := by decide
        simp only [Double.lt, h1, hk, h2, hu, decide_True, Bool.not_false, Bool.and_true]
        decide
      · rw [hzero (by omega)]
        simp only [hu, decide_False, Bool.and_false]
        decide

/-! ## `operator==` of a value with itself -/

theorem Value_eq_self_iff : ∀ v : Value, Value.eq v v = true ↔ v.RealsAboveTiny := by
  intro v
  induction v using Value.induct with
  | hNull => simp [Value.RealsAboveTiny, Value.allNodes, nodeRealAboveTiny]; rw [Value.eq]; rfl
  | hBool b =>
    simp only [Value.RealsAboveTiny, Value.allNodes, nodeRealAboveTiny, iff_true]
    rw [Value.eq]; simp [Value.isNull, Instance_equals]
  | hInt i =>
    simp only [Value.RealsAboveTiny, Value.allNodes, nodeRealAboveTiny, iff_true]
    rw [Value.eq]; simp [Value.isNull, Instance_equals]
  | hReal r =>
    rw [Value_eq_real, Real_equals_self]
    simp [Value.RealsAboveTiny, Value.allNodes, nodeRealAboveTiny]
  | hStr s =>
    simp only [Value.RealsAboveTiny, Value.allNodes, nodeRealAboveTiny, iff_true]
    rw [Value.eq]; simp [Value.isNull, Instance_equals]
  | hArr xs ih =>
    rw [Value_eq_array, List.forall₂_same]
    unfold Value.RealsAboveTiny
    rw [allNodes_array]
    simp only [nodeRealAboveTiny, true_and]
    exact forall₂_congr (fun x hx => ih x hx)
  | hObj m ih =>
    rw [Value_eq_object, List.forall₂_same]
    unfold Value.RealsAboveTiny
    rw [allNodes_object]
    simp only [nodeRealAboveTiny, true_and]
    exact forall₂_congr (fun q hq => by rw [ih q hq]; simp [Value.RealsAboveTiny])

set_option maxRecDepth 100000 in
/-- C39, amended. `operator==` of a value with itself, and so with a deep copy of itself,
is true exactly when every Real the value holds, at any depth, is finite and of magnitude
above `2^-1023`; it is true of every value that holds no Real. -/
theorem eq_reflexive_iff (v : Value) :
    (Value.eq v v = true ↔ v.RealsAboveTiny) ∧
    (v.NoReal → Value.eq v v = true) ∧
    Value.eq (.Array [.Real Double.pi9, .Null]) (.Array [.Real Double.pi9, .Null]) = true :=
  ⟨Value_eq_self_iff v, Value_eq_refl v,
    (Value_eq_self_iff (.Array [.Real Double.pi9, .Null])).mpr (by decide!)⟩

set_option maxRecDepth 100000 in
/-- C39 as stated fails: `0.0 == 0.0` is false, since `|a - b| < epsilon * max(|a|, |b|)`
is `0 < 0` there, and so is `==` of an Array holding `0.0` with itself, of an infinity
with itself (`inf - inf` is NaN) and of a NaN with itself. -/
theorem eq_not_reflexive_at_zero :
    Value.eq (.Real Double.zero) (.Real Double.zero) = false ∧
    Value.eq (.Array [.Real Double.zero]) (.Array [.Real Double.zero]) = false ∧
    Value.eq (.Real (Double.infinity false)) (.Real (Double.infinity false)) = false ∧
    Value.eq (.Real Double.nan) (.Real Double.nan) = false := by
  have h : ∀ v : Value, ¬ v.RealsAboveTiny → Value.eq v v = false := by
    intro v hv
    cases he : Value.eq v v with
    | false => rfl
    | true => exact absurd ((Value_eq_self_iff v).mp he) hv
  exact ⟨h _ (by decide), h _ (by decide), h _ (by decide), h _ (by decide)⟩

/-! ## The span of a number -/

/-- The scanning loop of `Value::_parseNumber` stops after a run of characters of
`-+0123456789Ee.`; the flag it returns says whether one of `Ee.` is in the run; with
enough fuel the run is maximal. -/
theorem parseNumber_loop_span (text : Str) : ∀ (fuel offset : Nat) (b : Bool),
    offset ≤ (parseNumber_loop text fuel offset b).1 ∧
    (parseNumber_loop text fuel offset b).1 ≤ max offset text.length ∧
    (∀ c ∈ substr text offset ((parseNumber_loop text fuel offset b).1 - offset),
      isIntegerChar c = true ∨ isRealChar c = true) ∧
    (parseNumber_loop text fuel offset b).2 =
      (b || (substr text offset ((parseNumber_loop text fuel offset b).1 - offset)).any
        isRealChar) ∧
    (text.length - offset ≤ fuel →
      (parseNumber_loop text fuel offset b).1 < text.length →
      (isIntegerChar (charAt text (parseNumber_loop text fuel offset b).1) ||
        isRealChar (charAt text (parseNumber_loop text fuel offset b).1)) = false)
  | 0, offset, b => by
    simp only [parseNumber_loop, Nat.sub_self, substr, List.take_zero]
    refine ⟨Nat.le_refl _, le_max_left _ _, fun c h => (by cases h), (by simp), ?_⟩
    intro h1 h2
    omega
  | fuel + 1, offset, b => by
    rw [parseNumber_loop]
    by_cases hc : (decide (offset < text.length) &&
        (isIntegerChar (charAt text offset) || isRealChar (charAt text offset))) = true
    · rw [if_pos hc]
      obtain ⟨i1, i2, i3, i4, i5⟩ := parseNumber_loop_span text fuel (offset + 1)
        (b || isRealChar (charAt text offset))
      generalize parseNumber_loop text fuel (offset + 1)
        (b || isRealChar (charAt text offset)) = r at i1 i2 i3 i4 i5
      simp only [Bool.and_eq_true, decide_eq_true_eq] at hc
      obtain ⟨hlt, hch⟩ := hc
      have hdrop : text.drop offset = charAt text offset :: text.drop (offset + 1) :=
        drop_eq_cons_of_lt hlt
      have hsub : substr text offset (r.1 - offset) =
          charAt text offset :: substr text (offset + 1) (r.1 - (offset + 1)) := by
        unfold substr
        rw [hdrop, show r.1 - offset = (r.1 - (offset + 1)) + 1 by omega, List.take_succ_cons]
      refine ⟨by omega, by omega, ?_, ?_, ?_⟩
      · intro c hcm
        rw [hsub] at hcm
        cases hcm with
        | head => simpa using hch
        | tail _ h => exact i3 c h
      · rw [i4, hsub, List.any_cons, Bool.or_assoc]
      · intro hf
        exact i5 (by omega)
    · rw [if_neg hc]
      simp only [Nat.sub_self, substr, List.take_zero]
      refine ⟨Nat.le_refl _, le_max_left _ _, fun c h => (by cases h), (by simp), ?_⟩
      intro _ hlt
      simp only [hlt, decide_True, Bool.true_and] at hc
      simpa using hc

theorem Value_parseNumber_kind (text : Str) (offset : Nat) (v : Value) (o : Nat)
    (h : Value_parseNumber text offset = .ok (v, o)) :
    o = (parseNumber_loop text (text.length - offset) offset false).1 ∧ offset < o ∧
    ((parseNumber_loop text (text.length - offset) offset false).2 = true → ∃ d, v = .Real d) ∧
    ((parseNumber_loop text (text.length - offset) offset false).2 = false →
      ∃ i, v = .Integer i) := by
  unfold Value_parseNumber at h
  simp only [bind, Except.bind, YaJsonAssert, pure, Except.pure] at h
  generalize parseNumber_loop text (text.length - offset) offset false = r at h
  obtain ⟨o1, b⟩ := r
  simp only at h
  split_ifs at h with h1 h2
  · cases hs : stod (substr text offset (o1 - offset)) with
    | error e => simp [hs] at h
    | ok p =>
      obtain ⟨d, after⟩ := p
      simp only [hs] at h
      split_ifs at h
      simp only [Except.ok.injEq, Prod.mk.injEq] at h
      simp only at h1
      refine ⟨h.2.symm, by rw [← h.2]; simpa using h1, fun _ => ⟨d, h.1.symm⟩, ?_⟩
      intro hb
      rw [h2] at hb
      cases hb
  · cases hs : stoll (substr text offset (o1 - offset)) with
    | error e => simp [hs] at h
    | ok p =>
      obtain ⟨d, after⟩ := p
      simp only [hs] at h
      split_ifs at h
      simp only [Except.ok.injEq, Prod.mk.injEq] at h
      refine ⟨h.2.symm, by rw [← h.2]; simpa using h1, ?_, fun _ => ⟨d, h.1.symm⟩⟩
      intro hb
      exact absurd hb h2

/-- C35. Number classification. When `Value::_parseNumber` succeeds at the cursor, the
span it consumed is the non-empty maximal run of characters of `+-0123456789.eE` there,
and the result is a Real when the span holds one of `.`, `e`, `E` and an Integer when it
holds none. `Value::parse` takes this path whenever the first character after the white
space is none of `{`, `[`, `"`, `t`, `f`, `n`. -/
theorem number_classification (text : Str) (offset : Nat) (v : Value) (o : Nat)
    (h : Value_parseNumber text offset = .ok (v, o)) :
    offset < o ∧ o ≤ text.length ∧
    (∀ c ∈ substr text offset (o - offset), isIntegerChar c = true ∨ isRealChar c = true) ∧
    (o < text.length →
      (isIntegerChar (charAt text o) || isRealChar (charAt text o)) = false) ∧
    ((substr text offset (o - offset)).any isRealChar = true → ∃ d, v = .Real d) ∧
    ((substr text offset (o - offset)).any isRealChar = false → ∃ i, v = .Integer i) ∧
    (∀ (t : Str) (p : Nat), Value.skipWhitespace t p < t.length →
      charAt t (Value.skipWhitespace t p) ≠ 123 → charAt t (Value.skipWhitespace t p) ≠ 91 →
      charAt t (Value.skipWhitespace t p) ≠ 34 → charAt t (Value.skipWhitespace t p) ≠ 116 →
      charAt t (Value.skipWhitespace t p) ≠ 102 → charAt t (Value.skipWhitespace t p) ≠ 110 →
      Value.parse_at t p = Value_parseNumber t (Value.skipWhitespace t p)) := by
  obtain ⟨ho, hlt, hreal, hint⟩ := Value_parseNumber_kind text offset v o h
  obtain ⟨_, i2, i3, i4, i5⟩ := parseNumber_loop_span text (text.length - offset) offset false
  rw [← ho] at i2 i3 i4 i5
  simp only [Bool.false_or] at i4
  refine ⟨hlt, ?_, i3, i5 (Nat.le_refl _), ?_, ?_, ?_⟩
  · rcases Nat.le_total offset text.length with hle | hle
    · rw [max_eq_right hle] at i2
      exact i2
    · rw [max_eq_left hle] at i2
      omega
  · intro ha
    exact hreal (by rw [i4]; exact ha)
  · intro ha
    exact hint (by rw [i4]; exact ha)
  · intro t p h0 h1 h2 h3 h4 h5 h6
    unfold Value.parse_at
    rw [Value.parse_depth]
    simp only [h0, if_true, h1, h2, h3, h4, h5, h6, if_false]

set_option maxRecDepth 100000 in
/-- C35 on concrete texts: `2.0` and `1e2` are the Reals 2 and 100, `2` and `-7` are Integers, and
`...` and `[...]` throw `std::invalid_argument`. -/
theorem number_classification_witness :
    Value_parseNumber [50, 46, 48] 0 = .ok (.Real (Double.ofDecimal false 20 (-1)), 3) ∧
    ((substr [50, 46, 48] 0 (3 - 0)).any isRealChar = true →
      ∃ d, Value.Real (Double.ofDecimal false 20 (-1)) = .Real d) ∧
    Value.parse [50, 46, 48] = .ok (.Real (Double.ofDecimal false 20 (-1))) ∧
    Value.parse [49, 101, 50] = .ok (.Real (Double.ofDecimal false 1 2)) ∧
    Double.ofDecimal false 20 (-1) = ⟨false, 1024, 0⟩ ∧
    Double.ofDecimal false 1 2 = ⟨false, 1029, 2533274790395904⟩ ∧
    Value.parse [50] = .ok (.Integer 2) ∧
    Value.parse [45, 55] = .ok (.Integer (-7)) ∧
    Value.parse [46, 46, 46] = .error .invalid_argument ∧
    Value.parse [91, 46, 46, 46, 93] = .error .invalid_argument :=
  ⟨by decide!,
    (number_classification [50, 46, 48] 0 (.Real (Double.ofDecimal false 20 (-1))) 3
      (by decide!)).2.2.2.2.1,
    by decide!, by decide!, by decide!, by decide!, by decide, by decide, by decide, by decide⟩

/-! ## The formatted text against the reference renderings -/

theorem specJoin_cons (o : Str) (os : List Str) :
    specJoin (o :: os) = o ++ (if os.isEmpty then [] else [44]) ++ specJoin os := by
  cases os with
  | nil => simp [specJoin]
  | cons a t => simp [specJoin]

theorem specCompactList_length : ∀ (xs : List Value) (outs : List Str),
    specCompactList xs = .ok outs → outs.isEmpty = xs.isEmpty
  | [], outs, h => by
    rw [specCompactList] at h
    cases h
    rfl
  | x :: rest, outs, h => by
    rw [specCompactList] at h
    cases hx : specCompact x with
    | error e => simp [hx] at h
    | ok o =>
      cases hr : specCompactList rest with
      | error e => simp [hx, hr] at h
      | ok os =>
        simp only [hx, hr, Except.ok.injEq] at h
        rw [← h]
        rfl

theorem specCompactMembers_length : ∀ (m : Members) (outs : List Str),
    specCompactMembers m = .ok outs → outs.isEmpty = m.isEmpty
  | [], outs, h => by
    rw [specCompactMembers] at h
    cases h
    rfl
  | (key, x) :: rest, outs, h => by
    rw [specCompactMembers] at h
    cases hk : String_format key with
    | error e => simp [hk] at h
    | ok ks =>
      cases hx : specCompact x with
      | error e => simp [hk, hx] at h
      | ok o =>
        cases hr : specCompactMembers rest with
        | error e => simp [hk, hx, hr] at h
        | ok os =>
          simp only [hk, hx, hr, Except.ok.injEq] at h
          rw [← h]
          rfl

theorem Array_format_loop_compact (indent indentLevel : Int) :
    ∀ xs : List Value, (∀ x ∈ xs, x.format indent (indentLevel + 1) = specCompact x) →
      Array_format_loop xs indent indentLevel [] [] =
        match specCompactList xs with
        | .error e => .error e
        | .ok outs => .ok (specJoin outs)
  | [], _ => by rw [Array_format_loop, specCompactList]; rfl
  | x :: rest, h => by
    rw [Array_format_loop, specCompactList, h x (List.mem_cons_self _ _),
      Array_format_loop_compact indent indentLevel rest
        (fun y hy => h y (List.mem_cons_of_mem _ hy))]
    cases specCompact x with
    | error e => rfl
    | ok o =>
      simp only
      cases hr : specCompactList rest with
      | error e => rfl
      | ok os =>
        simp only [specJoin_cons, List.nil_append, List.append_nil,
          specCompactList_length rest os hr]

theorem Object_format_loop_compact (indent indentLevel : Int) :
    ∀ m : Members, (∀ q ∈ m, q.2.format indent (indentLevel + 1) = specCompact q.2) →
      Object_format_loop m indent indentLevel [] [] =
        match specCompactMembers m with
        | .error e => .error e
        | .ok outs => .ok (specJoin outs)
  | [], _ => by rw [Object_format_loop, specCompactMembers]; rfl
  | (key, x) :: rest, h => by
    rw [Object_format_loop, specCompactMembers, h (key, x) (List.mem_cons_self _ _),
      Object_format_loop_compact indent indentLevel rest
        (fun y hy => h y (List.mem_cons_of_mem _ hy))]
    cases String_format key with
    | error e => rfl
    | ok ks =>
      simp only
      cases specCompact x with
      | error e => rfl
      | ok o =>
        simp only
        cases hr : specCompactMembers rest with
        | error e => rfl
        | ok os =>
          simp only [specJoin_cons, List.nil_append, List.append_nil,
            specCompactMembers_length rest os hr, List.append_assoc]

theorem indentStrings_compact (indent indentLevel : Int) (h : indent < 0) :
    indentStrings indent indentLevel = .ok ([], []) := by
  unfold indentStrings
  rw [if_neg (by omega)]

/-- With a negative indent `format` writes the compact rendering. -/
theorem format_compact (indent : Int) (h : indent < 0) : ∀ (v : Value) (indentLevel : Int),
    v.format indent indentLevel = specCompact v := by
  intro v
  induction v using Value.induct with
  | hNull => intro _; rw [Value.format, specCompact]
  | hBool b => intro _; rw [Value.format, specCompact]
  | hInt i => intro _; rw [Value.format, specCompact]
  | hReal r => intro _; rw [Value.format, specCompact]
  | hStr s => intro _; rw [Value.format, specCompact]
  | hArr xs ih =>
    intro indentLevel
    have hi : ¬ indent ≥ 0 := by omega
    rw [Value.format, specCompact]
    simp only [indentStrings_compact indent indentLevel h, hi, if_false,
      Array_format_loop_compact indent indentLevel xs (fun x hx => ih x hx (indentLevel + 1))]
    cases specCompactList xs with
    | error e => rfl
    | ok outs => simp
  | hObj m ih =>
    intro indentLevel
    have hi : ¬ indent ≥ 0 := by omega
    rw [Value.format, specCompact]
    simp only [indentStrings_compact indent indentLevel h, hi, if_false,
      Object_format_loop_compact indent indentLevel m (fun q hq => ih q hq (indentLevel + 1))]
    cases specCompactMembers m with
    | error e => rfl
    | ok outs => simp

theorem specLines_cons (pfx o : Str) (os : List Str) :
    specLines pfx (o :: os) =
      pfx ++ o ++ (if os.isEmpty then [] else [44]) ++ [10] ++ specLines pfx os := by
  cases os with
  | nil => simp [specLines]
  | cons a t => simp [specLines]

theorem specPrettyList_length (n d : Nat) : ∀ (xs : List Value) (outs : List Str),
    specPrettyList n d xs = .ok outs → outs.isEmpty = xs.isEmpty
  | [], outs, h => by
    rw [specPrettyList] at h
    cases h
    rfl
  | x :: rest, outs, h => by
    rw [specPrettyList] at h
    cases hx : specPretty n (d + 1) x with
    | error e => simp [hx] at h
    | ok o =>
      cases hr : specPrettyList n d rest with
      | error e => simp [hx, hr] at h
      | ok os =>
        simp only [hx, hr, Except.ok.injEq] at h
        rw [← h]
        rfl

theorem specPrettyMembers_length (n d : Nat) : ∀ (m : Members) (outs : List Str),
    specPrettyMembers n d m = .ok outs → outs.isEmpty = m.isEmpty
  | [], outs, h => by
    rw [specPrettyMembers] at h
    cases h
    rfl
  | (key, x) :: rest, outs, h => by
    rw [specPrettyMembers] at h
    cases hk : String_format key with
    | error e => simp [hk] at h
    | ok ks =>
      cases hx : specPretty n (d + 1) x with
      | error e => simp [hk, hx] at h
      | ok o =>
        cases hr : specPrettyMembers n d rest with
        | error e => simp [hk, hx, hr] at h
        | ok os =>
          simp only [hk, hx, hr, Except.ok.injEq] at h
          rw [← h]
          rfl

theorem Array_format_loop_pretty (n d : Nat) (pfx : Str) :
    ∀ xs : List Value, (∀ x ∈ xs, x.format n ((d : Int) + 1) = specPretty n (d + 1) x) →
      Array_format_loop xs n d pfx [10] =
        match specPrettyList n d xs with
        | .error e => .error e
        | .ok outs => .ok (specLines pfx outs)
  | [], _ => by rw [Array_format_loop, specPrettyList]; rfl
  | x :: rest, h => by
    rw [Array_format_loop, specPrettyList, h x (List.mem_cons_self _ _),
      Array_format_loop_pretty n d pfx rest (fun y hy => h y (List.mem_cons_of_mem _ hy))]
    cases specPretty n (d + 1) x with
    | error e => rfl
    | ok o =>
      simp only
      cases hr : specPrettyList n d rest with
      | error e => rfl
      | ok os =>
        simp only [specLines_cons, specPrettyList_length n d rest os hr, List.append_assoc]

theorem Object_format_loop_pretty (n d : Nat) (pfx : Str) :
    ∀ m : Members, (∀ q ∈ m, q.2.format n ((d : Int) + 1) = specPretty n (d + 1) q.2) →
      Object_format_loop m n d pfx [10] =
        match specPrettyMembers n d m with
        | .error e => .error e
        | .ok outs => .ok (specLines pfx outs)
  | [], _ => by rw [Object_format_loop, specPrettyMembers]; rfl
  | (key, x) :: rest, h => by
    rw [Object_format_loop, specPrettyMembers, h (key, x) (List.mem_cons_self _ _),
      Object_format_loop_pretty n d pfx rest (fun y hy => h y (List.mem_cons_of_mem _ hy))]
    cases String_format key with
    | error e => rfl
    | ok ks =>
      simp only
      cases specPretty n (d + 1) x with
      | error e => rfl
      | ok o =>
        simp only
        cases hr : specPrettyMembers n d rest with
        | error e => rfl
        | ok os =>
          simp only [specLines_cons, specPrettyMembers_length n d rest os hr, List.append_assoc]

theorem indentStrings_pretty (n d : Nat) :
    indentStrings n d = .ok (List.replicate (n * (d + 1)) 32, List.replicate (n * d) 32) := by
  unfold indentStrings
  have h1 : (n : Int) ≥ 0 := Int.ofNat_nonneg n
  have h2 : ¬ ((n : Int) * (d : Int) < 0) := by
    have := Int.mul_nonneg h1 (Int.ofNat_nonneg d)
    omega
  rw [if_pos h1, if_neg h2]
  have e1 : ((n : Int) * (d : Int)).toNat = n * d := by
    rw [← Int.ofNat_mul]
    exact Int.toNat_ofNat _
  have e2 : (n : Int).toNat = n := Int.toNat_ofNat n
  simp only [e1, e2, Nat.mul_add, Nat.mul_one]

/-- With indent `n` at depth `d`, `format` writes the pretty rendering. -/
theorem format_pretty (n : Nat) : ∀ (v : Value) (d : Nat),
    v.format n d = specPretty n d v := by
  intro v
  induction v using Value.induct with
  | hNull => intro _; rw [Value.format, specPretty]
  | hBool b => intro _; rw [Value.format, specPretty]
  | hInt i => intro _; rw [Value.format, specPretty]
  | hReal r => intro _; rw [Value.format, specPretty]
  | hStr s => intro _; rw [Value.format, specPretty]
  | hArr xs ih =>
    intro d
    have hi : (n : Int) ≥ 0 := Int.ofNat_nonneg n
    rw [Value.format, specPretty]
    simp only [indentStrings_pretty n d, hi, if_true,
      Array_format_loop_pretty n d _ xs (fun x hx => by
        have := ih x hx (d + 1)
        rw [Nat.cast_succ] at this
        exact this)]
    cases specPrettyList n d xs with
    | error e => rfl
    | ok outs => simp
  | hObj m ih =>
    intro d
    have hi : (n : Int) ≥ 0 := Int.ofNat_nonneg n
    rw [Value.format, specPretty]
    simp only [indentStrings_pretty n d, hi, if_true,
      Object_format_loop_pretty n d _ m (fun q hq => by
        have := ih q hq (d + 1)
        rw [Nat.cast_succ] at this
        exact this)]
    cases specPrettyMembers n d m with
    | error e => rfl
    | ok outs => simp

/-! ## Claims on the formatted text -/

set_option maxRecDepth 100000 in
/-- C31. Compact format: with a negative indent, at any depth, `format` gives the
reference rendering `specCompact`: `null`, `true` or `false`, the decimal text of an
Integer, an Array as `[`, the formats of its elements joined by `,`, and `]`, an Object as
`{`, its members as formatted key, `:` and formatted value in the order of the map, which
is ascending key order, joined by `,`, and `}`; nothing else is written, so there is no
white space, no newline and no separator after the last element, and the empty containers
are `[]` and `{}`. -/
theorem compact_format_reference (v : Value) (indent indentLevel : Int) (h : indent < 0) :
    v.format indent indentLevel = specCompact v ∧
    (∀ m : Members, (Value.Object m).WellFormed → KeysAscending m) ∧
    (Value.Array []).format indent indentLevel = .ok [91, 93] ∧
    (Value.Object []).format indent indentLevel = .ok [123, 125] ∧
    (Value.Integer (-12)).format indent indentLevel = .ok [45, 49, 50] ∧
    (.Array [.Integer 1, .Array [], .Object [([97], .Null), ([98], .Array [.Boolean true, .Integer (-7)])]] : Value).format indent indentLevel =
      .ok [91, 49, 44, 91, 93, 44, 123, 34, 97, 34, 58, 110, 117, 108, 108, 44, 34, 98, 34, 58, 91, 116, 114, 117, 101, 44, 45, 55, 93, 125, 93] := by
  refine ⟨format_compact indent h v indentLevel, ?_, ?_, ?_, ?_, ?_⟩
  · intro m hm
    have := ((allNodes_object _ m).mp hm).1
    simpa [nodeWellFormed] using this
  all_goals (rw [format_compact indent h]; decide)

set_option maxRecDepth 100000 in
/-- C31 at the sample document with indent -1. -/
theorem compact_format_reference_witness :
    (-1 : Int) < 0 ∧ sampleValue.format (-1) 0 = specCompact sampleValue :=
  ⟨by decide, (compact_format_reference sampleValue (-1) 0 (by decide)).1⟩

set_option maxRecDepth 100000 in
/-- C32. Pretty format: with an indent `n` that is not negative, at depth `d`, as long as
`n * level` stays below `2^31` at the deepest level at which the value holds an Array or
Object (so that no `int` product `indent * indentLevel` overflows), `format` gives the
reference rendering `specPretty n d`: a scalar as in compact mode; an Array or Object as
the opening bracket and a newline, each element or `key:value` member rendered at depth
`d + 1` on a line of its own after `n * (d + 1)` spaces and followed by `,` (not after
the last one) and a newline, then `n * d` spaces and the closing bracket. Under the bound
the product is below `2^31` at every level the formatter reaches a container at. -/
theorem pretty_format_reference (v : Value) (n d : Nat)
    (h : n * v.deepestLevel d < 2147483648) :
    v.format n d = specPretty n d v ∧
    (∀ (indent : Int) (x : Value), indent < 0 →
      (∀ xs, x ≠ .Array xs) → (∀ m, x ≠ .Object m) → x.format n d = x.format indent d) ∧
    (Value.Array []).format 2 1 = .ok [91, 10, 32, 32, 93] ∧
    (Value.Object [([97], .Null)]).format 2 1 = .ok [123, 10, 32, 32, 32, 32, 34, 97, 34, 58, 110, 117, 108, 108, 10, 32, 32, 125] ∧
    (.Array [.Integer 1, .Array [], .Object [([97], .Null), ([98], .Array [.Boolean true, .Integer (-7)])]] : Value).format 2 0 =
      .ok [91, 10, 32, 32, 49, 44, 10, 32, 32, 91, 10, 32, 32, 93, 44, 10, 32, 32, 123, 10, 32, 32, 32, 32, 34, 97, 34, 58, 110, 117, 108, 108, 44, 10, 32, 32, 32, 32, 34, 98, 34, 58, 91, 10, 32, 32, 32, 32, 32, 32, 116, 114, 117, 101, 44, 10, 32, 32, 32, 32, 32, 32, 45, 55, 10, 32, 32, 32, 32, 93, 10, 32, 32, 125, 10, 93] ∧
    (∀ level : Nat, level ≤ v.deepestLevel d → n * level < 2147483648) := by
  refine ⟨format_pretty n v d, ?_, by decide, by decide, by decide,
    fun level hl => Nat.lt_of_le_of_lt (Nat.mul_le_mul_left n hl) h⟩
  intro indent x hi ha ho
  cases x with
  | Array xs => exact absurd rfl (ha xs)
  | Object m => exact absurd rfl (ho m)
  | _ => rw [Value.format, Value.format]

set_option maxRecDepth 100000 in
/-- C32 at the sample document with indent 4 at depth 0: its deepest container is at
level 2. -/
theorem pretty_format_reference_witness :
    4 * sampleValue.deepestLevel 0 < 2147483648 ∧
    sampleValue.deepestLevel 0 = 2 ∧
    sampleValue.format 4 0 = specPretty 4 0 sampleValue :=
  ⟨by decide, by decide, (pretty_format_reference sampleValue 4 0 (by decide)).1⟩

/-! ## One unicode escape, parsed and formatted -/

theorem specHexValue_not_brace (c : Byte) (rest : Str) (acc v : Nat)
    (h : specHexValue (c :: rest) acc = some v) : c ≠ 123 := by
  intro hc
  rw [hc] at h
  have e : ((123 : Byte) : Nat) = 123 := rfl
  simp only [specHexValue, e] at h
  rw [if_neg (by omega), if_neg (by omega), if_neg (by omega)] at h
  cases h

theorem ParsesTo_hex4 (H : Str) (c : Nat) (bytes enc s : Str) (hlen : H.length = 4)
    (hv : specHexValue H 0 = some c) (hc : c ≤ 0x10FFFF) (hu : String_utf8 c = .ok bytes)
    (h : ParsesTo enc s) : ParsesTo ([92, 117] ++ H ++ enc) (bytes ++ s) := by
  have hne : H ≠ [] := by
    intro e
    rw [e] at hlen
    cases hlen
  apply ParsesTo_step ([92, 117] ++ H) bytes enc s (by simp) _ h
  intro text offset result tail hd _
  have hd1 : text.drop offset = 92 :: 117 :: (H ++ tail) := by
    rw [hd]; simp
  have hd2 : text.drop (offset + 1) = 117 :: (H ++ tail) := drop_succ_of_drop hd1
  have hd3 : text.drop (offset + 1 + 1) = H ++ tail := drop_succ_of_drop hd2
  obtain ⟨c0, t0, hc0⟩ := List.exists_cons_of_ne_nil hne
  have hnb : c0 ≠ 123 := specHexValue_not_brace c0 t0 0 c (by rw [← hc0]; exact hv)
  have hd3' : text.drop (offset + 1 + 1) = c0 :: (t0 ++ tail) := by
    rw [hd3, hc0]; rfl
  have hsub : substr text (offset + 1 + 1) 4 = H := by
    have := substr_of_drop hd3
    rwa [hlen] at this
  have hst := stol16_hex H c hne hv
  rw [if_neg (by omega), hlen] at hst
  have hmod : ((c : Int) % 18446744073709551616).toNat = c := by omega
  rw [String_parse_switch_escape text offset result _ hd1]
  simp only [String_parseEscapedUnicode, charAt_of_drop hd3', hnb, if_false, hsub, hst,
    bind, Except.bind, YaJsonAssert, hmod, hu, pure, Except.pure]
  simp [hlen, Nat.add_assoc]

theorem ParsesTo_brace (H : Str) (c : Nat) (bytes enc s : Str) (hne : H ≠ [])
    (hv : specHexValue H 0 = some c) (hc : c ≤ 0x10FFFF) (hu : String_utf8 c = .ok bytes)
    (h : ParsesTo enc s) : ParsesTo ([92, 117, 123] ++ H ++ [125] ++ enc) (bytes ++ s) := by
  apply ParsesTo_step ([92, 117, 123] ++ H ++ [125]) bytes enc s (by simp) _ h
  intro text offset result tail hd _
  have hd0 : text.drop offset = 92 :: 117 :: (123 :: (H ++ 125 :: tail)) := by
    rw [hd]; simp
  have hd1 : text.drop (offset + 1) = 117 :: (123 :: (H ++ 125 :: tail)) := drop_succ_of_drop hd0
  have hd2 : text.drop (offset + 1 + 1) = 123 :: (H ++ 125 :: tail) := drop_succ_of_drop hd1
  have hd3 : text.drop (offset + 1 + 2) = H ++ 125 :: tail := drop_succ_of_drop hd2
  have hfind := findCloseBrace_some text (offset + 1 + 2) H tail hd3
    (not_mem_of_specHexValue H 0 c hv)
  have hsize : offset + 1 + 2 + H.length - (offset + 1) - 2 = H.length := by omega
  have hpos : 0 < H.length := List.length_pos.mpr hne
  have hne2 : offset + 1 + 2 ≠ offset + 1 + 2 + H.length := by omega
  have hst := stol16_hex H c hne hv
  rw [if_neg (by omega)] at hst
  have hmod : ((c : Int) % 18446744073709551616).toNat = c := by omega
  rw [String_parse_switch_escape text offset result _ hd0]
  unfold String_parseEscapedUnicode
  simp only [charAt_of_drop hd2, if_true, hfind, hsize, substr_of_drop hd3, hst, bind,
    Except.bind, YaJsonAssert, hne2, ne_eq, not_false_eq_true, decide_True, decide_not,
    Bool.not_eq_true', decide_eq_false_iff_not, hmod, hu, pure, Except.pure]
  simp only [List.length_append, List.length_cons, List.length_nil, Except.ok.injEq,
    Prod.mk.injEq, and_true]
  omega

theorem Value_parse_string_of_ParsesTo (enc s : Str) (hp : ParsesTo enc s) :
    Value.parse (34 :: enc ++ [34]) = .ok (.String s) := by
  have hd : (34 :: enc ++ [34] : Str).drop 0 = 34 :: (enc ++ 34 :: []) := by simp
  have hs := String_parse_of_ParsesTo enc s hp hd
  have hc : charAt (34 :: enc ++ [34]) 0 = 34 := by simp [charAt]
  have hw : Value.skipWhitespace (34 :: enc ++ [34]) 0 = 0 :=
    skipWhitespace_eq [] (34 :: (enc ++ 34 :: [])) hd (by simp)
      (fun c t hct => by cases hct; decide)
  unfold Value.parse Value.parse_at
  rw [Value.parse_depth]
  simp only [hw, hc, hs]
  simp

/-- The text `String::format` writes for the UTF-8 bytes of one codepoint from `0x80`
on. -/
theorem String_format_utf8 (c : Nat) (bytes : Str) (h1 : 0x80 ≤ c) (hc : c ≤ 0x10FFFF)
    (hu : String_utf8 c = .ok bytes) :
    String_format bytes =
      .ok (34 :: (if c ≤ 0xFFFF then [92, 117] ++ hex_setw4 c else bytes) ++ [34]) := by
  obtain ⟨bs, hb, hne, hdec, _⟩ := specDecode_utf8 c hc []
  rw [hu] at hb
  cases hb
  rw [List.append_nil] at hdec
  obtain ⟨b0, t, rfl⟩ := List.exists_cons_of_ne_nil hne
  rw [String_format_spec, List.length_cons, specFormatBody]
  simp only [List.isEmpty_cons, Bool.false_eq_true, if_false, hdec]
  rw [List.drop_length, List.take_length, specFormatBody_nil,
    specFormatCodepoint_high c _ h1]
  by_cases h2 : c ≤ 0xFFFF
  · simp only [if_pos h2, hex_setw4_eq c (by omega)]
    simp
  · simp only [if_neg h2]
    simp

theorem lower_hex_digit (ch : Byte)
    (h : (48 ≤ ch.val ∧ ch.val ≤ 57) ∨ (97 ≤ ch.val ∧ ch.val ≤ 102)) :
    ∃ d, d < 16 ∧ ch = digitChar d ∧
      ∀ (rest : Str) (acc : Nat),
        specHexValue (ch :: rest) acc = specHexValue rest (acc * 16 + d) := by
  have hlt := ch.isLt
  rcases h with h | h
  · refine ⟨ch.val - 48, by omega, ?_, ?_⟩
    · unfold digitChar
      rw [if_pos (by omega)]
      exact (toChar_val ch _ (by omega)).symm
    · intro rest acc
      rw [specHexValue, if_pos h]
  · refine ⟨ch.val - 87, by omega, ?_, ?_⟩
    · unfold digitChar
      rw [if_neg (by omega)]
      exact (toChar_val ch _ (by omega)).symm
    · intro rest acc
      rw [specHexValue, if_neg (by omega), if_pos h]

/-- Four lowercase hexadecimal digits are the text `setw(4)`, `setfill('0')`, `hex` writes
for their value. -/
theorem hex_setw4_of_lower (H : Str) (c : Nat) (hlen : H.length = 4)
    (hv : specHexValue H 0 = some c)
    (hl : ∀ ch ∈ H, (48 ≤ ch.val ∧ ch.val ≤ 57) ∨ (97 ≤ ch.val ∧ ch.val ≤ 102)) :
    hex_setw4 c = H := by
  match H, hlen with
  | [a0, a1, a2, a3], _ =>
    obtain ⟨d0, l0, e0, s0⟩ := lower_hex_digit a0 (hl a0 (by simp))
    obtain ⟨d1, l1, e1, s1⟩ := lower_hex_digit a1 (hl a1 (by simp))
    obtain ⟨d2, l2, e2, s2⟩ := lower_hex_digit a2 (hl a2 (by simp))
    obtain ⟨d3, l3, e3, s3⟩ := lower_hex_digit a3 (hl a3 (by simp))
    rw [s0, s1, s2, s3, specHexValue] at hv
    simp only [Option.some.injEq] at hv
    have q0 : c / 4096 = d0 := by omega
    have q1 : c / 256 % 16 = d1 := by omega
    have q2 : c / 16 % 16 = d2 := by omega
    have q3 : c % 16 = d3 := by omega
    rw [hex_setw4_eq c (by omega), q0, q1, q2, q3, e0, e1, e2, e3]

set_option maxRecDepth 100000 in
/-- C34, amended. Escape end to end. A codepoint `c` from `0x80` to `0xFFFF` written as
`\u` and four hexadecimal digits `H` parses to the String of its UTF-8 bytes, and `format`
of that String writes `\u` and the four digits of `c` in lower case: the output is the
input literal when the digits of `H` are `0`-`9` and `a`-`f`. A codepoint from `0x10000`
to `0x10FFFF` written as `\u{H}` parses to the String of its four UTF-8 bytes, and
`format` writes these four bytes between the quotes, each of them `0x80` or above, so no
escape at all. -/
theorem unicode_escape_end_to_end (H : Str) (c : Nat) (hv : specHexValue H 0 = some c) :
    (H.length = 4 → 0x80 ≤ c → c ≤ 0xFFFF →
      ∃ s, Value.parse ([34, 92, 117] ++ H ++ [34]) = .ok (.String s) ∧
        String_utf8 c = .ok s ∧
        (∀ indent indentLevel : Int, (Value.String s).format indent indentLevel =
          .ok ([34, 92, 117] ++ hex_setw4 c ++ [34])) ∧
        ((∀ ch ∈ H, (48 ≤ ch.val ∧ ch.val ≤ 57) ∨ (97 ≤ ch.val ∧ ch.val ≤ 102)) →
          hex_setw4 c = H)) ∧
    (H ≠ [] → 0x10000 ≤ c → c ≤ 0x10FFFF →
      ∃ s, Value.parse ([34, 92, 117, 123] ++ H ++ [125, 34]) = .ok (.String s) ∧
        String_utf8 c = .ok s ∧ s.length = 4 ∧ (∀ b ∈ s, 0x80 ≤ b.val) ∧
        (∀ indent indentLevel : Int, (Value.String s).format indent indentLevel =
          .ok (34 :: s ++ [34]))) := by
  constructor
  · intro hlen h1 h2
    obtain ⟨s, hs⟩ := String_utf8_ok c (by omega)
    have hp := ParsesTo_hex4 H c s [] [] hlen hv (by omega) hs ParsesTo_nil
    rw [List.append_nil, List.append_nil] at hp
    refine ⟨s, ?_, hs, ?_, hex_setw4_of_lower H c hlen hv⟩
    · have := Value_parse_string_of_ParsesTo _ s hp
      simpa using this
    · intro indent indentLevel
      rw [Value.format, String_format_utf8 c s h1 (by omega) hs, if_pos h2]
      simp
  · intro hne h1 h2
    obtain ⟨s, hs, _, _, hlen1, hhigh⟩ := specDecode_utf8 c h2 []
    obtain ⟨s2, hs2, hlay⟩ := String_utf8_layout c h2
    rw [hs] at hs2
    cases hs2
    have hp := ParsesTo_brace H c s [] [] hne hv h2 hs ParsesTo_nil
    rw [List.append_nil, List.append_nil] at hp
    refine ⟨s, ?_, hs, ?_, ?_, ?_⟩
    · have := Value_parse_string_of_ParsesTo _ s hp
      simpa using this
    · have := congrArg List.length hlay
      rw [List.length_map, if_neg (by omega), if_neg (by omega), if_neg (by omega)] at this
      exact this
    · intro b hb
      rcases hhigh b hb with h | h
      · omega
      · exact h
    · intro indent indentLevel
      rw [Value.format, String_format_utf8 c s (by omega) h2 hs, if_neg (by omega)]

set_option maxRecDepth 100000 in
/-- C34 at `"\u2620"`, which parses and formats back to the same text, and at
`"\u{1F60D}"`, which formats to the four raw bytes. -/
theorem unicode_escape_end_to_end_witness :
    specHexValue [50, 54, 50, 48] 0 = some 0x2620 ∧
    (∃ s, Value.parse ([34, 92, 117] ++ [50, 54, 50, 48] ++ [34]) = .ok (.String s) ∧
        String_utf8 0x2620 = .ok s ∧
        (∀ indent indentLevel : Int, (Value.String s).format indent indentLevel =
          .ok ([34, 92, 117] ++ hex_setw4 0x2620 ++ [34])) ∧
        ((∀ ch ∈ ([50, 54, 50, 48] : Str),
            (48 ≤ ch.val ∧ ch.val ≤ 57) ∨ (97 ≤ ch.val ∧ ch.val ≤ 102)) →
          hex_setw4 0x2620 = [50, 54, 50, 48])) ∧
    Value.parse [34, 92, 117, 50, 54, 50, 48, 34] = .ok (.String [0xE2, 0x98, 0xA0]) ∧
    (Value.String [0xE2, 0x98, 0xA0]).format (-1) 0 = .ok [34, 92, 117, 50, 54, 50, 48, 34] ∧
    Value.parse [34, 92, 117, 123, 49, 70, 54, 48, 68, 125, 34] =
      .ok (.String [0xF0, 0x9F, 0x98, 0x8D]) ∧
    (Value.String [0xF0, 0x9F, 0x98, 0x8D]).format (-1) 0 =
      .ok [34, 0xF0, 0x9F, 0x98, 0x8D, 34] :=
  ⟨by decide,
    (unicode_escape_end_to_end [50, 54, 50, 48] 0x2620 (by decide)).1 (by decide) (by decide)
      (by decide),
    by decide, by decide, by decide, by decide⟩

set_option maxRecDepth 100000 in
/-- C34 as stated fails on an escape with upper case digits, the `\u00A9` of the claim
among them: `"\u00A9"` parses to the String of U+00A9 and formats to `"\u00a9"`, which is
not the input literal. -/
theorem unicode_escape_lowercased :
    Value.parse [34, 92, 117, 48, 48, 65, 57, 34] = .ok (.String [0xC2, 0xA9]) ∧
    (Value.String [0xC2, 0xA9]).format (-1) 0 = .ok [34, 92, 117, 48, 48, 97, 57, 34] ∧
    ([34, 92, 117, 48, 48, 97, 57, 34] : Str) ≠ [34, 92, 117, 48, 48, 65, 57, 34] := by
  decide

/-! ## A value followed by more text -/

theorem parse_depth_format_string (s : Str) (indent indentLevel : Int) (text : Str)
    (depth : Nat) (out : Str) (offset : Nat) (rest : Str)
    (hf : (Value.String s).format indent indentLevel = .ok out)
    (hd : text.drop offset = out ++ rest) (hb : text.length - offset < depth) :
    Value.parse_depth depth text offset = .ok (.String s, offset + out.length) := by
  rw [Value.format] at hf
  obtain ⟨d, rfl⟩ : ∃ d, depth = d + 1 := ⟨depth - 1, by omega⟩
  obtain ⟨enc, hout, _⟩ := String_format_parses s out hf
  have hd' : text.drop offset = 34 :: ((enc ++ [34]) ++ rest) := by rw [hd, hout]; rfl
  rw [Value.parse_depth]
  simp only [skipWhitespace_none hd' (by decide), lt_length_of_drop hd', if_true,
    charAt_of_drop hd', String_parse_format s out hf hd]
  simp

theorem parse_depth_format_array (xs : List Value) (hwf : (Value.Array xs).WellFormed)
    (hnr : (Value.Array xs).NoReal) (indent indentLevel : Int) (text : Str)
    (depth : Nat) (out : Str) (offset : Nat) (rest : Str)
    (hf : (Value.Array xs).format indent indentLevel = .ok out)
    (hd : text.drop offset = out ++ rest) (hb : text.length - offset < depth) :
    Value.parse_depth depth text offset = .ok (.Array xs, offset + out.length) := by
  obtain ⟨d, rfl⟩ : ∃ d, depth = d + 1 := ⟨depth - 1, by omega⟩
  obtain ⟨linePfx, lastLinePfx, body, hind, hbody, hout⟩ :=
    Value_format_array xs indent indentLevel out hf
  obtain ⟨hsp1, hsp2⟩ := indentStrings_spaces indent indentLevel linePfx lastLinePfx hind
  have hLP := spaces_isspace linePfx hsp1
  have hLLP := spaces_isspace lastLinePfx hsp2
  have hLS := lineSuffix_space indent
  generalize hls : (if indent ≥ 0 then [10] else [] : Str) = lineSuffix at hbody hout hLS
  have hwf' := ((allNodes_array _ xs).mp hwf).2
  have hnr' := ((allNodes_array _ xs).mp hnr).2
  have hd' : text.drop offset = 91 :: (lineSuffix ++ (body ++ (lastLinePfx ++ 93 :: rest))) := by
    rw [hd, hout]; simp
  have hd1 : text.drop (offset + 1) = lineSuffix ++ (body ++ (lastLinePfx ++ 93 :: rest)) :=
    drop_succ_of_drop hd'
  have hlen := length_of_drop hd'
  simp only [List.length_append, List.length_cons] at hlen
  have e1 : ¬ ((91 : Byte) = 123) := by decide
  rw [Value.parse_depth]
  simp only [skipWhitespace_none hd' (by decide), lt_length_of_drop hd', if_true,
    charAt_of_drop hd', e1, if_false, Array_parse]
  have hloop : Array_parse_loop (Value.parse_depth d) text (text.length + 1) (offset + 1) [] =
      .ok (xs, offset + 1 + (lineSuffix ++ (body ++ lastLinePfx)).length) := by
    cases xs with
    | nil =>
      rw [Array_format_loop] at hbody
      cases hbody
      have hd2 : text.drop (offset + 1) = (lineSuffix ++ ([] ++ lastLinePfx)) ++ 93 :: rest := by
        rw [hd1]; simp
      exact Array_parse_loop_empty _ _ [] text.length
        (by intro a ha
            simp only [List.nil_append] at ha
            rcases List.mem_append.mp ha with h | h
            · exact hLS a h
            · exact hLLP a h) hd2
    | cons x xs' =>
      obtain ⟨value, more, hx, hmore, hb'⟩ :=
        Array_format_loop_cons x xs' indent indentLevel linePfx lineSuffix body hbody
      have hd2 : text.drop (offset + 1) = (lineSuffix ++ linePfx) ++ (value ++
          ((if xs'.isEmpty then [] else [44]) ++
          (lineSuffix ++ (more ++ (lastLinePfx ++ 93 :: rest))))) := by
        rw [hd1, hb']; simp
      have := Array_parse_loop_format (Value.parse_depth d) text indent indentLevel linePfx
        lineSuffix lastLinePfx d hLP hLS hLLP xs' x value more (lineSuffix ++ linePfx)
        (offset + 1) [] (text.length + 1) rest
        (fun y hy => ⟨RealsFinite_of_noReal _ (hnr' y hy),
          parse_depth_format y (hwf' y hy) (RealsExact_of_noReal _ (hnr' y hy)) indent
          (indentLevel + 1) text d⟩)
        hx hmore
        (by intro a ha
            rcases List.mem_append.mp ha with h | h
            · exact hLS a h
            · exact hLP a h)
        hd2 (by omega) (by omega)
      rw [this, hb']
      simp only [List.nil_append, List.append_assoc, List.length_append]
  have hd3 : text.drop (offset + 1 + (lineSuffix ++ (body ++ lastLinePfx)).length) =
      93 :: rest := by
    apply drop_add_of_drop (a := lineSuffix ++ (body ++ lastLinePfx))
    rw [hd1]; simp
  have hlen3 := length_of_drop hd3
  simp only [List.length_cons] at hlen3
  simp only [hloop, bind, Except.bind, YaJsonAssert, pure, Except.pure]
  have hle : offset + 1 + (lineSuffix ++ (body ++ lastLinePfx)).length + 1 ≤ text.length := by
    omega
  simp only [hle, decide_True, if_true, hout]
  simp only [List.length_append, List.length_cons, List.length_nil]
  congr 2
  omega

theorem parse_depth_format_object (m : Members) (hwf : (Value.Object m).WellFormed)
    (hnr : (Value.Object m).NoReal) (indent indentLevel : Int) (text : Str)
    (depth : Nat) (out : Str) (offset : Nat) (rest : Str)
    (hf : (Value.Object m).format indent indentLevel = .ok out)
    (hd : text.drop offset = out ++ rest) (hb : text.length - offset < depth) :
    Value.parse_depth depth text offset = .ok (.Object m, offset + out.length) := by
  obtain ⟨d, rfl⟩ : ∃ d, depth = d + 1 := ⟨depth - 1, by omega⟩
  obtain ⟨linePfx, lastLinePfx, body, hind, hbody, hout⟩ :=
    Value_format_object m indent indentLevel out hf
  obtain ⟨hsp1, hsp2⟩ := indentStrings_spaces indent indentLevel linePfx lastLinePfx hind
  have hLP := spaces_isspace linePfx hsp1
  have hLLP := spaces_isspace lastLinePfx hsp2
  have hLS := lineSuffix_space indent
  generalize hls : (if indent ≥ 0 then [10] else [] : Str) = lineSuffix at hbody hout hLS
  have hwf' := ((allNodes_object _ m).mp hwf).2
  have hasc : KeysAscending m := by
    have := ((allNodes_object _ m).mp hwf).1
    simpa [nodeWellFormed] using this
  have hnr' := ((allNodes_object _ m).mp hnr).2
  have hd' : text.drop offset = 123 :: (lineSuffix ++ (body ++ (lastLinePfx ++ 125 :: rest))) := by
    rw [hd, hout]; simp
  have hd1 : text.drop (offset + 1) = lineSuffix ++ (body ++ (lastLinePfx ++ 125 :: rest)) :=
    drop_succ_of_drop hd'
  have hlen := length_of_drop hd'
  simp only [List.length_append, List.length_cons] at hlen
  rw [Value.parse_depth]
  simp only [skipWhitespace_none hd' (by decide), lt_length_of_drop hd', if_true,
    charAt_of_drop hd', Object_parse]
  have hloop : Object_parse_loop (Value.parse_depth d) text (text.length + 1) (offset + 1) [] =
      .ok (m, offset + 1 + (lineSuffix ++ (body ++ lastLinePfx)).length) := by
    cases m with
    | nil =>
      rw [Object_format_loop] at hbody
      cases hbody
      have hd2 : text.drop (offset + 1) = (lineSuffix ++ ([] ++ lastLinePfx)) ++ 125 :: rest := by
        rw [hd1]; simp
      exact Object_parse_loop_empty _ _ [] text.length
        (by intro a ha
            simp only [List.nil_append] at ha
            rcases List.mem_append.mp ha with h | h
            · exact hLS a h
            · exact hLLP a h) hd2
    | cons q m' =>
      obtain ⟨key, x⟩ := q
      obtain ⟨keyStr, value, more, hk, hx, hmore, hb'⟩ :=
        Object_format_loop_cons key x m' indent indentLevel linePfx lineSuffix body hbody
      have hd2 : text.drop (offset + 1) = (lineSuffix ++ linePfx) ++ (keyStr ++ (58 :: (value ++
          ((if m'.isEmpty then [] else [44]) ++
          (lineSuffix ++ (more ++ (lastLinePfx ++ 125 :: rest))))))) := by
        rw [hd1, hb']; simp
      have := Object_parse_loop_format (Value.parse_depth d) text indent indentLevel linePfx
        lineSuffix lastLinePfx d hLP hLS hLLP m' key x keyStr value more (lineSuffix ++ linePfx)
        (offset + 1) [] (text.length + 1) rest
        (fun y hy => ⟨RealsFinite_of_noReal _ (hnr' y hy),
          parse_depth_format y.2 (hwf' y hy) (RealsExact_of_noReal _ (hnr' y hy)) indent
          (indentLevel + 1) text d⟩)
        (by simpa using hasc) hk hx hmore
        (by intro a ha
            rcases List.mem_append.mp ha with h | h
            · exact hLS a h
            · exact hLP a h)
        hd2 (by omega) (by omega)
      rw [this, hb']
      simp only [List.nil_append, List.append_assoc, List.length_append, List.cons_append,
        List.length_cons]
  have hd3 : text.drop (offset + 1 + (lineSuffix ++ (body ++ lastLinePfx)).length) =
      125 :: rest := by
    apply drop_add_of_drop (a := lineSuffix ++ (body ++ lastLinePfx))
    rw [hd1]; simp
  have hlen3 := length_of_drop hd3
  simp only [List.length_cons] at hlen3
  simp only [hloop, bind, Except.bind, YaJsonAssert, pure, Except.pure]
  have hle : offset + 1 + (lineSuffix ++ (body ++ lastLinePfx)).length + 1 ≤ text.length := by
    omega
  simp only [hle, decide_True, if_true, hout]
  simp only [List.length_append, List.length_cons, List.length_nil]
  congr 2
  omega

/-- C37. Parsing one value out of a larger stream: for every Array, Object or String `v`
that holds no Real and whose strings and keys are valid UTF-8, every indent and every
suffix `s`, the text `format(v, indent)` followed by `s` parses with the cursor at 0 to
`v` itself, and the cursor written back is the length of `format(v, indent)`: the suffix
is neither read nor an error. `WellFormed` says what the C++ types guarantee (Integers
are `int64_t`, the members of an Object are in the key order of `std::map`). -/
theorem parse_value_from_stream (v : Value) (indent : Int) (s : Str)
    (hk : v.getType = .Array ∨ v.getType = .Object ∨ v.getType = .String)
    (hwf : v.WellFormed) (hnr : v.NoReal) (hutf : v.ValidUtf8) :
    ∃ text, v.format indent 0 = .ok text ∧
      Value.parse_at (text ++ s) 0 = .ok (v, text.length) := by
  obtain ⟨text, ht⟩ := format_ok v hutf indent 0 (by omega)
  refine ⟨text, ht, ?_⟩
  have hd : (text ++ s).drop 0 = text ++ s := rfl
  unfold Value.parse_at
  cases v with
  | String x =>
    have := parse_depth_format_string x indent 0 (text ++ s) ((text ++ s).length + 1) text 0 s
      ht hd (by omega)
    simpa using this
  | Array xs =>
    have := parse_depth_format_array xs hwf hnr indent 0 (text ++ s) ((text ++ s).length + 1)
      text 0 s ht hd (by omega)
    simpa using this
  | Object m =>
    have := parse_depth_format_object m hwf hnr indent 0 (text ++ s) ((text ++ s).length + 1)
      text 0 s ht hd (by omega)
    simpa using this
  | Null => simp [Value.getType] at hk
  | Boolean b => simp [Value.getType] at hk
  | Integer i => simp [Value.getType] at hk
  | Real r => simp [Value.getType] at hk

set_option maxRecDepth 100000 in
/-- C37 at the sample document with indent 4, followed by `,[1]`; and at an Integer, to
which the claim does not extend: `12` followed by `3` reads on as `123`. -/
theorem parse_value_from_stream_witness :
    (sampleValue.getType = .Array ∨ sampleValue.getType = .Object ∨
      sampleValue.getType = .String) ∧
    sampleValue.WellFormed ∧ sampleValue.NoReal ∧ sampleValue.ValidUtf8 ∧
    (∃ text, sampleValue.format 4 0 = .ok text ∧
      Value.parse_at (text ++ [44, 91, 49, 93]) 0 = .ok (sampleValue, text.length)) ∧
    Value.parse_at ([34, 97, 34] ++ [34, 98, 34]) 0 = .ok (.String [97], 3) ∧
    Value.parse_at ([49, 50] ++ [51]) 0 = .ok (.Integer 123, 3) :=
  ⟨by decide, by decide, by decide, by decide,
    parse_value_from_stream sampleValue 4 [44, 91, 49, 93] (by decide) (by decide) (by decide)
      (by decide),
    by decide, by decide⟩

/-! ## Commas and closing brackets -/

theorem skipWhitespace_ge (text : Str) (offset : Nat) :
    offset ≤ Value.skipWhitespace text offset := by
  unfold Value.skipWhitespace
  generalize text.length - offset = fuel
  induction fuel generalizing offset with
  | zero => simp [skipWhitespace_loop]
  | succ f ih =>
    rw [skipWhitespace_loop]
    split
    · exact Nat.le_trans (Nat.le_succ _) (ih (offset + 1))
    · exact Nat.le_refl _

/-- After an element and a comma, white space and `]` end the loop of `Array::parse`
with the elements read so far: the comma needs no element after it. -/
theorem Array_parse_loop_trailing_comma (parse : Str → Nat → Except Err (Value × Nat))
    (text : Str) (fuel offset o2 : Nat) (result : List Value) (v : Value) (w rest : Str)
    (h1 : offset < text.length) (h2 : charAt text offset ≠ 93)
    (h3 : charAt text (Value.skipWhitespace text offset) ≠ 93)
    (hv : parse text (Value.skipWhitespace text offset) = .ok (v, o2))
    (hd : text.drop o2 = 44 :: (w ++ 93 :: rest)) (hw : ∀ c ∈ w, isspace c = true) :
    Array_parse_loop parse text (fuel + 2) offset result =
      .ok (result ++ [v], o2 + 1 + w.length) := by
  have hs2 : Value.skipWhitespace text o2 = o2 := skipWhitespace_none hd (by decide)
  have hd1 : text.drop (o2 + 1) = w ++ 93 :: rest := drop_succ_of_drop hd
  have hs3 : Value.skipWhitespace text (o2 + 1) = o2 + 1 + w.length :=
    skipWhitespace_eq w (93 :: rest) hd1 hw (by intro c t e; cases e; decide)
  have hd2 : text.drop (o2 + 1 + w.length) = 93 :: rest := drop_add_of_drop hd1
  rw [Array_parse_loop]
  simp only [h1, h2, ne_eq, not_false_eq_true, decide_True, Bool.and_self, if_true, h3, if_false,
    hv, hs2, charAt_of_drop hd, Bool.true_or, hs3, Array_append]
  rw [Array_parse_loop_end parse _ fuel hd2]

/-- After a member and a comma, white space and `}` end the loop of `Object::parse`. -/
theorem Object_parse_loop_trailing_comma (parse : Str → Nat → Except Err (Value × Nat))
    (text : Str) (fuel offset o1 o2 : Nat) (result : Members) (key : Str) (v : Value)
    (w rest : Str)
    (h1 : offset < text.length) (h2 : charAt text offset ≠ 125)
    (h3 : Value.skipWhitespace text offset < text.length)
    (h4 : charAt text (Value.skipWhitespace text offset) = 34)
    (hk : String_parse text (Value.skipWhitespace text offset) = .ok (key, o1))
    (h5 : Value.skipWhitespace text o1 < text.length)
    (h6 : charAt text (Value.skipWhitespace text o1) = 58)
    (hv : parse text (Value.skipWhitespace text o1 + 1) = .ok (v, o2))
    (hd : text.drop o2 = 44 :: (w ++ 125 :: rest)) (hw : ∀ c ∈ w, isspace c = true) :
    Object_parse_loop parse text (fuel + 2) offset result =
      .ok (Object_set result key v, o2 + 1 + w.length) := by
  have hs2 : Value.skipWhitespace text o2 = o2 := skipWhitespace_none hd (by decide)
  have hd1 : text.drop (o2 + 1) = w ++ 125 :: rest := drop_succ_of_drop hd
  have hs3 : Value.skipWhitespace text (o2 + 1) = o2 + 1 + w.length :=
    skipWhitespace_eq w (125 :: rest) hd1 hw (by intro c t e; cases e; decide)
  have hd2 : text.drop (o2 + 1 + w.length) = 125 :: rest := drop_add_of_drop hd1
  have e34 : ¬ ((34 : Byte) = 125) := by decide
  rw [Object_parse_loop]
  simp only [h1, h2, ne_eq, not_false_eq_true, decide_True, Bool.and_self, if_true, h3, h4, e34,
    if_false, hk, h5, h6, hv, hs2, charAt_of_drop hd, Bool.true_or, hs3]
  rw [Object_parse_loop_end parse _ fuel hd2]

set_option maxRecDepth 100000 in
/-- C33 does not hold of the code: a comma directly before the closing bracket is
accepted. `[1,]` and `[1, ]` parse to the Array of 1 and `{"a":1,}` to the Object with the
one member `a`; in general the loops of `Array::parse` and `Object::parse` end without an
error at a closing bracket that follows a comma and white space. A comma that something
other than an element or the closing bracket follows is an error, as in `[1,,2]` and
`[,1]`. -/
theorem trailing_comma_accepted :
    Value.parse [91, 49, 44, 93] = .ok (.Array [.Integer 1]) ∧
    Value.parse [91, 49, 44, 32, 93] = .ok (.Array [.Integer 1]) ∧
    Value.parse [123, 34, 97, 34, 58, 49, 44, 125] = .ok (.Object [([97], .Integer 1)]) ∧
    Value.parse [91, 49, 44, 44, 50, 93] = .error .invalid_argument ∧
    Value.parse [91, 44, 49, 93] = .error .invalid_argument ∧
    (∀ (parse : Str → Nat → Except Err (Value × Nat)) (text : Str) (fuel offset o2 : Nat)
      (result : List Value) (v : Value) (w rest : Str),
      offset < text.length → charAt text offset ≠ 93 →
      charAt text (Value.skipWhitespace text offset) ≠ 93 →
      parse text (Value.skipWhitespace text offset) = .ok (v, o2) →
      text.drop o2 = 44 :: (w ++ 93 :: rest) → (∀ c ∈ w, isspace c = true) →
      Array_parse_loop parse text (fuel + 2) offset result =
        .ok (result ++ [v], o2 + 1 + w.length)) ∧
    (∀ (parse : Str → Nat → Except Err (Value × Nat)) (text : Str) (fuel offset o1 o2 : Nat)
      (result : Members) (key : Str) (v : Value) (w rest : Str),
      offset < text.length → charAt text offset ≠ 125 →
      Value.skipWhitespace text offset < text.length →
      charAt text (Value.skipWhitespace text offset) = 34 →
      String_parse text (Value.skipWhitespace text offset) = .ok (key, o1) →
      Value.skipWhitespace text o1 < text.length →
      charAt text (Value.skipWhitespace text o1) = 58 →
      parse text (Value.skipWhitespace text o1 + 1) = .ok (v, o2) →
      text.drop o2 = 44 :: (w ++ 125 :: rest) → (∀ c ∈ w, isspace c = true) →
      Object_parse_loop parse text (fuel + 2) offset result =
        .ok (Object_set result key v, o2 + 1 + w.length)) :=
  ⟨by decide, by decide, by decide, by decide, by decide,
    fun parse text fuel offset o2 result v w rest h1 h2 h3 hv hd hw =>
      Array_parse_loop_trailing_comma parse text fuel offset o2 result v w rest h1 h2 h3 hv hd hw,
    fun parse text fuel offset o1 o2 result key v w rest h1 h2 h3 h4 hk h5 h6 hv hd hw =>
      Object_parse_loop_trailing_comma parse text fuel offset o1 o2 result key v w rest
        h1 h2 h3 h4 hk h5 h6 hv hd hw⟩

/-! ## Structural strictness -/

theorem Array_parse_loop_separator (parse : Str → Nat → Except Err (Value × Nat))
    (text : Str) (fuel offset o2 : Nat) (result : List Value) (v : Value)
    (h1 : offset < text.length) (h2 : charAt text offset ≠ 93)
    (h3 : charAt text (Value.skipWhitespace text offset) ≠ 93)
    (hv : parse text (Value.skipWhitespace text offset) = .ok (v, o2))
    (hc : charAt text (Value.skipWhitespace text o2) ≠ 44)
    (hb : charAt text (Value.skipWhitespace text o2) ≠ 93) :
    Array_parse_loop parse text (fuel + 1) offset result = .error .invalid_argument := by
  rw [Array_parse_loop]
  simp only [h1, h2, ne_eq, not_false_eq_true, decide_True, Bool.and_self, if_true, h3, if_false,
    hv, hc, hb, decide_False, Bool.or_self, Bool.false_eq_true]

theorem Array_parse_loop_element_error (parse : Str → Nat → Except Err (Value × Nat))
    (text : Str) (fuel offset : Nat) (result : List Value) (e : Err)
    (h1 : offset < text.length) (h2 : charAt text offset ≠ 93)
    (h3 : charAt text (Value.skipWhitespace text offset) ≠ 93)
    (hv : parse text (Value.skipWhitespace text offset) = .error e) :
    Array_parse_loop parse text (fuel + 1) offset result = .error e := by
  rw [Array_parse_loop]
  simp only [h1, h2, ne_eq, not_false_eq_true, decide_True, Bool.and_self, if_true, h3, if_false,
    hv]

theorem Object_parse_loop_key_quote (parse : Str → Nat → Except Err (Value × Nat))
    (text : Str) (fuel offset : Nat) (result : Members)
    (h1 : offset < text.length) (h2 : charAt text offset ≠ 125)
    (h4 : charAt text (Value.skipWhitespace text offset) ≠ 125)
    (h5 : charAt text (Value.skipWhitespace text offset) ≠ 34) :
    Object_parse_loop parse text (fuel + 1) offset result = .error .invalid_argument := by
  rw [Object_parse_loop]
  simp only [h1, h2, ne_eq, not_false_eq_true, decide_True, Bool.and_self, if_true, h4, h5,
    if_false]
  split <;> rfl

theorem Object_parse_loop_colon (parse : Str → Nat → Except Err (Value × Nat))
    (text : Str) (fuel offset o1 : Nat) (result : Members) (key : Str)
    (h1 : offset < text.length) (h2 : charAt text offset ≠ 125)
    (h4 : charAt text (Value.skipWhitespace text offset) = 34)
    (hk : String_parse text (Value.skipWhitespace text offset) = .ok (key, o1))
    (h6 : charAt text (Value.skipWhitespace text o1) ≠ 58) :
    Object_parse_loop parse text (fuel + 1) offset result = .error .invalid_argument := by
  have h3 : Value.skipWhitespace text offset < text.length :=
    lt_length_of_charAt_ne_zero text _ (by rw [h4]; decide)
  have e34 : ¬ ((34 : Byte) = 125) := by decide
  rw [Object_parse_loop]
  simp only [h1, h2, ne_eq, not_false_eq_true, decide_True, Bool.and_self, if_true, h3, h4, e34,
    if_false, hk, h6]
  split <;> rfl

theorem Object_parse_loop_separator (parse : Str → Nat → Except Err (Value × Nat))
    (text : Str) (fuel offset o1 o2 : Nat) (result : Members) (key : Str) (v : Value)
    (h1 : offset < text.length) (h2 : charAt text offset ≠ 125)
    (h4 : charAt text (Value.skipWhitespace text offset) = 34)
    (hk : String_parse text (Value.skipWhitespace text offset) = .ok (key, o1))
    (h6 : charAt text (Value.skipWhitespace text o1) = 58)
    (hv : parse text (Value.skipWhitespace text o1 + 1) = .ok (v, o2))
    (hc : charAt text (Value.skipWhitespace text o2) ≠ 44)
    (hb : charAt text (Value.skipWhitespace text o2) ≠ 125) :
    Object_parse_loop parse text (fuel + 1) offset result = .error .invalid_argument := by
  have h3 : Value.skipWhitespace text offset < text.length :=
    lt_length_of_charAt_ne_zero text _ (by rw [h4]; decide)
  have h5 : Value.skipWhitespace text o1 < text.length :=
    lt_length_of_charAt_ne_zero text _ (by rw [h6]; decide)
  have e34 : ¬ ((34 : Byte) = 125) := by decide
  rw [Object_parse_loop]
  simp only [h1, h2, ne_eq, not_false_eq_true, decide_True, Bool.and_self, if_true, h3, h4, e34,
    if_false, hk, h5, h6, hv, hc, hb, decide_False, Bool.or_self, Bool.false_eq_true]

/-- The loop of `Array::parse` ends at a `]` or at the end of the text. -/
theorem Array_parse_loop_stop (parse : Str → Nat → Except Err (Value × Nat)) (text : Str) :
    ∀ (fuel offset : Nat) (result xs : List Value) (o : Nat),
      Array_parse_loop parse text fuel offset result = .ok (xs, o) →
      text.length ≤ o ∨ charAt text o = 93
  | 0, _, _, _, _, h => by simp [Array_parse_loop] at h
  | fuel + 1, offset, result, xs, o, h => by
    rw [Array_parse_loop] at h
    simp only at h
    split_ifs at h with h1 h2
    · simp only [Except.ok.injEq, Prod.mk.injEq] at h
      rw [← h.2]
      exact Or.inr h2
    · cases hv : parse text (Value.skipWhitespace text offset) with
      | error e => simp [hv] at h
      | ok p =>
        obtain ⟨v, o2⟩ := p
        simp only [hv] at h
        split_ifs at h <;> exact Array_parse_loop_stop parse text fuel _ _ xs o h
    · simp only [Except.ok.injEq, Prod.mk.injEq] at h
      rw [← h.2]
      simp only [Bool.and_eq_true, decide_eq_true_eq, ne_eq, decide_not, Bool.not_eq_true',
        decide_eq_false_iff_not, not_and, not_not] at h1
      by_cases hl : offset < text.length
      · exact Or.inr (h1 hl)
      · exact Or.inl (by omega)

/-- The loop of `Object::parse` ends at a `}` or at the end of the text. -/
theorem Object_parse_loop_stop (parse : Str → Nat → Except Err (Value × Nat)) (text : Str) :
    ∀ (fuel offset : Nat) (result m : Members) (o : Nat),
      Object_parse_loop parse text fuel offset result = .ok (m, o) →
      text.length ≤ o ∨ charAt text o = 125
  | 0, _, _, _, _, h => by simp [Object_parse_loop] at h
  | fuel + 1, offset, result, m, o, h => by
    rw [Object_parse_loop] at h
    simp only at h
    split_ifs at h with h1 h2 h3 h4
    · simp only [Except.ok.injEq, Prod.mk.injEq] at h
      rw [← h.2]
      exact Or.inr h3
    · cases hk : String_parse text (Value.skipWhitespace text offset) with
      | error e => simp [hk] at h
      | ok p =>
        obtain ⟨key, o1⟩ := p
        simp only [hk] at h
        split_ifs at h with h5 h6
        cases hv : parse text (Value.skipWhitespace text o1 + 1) with
        | error e => simp [hv] at h
        | ok p =>
          obtain ⟨v, o2⟩ := p
          simp only [hv] at h
          split_ifs at h <;> exact Object_parse_loop_stop parse text fuel _ _ m o h
    · simp only [Except.ok.injEq, Prod.mk.injEq] at h
      rw [← h.2]
      simp only [Bool.and_eq_true, decide_eq_true_eq, ne_eq, decide_not, Bool.not_eq_true',
        decide_eq_false_iff_not, not_and, not_not] at h1
      by_cases hl : offset < text.length
      · exact Or.inr (h1 hl)
      · exact Or.inl (by omega)

theorem Array_parse_closed (parse : Str → Nat → Except Err (Value × Nat)) (text : Str)
    (offset : Nat) (xs : List Value) (q : Nat)
    (h : Array_parse parse text offset = .ok (xs, q)) :
    0 < q ∧ q ≤ text.length ∧ charAt text (q - 1) = 93 := by
  unfold Array_parse at h
  cases hl : Array_parse_loop parse text (text.length + 1) (offset + 1) [] with
  | error e => simp [hl, bind, Except.bind] at h
  | ok p =>
    obtain ⟨r, o⟩ := p
    simp only [hl, bind, Except.bind, YaJsonAssert, pure, Except.pure] at h
    split_ifs at h with hle
    simp only [Except.ok.injEq, Prod.mk.injEq] at h
    simp only [decide_eq_true_eq] at hle
    rcases Array_parse_loop_stop parse text _ _ _ r o hl with hs | hs
    · omega
    · rw [← h.2]
      exact ⟨by omega, hle, by simpa using hs⟩

theorem Object_parse_closed (parse : Str → Nat → Except Err (Value × Nat)) (text : Str)
    (offset : Nat) (m : Members) (q : Nat)
    (h : Object_parse parse text offset = .ok (m, q)) :
    0 < q ∧ q ≤ text.length ∧ charAt text (q - 1) = 125 := by
  unfold Object_parse at h
  cases hl : Object_parse_loop parse text (text.length + 1) (offset + 1) [] with
  | error e => simp [hl, bind, Except.bind] at h
  | ok p =>
    obtain ⟨r, o⟩ := p
    simp only [hl, bind, Except.bind, YaJsonAssert, pure, Except.pure] at h
    split_ifs at h with hle
    simp only [Except.ok.injEq, Prod.mk.injEq] at h
    simp only [decide_eq_true_eq] at hle
    rcases Object_parse_loop_stop parse text _ _ _ r o hl with hs | hs
    · omega
    · rw [← h.2]
      exact ⟨by omega, hle, by simpa using hs⟩

theorem String_parse_closed (text : Str) (offset : Nat) (s : Str) (q : Nat)
    (h : String_parse text offset = .ok (s, q)) :
    0 < q ∧ q ≤ text.length ∧ charAt text (q - 1) = 34 := by
  unfold String_parse at h
  cases hl : String_parse_loop text (text.length + 1) (offset + 1) [] with
  | error e => simp [hl, bind, Except.bind] at h
  | ok p =>
    obtain ⟨o, r⟩ := p
    simp only [hl, bind, Except.bind, YaJsonAssert, pure, Except.pure] at h
    split_ifs at h with h1 h2
    simp only [Except.ok.injEq, Prod.mk.injEq] at h
    simp only [decide_eq_true_eq] at h1 h2
    rw [← h.2]
    exact ⟨by omega, by omega, by simpa using h2⟩

theorem parse_depth_array_error (d : Nat) (text : Str) (p : Nat) (e : Err)
    (h1 : Value.skipWhitespace text p < text.length)
    (h2 : charAt text (Value.skipWhitespace text p) = 91)
    (h : Array_parse_loop (Value.parse_depth d) text (text.length + 1)
      (Value.skipWhitespace text p + 1) [] = .error e) :
    Value.parse_depth (d + 1) text p = .error e := by
  have n : ¬ ((91 : Byte) = 123) := by decide
  rw [Value.parse_depth]
  simp only [h1, if_true, h2, n, if_false, Array_parse, h, bind, Except.bind]

theorem parse_depth_object_error (d : Nat) (text : Str) (p : Nat) (e : Err)
    (h1 : Value.skipWhitespace text p < text.length)
    (h2 : charAt text (Value.skipWhitespace text p) = 123)
    (h : Object_parse_loop (Value.parse_depth d) text (text.length + 1)
      (Value.skipWhitespace text p + 1) [] = .error e) :
    Value.parse_depth (d + 1) text p = .error e := by
  rw [Value.parse_depth]
  simp only [h1, if_true, h2, Object_parse, h, bind, Except.bind]

theorem String_parse_loop_end_of_text (text : Str) (fuel offset : Nat) (result : Str)
    (h : text.length ≤ offset) :
    String_parse_loop text (fuel + 1) offset result = .error .invalid_argument := by
  rw [String_parse_loop, if_neg (by omega)]

theorem String_parse_loop_cut (text : Str) (fuel offset o : Nat) (result r : Str)
    (h1 : offset < text.length)
    (hs : String_parse_switch text offset result = .ok (o, r)) (h : text.length ≤ o) :
    String_parse_loop text (fuel + 1) offset result = .error .invalid_argument := by
  rw [String_parse_loop, if_pos h1]
  simp only [hs]
  rw [if_neg (by omega)]

set_option maxRecDepth 100000 in
/-- C36. Structural strictness. In the loop of `Array::parse`, when after an element and
white space the next character is neither `,` nor `]`, the loop throws
`std::invalid_argument`; likewise in `Object::parse` for `,` and `}`, for a key that does
not start with a double quote and for a key that `:` does not follow after white space.
The end of the input is the character `'\0'` there, so these cover a text that ends
after an element, a key or a member. An Array, an Object or a String is only returned
after its closing `]`, `}` or `"` was read inside the text, so the parse fails whenever
the input ends before it; the loop of `String::parse` throws `std::invalid_argument` at
the end of the text. An error of these loops is the error of `Value::parse`. -/
theorem structural_strictness :
    (∀ (parse : Str → Nat → Except Err (Value × Nat)) (text : Str) (fuel offset o2 : Nat)
      (result : List Value) (v : Value),
      offset < text.length → charAt text offset ≠ 93 →
      charAt text (Value.skipWhitespace text offset) ≠ 93 →
      parse text (Value.skipWhitespace text offset) = .ok (v, o2) →
      charAt text (Value.skipWhitespace text o2) ≠ 44 →
      charAt text (Value.skipWhitespace text o2) ≠ 93 →
      Array_parse_loop parse text (fuel + 1) offset result = .error .invalid_argument) ∧
    (∀ (parse : Str → Nat → Except Err (Value × Nat)) (text : Str) (fuel offset o1 o2 : Nat)
      (result : Members) (key : Str) (v : Value),
      offset < text.length → charAt text offset ≠ 125 →
      charAt text (Value.skipWhitespace text offset) = 34 →
      String_parse text (Value.skipWhitespace text offset) = .ok (key, o1) →
      charAt text (Value.skipWhitespace text o1) = 58 →
      parse text (Value.skipWhitespace text o1 + 1) = .ok (v, o2) →
      charAt text (Value.skipWhitespace text o2) ≠ 44 →
      charAt text (Value.skipWhitespace text o2) ≠ 125 →
      Object_parse_loop parse text (fuel + 1) offset result = .error .invalid_argument) ∧
    (∀ (parse : Str → Nat → Except Err (Value × Nat)) (text : Str) (fuel offset : Nat)
      (result : Members),
      offset < text.length → charAt text offset ≠ 125 →
      charAt text (Value.skipWhitespace text offset) ≠ 125 →
      charAt text (Value.skipWhitespace text offset) ≠ 34 →
      Object_parse_loop parse text (fuel + 1) offset result = .error .invalid_argument) ∧
    (∀ (parse : Str → Nat → Except Err (Value × Nat)) (text : Str) (fuel offset o1 : Nat)
      (result : Members) (key : Str),
      offset < text.length → charAt text offset ≠ 125 →
      charAt text (Value.skipWhitespace text offset) = 34 →
      String_parse text (Value.skipWhitespace text offset) = .ok (key, o1) →
      charAt text (Value.skipWhitespace text o1) ≠ 58 →
      Object_parse_loop parse text (fuel + 1) offset result = .error .invalid_argument) ∧
    (∀ (parse : Str → Nat → Except Err (Value × Nat)) (text : Str) (offset : Nat)
      (xs : List Value) (q : Nat), Array_parse parse text offset = .ok (xs, q) →
      0 < q ∧ q ≤ text.length ∧ charAt text (q - 1) = 93) ∧
    (∀ (parse : Str → Nat → Except Err (Value × Nat)) (text : Str) (offset : Nat)
      (m : Members) (q : Nat), Object_parse parse text offset = .ok (m, q) →
      0 < q ∧ q ≤ text.length ∧ charAt text (q - 1) = 125) ∧
    (∀ (text : Str) (offset : Nat) (s : Str) (q : Nat),
      String_parse text offset = .ok (s, q) →
      0 < q ∧ q ≤ text.length ∧ charAt text (q - 1) = 34) ∧
    (∀ (text : Str) (fuel offset : Nat) (result : Str), text.length ≤ offset →
      String_parse_loop text (fuel + 1) offset result = .error .invalid_argument) ∧
    (∀ (text : Str) (fuel offset o : Nat) (result r : Str), offset < text.length →
      String_parse_switch text offset result = .ok (o, r) → text.length ≤ o →
      String_parse_loop text (fuel + 1) offset result = .error .invalid_argument) ∧
    (∀ (d : Nat) (text : Str) (p : Nat) (e : Err),
      Value.skipWhitespace text p < text.length →
      charAt text (Value.skipWhitespace text p) = 91 →
      Array_parse_loop (Value.parse_depth d) text (text.length + 1)
        (Value.skipWhitespace text p + 1) [] = .error e →
      Value.parse_depth (d + 1) text p = .error e) ∧
    (∀ (d : Nat) (text : Str) (p : Nat) (e : Err),
      Value.skipWhitespace text p < text.length →
      charAt text (Value.skipWhitespace text p) = 123 →
      Object_parse_loop (Value.parse_depth d) text (text.length + 1)
        (Value.skipWhitespace text p + 1) [] = .error e →
      Value.parse_depth (d + 1) text p = .error e) ∧
    (∀ (parse : Str → Nat → Except Err (Value × Nat)) (text : Str) (fuel offset : Nat)
      (result : List Value) (e : Err),
      offset < text.length → charAt text offset ≠ 93 →
      charAt text (Value.skipWhitespace text offset) ≠ 93 →
      parse text (Value.skipWhitespace text offset) = .error e →
      Array_parse_loop parse text (fuel + 1) offset result = .error e) ∧
    Value.parse [91, 49, 32, 50, 93] = .error .invalid_argument ∧
    Value.parse [91, 49, 125] = .error .invalid_argument ∧
    Value.parse [123, 34, 97, 34, 58, 49, 93] = .error .invalid_argument ∧
    Value.parse [123, 97, 58, 49, 125] = .error .invalid_argument ∧
    Value.parse [123, 34, 97, 34, 32, 49, 125] = .error .invalid_argument ∧
    Value.parse [123, 34, 97, 34, 58, 49] = .error .invalid_argument ∧
    Value.parse [91, 49] = .error .invalid_argument ∧
    Value.parse [91] = .error .invalid_argument ∧
    Value.parse [34, 97, 98, 99] = .error .invalid_argument ∧
    Value.parse [91, 49, 44] = .error .invalid_argument ∧
    Value.parse [123] = .error .invalid_argument ∧
    Value.parse [91, 91, 49, 93] = .error .invalid_argument ∧
    Value.parse [123, 34, 97, 34, 58, 91, 49, 32, 50, 93, 125] = .error .invalid_argument :=
  ⟨Array_parse_loop_separator, Object_parse_loop_separator, Object_parse_loop_key_quote,
    Object_parse_loop_colon, Array_parse_closed, Object_parse_closed, String_parse_closed,
    String_parse_loop_end_of_text, String_parse_loop_cut, parse_depth_array_error,
    parse_depth_object_error, Array_parse_loop_element_error,
    by decide⟩

/-! ## Progress of the parser -/

theorem stol16_ne_fuel (s : Str) : stol16 s ≠ .error .fuel := by
  unfold stol16
  simp only
  split_ifs <;> simp

theorem String_utf8_ne_fuel (c : Nat) : String_utf8 c ≠ .error .fuel := by
  unfold String_utf8
  split_ifs <;> simp

theorem ok_ne_error {α : Type} (a : α) (e : Err) : (Except.ok a : Except Err α) ≠ .error e :=
  fun h => by cases h

theorem error_ne_fuel {α β : Type} (e : Err)
    (h : (Except.error e : Except Err α) ≠ .error .fuel) :
    (Except.error e : Except Err β) ≠ .error .fuel :=
  fun h2 => h (by cases h2; rfl)

/-- `String::_parseEscapedUnicode` moves the cursor forward and does not run out of
fuel. -/
theorem String_parseEscapedUnicode_progress (text : Str) (offset : Nat) (result : Str) :
    String_parseEscapedUnicode text offset result ≠ .error .fuel ∧
    ∀ o r, String_parseEscapedUnicode text offset result = .ok (o, r) → offset + 2 ≤ o := by
  have hinv : (Except.error Err.invalid_argument : Except Err (Nat × Str)) ≠ .error .fuel :=
    fun h => by cases h
  unfold String_parseEscapedUnicode
  by_cases hb : charAt text (offset + 1) = 123
  · rw [if_pos hb]
    cases hf : findCloseBrace text (offset + 2) with
    | none => exact ⟨hinv, fun o r h => by cases h⟩
    | some stop =>
      simp only
      cases hst : stol16 (substr text (offset + 2) (stop - offset - 2)) with
      | error e =>
        have := stol16_ne_fuel (substr text (offset + 2) (stop - offset - 2))
        rw [hst] at this
        simp only [bind, Except.bind, YaJsonAssert]
        constructor
        · split_ifs <;> first | exact error_ne_fuel e this | exact hinv
        · intro o r h
          split_ifs at h
      | ok vc =>
        obtain ⟨value, count⟩ := vc
        cases hu : String_utf8 (value % 18446744073709551616).toNat with
        | error e =>
          have := String_utf8_ne_fuel (value % 18446744073709551616).toNat
          rw [hu] at this
          simp only [bind, Except.bind, YaJsonAssert, hu]
          constructor
          · split_ifs <;> first | exact error_ne_fuel e this | exact hinv
          · intro o r h
            split_ifs at h
        | ok bytes =>
          simp only [bind, Except.bind, YaJsonAssert, hu, pure, Except.pure]
          constructor
          · split_ifs <;> first | exact error_ne_fuel e this | exact hinv | exact ok_ne_error _ _
          · intro o r h
            split_ifs at h
            simp only [Except.ok.injEq, Prod.mk.injEq] at h
            omega
  · rw [if_neg hb]
    cases hst : stol16 (substr text (offset + 1) 4) with
    | error e =>
      have := stol16_ne_fuel (substr text (offset + 1) 4)
      rw [hst] at this
      simp only [bind, Except.bind]
      exact ⟨error_ne_fuel e this, fun o r h => by cases h⟩
    | ok vc =>
      obtain ⟨value, count⟩ := vc
      cases hu : String_utf8 (value % 18446744073709551616).toNat with
      | error e =>
        have := String_utf8_ne_fuel (value % 18446744073709551616).toNat
        rw [hu] at this
        simp only [bind, Except.bind, YaJsonAssert, hu]
        constructor
        · split_ifs <;> first | exact error_ne_fuel e this | exact hinv
        · intro o r h
          split_ifs at h
      | ok bytes =>
        simp only [bind, Except.bind, YaJsonAssert, hu, pure, Except.pure]
        constructor
        · split_ifs <;> first | exact error_ne_fuel e this | exact hinv | exact ok_ne_error _ _
        · intro o r h
          split_ifs at h
          simp only [Except.ok.injEq, Prod.mk.injEq] at h
          omega

theorem String_parseEscaped_progress (text : Str) (offset : Nat) (result : Str) :
    String_parseEscaped text offset result ≠ .error .fuel ∧
    ∀ o r, String_parseEscaped text offset result = .ok (o, r) → offset + 2 ≤ o := by
  obtain ⟨u1, u2⟩ := String_parseEscapedUnicode_progress text (offset + 1) result
  have hok : ∀ (b : Byte), (Except.ok (offset + 1 + 1, result ++ [b]) : Except Err (Nat × Str))
      ≠ .error .fuel ∧ ∀ o r, (Except.ok (offset + 1 + 1, result ++ [b]) :
        Except Err (Nat × Str)) = .ok (o, r) → offset + 2 ≤ o := by
    intro b
    refine ⟨ok_ne_error _ _, fun o r h => ?_⟩
    simp only [Except.ok.injEq, Prod.mk.injEq] at h
    omega
  unfold String_parseEscaped
  simp only [bind, Except.bind, pure, Except.pure]
  by_cases c1 : charAt text (offset + 1) = 47
  · rw [if_pos c1]; exact hok 47
  rw [if_neg c1]
  by_cases c2 : charAt text (offset + 1) = 34
  · rw [if_pos c2]; exact hok 34
  rw [if_neg c2]
  by_cases c3 : charAt text (offset + 1) = 92
  · rw [if_pos c3]; exact hok 92
  rw [if_neg c3]
  by_cases c4 : charAt text (offset + 1) = 98
  · rw [if_pos c4]; exact hok 8
  rw [if_neg c4]
  by_cases c5 : charAt text (offset + 1) = 102
  · rw [if_pos c5]; exact hok 12
  rw [if_neg c5]
  by_cases c6 : charAt text (offset + 1) = 114
  · rw [if_pos c6]; exact hok 13
  rw [if_neg c6]
  by_cases c7 : charAt text (offset + 1) = 110
  · rw [if_pos c7]; exact hok 10
  rw [if_neg c7]
  by_cases c8 : charAt text (offset + 1) = 116
  · rw [if_pos c8]; exact hok 9
  rw [if_neg c8]
  by_cases c9 : charAt text (offset + 1) = 117
  · rw [if_pos c9]
    cases hu : String_parseEscapedUnicode text (offset + 1) result with
    | error e =>
      rw [hu] at u1
      exact ⟨error_ne_fuel e u1, fun o r h => by cases h⟩
    | ok p =>
      obtain ⟨o2, r2⟩ := p
      refine ⟨ok_ne_error _ _, fun o r h => ?_⟩
      have := u2 o2 r2 hu
      simp only [Except.ok.injEq, Prod.mk.injEq] at h
      omega
  · rw [if_neg c9]
    exact ⟨fun h => (by cases h), fun o r h => (by cases h)⟩

theorem String_parse_switch_progress (text : Str) (offset : Nat) (result : Str) :
    String_parse_switch text offset result ≠ .error .fuel ∧
    ∀ o r, String_parse_switch text offset result = .ok (o, r) →
      (charAt text offset = 34 ∧ o = offset) ∨ offset < o := by
  obtain ⟨e1, e2⟩ := String_parseEscaped_progress text offset result
  unfold String_parse_switch
  simp only
  constructor
  · split_ifs
    · exact e1
    · simp
    · simp
  · intro o r h
    split_ifs at h with h1 h2
    · exact Or.inr (by have := e2 o r h; omega)
    · simp only [Except.ok.injEq, Prod.mk.injEq] at h
      exact Or.inl ⟨h2, h.1.symm⟩
    · simp only [Except.ok.injEq, Prod.mk.injEq] at h
      exact Or.inr (by omega)

/-- The loop of `String::parse` ends, with enough fuel, and it ends at a quote inside the
text. -/
theorem String_parse_loop_progress (text : Str) : ∀ (fuel offset : Nat) (result : Str),
    (text.length - offset < fuel → String_parse_loop text fuel offset result ≠ .error .fuel) ∧
    ∀ o r, String_parse_loop text fuel offset result = .ok (o, r) →
      offset ≤ o ∧ o < text.length ∧ charAt text o = 34
  | 0, offset, result => by
    constructor
    · intro h
      omega
    · intro o r h
      simp [String_parse_loop] at h
  | fuel + 1, offset, result => by
    obtain ⟨s1, s2⟩ := String_parse_switch_progress text offset result
    rw [String_parse_loop]
    by_cases h1 : offset < text.length
    · rw [if_pos h1]
      cases hs : String_parse_switch text offset result with
      | error e =>
        rw [hs] at s1
        exact ⟨fun _ => error_ne_fuel e s1, fun o r h => by cases h⟩
      | ok p =>
        obtain ⟨o2, r2⟩ := p
        simp only
        have hprog := s2 o2 r2 hs
        by_cases h2 : o2 < text.length
        · rw [if_pos h2]
          by_cases h3 : charAt text o2 ≠ 34
          · rw [if_pos h3]
            have ho : offset < o2 := by
              rcases hprog with ⟨hq, he⟩ | hlt
              · rw [he] at h3
                exact absurd hq h3
              · exact hlt
            obtain ⟨i1, i2⟩ := String_parse_loop_progress text fuel o2 r2
            refine ⟨fun hf => i1 (by omega), fun o r h => ?_⟩
            obtain ⟨a, b, c⟩ := i2 o r h
            exact ⟨by omega, b, c⟩
          · rw [if_neg h3]
            refine ⟨fun _ => by simp, fun o r h => ?_⟩
            simp only [Except.ok.injEq, Prod.mk.injEq] at h
            rw [← h.1]
            have ho : offset ≤ o2 := by
              rcases hprog with ⟨_, he⟩ | hlt <;> omega
            exact ⟨ho, h2, by simpa using h3⟩
        · rw [if_neg h2]
          exact ⟨fun _ => by simp, fun o r h => by simp at h⟩
    · rw [if_neg h1]
      exact ⟨fun _ => by simp, fun o r h => by simp at h⟩

theorem String_parse_progress (text : Str) (offset : Nat) :
    String_parse text offset ≠ .error .fuel ∧
    ∀ s q, String_parse text offset = .ok (s, q) → offset + 2 ≤ q ∧ q ≤ text.length := by
  obtain ⟨l1, l2⟩ := String_parse_loop_progress text (text.length + 1) (offset + 1) []
  unfold String_parse
  cases hl : String_parse_loop text (text.length + 1) (offset + 1) [] with
  | error e =>
    have := l1 (by omega)
    rw [hl] at this
    simp only [hl, bind, Except.bind]
    exact ⟨error_ne_fuel e this, fun s q h => (by cases h)⟩
  | ok p =>
    obtain ⟨o, r⟩ := p
    obtain ⟨a, b, c⟩ := l2 o r hl
    simp only [hl, bind, Except.bind, YaJsonAssert, pure, Except.pure, b, c, decide_True,
      if_true]
    refine ⟨ok_ne_error _ _, fun s q h => ?_⟩
    simp only [Except.ok.injEq, Prod.mk.injEq] at h
    omega

theorem Value_parseNumber_progress (text : Str) (offset : Nat) :
    Value_parseNumber text offset ≠ .error .fuel ∧
    ∀ v q, Value_parseNumber text offset = .ok (v, q) → offset < q ∧ q ≤ text.length := by
  constructor
  · unfold Value_parseNumber
    simp only [bind, Except.bind, YaJsonAssert, pure, Except.pure]
    generalize parseNumber_loop text (text.length - offset) offset false = r
    obtain ⟨o1, b⟩ := r
    simp only
    have hinv : (Except.error Err.invalid_argument : Except Err (Value × Nat)) ≠ .error .fuel :=
      fun h => by cases h
    by_cases ha : decide (offset < o1) = true
    · rw [if_pos ha]
      simp only
      by_cases hr : b = true
      · rw [if_pos hr]
        cases stod (substr text offset (o1 - offset)) with
        | error e => exact hinv
        | ok p =>
          simp only
          split_ifs
          · exact ok_ne_error _ _
          · exact hinv
      · rw [if_neg hr]
        cases stoll (substr text offset (o1 - offset)) with
        | error e => exact hinv
        | ok p =>
          simp only
          split_ifs
          · exact ok_ne_error _ _
          · exact hinv
    · rw [if_neg ha]
      exact hinv
  · intro v q h
    obtain ⟨ho, hlt, _, _⟩ := Value_parseNumber_kind text offset v q h
    obtain ⟨_, i2, _, _, _⟩ := parseNumber_loop_span text (text.length - offset) offset false
    rw [← ho] at i2
    refine ⟨hlt, ?_⟩
    rcases Nat.le_total offset text.length with hle | hle
    · rw [max_eq_right hle] at i2
      exact i2
    · rw [max_eq_left hle] at i2
      omega

theorem Value_parseWord_progress (text word : Str) (offset : Nat) (hw : word ≠ []) :
    Value_parseWord text word offset ≠ .error .fuel ∧
    ∀ q, Value_parseWord text word offset = .ok q → offset < q ∧ q ≤ text.length := by
  unfold Value_parseWord
  simp only
  split_ifs with h
  · exact ⟨fun h => (by cases h), fun q h => (by cases h)⟩
  · refine ⟨ok_ne_error _ _, fun q hq => ?_⟩
    simp only [Except.ok.injEq] at hq
    have hne : ¬ substr text offset word.length ≠ word := h
    have he : substr text offset word.length = word := by
      by_contra hc
      exact hne hc
    have hlen := congrArg List.length he
    simp only [substr, List.length_take, List.length_drop] at hlen
    have hpos : 0 < word.length := List.length_pos.mpr hw
    have : word.length ≤ text.length - offset := by
      rw [← hlen]
      exact Nat.min_le_right _ _
    omega

/-- The loop of `Array::parse` over an element parser that moves the cursor forward: it
never moves the cursor back, and with enough fuel it does not run out of it. -/
theorem Array_parse_loop_progress (parse : Str → Nat → Except Err (Value × Nat)) (text : Str)
    (hprog : ∀ p v q, parse text p = .ok (v, q) → p < q ∧ q ≤ text.length) :
    ∀ (fuel offset : Nat) (result : List Value),
      (∀ xs o, Array_parse_loop parse text fuel offset result = .ok (xs, o) → offset ≤ o) ∧
      ((∀ p, offset ≤ p → offset < text.length → parse text p ≠ .error .fuel) →
        text.length - offset < fuel →
        Array_parse_loop parse text fuel offset result ≠ .error .fuel)
  | 0, offset, result => by
    constructor
    · intro xs o h
      simp [Array_parse_loop] at h
    · intro _ h
      omega
  | fuel + 1, offset, result => by
    have hinv : (Except.error Err.invalid_argument : Except Err (List Value × Nat)) ≠
        .error .fuel := fun h => by cases h
    have hge := skipWhitespace_ge text offset
    rw [Array_parse_loop]
    simp only
    by_cases h1 : (decide (offset < text.length) && decide (charAt text offset ≠ 93)) = true
    · rw [if_pos h1]
      have hlt : offset < text.length := by
        simp only [Bool.and_eq_true, decide_eq_true_eq] at h1
        exact h1.1
      by_cases h2 : charAt text (Value.skipWhitespace text offset) = 93
      · rw [if_pos h2]
        refine ⟨fun xs o h => ?_, fun _ _ => ok_ne_error _ _⟩
        simp only [Except.ok.injEq, Prod.mk.injEq] at h
        omega
      · rw [if_neg h2]
        cases hv : parse text (Value.skipWhitespace text offset) with
        | error e =>
          simp only
          refine ⟨fun xs o h => (by cases h), fun hf _ => ?_⟩
          have := hf _ hge hlt
          rw [hv] at this
          exact error_ne_fuel e this
        | ok p =>
          obtain ⟨v, o2⟩ := p
          simp only
          obtain ⟨hp1, hp2⟩ := hprog _ v o2 hv
          have hge2 := skipWhitespace_ge text o2
          by_cases h3 : (decide (charAt text (Value.skipWhitespace text o2) = 44) ||
              decide (charAt text (Value.skipWhitespace text o2) = 93)) = true
          · rw [if_pos h3]
            have hnext : offset < (if charAt text (Value.skipWhitespace text o2) = 44 then
                Value.skipWhitespace text (Value.skipWhitespace text o2 + 1)
                else Value.skipWhitespace text o2) := by
              split_ifs
              · have := skipWhitespace_ge text (Value.skipWhitespace text o2 + 1)
                omega
              · omega
            obtain ⟨i1, i2⟩ := Array_parse_loop_progress parse text hprog fuel
              (if charAt text (Value.skipWhitespace text o2) = 44 then
                Value.skipWhitespace text (Value.skipWhitespace text o2 + 1)
                else Value.skipWhitespace text o2) (Array_append result v)
            refine ⟨fun xs o h => ?_, fun hf hfuel => ?_⟩
            · have := i1 xs o h
              omega
            · exact i2 (fun p hp _ => hf p (by omega) hlt) (by omega)
          · rw [if_neg h3]
            exact ⟨fun xs o h => (by cases h), fun _ _ => hinv⟩
    · rw [if_neg h1]
      refine ⟨fun xs o h => ?_, fun _ _ => ok_ne_error _ _⟩
      simp only [Except.ok.injEq, Prod.mk.injEq] at h
      omega

theorem Array_parse_progress (parse : Str → Nat → Except Err (Value × Nat)) (text : Str)
    (hprog : ∀ p v q, parse text p = .ok (v, q) → p < q ∧ q ≤ text.length) (offset : Nat) :
    (∀ xs q, Array_parse parse text offset = .ok (xs, q) → offset + 2 ≤ q ∧ q ≤ text.length) ∧
    ((∀ p, offset + 1 ≤ p → offset + 1 < text.length → parse text p ≠ .error .fuel) →
      Array_parse parse text offset ≠ .error .fuel) := by
  obtain ⟨l1, l2⟩ := Array_parse_loop_progress parse text hprog (text.length + 1) (offset + 1) []
  unfold Array_parse
  cases hl : Array_parse_loop parse text (text.length + 1) (offset + 1) [] with
  | error e =>
    simp only [hl, bind, Except.bind]
    refine ⟨fun xs q h => (by cases h), fun hf => ?_⟩
    have := l2 hf (by omega)
    rw [hl] at this
    exact error_ne_fuel e this
  | ok p =>
    obtain ⟨r, o⟩ := p
    have hge := l1 r o hl
    simp only [hl, bind, Except.bind, YaJsonAssert, pure, Except.pure]
    split_ifs with hle
    · refine ⟨fun xs q h => ?_, fun _ => ok_ne_error _ _⟩
      simp only [Except.ok.injEq, Prod.mk.injEq] at h
      simp only [decide_eq_true_eq] at hle
      omega
    · exact ⟨fun xs q h => (by cases h), fun _ h => (by cases h)⟩

/-- The loop of `Object::parse` over a value parser that moves the cursor forward. -/
theorem Object_parse_loop_progress (parse : Str → Nat → Except Err (Value × Nat)) (text : Str)
    (hprog : ∀ p v q, parse text p = .ok (v, q) → p < q ∧ q ≤ text.length) :
    ∀ (fuel offset : Nat) (result : Members),
      (∀ m o, Object_parse_loop parse text fuel offset result = .ok (m, o) → offset ≤ o) ∧
      ((∀ p, offset ≤ p → offset < text.length → parse text p ≠ .error .fuel) →
        text.length - offset < fuel →
        Object_parse_loop parse text fuel offset result ≠ .error .fuel)
  | 0, offset, result => by
    constructor
    · intro xs o h
      simp [Object_parse_loop] at h
    · intro _ h
      omega
  | fuel + 1, offset, result => by
    have hinv : (Except.error Err.invalid_argument : Except Err (Members × Nat)) ≠
        .error .fuel := fun h => by cases h
    have hge := skipWhitespace_ge text offset
    rw [Object_parse_loop]
    simp only
    by_cases h1 : (decide (offset < text.length) && decide (charAt text offset ≠ 125)) = true
    · rw [if_pos h1]
      have hlt : offset < text.length := by
        simp only [Bool.and_eq_true, decide_eq_true_eq] at h1
        exact h1.1
      by_cases h2 : Value.skipWhitespace text offset < text.length
      · rw [if_pos h2]
        by_cases h3 : charAt text (Value.skipWhitespace text offset) = 125
        · rw [if_pos h3]
          refine ⟨fun xs o h => ?_, fun _ _ => ok_ne_error _ _⟩
          simp only [Except.ok.injEq, Prod.mk.injEq] at h
          omega
        · rw [if_neg h3]
          by_cases h4 : charAt text (Value.skipWhitespace text offset) = 34
          · rw [if_pos h4]
            obtain ⟨k1, k2⟩ := String_parse_progress text (Value.skipWhitespace text offset)
            cases hk : String_parse text (Value.skipWhitespace text offset) with
            | error e =>
              rw [hk] at k1
              exact ⟨fun xs o h => (by cases h), fun _ _ => error_ne_fuel e k1⟩
            | ok p =>
              obtain ⟨key, o1⟩ := p
              simp only
              obtain ⟨hk1, hk2⟩ := k2 key o1 hk
              have hge1 := skipWhitespace_ge text o1
              by_cases h5 : Value.skipWhitespace text o1 < text.length
              · rw [if_pos h5]
                by_cases h6 : charAt text (Value.skipWhitespace text o1) = 58
                · rw [if_pos h6]
                  cases hv : parse text (Value.skipWhitespace text o1 + 1) with
                  | error e =>
                    simp only
                    refine ⟨fun xs o h => (by cases h), fun hf _ => ?_⟩
                    have := hf (Value.skipWhitespace text o1 + 1) (by omega) hlt
                    rw [hv] at this
                    exact error_ne_fuel e this
                  | ok p =>
                    obtain ⟨v, o2⟩ := p
                    simp only
                    obtain ⟨hp1, hp2⟩ := hprog _ v o2 hv
                    have hge2 := skipWhitespace_ge text o2
                    by_cases h7 : (decide (charAt text (Value.skipWhitespace text o2) = 44) ||
                        decide (charAt text (Value.skipWhitespace text o2) = 125)) = true
                    · rw [if_pos h7]
                      have hnext : offset < (if charAt text (Value.skipWhitespace text o2) = 44
                          then Value.skipWhitespace text (Value.skipWhitespace text o2 + 1)
                          else Value.skipWhitespace text o2) := by
                        split_ifs
                        · have := skipWhitespace_ge text (Value.skipWhitespace text o2 + 1)
                          omega
                        · omega
                      obtain ⟨i1, i2⟩ := Object_parse_loop_progress parse text hprog fuel
                        (if charAt text (Value.skipWhitespace text o2) = 44 then
                          Value.skipWhitespace text (Value.skipWhitespace text o2 + 1)
                          else Value.skipWhitespace text o2) (Object_set result key v)
                      refine ⟨fun xs o h => ?_, fun hf hfuel => ?_⟩
                      · have := i1 xs o h
                        omega
                      · exact i2 (fun p hp _ => hf p (by omega) hlt) (by omega)
                    · rw [if_neg h7]
                      exact ⟨fun xs o h => (by cases h), fun _ _ => hinv⟩
                · rw [if_neg h6]
                  exact ⟨fun xs o h => (by cases h), fun _ _ => hinv⟩
              · rw [if_neg h5]
                exact ⟨fun xs o h => (by cases h), fun _ _ => hinv⟩
          · rw [if_neg h4]
            exact ⟨fun xs o h => (by cases h), fun _ _ => hinv⟩
      · rw [if_neg h2]
        exact ⟨fun xs o h => (by cases h), fun _ _ => hinv⟩
    · rw [if_neg h1]
      refine ⟨fun xs o h => ?_, fun _ _ => ok_ne_error _ _⟩
      simp only [Except.ok.injEq, Prod.mk.injEq] at h
      omega

theorem Object_parse_progress (parse : Str → Nat → Except Err (Value × Nat)) (text : Str)
    (hprog : ∀ p v q, parse text p = .ok (v, q) → p < q ∧ q ≤ text.length) (offset : Nat) :
    (∀ m q, Object_parse parse text offset = .ok (m, q) → offset + 2 ≤ q ∧ q ≤ text.length) ∧
    ((∀ p, offset + 1 ≤ p → offset + 1 < text.length → parse text p ≠ .error .fuel) →
      Object_parse parse text offset ≠ .error .fuel) := by
  obtain ⟨l1, l2⟩ := Object_parse_loop_progress parse text hprog (text.length + 1) (offset + 1) []
  unfold Object_parse
  cases hl : Object_parse_loop parse text (text.length + 1) (offset + 1) [] with
  | error e =>
    simp only [hl, bind, Except.bind]
    refine ⟨fun xs q h => (by cases h), fun hf => ?_⟩
    have := l2 hf (by omega)
    rw [hl] at this
    exact error_ne_fuel e this
  | ok p =>
    obtain ⟨r, o⟩ := p
    have hge := l1 r o hl
    simp only [hl, bind, Except.bind, YaJsonAssert, pure, Except.pure]
    split_ifs with hle
    · refine ⟨fun xs q h => ?_, fun _ => ok_ne_error _ _⟩
      simp only [Except.ok.injEq, Prod.mk.injEq] at h
      simp only [decide_eq_true_eq] at hle
      omega
    · exact ⟨fun xs q h => (by cases h), fun _ h => (by cases h)⟩

/-- A successful `Value::parse` moves the cursor forward and keeps it inside the text,
whatever the bound on the depth. -/
theorem parse_depth_bounds (text : Str) : ∀ (d p : Nat) (v : Value) (q : Nat),
    Value.parse_depth d text p = .ok (v, q) → p < q ∧ q ≤ text.length
  | 0, _, _, _, h => by simp [Value.parse_depth] at h
  | d + 1, p, v, q, h => by
    have ih := parse_depth_bounds text d
    have hge := skipWhitespace_ge text p
    rw [Value.parse_depth] at h
    simp only at h
    split_ifs at h
    · cases ho : Object_parse (Value.parse_depth d) text (Value.skipWhitespace text p) with
      | error e => simp [ho] at h
      | ok r =>
        obtain ⟨m, o⟩ := r
        simp only [ho, Except.ok.injEq, Prod.mk.injEq] at h
        have := (Object_parse_progress (Value.parse_depth d) text ih _).1 m o ho
        omega
    · cases ho : Array_parse (Value.parse_depth d) text (Value.skipWhitespace text p) with
      | error e => simp [ho] at h
      | ok r =>
        obtain ⟨m, o⟩ := r
        simp only [ho, Except.ok.injEq, Prod.mk.injEq] at h
        have := (Array_parse_progress (Value.parse_depth d) text ih _).1 m o ho
        omega
    · cases ho : String_parse text (Value.skipWhitespace text p) with
      | error e => simp [ho] at h
      | ok r =>
        obtain ⟨m, o⟩ := r
        simp only [ho, Except.ok.injEq, Prod.mk.injEq] at h
        have := (String_parse_progress text _).2 m o ho
        omega
    · cases ho : Value_parseWord text [116, 114, 117, 101] (Value.skipWhitespace text p) with
      | error e => simp [ho] at h
      | ok o =>
        simp only [ho, Except.ok.injEq, Prod.mk.injEq] at h
        have := (Value_parseWord_progress text _ _ (by simp)).2 o ho
        omega
    · cases ho : Value_parseWord text [102, 97, 108, 115, 101] (Value.skipWhitespace text p) with
      | error e => simp [ho] at h
      | ok o =>
        simp only [ho, Except.ok.injEq, Prod.mk.injEq] at h
        have := (Value_parseWord_progress text _ _ (by simp)).2 o ho
        omega
    · cases ho : Value_parseWord text [110, 117, 108, 108] (Value.skipWhitespace text p) with
      | error e => simp [ho] at h
      | ok o =>
        simp only [ho, Except.ok.injEq, Prod.mk.injEq] at h
        have := (Value_parseWord_progress text _ _ (by simp)).2 o ho
        omega
    · have := (Value_parseNumber_progress text _).2 v q h
      omega

/-- With a depth bound above the length of the text that is left, `Value::parse` does not
run out of fuel: the recursive descent ends. -/
theorem parse_depth_ne_fuel (text : Str) : ∀ (d p : Nat), text.length - p < d →
    Value.parse_depth d text p ≠ .error .fuel
  | 0, _, h => by omega
  | d + 1, p, hd => by
    have ih := parse_depth_ne_fuel text d
    have hb := parse_depth_bounds text d
    have hge := skipWhitespace_ge text p
    have hinv : (Except.error Err.invalid_argument : Except Err (Value × Nat)) ≠ .error .fuel :=
      fun h => by cases h
    rw [Value.parse_depth]
    simp only
    by_cases h0 : Value.skipWhitespace text p < text.length
    · rw [if_pos h0]
      have hinner : ∀ p', Value.skipWhitespace text p + 1 ≤ p' →
          Value.skipWhitespace text p + 1 < text.length →
          Value.parse_depth d text p' ≠ .error .fuel := fun p' hp _ => ih p' (by omega)
      split_ifs
      · have := (Object_parse_progress (Value.parse_depth d) text hb _).2 hinner
        cases ho : Object_parse (Value.parse_depth d) text (Value.skipWhitespace text p) with
        | error e =>
          rw [ho] at this
          exact error_ne_fuel e this
        | ok r => exact ok_ne_error _ _
      · have := (Array_parse_progress (Value.parse_depth d) text hb _).2 hinner
        cases ho : Array_parse (Value.parse_depth d) text (Value.skipWhitespace text p) with
        | error e =>
          rw [ho] at this
          exact error_ne_fuel e this
        | ok r => exact ok_ne_error _ _
      · have := (String_parse_progress text (Value.skipWhitespace text p)).1
        cases ho : String_parse text (Value.skipWhitespace text p) with
        | error e =>
          rw [ho] at this
          exact error_ne_fuel e this
        | ok r => exact ok_ne_error _ _
      · have := (Value_parseWord_progress text [116, 114, 117, 101]
          (Value.skipWhitespace text p) (by simp)).1
        cases ho : Value_parseWord text [116, 114, 117, 101] (Value.skipWhitespace text p) with
        | error e =>
          rw [ho] at this
          exact error_ne_fuel e this
        | ok r => exact ok_ne_error _ _
      · have := (Value_parseWord_progress text [102, 97, 108, 115, 101]
          (Value.skipWhitespace text p) (by simp)).1
        cases ho : Value_parseWord text [102, 97, 108, 115, 101]
            (Value.skipWhitespace text p) with
        | error e =>
          rw [ho] at this
          exact error_ne_fuel e this
        | ok r => exact ok_ne_error _ _
      · have := (Value_parseWord_progress text [110, 117, 108, 108]
          (Value.skipWhitespace text p) (by simp)).1
        cases ho : Value_parseWord text [110, 117, 108, 108] (Value.skipWhitespace text p) with
        | error e =>
          rw [ho] at this
          exact error_ne_fuel e this
        | ok r => exact ok_ne_error _ _
      · exact (Value_parseNumber_progress text _).1
    · rw [if_neg h0]
      exact hinv

theorem parse_at_whitespace (text : Str) (p : Nat) (h : ∀ c ∈ text.drop p, isspace c = true) :
    Value.parse_at text p = .error .invalid_argument := by
  have hs : Value.skipWhitespace text p = p + (text.drop p).length :=
    skipWhitespace_eq (text.drop p) [] (by simp) h (by intro c t e; cases e)
  have hn : ¬ Value.skipWhitespace text p < text.length := by
    rw [hs, List.length_drop]
    omega
  unfold Value.parse_at
  rw [Value.parse_depth]
  simp only [hn, if_false]

/-! ## The depth bound does not matter -/

theorem Array_parse_loop_congr (P Q : Str → Nat → Except Err (Value × Nat)) (text : Str)
    (hPQ : ∀ p, P text p ≠ .error .fuel → Q text p = P text p) :
    ∀ (fuel offset : Nat) (result : List Value),
      Array_parse_loop P text fuel offset result ≠ .error .fuel →
      Array_parse_loop Q text fuel offset result = Array_parse_loop P text fuel offset result
  | 0, _, _, _ => by rw [Array_parse_loop, Array_parse_loop]
  | fuel + 1, offset, result, h => by
    rw [Array_parse_loop] at h ⊢
    rw [Array_parse_loop]
    simp only at h ⊢
    by_cases h1 : (decide (offset < text.length) && decide (charAt text offset ≠ 93)) = true
    · rw [if_pos h1] at h ⊢
      rw [if_pos h1]
      by_cases h2 : charAt text (Value.skipWhitespace text offset) = 93
      · rw [if_pos h2, if_pos h2]
      · rw [if_neg h2] at h ⊢
        rw [if_neg h2]
        have hq : Q text (Value.skipWhitespace text offset) =
            P text (Value.skipWhitespace text offset) := by
          apply hPQ
          intro hp
          rw [hp] at h
          exact h rfl
        rw [hq]
        cases hv : P text (Value.skipWhitespace text offset) with
        | error e => rfl
        | ok r =>
          obtain ⟨v, o2⟩ := r
          rw [hv] at h
          simp only at h ⊢
          by_cases h3 : (decide (charAt text (Value.skipWhitespace text o2) = 44) ||
              decide (charAt text (Value.skipWhitespace text o2) = 93)) = true
          · rw [if_pos h3] at h ⊢
            rw [if_pos h3]
            exact Array_parse_loop_congr P Q text hPQ fuel _ _ h
          · rw [if_neg h3, if_neg h3]
    · rw [if_neg h1, if_neg h1]

theorem Object_parse_loop_congr (P Q : Str → Nat → Except Err (Value × Nat)) (text : Str)
    (hPQ : ∀ p, P text p ≠ .error .fuel → Q text p = P text p) :
    ∀ (fuel offset : Nat) (result : Members),
      Object_parse_loop P text fuel offset result ≠ .error .fuel →
      Object_parse_loop Q text fuel offset result = Object_parse_loop P text fuel offset result
  | 0, _, _, _ => by rw [Object_parse_loop, Object_parse_loop]
  | fuel + 1, offset, result, h => by
    rw [Object_parse_loop] at h ⊢
    rw [Object_parse_loop]
    simp only at h ⊢
    by_cases h1 : (decide (offset < text.length) && decide (charAt text offset ≠ 125)) = true
    · rw [if_pos h1] at h ⊢
      rw [if_pos h1]
      by_cases h2 : Value.skipWhitespace text offset < text.length
      · rw [if_pos h2] at h ⊢
        rw [if_pos h2]
        by_cases h3 : charAt text (Value.skipWhitespace text offset) = 125
        · rw [if_pos h3, if_pos h3]
        · rw [if_neg h3] at h ⊢
          rw [if_neg h3]
          by_cases h4 : charAt text (Value.skipWhitespace text offset) = 34
          · rw [if_pos h4] at h ⊢
            rw [if_pos h4]
            cases hk : String_parse text (Value.skipWhitespace text offset) with
            | error e => rfl
            | ok r =>
              obtain ⟨key, o1⟩ := r
              rw [hk] at h
              simp only at h ⊢
              by_cases h5 : Value.skipWhitespace text o1 < text.length
              · rw [if_pos h5] at h ⊢
                rw [if_pos h5]
                by_cases h6 : charAt text (Value.skipWhitespace text o1) = 58
                · rw [if_pos h6] at h ⊢
                  rw [if_pos h6]
                  have hq : Q text (Value.skipWhitespace text o1 + 1) =
                      P text (Value.skipWhitespace text o1 + 1) := by
                    apply hPQ
                    intro hp
                    rw [hp] at h
                    exact h rfl
                  rw [hq]
                  cases hv : P text (Value.skipWhitespace text o1 + 1) with
                  | error e => rfl
                  | ok r =>
                    obtain ⟨v, o2⟩ := r
                    rw [hv] at h
                    simp only at h ⊢
                    by_cases h7 : (decide (charAt text (Value.skipWhitespace text o2) = 44) ||
                        decide (charAt text (Value.skipWhitespace text o2) = 125)) = true
                    · rw [if_pos h7] at h ⊢
                      rw [if_pos h7]
                      exact Object_parse_loop_congr P Q text hPQ fuel _ _ h
                    · rw [if_neg h7, if_neg h7]
                · rw [if_neg h6, if_neg h6]
              · rw [if_neg h5, if_neg h5]
          · rw [if_neg h4, if_neg h4]
      · rw [if_neg h2, if_neg h2]
    · rw [if_neg h1, if_neg h1]

theorem Array_parse_congr (P Q : Str → Nat → Except Err (Value × Nat)) (text : Str)
    (hPQ : ∀ p, P text p ≠ .error .fuel → Q text p = P text p) (offset : Nat)
    (h : Array_parse P text offset ≠ .error .fuel) :
    Array_parse Q text offset = Array_parse P text offset := by
  unfold Array_parse at h ⊢
  simp only [bind, Except.bind] at h ⊢
  have : Array_parse_loop P text (text.length + 1) (offset + 1) [] ≠ .error .fuel := by
    intro hl
    rw [hl] at h
    exact h rfl
  rw [Array_parse_loop_congr P Q text hPQ _ _ _ this]

theorem Object_parse_congr (P Q : Str → Nat → Except Err (Value × Nat)) (text : Str)
    (hPQ : ∀ p, P text p ≠ .error .fuel → Q text p = P text p) (offset : Nat)
    (h : Object_parse P text offset ≠ .error .fuel) :
    Object_parse Q text offset = Object_parse P text offset := by
  unfold Object_parse at h ⊢
  simp only [bind, Except.bind] at h ⊢
  have : Object_parse_loop P text (text.length + 1) (offset + 1) [] ≠ .error .fuel := by
    intro hl
    rw [hl] at h
    exact h rfl
  rw [Object_parse_loop_congr P Q text hPQ _ _ _ this]

/-- A larger depth bound gives the same result once the bound is not hit. -/
theorem parse_depth_succ (text : Str) : ∀ (d p : Nat),
    Value.parse_depth d text p ≠ .error .fuel →
    Value.parse_depth (d + 1) text p = Value.parse_depth d text p
  | 0, p, h => by
    rw [Value.parse_depth] at h
    exact absurd rfl h
  | d + 1, p, h => by
    have ih := parse_depth_succ text d
    rw [Value.parse_depth] at h ⊢
    rw [Value.parse_depth]
    simp only at h ⊢
    by_cases h0 : Value.skipWhitespace text p < text.length
    · rw [if_pos h0] at h ⊢
      rw [if_pos h0]
      by_cases c1 : charAt text (Value.skipWhitespace text p) = 123
      · rw [if_pos c1] at h ⊢
        rw [if_pos c1]
        have : Object_parse (Value.parse_depth d) text (Value.skipWhitespace text p) ≠
            .error .fuel := by
          intro hl
          rw [hl] at h
          exact h rfl
        rw [Object_parse_congr _ (Value.parse_depth (d + 1)) text ih _ this]
      · rw [if_neg c1] at h ⊢
        rw [if_neg c1]
        by_cases c2 : charAt text (Value.skipWhitespace text p) = 91
        · rw [if_pos c2] at h ⊢
          rw [if_pos c2]
          have : Array_parse (Value.parse_depth d) text (Value.skipWhitespace text p) ≠
              .error .fuel := by
            intro hl
            rw [hl] at h
            exact h rfl
          rw [Array_parse_congr _ (Value.parse_depth (d + 1)) text ih _ this]
        · rw [if_neg c2, if_neg c2]
    · rw [if_neg h0, if_neg h0]

theorem parse_depth_add (text : Str) (d p : Nat) (h : Value.parse_depth d text p ≠ .error .fuel) :
    ∀ k, Value.parse_depth (d + k) text p = Value.parse_depth d text p
  | 0 => rfl
  | k + 1 => by
    have ih := parse_depth_add text d p h k
    rw [← Nat.add_assoc, parse_depth_succ text (d + k) p (by rw [ih]; exact h), ih]

/-- Every depth bound above the length of the text that is left gives the result of
`Value::parse`. -/
theorem parse_depth_eq_parse_at (text : Str) (d p : Nat) (hd : text.length - p < d) :
    Value.parse_depth d text p = Value.parse_at text p := by
  unfold Value.parse_at
  rcases Nat.le_total d (text.length + 1) with hle | hle
  · obtain ⟨k, hk⟩ := Nat.exists_eq_add_of_le hle
    rw [hk]
    exact (parse_depth_add text d p (parse_depth_ne_fuel text d p hd) k).symm
  · obtain ⟨k, hk⟩ := Nat.exists_eq_add_of_le hle
    rw [hk]
    exact parse_depth_add text (text.length + 1) p
      (parse_depth_ne_fuel text _ p (by omega)) k

set_option maxRecDepth 100000 in
/-- C40. Parser progress and bounds. For every text and every start position `p`:
`Value::parse` ends (the parser of this file never runs out of the fuel that bounds its
loops and its depth, so every result is a value or a C++ exception, and every larger
bound on the depth gives the same result), and when it succeeds the cursor `q` it writes
back satisfies `p < q <= length(text)`. The same holds of `String::parse`, `Array::parse`
and `Object::parse` entered at `p`, which consume the opening and the closing character
at least. On an empty text, on white space only and at a position at or past the end,
`Value::parse` throws `std::invalid_argument`. -/
theorem parser_progress (text : Str) (p : Nat) :
    Value.parse_at text p ≠ .error .fuel ∧
    Value.parse text ≠ .error .fuel ∧
    (∀ v q, Value.parse_at text p = .ok (v, q) → p < q ∧ q ≤ text.length) ∧
    String_parse text p ≠ .error .fuel ∧
    (∀ s q, String_parse text p = .ok (s, q) → p + 2 ≤ q ∧ q ≤ text.length) ∧
    Array_parse (Value.parse_depth text.length) text p ≠ .error .fuel ∧
    (∀ d xs q, Array_parse (Value.parse_depth d) text p = .ok (xs, q) →
      p + 2 ≤ q ∧ q ≤ text.length) ∧
    Object_parse (Value.parse_depth text.length) text p ≠ .error .fuel ∧
    (∀ d m q, Object_parse (Value.parse_depth d) text p = .ok (m, q) →
      p + 2 ≤ q ∧ q ≤ text.length) ∧
    (∀ d, text.length - p < d → Value.parse_depth d text p = Value.parse_at text p) ∧
    ((∀ c ∈ text.drop p, isspace c = true) →
      Value.parse_at text p = .error .invalid_argument) ∧
    Value.parse [] = .error .invalid_argument ∧
    Value.parse [32, 10, 9] = .error .invalid_argument ∧
    Value.parse_at [49] 1 = .error .invalid_argument ∧
    Value.parse_at [49] 5 = .error .invalid_argument := by
  have h1 : Value.parse_at text p ≠ .error .fuel :=
    parse_depth_ne_fuel text (text.length + 1) p (by omega)
  have h0 : Value.parse_at text 0 ≠ .error .fuel :=
    parse_depth_ne_fuel text (text.length + 1) 0 (by omega)
  refine ⟨h1, ?_, fun v q h => parse_depth_bounds text _ p v q h,
    (String_parse_progress text p).1, (String_parse_progress text p).2, ?_,
    fun d => (Array_parse_progress (Value.parse_depth d) text (parse_depth_bounds text d) p).1,
    ?_,
    fun d => (Object_parse_progress (Value.parse_depth d) text (parse_depth_bounds text d) p).1,
    fun d hd => parse_depth_eq_parse_at text d p hd, parse_at_whitespace text p,
    by decide, by decide, by decide, by decide⟩
  · unfold Value.parse
    cases hp : Value.parse_at text 0 with
    | error e =>
      rw [hp] at h0
      exact error_ne_fuel e h0
    | ok r => exact ok_ne_error _ _
  · exact (Array_parse_progress (Value.parse_depth text.length) text
      (parse_depth_bounds text _) p).2 (fun p' hp hl => parse_depth_ne_fuel text _ p' (by omega))
  · exact (Object_parse_progress (Value.parse_depth text.length) text
      (parse_depth_bounds text _) p).2 (fun p' hp hl => parse_depth_ne_fuel text _ p' (by omega))

/-! ## Object texts and repeated keys -/

theorem drop_eq_charAt_cons (text : Str) (p : Nat) (h : p < text.length) :
    text.drop p = charAt text p :: text.drop (p + 1) := by
  rw [List.drop_eq_getElem_cons h]
  simp [charAt, List.getD, List.getElem?_eq_getElem h]

theorem WhiteSpan_drop {text : Str} {p q : Nat} (h : WhiteSpan text p q) :
    text.drop p = substr text p (q - p) ++ text.drop q ∧ (substr text p (q - p)).length = q - p := by
  obtain ⟨h1, h2, _⟩ := h
  constructor
  · have := (List.take_append_drop (q - p) (text.drop p)).symm
    rw [List.drop_drop] at this
    have e : p + (q - p) = q := by omega
    rw [e] at this
    exact this
  · simp only [substr, List.length_take, List.length_drop]
    omega

theorem skipWhitespace_span {text : Str} {p q : Nat} (h : WhiteSpan text p q)
    (hq : q < text.length) (hc : isspace (charAt text q) = false) :
    Value.skipWhitespace text p = q := by
  obtain ⟨hd, hl⟩ := WhiteSpan_drop h
  rw [drop_eq_charAt_cons text q hq] at hd
  have := skipWhitespace_eq _ _ hd h.2.2 (by intro c t e; cases e; exact hc)
  rw [this, hl]
  have := h.1
  omega

theorem WhiteSpan_refl (text : Str) (p : Nat) (h : p ≤ text.length) : WhiteSpan text p p :=
  ⟨Nat.le_refl _, h, by simp [substr]⟩

theorem MembersText_start {text : Str} : ∀ {p q : Nat} {ps : Members},
    MembersText text p ps q →
    ∃ p1, WhiteSpan text p p1 ∧ p1 < text.length ∧ charAt text p1 = 34 ∧
      MembersText text p1 ps q
  | _, _, _, .last p stop key value hm hc => by
    obtain ⟨p1, p2, p3, p4, h1, h2, h3, h4, h5⟩ := hm
    exact ⟨p1, h1, h2, h3, MembersText.last p1 stop key value
      ⟨p1, p2, p3, p4, WhiteSpan_refl text p1 (Nat.le_of_lt h2), h2, h3, h4, h5⟩ hc⟩
  | _, _, _, .more p stop q key value rest hm hc hr => by
    obtain ⟨p1, p2, p3, p4, h1, h2, h3, h4, h5⟩ := hm
    exact ⟨p1, h1, h2, h3, MembersText.more p1 stop _ key value rest
      ⟨p1, p2, p3, p4, WhiteSpan_refl text p1 (Nat.le_of_lt h2), h2, h3, h4, h5⟩ hc hr⟩

theorem isspace_of_eq (c : Byte) (h : c = 34 ∨ c = 58 ∨ c = 125 ∨ c = 44 ∨ c = 123) :
    isspace c = false := by
  rcases h with h | h | h | h | h <;> (subst h; decide)

theorem WhiteSpan_first {text : Str} {p q : Nat} (h : WhiteSpan text p q) (hlt : p < q) :
    isspace (charAt text p) = true := by
  obtain ⟨hd, hl⟩ := WhiteSpan_drop h
  have hp : p < text.length := by have := h.2.1; omega
  rw [drop_eq_charAt_cons text p hp] at hd
  cases hs : substr text p (q - p) with
  | nil => rw [hs] at hl; simp at hl; omega
  | cons a t =>
    rw [hs] at hd
    have : charAt text p = a := by
      simp only [List.cons_append, List.cons.injEq] at hd
      exact hd.1
    rw [this]
    exact h.2.2 a (by rw [hs]; exact List.mem_cons_self _ _)

/-- The loop of `Object::parse` on the members of an object text: it ends at the closing
brace with every member set in the order of the text. -/
theorem Object_parse_loop_text (parse : Str → Nat → Except Err (Value × Nat)) (text : Str)
    (hparse : ∀ p, 0 < p → parse text p = Value.parse_at text p) :
    ∀ (ps : Members) (p q : Nat), MembersText text p ps q →
      ∀ (result : Members) (fuel : Nat), text.length - p < fuel →
        Object_parse_loop parse text fuel p result =
          .ok (ps.foldl (fun m x => Object_set m x.1 x.2) result, q - 1)
  | [], _, _, h, _, _, _ => by cases h
  | (key, value) :: rest, p, q, h, result, fuel, hfuel => by
    obtain ⟨f, rfl⟩ : ∃ f, fuel = f + 1 := ⟨fuel - 1, by omega⟩
    have hstep : ∀ stop, MemberAt text p key value stop →
        (charAt text stop = 44 ∨ charAt text stop = 125) →
        Object_parse_loop parse text (f + 1) p result =
          Object_parse_loop parse text f
            (if charAt text stop = 44 then Value.skipWhitespace text (stop + 1) else stop)
            (Object_set result key value) ∧ p < stop := by
      intro stop hm hsep
      obtain ⟨p1, p2, p3, p4, w1, l1, c1, hkey, w2, l3, c3, hval, w3, l5⟩ := hm
      have hp : p < text.length := by have := w1.1; omega
      have hne : charAt text p ≠ 125 := by
        rcases Nat.eq_or_lt_of_le w1.1 with e | e
        · rw [e, c1]; decide
        · intro hc
          have := WhiteSpan_first w1 e
          rw [hc] at this
          revert this; decide
      have s1 := skipWhitespace_span w1 l1 (isspace_of_eq _ (Or.inl c1))
      have s2 := skipWhitespace_span w2 l3 (isspace_of_eq _ (Or.inr (Or.inl c3)))
      have s3 : Value.skipWhitespace text p4 = stop :=
        skipWhitespace_span w3 l5 (isspace_of_eq _ (by
          rcases hsep with e | e
          · exact Or.inr (Or.inr (Or.inr (Or.inl e)))
          · exact Or.inr (Or.inr (Or.inl e))))
      have e1 : ¬ ((34 : Byte) = 125) := by decide
      have hsep' : (decide (charAt text stop = 44) || decide (charAt text stop = 125)) = true := by
        rcases hsep with e | e <;> simp [e]
      have hb := String_parse_progress text p1
      have hb2 := parse_depth_bounds text _ (p3 + 1) value p4 hval
      constructor
      · rw [Object_parse_loop]
        simp only [hp, hne, ne_eq, not_false_eq_true, decide_True, Bool.and_self, if_true, s1, l1,
          c1, e1, if_false, hkey, s2, l3, c3, hparse (p3 + 1) (by omega), hval, s3, hsep']
      · have := (hb.2 key p2 hkey).1
        have := w1.1
        have := w2.1
        have := w3.1
        omega
    match h with
    | .last _ stop _ _ hm hc =>
      obtain ⟨hs, hlt⟩ := hstep stop hm (Or.inr hc)
      have h44 : ¬ (charAt text stop = 44) := by rw [hc]; decide
      rw [hs, if_neg h44]
      have hl5 : stop < text.length := by
        obtain ⟨_, _, _, _, _, _, _, _, _, _, _, _, _, l5⟩ := hm
        exact l5
      obtain ⟨f', rfl⟩ : ∃ f', f = f' + 1 := ⟨f - 1, by omega⟩
      rw [Object_parse_loop]
      simp [hc]
    | .more _ stop _ _ _ _ hm hc hr =>
      obtain ⟨hs, hlt⟩ := hstep stop hm (Or.inl hc)
      rw [hs, if_pos hc]
      obtain ⟨p1, w1, l1, c1, hr'⟩ := MembersText_start hr
      have s1 := skipWhitespace_span w1 l1 (isspace_of_eq _ (Or.inl c1))
      rw [s1]
      have := w1.1
      rw [Object_parse_loop_text parse text hparse rest p1 q hr' _ f (by omega)]
      rfl

theorem MembersText_end {text : Str} : ∀ {ps : Members} {p q : Nat}, MembersText text p ps q →
    p < q ∧ q ≤ text.length
  | _, _, _, .last p stop key value hm hc => by
    obtain ⟨p1, p2, p3, p4, w1, l1, c1, hkey, w2, l3, c3, hval, w3, l5⟩ := hm
    have := (String_parse_progress text p1).2 key p2 hkey
    have := parse_depth_bounds text _ (p3 + 1) value p4 hval
    have := w1.1; have := w2.1; have := w3.1
    omega
  | _, _, _, .more p stop q key value rest hm hc hr => by
    obtain ⟨p1, p2, p3, p4, w1, l1, c1, hkey, w2, l3, c3, hval, w3, l5⟩ := hm
    have := (String_parse_progress text p1).2 key p2 hkey
    have := parse_depth_bounds text _ (p3 + 1) value p4 hval
    have := w1.1; have := w2.1; have := w3.1
    have := MembersText_end hr
    omega

/-- `Value::parse` on an object text: the Object of its members, set in the order of the
text. -/
theorem parse_at_object_text (text : Str) (p q : Nat) (ps : Members)
    (h : ObjectText text p ps q) :
    Value.parse_at text p =
      .ok (.Object (ps.foldl (fun m x => Object_set m x.1 x.2) []), q) := by
  have hparse : 0 < text.length →
      ∀ o, 0 < o → Value.parse_depth text.length text o = Value.parse_at text o :=
    fun hl o ho => parse_depth_eq_parse_at text _ o (by omega)
  match h with
  | .empty _ stop hp hc w hs hcs =>
    have hd := drop_eq_charAt_cons text p hp
    rw [hc] at hd
    obtain ⟨hw, hl⟩ := WhiteSpan_drop w
    rw [drop_eq_charAt_cons text stop hs, hcs] at hw
    unfold Value.parse_at
    rw [Value.parse_depth]
    simp only [skipWhitespace_none hd (by decide), hp, if_true, hc, Object_parse]
    rw [Object_parse_loop_empty _ _ [] text.length w.2.2 hw, hl]
    have := w.1
    have e : p + 1 + (stop - (p + 1)) + 1 = stop + 1 := by omega
    simp only [bind, Except.bind, YaJsonAssert, pure, Except.pure, e]
    have hle : stop + 1 ≤ text.length := hs
    simp [hle]
  | .members _ _ _ hp hc hm =>
    have hd := drop_eq_charAt_cons text p hp
    rw [hc] at hd
    unfold Value.parse_at
    rw [Value.parse_depth]
    simp only [skipWhitespace_none hd (by decide), hp, if_true, hc, Object_parse]
    rw [Object_parse_loop_text _ text (hparse (by omega)) ps (p + 1) q hm [] (text.length + 1) (by omega)]
    have := MembersText_end hm
    have e : q - 1 + 1 = q := by omega
    simp only [bind, Except.bind, YaJsonAssert, pure, Except.pure, e]
    simp [this.2]


/-- C23. Duplicate object keys, last occurrence wins. For every text that holds an object
text at position `p` (an opening brace, members of a string literal, a colon and a value
text each, separated by commas, white space wherever the grammar allows it, a closing
brace), whatever the spelling of the keys and the kinds of the values, `Value::parse`
succeeds with the cursor after the closing brace and returns an Object `m` whose keys are
strictly ascending, so that no key is held twice; looking a key up in `m` gives the value
of the last member of the text with that key, and nothing for a key that no member has;
every key of the text is among the keys of `m` exactly once. -/
theorem duplicate_keys_last_wins (text : Str) (p q : Nat) (ps : Members)
    (h : ObjectText text p ps q) :
    ∃ m, Value.parse_at text p = .ok (.Object m, q) ∧
      (p = 0 → Value.parse text = .ok (.Object m)) ∧
      KeysAscending m ∧
      (∀ key, mapFind key m = lastOccurrence key ps) ∧
      (∀ key v, (key, v) ∈ ps → (Object_keys m).count key = 1) := by
  have hasc := KeysAscending_foldl_set ps [] List.Pairwise.nil
  have hfind : ∀ key, mapFind key (ps.foldl (fun m q => Object_set m q.1 q.2) []) =
      lastOccurrence key ps := by
    intro key
    rw [mapFind_foldl_set ps [] key]
    cases lastOccurrence key ps <;> rfl
  have hp := parse_at_object_text text p q ps h
  refine ⟨_, hp, ?_, hasc, hfind, ?_⟩
  · intro h0
    subst h0
    simp only [Value.parse, hp]
  · intro key v hmem
    obtain ⟨w, hw⟩ := lastOccurrence_of_mem key ps v hmem
    exact count_key_of_mapFind key w _ hasc (by rw [hfind key, hw])

set_option maxRecDepth 100000 in
/-- The text `{"a":1,"a":2}` is an object text with the members `a: 1` and `a: 2`. -/
theorem objectText_twice :
    ObjectText [123, 34, 97, 34, 58, 49, 44, 34, 97, 34, 58, 50, 125] 0
      [([97], .Integer 1), ([97], .Integer 2)] 13 :=
  .members 0 13 _ (by decide) (by decide)
    (.more 1 6 13 [97] (.Integer 1) _
      ⟨1, 4, 4, 6, by decide, by decide, by decide, by decide, by decide, by decide, by decide,
        by decide, by decide, by decide⟩ (by decide)
      (.last 7 12 [97] (.Integer 2)
        ⟨7, 10, 10, 12, by decide, by decide, by decide, by decide, by decide, by decide,
          by decide, by decide, by decide, by decide⟩ (by decide)))

set_option maxRecDepth 100000 in
/-- The text `{ "a" : 1.5 ,` newline ` "a":[2] }` is an object text in which the key
`a` occurs twice, once spelled with an escape, with a Real and an Array as values. -/
theorem objectText_spelled :
    ObjectText [123, 32, 34, 97, 34, 32, 58, 32, 49, 46, 53, 32, 44, 10, 32, 34, 92, 117, 48,
        48, 54, 49, 34, 58, 91, 50, 93, 32, 125] 0
      [([97], .Real ⟨false, 1023, 2251799813685248⟩), ([97], .Array [.Integer 2])] 29 :=
  .members 0 29 _ (by decide) (by decide)
    (.more 1 12 29 [97] (.Real ⟨false, 1023, 2251799813685248⟩) _
      ⟨2, 5, 6, 11, by decide, by decide, by decide, by decide, by decide, by decide, by decide,
        by decide!, by decide, by decide⟩ (by decide)
      (.last 13 28 [97] (.Array [.Integer 2])
        ⟨15, 23, 23, 27, by decide, by decide, by decide, by decide, by decide, by decide,
          by decide, by decide, by decide, by decide⟩ (by decide)))

set_option maxRecDepth 100000 in
/-- C23 at the text `{"a":1,"a":2}`, which parses to the same Object as `{"a":2}`, and at
an object text with other white space, a key spelled with an escape and a Real value,
which parses to the Object with the last value of the key. -/
theorem duplicate_keys_last_wins_witness :
    ObjectText [123, 34, 97, 34, 58, 49, 44, 34, 97, 34, 58, 50, 125] 0
      [([97], .Integer 1), ([97], .Integer 2)] 13 ∧
    (∃ m, Value.parse_at [123, 34, 97, 34, 58, 49, 44, 34, 97, 34, 58, 50, 125] 0
        = .ok (.Object m, 13) ∧
      ((0 : Nat) = 0 →
        Value.parse [123, 34, 97, 34, 58, 49, 44, 34, 97, 34, 58, 50, 125] = .ok (.Object m)) ∧
      KeysAscending m ∧
      (∀ key, mapFind key m = lastOccurrence key [([97], .Integer 1), ([97], .Integer 2)]) ∧
      (∀ key v, (key, v) ∈ ([([97], .Integer 1), ([97], .Integer 2)] : Members) →
        (Object_keys m).count key = 1)) ∧
    Value.parse [123, 34, 97, 34, 58, 49, 44, 34, 97, 34, 58, 50, 125]
      = .ok (.Object [([97], .Integer 2)]) ∧
    Value.parse [123, 34, 97, 34, 58, 50, 125] = .ok (.Object [([97], .Integer 2)]) ∧
    ObjectText [123, 32, 34, 97, 34, 32, 58, 32, 49, 46, 53, 32, 44, 10, 32, 34, 92, 117, 48,
        48, 54, 49, 34, 58, 91, 50, 93, 32, 125] 0
      [([97], .Real ⟨false, 1023, 2251799813685248⟩), ([97], .Array [.Integer 2])] 29 ∧
    Value.parse [123, 32, 34, 97, 34, 32, 58, 32, 49, 46, 53, 32, 44, 10, 32, 34, 92, 117, 48,
        48, 54, 49, 34, 58, 91, 50, 93, 32, 125] = .ok (.Object [([97], .Array [.Integer 2])]) :=
  ⟨objectText_twice, duplicate_keys_last_wins _ 0 13 _ objectText_twice, by decide, by decide,
    objectText_spelled, by decide!⟩

end Yajson
